import Mathlib

/-!
# Verification of the threshold-zk-LHE library

A shallow embedding, in Lean, of the library's modular-arithmetic layer
(Barrett / Shoup reductions over machine words), its negacyclic NTT engine,
the linearly homomorphic BFV scheme and the threshold PKE built on top of it,
together with proofs about that embedding.

Machine integers are modelled as natural numbers; wrapping (`wrapping_mul`,
`wrapping_sub`, `as`-casts) is made explicit with `% 2 ^ w`.  Fallible
constructors (Rust `Result` / `assert!` panics) are modelled with `Option`.
Field elements are represented by their canonical values (naturals below the
modulus); the in-place slice algorithms of the source are modelled as
functions on lists.
-/

namespace TLHE

/-! ## Machine-word primitives (`algebra/src/primitive.rs`)

`w` is the bit width of the word type (8, 16, 32 or 64 in the source). -/

/-- Truncation of a natural number to a `w`-bit machine word
(the effect of a Rust `as` cast to the word type). -/
def wrap (w x : ℕ) : ℕ := x % 2 ^ w

/-- Rust `wrapping_sub` on `w`-bit words. -/
def wsub (w a b : ℕ) : ℕ := (wrap w a + 2 ^ w - wrap w b) % 2 ^ w

/-- Rust `wrapping_mul` on `w`-bit words. -/
def wmul (w a b : ℕ) : ℕ := (a * b) % 2 ^ w

/-- `Widening::widen_mul`, low word: the double-width product truncated to `w` bits. -/
def widenMulLo (w a b : ℕ) : ℕ := (a * b) % 2 ^ w

/-- `Widening::widen_mul`, high word: the double-width product shifted right by `w` bits. -/
def widenMulHi (w a b : ℕ) : ℕ := (a * b) / 2 ^ w

/-- `Widening::carry_mul`, low word of `a * b + c`. -/
def carryMulLo (w a b c : ℕ) : ℕ := (a * b + c) % 2 ^ w

/-- `Widening::carry_mul`, high word of `a * b + c`. -/
def carryMulHi (w a b c : ℕ) : ℕ := (a * b + c) / 2 ^ w

theorem wrap_lt {w x : ℕ} : wrap w x < 2 ^ w :=
  Nat.mod_lt _ (Nat.pos_pow_of_pos w (by norm_num))

theorem wrap_eq_of_lt {w x : ℕ} (h : x < 2 ^ w) : wrap w x = x := Nat.mod_eq_of_lt h

/-- `wrapping_sub` computes the genuine difference when no borrow occurs. -/
theorem wsub_eq_of_le {w a b : ℕ} (hb : b ≤ a) (ha : a < 2 ^ w) :
    wsub w a b = a - b := by
  have hb' : b < 2 ^ w := lt_of_le_of_lt hb ha
  unfold wsub
  rw [wrap_eq_of_lt ha, wrap_eq_of_lt hb']
  rw [show a + 2 ^ w - b = (a - b) + 2 ^ w by omega]
  rw [Nat.add_mod_right]
  exact Nat.mod_eq_of_lt (by omega)

/-! ## Barrett modulus (`algebra/src/modulus/barrett/mod.rs`, `internal_macros.rs`)

`β = 2 ^ w` is the radix of the `w`-bit word type. -/

/-- `BarrettModulus<T>`: the modulus value together with the two limbs of the
precomputed ratio `µ = ⌊β²/value⌋`. -/
structure BarrettModulus where
  value : ℕ
  ratio0 : ℕ
  ratio1 : ℕ
  deriving DecidableEq, Repr

/-- `div_rem` from `BarrettModulus::new`. -/
def divRem (numerator divisor : ℕ) : ℕ × ℕ := (numerator / divisor, numerator % divisor)

/-- `div_wide` from `BarrettModulus::new`: divide `hi·β` by `divisor` in
double-width arithmetic.  (At both call sites `hi < divisor`, so the quotient
fits in a word and the `as`-cast cannot truncate.) -/
def divWide (w hi divisor : ℕ) : ℕ × ℕ := ((hi * 2 ^ w) / divisor, (hi * 2 ^ w) % divisor)

/-- `div_half` from `BarrettModulus::new`: the same division carried out in two
half-width steps.  The source combines the two half-quotients with
`(hi << HALF_BITS) | lo`; both are below `2 ^ (w/2)`, so the `|` on the
disjoint bit ranges is addition. -/
def divHalf (w rem divisor : ℕ) : ℕ × ℕ :=
  let h := w / 2
  let (q1, r1) := divRem (rem * 2 ^ h) divisor
  let (q0, r0) := divRem (r1 * 2 ^ h) divisor
  (q1 * 2 ^ h + q0, r0)

/-- `div_inplace` from `BarrettModulus::new`: the two limbs of `⌊β²/value⌋`
(low limb first) and the remainder.  `HALF = MAX >> HALF_BITS`. -/
def divInplace (w value : ℕ) : (ℕ × ℕ) × ℕ :=
  if value ≤ (2 ^ w - 1) / 2 ^ (w / 2) then
    let (q1, r1) := divHalf w 1 value
    let (q0, r0) := divHalf w r1 value
    ((q0, q1), r0)
  else
    let (q1, r1) := divWide w 1 value
    let (q0, r0) := divWide w r1 value
    ((q0, q1), r0)

/-- `BarrettModulus::new`.  The `panic!` on `value ∈ {0, 1}` and the
`assert!(bit_count < BITS - 1)` are modelled by `none`.  (`HALF = MAX >> (w/2)`
equals `2 ^ (w/2) - 1` for even `w`.) -/
def barrettModulusNew (w value : ℕ) : Option BarrettModulus :=
  if value ≤ 1 then none
  else
    let bitCount := value.log2 + 1
    if bitCount < w - 1 then
      let n := divInplace w value
      some ⟨value, n.1.1, n.1.2⟩
    else none

/-- Two-step long division: dividing `r·2^(a+b)` by `v` equals a division of
`r·2^a` followed by a division of the shifted remainder. -/
theorem div_two_step (v r a b : ℕ) (hv : 0 < v) :
    (r * 2 ^ a / v) * 2 ^ b + (r * 2 ^ a % v) * 2 ^ b / v = r * 2 ^ (a + b) / v ∧
    (r * 2 ^ a % v) * 2 ^ b % v = r * 2 ^ (a + b) % v := by
  have key : r * 2 ^ (a + b) = (r * 2 ^ a / v) * 2 ^ b * v + (r * 2 ^ a % v) * 2 ^ b := by
    have := Nat.div_add_mod (r * 2 ^ a) v
    calc r * 2 ^ (a + b) = (r * 2 ^ a) * 2 ^ b := by ring
    _ = (v * (r * 2 ^ a / v) + r * 2 ^ a % v) * 2 ^ b := by rw [this]
    _ = (r * 2 ^ a / v) * 2 ^ b * v + (r * 2 ^ a % v) * 2 ^ b := by ring
  constructor
  · rw [key, add_comm (r * 2 ^ a / v * 2 ^ b * v) (r * 2 ^ a % v * 2 ^ b),
      Nat.add_mul_div_right _ _ hv]
    omega
  · rw [key, add_comm (r * 2 ^ a / v * 2 ^ b * v) (r * 2 ^ a % v * 2 ^ b),
      Nat.add_mul_mod_self_right]

theorem divHalf_eq (h v r : ℕ) (hv : 0 < v) :
    divHalf (2 * h) r v = (r * 2 ^ (2 * h) / v, r * 2 ^ (2 * h) % v) := by
  unfold divHalf divRem
  have hhw : 2 * h / 2 = h := by omega
  have h2 := div_two_step v r h h hv
  rw [← two_mul h] at h2
  simp only [hhw, Prod.mk.injEq]
  exact ⟨h2.1, h2.2⟩

/-- For even `w` and `value ≥ 2`, `divInplace` returns exactly the two limbs
of `µ = ⌊β²/value⌋` (in both the half-width and the wide branch). -/
theorem divInplace_eq (w value : ℕ) (hw : 2 ∣ w) (hv : 2 ≤ value) :
    divInplace w value =
      ((2 ^ w * 2 ^ w / value % 2 ^ w, 2 ^ w * 2 ^ w / value / 2 ^ w),
        2 ^ w * 2 ^ w % value) := by
  have hv0 : 0 < value := by omega
  have hB0 : 0 < 2 ^ w := Nat.pos_pow_of_pos _ (by norm_num)
  obtain ⟨h, rfl⟩ : ∃ h, w = 2 * h := hw
  -- the exact decomposition `µ = q1·β + q0`, `q0 < β`
  have h2 := div_two_step value 1 (2 * h) (2 * h) hv0
  simp only [one_mul] at h2
  have hrem : 2 ^ (2 * h) % value < value := Nat.mod_lt _ hv0
  have hq0lt : 2 ^ (2 * h) % value * 2 ^ (2 * h) / value < 2 ^ (2 * h) := by
    rw [Nat.div_lt_iff_lt_mul hv0, mul_comm (2 ^ (2 * h)) value]
    exact mul_lt_mul_of_pos_right hrem hB0
  have hpow : (2 : ℕ) ^ (2 * h) * 2 ^ (2 * h) = 2 ^ (2 * h + 2 * h) := (pow_add 2 _ _).symm
  have hdecomp : 2 ^ (2 * h) * 2 ^ (2 * h) / value =
      2 ^ (2 * h) / value * 2 ^ (2 * h) + 2 ^ (2 * h) % value * 2 ^ (2 * h) / value := by
    rw [hpow]; exact h2.1.symm
  have hmod : 2 ^ (2 * h) * 2 ^ (2 * h) / value % 2 ^ (2 * h) =
      2 ^ (2 * h) % value * 2 ^ (2 * h) / value := by
    rw [hdecomp, add_comm, Nat.add_mul_mod_self_right]
    exact Nat.mod_eq_of_lt hq0lt
  have hdiv : 2 ^ (2 * h) * 2 ^ (2 * h) / value / 2 ^ (2 * h) = 2 ^ (2 * h) / value := by
    rw [hdecomp, add_comm, Nat.add_mul_div_right _ _ hB0, Nat.div_eq_of_lt hq0lt, zero_add]
  have hmod2 : 2 ^ (2 * h) % value * 2 ^ (2 * h) % value =
      2 ^ (2 * h) * 2 ^ (2 * h) % value := by
    rw [hpow]; exact h2.2
  unfold divInplace
  split_ifs with hhalf
  · rw [divHalf_eq h value 1 hv0]
    simp only [one_mul]
    rw [divHalf_eq h value (2 ^ (2 * h) % value) hv0]
    rw [hmod, hdiv, hmod2]
  · simp only [divWide, one_mul]
    rw [hmod, hdiv, hmod2]

/-- `LazyReduce<BarrettModulus>` for a single word
(`modulus/barrett/internal_macros.rs`).  The double-width products and the sum
`x·ratio1 + tmp1` cannot overflow the `2w`-bit type for word-sized inputs, so
only the final `as`-cast and the `wrapping_sub`/`wrapping_mul` are wrapped. -/
def barrettLazyReduce (w : ℕ) (m : BarrettModulus) (x : ℕ) : ℕ :=
  let tmp1 := x * m.ratio0 / 2 ^ w
  let q3 := wrap w ((x * m.ratio1 + tmp1) / 2 ^ w)
  wsub w x (wmul w q3 m.value)

/-- `Reduce<BarrettModulus>` for a single word: lazy reduction plus one
conditional subtraction. -/
def barrettReduce (w : ℕ) (m : BarrettModulus) (x : ℕ) : ℕ :=
  let tmp := barrettLazyReduce w m x
  if m.value ≤ tmp then tmp - m.value else tmp

/-- `LazyReduce<BarrettModulus>` for a double word `[lo, hi]`.  The unchecked
sum `b_plus_a_left + c` and the `wrapping_add` are taken modulo `2 ^ (2w)`
(release-mode wrapping); the final `as`-cast truncates to one word. -/
def barrettLazyReducePair (w : ℕ) (m : BarrettModulus) (lo hi : ℕ) : ℕ :=
  let a := m.ratio0 * lo
  let bPlusALeft := m.ratio1 * lo + a / 2 ^ w
  let c := m.ratio0 * hi
  let d := m.ratio1 * hi
  let tmp := wrap w (wrap (2 * w) (d + wrap (2 * w) (bPlusALeft + c) / 2 ^ w))
  wsub w lo (wmul w tmp m.value)

/-- `Reduce<BarrettModulus>` for a double word. -/
def barrettReducePair (w : ℕ) (m : BarrettModulus) (lo hi : ℕ) : ℕ :=
  let r := barrettLazyReducePair w m lo hi
  if m.value ≤ r then r - m.value else r

/-- The canonical Barrett modulus for a valid value: `ratio` holds the limbs
of `µ = ⌊β²/value⌋`. -/
def barrettModulus (w value : ℕ) : BarrettModulus :=
  ⟨value, 2 ^ w * 2 ^ w / value % 2 ^ w, 2 ^ w * 2 ^ w / value / 2 ^ w⟩

/-- For even `w ≥ 4` and a valid value, `BarrettModulus::new` succeeds and
computes exactly `barrettModulus`. -/
theorem barrettModulusNew_eq (w value : ℕ) (hw : 2 ∣ w) (hw4 : 4 ≤ w)
    (h2 : 2 ≤ value) (hlt : value < 2 ^ (w - 2)) :
    barrettModulusNew w value = some (barrettModulus w value) := by
  unfold barrettModulusNew
  have hv1 : ¬ value ≤ 1 := by omega
  rw [if_neg hv1]
  have hbc : value.log2 + 1 < w - 1 := by
    have : value.log2 < w - 2 := (Nat.log2_lt (by omega)).mpr hlt
    omega
  rw [if_pos hbc, divInplace_eq w value hw h2]
  rfl

/-- Barrett quotient upper bound: `q3·v ≤ x` where `q3 = ⌊x·µ/β²⌋`. -/
theorem barrett_q3_le (B v x : ℕ) (hv : 0 < v) (hB : 0 < B) :
    x * (B * B / v) / (B * B) * v ≤ x := by
  have hB2 : 0 < B * B := Nat.mul_pos hB hB
  have h1 : x * (B * B / v) ≤ x * B * B / v := by
    rw [Nat.le_div_iff_mul_le hv, mul_assoc]
    exact le_trans (Nat.mul_le_mul_left x (Nat.div_mul_le_self _ _))
      (le_of_eq (mul_assoc x B B).symm)
  have h2 : x * (B * B / v) / (B * B) ≤ x / v :=
    calc x * (B * B / v) / (B * B) ≤ x * B * B / v / (B * B) :=
          Nat.div_le_div_right h1
    _ = x * B * B / (v * (B * B)) := Nat.div_div_eq_div_mul _ _ _
    _ = x * (B * B) / (v * (B * B)) := by rw [mul_assoc]
    _ = x / v := Nat.mul_div_mul_right _ _ hB2
  calc x * (B * B / v) / (B * B) * v ≤ x / v * v := Nat.mul_le_mul_right v h2
  _ ≤ x := Nat.div_mul_le_self x v

/-- Barrett quotient lower bound: `x < q3·v + 2v`, i.e. the lazy remainder
stays below `2v`. -/
theorem barrett_q3_ge (B v x : ℕ) (hv : 2 ≤ v) (hB : 0 < B) (hx : x < B * B) :
    x < x * (B * B / v) / (B * B) * v + 2 * v := by
  have hv0 : 0 < v := by omega
  have hB2 : 0 < B * B := Nat.mul_pos hB hB
  have hBB : B * B < v * (B * B / v) + v := by
    have h := Nat.div_add_mod (B * B) v
    have hr : B * B % v < v := Nat.mod_lt _ hv0
    omega
  have main : x / v * (B * B) * v ≤ (x * (B * B / v) + B * B) * v := by
    calc x / v * (B * B) * v = x / v * v * (B * B) := by ring
    _ ≤ x * (B * B) := Nat.mul_le_mul_right _ (Nat.div_mul_le_self x v)
    _ ≤ x * (v * (B * B / v) + v) := Nat.mul_le_mul_left _ (le_of_lt hBB)
    _ = x * (B * B / v) * v + x * v := by ring
    _ ≤ x * (B * B / v) * v + B * B * v :=
        Nat.add_le_add_left (Nat.mul_le_mul_right _ (le_of_lt hx)) _
    _ = (x * (B * B / v) + B * B) * v := by ring
  have hkq : x / v ≤ x * (B * B / v) / (B * B) + 1 := by
    have h1 : x / v * (B * B) ≤ x * (B * B / v) + B * B :=
      Nat.le_of_mul_le_mul_right main hv0
    have h2 : x / v ≤ (x * (B * B / v) + B * B) / (B * B) :=
      (Nat.le_div_iff_mul_le hB2).mpr h1
    rwa [Nat.add_div_right _ hB2] at h2
  have hxv := Nat.div_add_mod x v
  have hmod : x % v < v := Nat.mod_lt _ hv0
  calc x = v * (x / v) + x % v := hxv.symm
  _ < v * (x / v) + v := Nat.add_lt_add_left hmod _
  _ ≤ v * (x * (B * B / v) / (B * B) + 1) + v :=
      Nat.add_le_add_right (Nat.mul_le_mul_left _ hkq) _
  _ = x * (B * B / v) / (B * B) * v + 2 * v := by ring

/-- The single-word quotient computation of `lazy_reduce` equals `⌊x·µ/β²⌋`. -/
theorem barrett_single_q3_eq (B x mu : ℕ) (hB : 0 < B) :
    (x * (mu / B) + x * (mu % B) / B) / B = x * mu / (B * B) := by
  have key : x * mu = x * (mu / B) * B + x * (mu % B) := by
    conv_lhs => rw [← Nat.div_add_mod mu B]
    ring
  rw [← Nat.div_div_eq_div_mul, key, add_comm (x * (mu / B) * B) (x * (mu % B)),
    Nat.add_mul_div_right _ _ hB, add_comm (x * (mu % B) / B) (x * (mu / B))]

/-- Single-word `lazy_reduce` computes exactly `x − ⌊x·µ/β²⌋·v`. -/
theorem barrettLazyReduce_eq (w v x : ℕ) (h2 : 2 ≤ v) (hx : x < 2 ^ w) :
    barrettLazyReduce w (barrettModulus w v) x
      = x - x * (2 ^ w * 2 ^ w / v) / (2 ^ w * 2 ^ w) * v := by
  have hB : 0 < (2 : ℕ) ^ w := Nat.pos_pow_of_pos _ (by norm_num)
  have hv0 : 0 < v := by omega
  unfold barrettLazyReduce barrettModulus
  dsimp only
  rw [barrett_single_q3_eq (2 ^ w) x (2 ^ w * 2 ^ w / v) hB]
  have hle := barrett_q3_le (2 ^ w) v x hv0 hB
  have hq3 : x * (2 ^ w * 2 ^ w / v) / (2 ^ w * 2 ^ w) < 2 ^ w := by
    have h1 : x * (2 ^ w * 2 ^ w / v) / (2 ^ w * 2 ^ w)
        ≤ x * (2 ^ w * 2 ^ w / v) / (2 ^ w * 2 ^ w) * v := Nat.le_mul_of_pos_right _ hv0
    omega
  unfold wrap wmul
  rw [Nat.mod_eq_of_lt hq3, Nat.mod_eq_of_lt (lt_of_le_of_lt hle hx)]
  exact wsub_eq_of_le hle hx

/-- Single-word `lazy_reduce` stays below `2·v`. -/
theorem barrettLazyReduce_lt (w v x : ℕ) (h2 : 2 ≤ v) (hx : x < 2 ^ w) :
    barrettLazyReduce w (barrettModulus w v) x < 2 * v := by
  have hB : 0 < (2 : ℕ) ^ w := Nat.pos_pow_of_pos _ (by norm_num)
  rw [barrettLazyReduce_eq w v x h2 hx]
  have hge := barrett_q3_ge (2 ^ w) v x h2 hB
    (lt_of_lt_of_le hx (Nat.le_mul_of_pos_right _ hB))
  set t := x * (2 ^ w * 2 ^ w / v) / (2 ^ w * 2 ^ w) * v with ht
  omega

theorem sub_mul_mod_right (x q v : ℕ) (h : q * v ≤ x) : (x - q * v) % v = x % v := by
  conv_rhs => rw [show x = x - q * v + q * v by omega]
  rw [Nat.add_mul_mod_self_right]

/-- Single-word `lazy_reduce` is congruent to its input. -/
theorem barrettLazyReduce_mod (w v x : ℕ) (h2 : 2 ≤ v) (hx : x < 2 ^ w) :
    barrettLazyReduce w (barrettModulus w v) x % v = x % v := by
  have hB : 0 < (2 : ℕ) ^ w := Nat.pos_pow_of_pos _ (by norm_num)
  have hv0 : 0 < v := by omega
  rw [barrettLazyReduce_eq w v x h2 hx]
  exact sub_mul_mod_right x _ v (barrett_q3_le (2 ^ w) v x hv0 hB)

/-- The final conditional subtraction turns a lazy result into the canonical one. -/
theorem condSub_eq_mod (v r x : ℕ) (_hv : 0 < v) (hr : r < 2 * v) (hmod : r % v = x % v) :
    (if v ≤ r then r - v else r) = x % v := by
  split_ifs with h
  · have h1 : r - v < v := by omega
    have h2 : (r - v) % v = r % v := by
      conv_rhs => rw [show r = r - v + v by omega]
      rw [Nat.add_mod_right]
    rw [← Nat.mod_eq_of_lt h1, h2, hmod]
  · rw [← Nat.mod_eq_of_lt (by omega : r < v), hmod]

/-- Single-word `reduce` is the canonical remainder. -/
theorem barrettReduce_eq (w v x : ℕ) (h2 : 2 ≤ v) (hx : x < 2 ^ w) :
    barrettReduce w (barrettModulus w v) x = x % v :=
  condSub_eq_mod v _ x (by omega) (barrettLazyReduce_lt w v x h2 hx)
    (barrettLazyReduce_mod w v x h2 hx)

/-- The double-word quotient computation of `lazy_reduce` equals
`⌊(hi·β + lo)·µ/β²⌋` (before any wrapping). -/
theorem barrett_pair_q3_eq (B lo hi mu : ℕ) (hB : 0 < B) :
    mu / B * hi + (mu / B * lo + mu % B * lo / B + mu % B * hi) / B
      = (hi * B + lo) * mu / (B * B) := by
  have hB2 : 0 < B * B := Nat.mul_pos hB hB
  have key : (hi * B + lo) * mu
      = mu / B * hi * (B * B) + ((mu / B * lo + mu % B * hi) * B + mu % B * lo) := by
    conv_lhs => rw [← Nat.div_add_mod mu B]
    ring
  rw [key, add_comm (mu / B * hi * (B * B)) _, Nat.add_mul_div_right _ _ hB2,
    ← Nat.div_div_eq_div_mul, add_comm ((mu / B * lo + mu % B * hi) * B) (mu % B * lo),
    Nat.add_mul_div_right _ _ hB,
    show mu / B * lo + mu % B * lo / B + mu % B * hi
      = mu % B * lo / B + (mu / B * lo + mu % B * hi) from by
        rw [add_comm (mu / B * lo) (mu % B * lo / B), add_assoc]]
  exact add_comm _ _

/-- Double wrapping around the high-limb accumulation is invisible modulo `β`:
the wrapped release-mode sum yields the same truncated quotient. -/
theorem wrap_wrap_div (w d X : ℕ) :
    wrap w (wrap (2 * w) (d + wrap (2 * w) X / 2 ^ w)) = wrap w (d + X / 2 ^ w) := by
  have hB : 0 < (2 : ℕ) ^ w := Nat.pos_pow_of_pos _ (by norm_num)
  have hpow : (2 : ℕ) ^ (2 * w) = 2 ^ w * 2 ^ w := by rw [two_mul, pow_add]
  have hdvd : (2 : ℕ) ^ w ∣ 2 ^ (2 * w) := ⟨2 ^ w, hpow⟩
  unfold wrap
  rw [Nat.mod_mod_of_dvd _ hdvd]
  have e2 : X / 2 ^ w = X % 2 ^ (2 * w) / 2 ^ w + 2 ^ w * (X / 2 ^ (2 * w)) := by
    calc X / 2 ^ w = (X % 2 ^ (2 * w) + 2 ^ (2 * w) * (X / 2 ^ (2 * w))) / 2 ^ w := by
          rw [Nat.mod_add_div]
    _ = (X % 2 ^ (2 * w) + 2 ^ w * (X / 2 ^ (2 * w)) * 2 ^ w) / 2 ^ w := by
          rw [hpow]; ring_nf
    _ = X % 2 ^ (2 * w) / 2 ^ w + 2 ^ w * (X / 2 ^ (2 * w)) := by
          rw [Nat.add_mul_div_right _ _ hB]
  rw [e2, ← add_assoc, Nat.add_mul_mod_self_left]

/-- The truncated quotient still steers `wrapping_sub` to the exact remainder:
if `q·v ≤ a·β + lo` and the remainder is below `β`, the word-level
computation recovers it. -/
theorem wsub_trunc_eq (w lo hi q3 v : ℕ) (hlo : lo < 2 ^ w)
    (hle : q3 * v ≤ hi * 2 ^ w + lo) (hlt : hi * 2 ^ w + lo - q3 * v < 2 ^ w) :
    wsub w lo (wmul w (wrap w q3) v) = hi * 2 ^ w + lo - q3 * v := by
  have hB : 0 < (2 : ℕ) ^ w := Nat.pos_pow_of_pos _ (by norm_num)
  set B := 2 ^ w with hBdef
  set T := q3 % B * v with hT
  have f1 : T % B + B * (T / B) = T := Nat.mod_add_div T B
  have f2 : q3 % B + B * (q3 / B) = q3 := Nat.mod_add_div q3 B
  -- the working equation: everything is nonnegative on both sides
  have E : (lo + B - T % B) + hi * B
      = (hi * B + lo - q3 * v) + B + B * (q3 / B) * v + B * (T / B) := by
    have hmodT : T % B ≤ lo + B := by
      have := Nat.mod_lt T hB
      omega
    zify [hmodT, hle]
    have h1z := f1
    have h2z := f2
    zify at h1z h2z
    have hTz : (T : ℤ) = (q3 : ℤ) % (B : ℤ) * (v : ℤ) := by
      rw [hT]
      push_cast
      ring
    linear_combination (-1 : ℤ) * h1z - (v : ℤ) * h2z - hTz
  have step : (lo + B - T % B) % B = (hi * B + lo - q3 * v) % B := by
    have l1 : (lo + B - T % B) % B = ((lo + B - T % B) + B * hi) % B := by
      rw [Nat.add_mul_mod_self_left]
    have l2 : ((hi * B + lo - q3 * v) + B + B * (q3 / B) * v + B * (T / B)) % B
        = (hi * B + lo - q3 * v) % B := by
      rw [show (hi * B + lo - q3 * v) + B + B * (q3 / B) * v + B * (T / B)
          = (hi * B + lo - q3 * v) + B * (1 + q3 / B * v + T / B) from by ring,
        Nat.add_mul_mod_self_left]
    rw [l1, show (lo + B - T % B) + B * hi = (lo + B - T % B) + hi * B from by ring, E, l2]
  have hres : wsub w lo (wmul w (wrap w q3) v) = (lo + B - T % B) % B := by
    unfold wsub wmul wrap
    rw [← hBdef, Nat.mod_eq_of_lt hlo, ← hT, Nat.mod_mod_of_dvd _ (dvd_refl B)]
  rw [hres, step, Nat.mod_eq_of_lt hlt]

/-- Double-word `lazy_reduce` computes exactly `x − ⌊x·µ/β²⌋·v` for
`x = hi·β + lo`. -/
theorem barrettLazyReducePair_eq (w v lo hi : ℕ) (h2 : 2 ≤ v) (hvB : 4 * v ≤ 2 ^ w)
    (hlo : lo < 2 ^ w) (hhi : hi < 2 ^ w) :
    barrettLazyReducePair w (barrettModulus w v) lo hi
      = (hi * 2 ^ w + lo)
        - (hi * 2 ^ w + lo) * (2 ^ w * 2 ^ w / v) / (2 ^ w * 2 ^ w) * v := by
  have hB : 0 < (2 : ℕ) ^ w := Nat.pos_pow_of_pos _ (by norm_num)
  have hv0 : 0 < v := by omega
  have hxB2 : hi * 2 ^ w + lo < 2 ^ w * 2 ^ w := by
    calc hi * 2 ^ w + lo < hi * 2 ^ w + 2 ^ w := by omega
    _ = (hi + 1) * 2 ^ w := by ring
    _ ≤ 2 ^ w * 2 ^ w := Nat.mul_le_mul_right _ (by omega)
  have hle := barrett_q3_le (2 ^ w) v (hi * 2 ^ w + lo) hv0 hB
  have hge := barrett_q3_ge (2 ^ w) v (hi * 2 ^ w + lo) h2 hB hxB2
  unfold barrettLazyReducePair barrettModulus
  dsimp only
  rw [wrap_wrap_div w (2 ^ w * 2 ^ w / v / 2 ^ w * hi)
    (2 ^ w * 2 ^ w / v / 2 ^ w * lo + 2 ^ w * 2 ^ w / v % 2 ^ w * lo / 2 ^ w
      + 2 ^ w * 2 ^ w / v % 2 ^ w * hi),
    barrett_pair_q3_eq (2 ^ w) lo hi (2 ^ w * 2 ^ w / v) hB]
  exact wsub_trunc_eq w lo hi _ v hlo hle (by
    set t := (hi * 2 ^ w + lo) * (2 ^ w * 2 ^ w / v) / (2 ^ w * 2 ^ w) * v with ht
    omega)

/-- Double-word `lazy_reduce` stays below `2·v` and is congruent to the input. -/
theorem barrettLazyReducePair_lt_mod (w v lo hi : ℕ) (h2 : 2 ≤ v) (hvB : 4 * v ≤ 2 ^ w)
    (hlo : lo < 2 ^ w) (hhi : hi < 2 ^ w) :
    barrettLazyReducePair w (barrettModulus w v) lo hi < 2 * v ∧
    barrettLazyReducePair w (barrettModulus w v) lo hi % v = (hi * 2 ^ w + lo) % v := by
  have hB : 0 < (2 : ℕ) ^ w := Nat.pos_pow_of_pos _ (by norm_num)
  have hv0 : 0 < v := by omega
  have hxB2 : hi * 2 ^ w + lo < 2 ^ w * 2 ^ w := by
    calc hi * 2 ^ w + lo < hi * 2 ^ w + 2 ^ w := by omega
    _ = (hi + 1) * 2 ^ w := by ring
    _ ≤ 2 ^ w * 2 ^ w := Nat.mul_le_mul_right _ (by omega)
  have hle := barrett_q3_le (2 ^ w) v (hi * 2 ^ w + lo) hv0 hB
  have hge := barrett_q3_ge (2 ^ w) v (hi * 2 ^ w + lo) h2 hB hxB2
  rw [barrettLazyReducePair_eq w v lo hi h2 hvB hlo hhi]
  constructor
  · set t := (hi * 2 ^ w + lo) * (2 ^ w * 2 ^ w / v) / (2 ^ w * 2 ^ w) * v with ht
    omega
  · exact sub_mul_mod_right _ _ v hle

/-- Double-word `reduce` is the canonical remainder. -/
theorem barrettReducePair_eq (w v lo hi : ℕ) (h2 : 2 ≤ v) (hvB : 4 * v ≤ 2 ^ w)
    (hlo : lo < 2 ^ w) (hhi : hi < 2 ^ w) :
    barrettReducePair w (barrettModulus w v) lo hi = (hi * 2 ^ w + lo) % v :=
  condSub_eq_mod v _ _ (by omega)
    (barrettLazyReducePair_lt_mod w v lo hi h2 hvB hlo hhi).1
    (barrettLazyReducePair_lt_mod w v lo hi h2 hvB hlo hhi).2

/-- C5: for a Barrett modulus built from a valid value (`2 ≤ v`, top two bits
zero), the canonical single-word reduction returns `x mod v`, the canonical
double-word reduction returns `(hi·2^w + lo) mod v`, and the lazy variants
return results in `[0, 2v)` congruent to the input. -/
theorem C5_barrett_reduction (w v : ℕ) (hw : 2 ∣ w) (hw4 : 4 ≤ w)
    (h2 : 2 ≤ v) (hlt : v < 2 ^ (w - 2)) :
    barrettModulusNew w v = some (barrettModulus w v) ∧
    (∀ x < 2 ^ w, barrettReduce w (barrettModulus w v) x = x % v ∧
      barrettLazyReduce w (barrettModulus w v) x % v = x % v ∧
      barrettLazyReduce w (barrettModulus w v) x < 2 * v) ∧
    (∀ lo hi, lo < 2 ^ w → hi < 2 ^ w →
      barrettReducePair w (barrettModulus w v) lo hi = (hi * 2 ^ w + lo) % v ∧
      barrettLazyReducePair w (barrettModulus w v) lo hi % v = (hi * 2 ^ w + lo) % v ∧
      barrettLazyReducePair w (barrettModulus w v) lo hi < 2 * v) := by
  have hvB : 4 * v ≤ 2 ^ w := by
    have h4 : (4 : ℕ) * 2 ^ (w - 2) = 2 ^ w := by
      rw [show (4 : ℕ) = 2 ^ 2 from by norm_num, ← pow_add]
      congr 1
      omega
    have : 4 * v < 4 * 2 ^ (w - 2) := by omega
    omega
  refine ⟨barrettModulusNew_eq w v hw hw4 h2 hlt, fun x hx => ?_, fun lo hi hlo hhi => ?_⟩
  · exact ⟨barrettReduce_eq w v x h2 hx, barrettLazyReduce_mod w v x h2 hx,
      barrettLazyReduce_lt w v x h2 hx⟩
  · exact ⟨barrettReducePair_eq w v lo hi h2 hvB hlo hhi,
      (barrettLazyReducePair_lt_mod w v lo hi h2 hvB hlo hhi).2,
      (barrettLazyReducePair_lt_mod w v lo hi h2 hvB hlo hhi).1⟩

/-- Witness for C5 at `w = 8`, `v = 5`, with single word `200` and double word
`(lo, hi) = (100, 30)`. -/
theorem C5_barrett_reduction_witness :
    barrettReduce 8 (barrettModulus 8 5) 200 = 200 % 5 ∧
    barrettReducePair 8 (barrettModulus 8 5) 100 30 = (30 * 2 ^ 8 + 100) % 5 :=
  ⟨((C5_barrett_reduction 8 5 (by norm_num) (by norm_num) (by norm_num)
      (by norm_num)).2.1 200 (by norm_num)).1,
    ((C5_barrett_reduction 8 5 (by norm_num) (by norm_num) (by norm_num)
      (by norm_num)).2.2 100 30 (by norm_num) (by norm_num)).1⟩

/-! ## Primitive modular operations (`algebra/src/reduce/primitive.rs`,
`algebra/src/modulus/barrett/ops.rs`)

The modulus is a plain word value `m`; operands are canonical values. -/

/-- `AddReduce::add_reduce` for a primitive word. -/
def addReduce (m a b : ℕ) : ℕ :=
  let r := a + b
  if m ≤ r then r - m else r

/-- `SubReduce::sub_reduce` for a primitive word. -/
def subReduce (m a b : ℕ) : ℕ :=
  if b ≤ a then a - b else m - b + a

/-- `NegReduce::neg_reduce` for a primitive word. -/
def negReduce (m a : ℕ) : ℕ :=
  if a = 0 then 0 else m - a

/-- `MulReduce<BarrettModulus>`: widening multiply followed by the
double-word Barrett reduction. -/
def mulReduce (w : ℕ) (m : BarrettModulus) (a b : ℕ) : ℕ :=
  barrettReducePair w m (widenMulLo w a b) (widenMulHi w a b)

/-- `LazyMulReduce<BarrettModulus>`: widening multiply followed by the
double-word lazy Barrett reduction. -/
def lazyMulReduce (w : ℕ) (m : BarrettModulus) (a b : ℕ) : ℕ :=
  barrettLazyReducePair w m (widenMulLo w a b) (widenMulHi w a b)

theorem mulReduce_eq (w v a b : ℕ) (h2 : 2 ≤ v) (hvB : 4 * v ≤ 2 ^ w)
    (ha : a < 2 ^ w) (hb : b < 2 ^ w) :
    mulReduce w (barrettModulus w v) a b = a * b % v := by
  have hB : 0 < (2 : ℕ) ^ w := Nat.pos_pow_of_pos _ (by norm_num)
  have hhi : a * b / 2 ^ w < 2 ^ w := by
    rw [Nat.div_lt_iff_lt_mul hB]
    exact Nat.mul_lt_mul_of_lt_of_le ha (le_of_lt hb) hB
  have hres := barrettReducePair_eq w v (a * b % 2 ^ w) (a * b / 2 ^ w) h2 hvB
    (Nat.mod_lt _ hB) hhi
  unfold mulReduce widenMulLo widenMulHi
  rw [hres, Nat.div_add_mod']

theorem lazyMulReduce_spec (w v a b : ℕ) (h2 : 2 ≤ v) (hvB : 4 * v ≤ 2 ^ w)
    (ha : a < 2 ^ w) (hb : b < 2 ^ w) :
    lazyMulReduce w (barrettModulus w v) a b < 2 * v ∧
    lazyMulReduce w (barrettModulus w v) a b % v = a * b % v := by
  have hB : 0 < (2 : ℕ) ^ w := Nat.pos_pow_of_pos _ (by norm_num)
  have hhi : a * b / 2 ^ w < 2 ^ w := by
    rw [Nat.div_lt_iff_lt_mul hB]
    exact Nat.mul_lt_mul_of_lt_of_le ha (le_of_lt hb) hB
  have hres := barrettLazyReducePair_lt_mod w v (a * b % 2 ^ w) (a * b / 2 ^ w) h2 hvB
    (Nat.mod_lt _ hB) hhi
  unfold lazyMulReduce widenMulLo widenMulHi
  rw [Nat.div_add_mod'] at hres
  exact hres

/-! ## Shoup factors (`algebra/src/modulus/shoup/mod.rs`, `internal_macros.rs`) -/

/-- `ShoupFactor<T>`: a value below the modulus together with its precomputed
quotient `⌊value·β/p⌋`. -/
structure ShoupFactor where
  value : ℕ
  quotient : ℕ
  deriving DecidableEq, Repr

/-- `ShoupFactor::new` (the quotient fits one word because `value < modulus`,
so the `as`-cast cannot truncate). -/
def shoupFactorNew (w value modulus : ℕ) : ShoupFactor :=
  ⟨value, value * 2 ^ w / modulus⟩

/-- `ShoupFactor::mul_reduce_lazy`: `w·x − ⌊w'·x/β⌋·p` computed with wrapping
word arithmetic; the result lies in `[0, 2p)`. -/
def shoupMulReduceLazy (w : ℕ) (f : ShoupFactor) (rhs modulus : ℕ) : ℕ :=
  wsub w (wmul w f.value rhs) (wmul w (widenMulHi w f.quotient rhs) modulus)

/-- `MulReduce<ShoupFactor>`: the lazy product with one conditional subtraction. -/
def shoupMulReduce (w : ℕ) (f : ShoupFactor) (rhs modulus : ℕ) : ℕ :=
  let tmp := shoupMulReduceLazy w f rhs modulus
  if modulus ≤ tmp then tmp - modulus else tmp

/-- `wrapping_sub` of two wrapped values recovers the true difference whenever
that difference is representable. -/
theorem wsub_wrap_eq (w a b : ℕ) (hle : b ≤ a) (hlt : a - b < 2 ^ w) :
    wsub w (wrap w a) (wrap w b) = a - b := by
  have hB : 0 < (2 : ℕ) ^ w := Nat.pos_pow_of_pos _ (by norm_num)
  set B := 2 ^ w with hBdef
  have f1 : a % B + B * (a / B) = a := Nat.mod_add_div a B
  have f2 : b % B + B * (b / B) = b := Nat.mod_add_div b B
  have E : (a % B + B - b % B) + B * (a / B) = (a - b) + B + B * (b / B) := by
    have hbB : b % B ≤ a % B + B := by
      have := Nat.mod_lt b hB
      omega
    zify [hbB, hle]
    have h1z := f1
    have h2z := f2
    zify at h1z h2z
    linear_combination h1z - h2z
  have step : (a % B + B - b % B) % B = (a - b) % B := by
    have l1 : (a % B + B - b % B) % B = ((a % B + B - b % B) + B * (a / B)) % B := by
      rw [Nat.add_mul_mod_self_left]
    have l2 : ((a - b) + B + B * (b / B)) % B = (a - b) % B := by
      rw [show (a - b) + B + B * (b / B) = (a - b) + B * (1 + b / B) from by ring,
        Nat.add_mul_mod_self_left]
    rw [l1, E, l2]
  unfold wsub wrap
  rw [← hBdef, Nat.mod_mod_of_dvd _ (dvd_refl B), Nat.mod_mod_of_dvd _ (dvd_refl B)]
  rw [step, Nat.mod_eq_of_lt hlt]

/-- Shoup quotient bounds: `q·p ≤ v·x` and `v·x < q·p + 2·p` for
`q = ⌊⌊v·β/p⌋·x/β⌋`, `v < p`, `x < β`. -/
theorem shoup_q_bounds (B p v x : ℕ) (hp : 0 < p) (hB : 0 < B)
    (_hv : v < p) (hx : x < B) :
    v * B / p * x / B * p ≤ v * x ∧ v * x < v * B / p * x / B * p + 2 * p := by
  set wq := v * B / p with hwq
  set q := wq * x / B with hq
  constructor
  · -- q·p ≤ v·x:  q·B ≤ w'·x and w'·p ≤ v·B
    have h1 : q * B ≤ wq * x := Nat.div_mul_le_self _ _
    have h2 : wq * p ≤ v * B := Nat.div_mul_le_self _ _
    have h3 : q * p * B ≤ v * x * B := by
      calc q * p * B = q * B * p := by ring
      _ ≤ wq * x * p := Nat.mul_le_mul_right _ h1
      _ = wq * p * x := by ring
      _ ≤ v * B * x := Nat.mul_le_mul_right _ h2
      _ = v * x * B := by ring
    exact Nat.le_of_mul_le_mul_right h3 hB
  · -- v·x < q·p + 2p:  w'·x < (q+1)·B and v·B < (w'+1)·p
    have h1 : wq * x < (q + 1) * B := by
      have hm : wq * x % B < B := Nat.mod_lt _ hB
      calc wq * x = B * q + wq * x % B := by
            rw [hq]; exact (Nat.div_add_mod _ _).symm
      _ < B * q + B := Nat.add_lt_add_left hm _
      _ = (q + 1) * B := by ring
    have h2 : v * B < (wq + 1) * p := by
      have hm : v * B % p < p := Nat.mod_lt _ hp
      calc v * B = p * wq + v * B % p := by
            rw [hwq]; exact (Nat.div_add_mod _ _).symm
      _ < p * wq + p := Nat.add_lt_add_left hm _
      _ = (wq + 1) * p := by ring
    have h3 : v * x * B < (q * p + 2 * p) * B := by
      calc v * x * B = v * B * x := by ring
      _ ≤ (wq + 1) * p * x := Nat.mul_le_mul_right _ (le_of_lt h2)
      _ = wq * x * p + p * x := by ring
      _ ≤ wq * x * p + p * B :=
          Nat.add_le_add_left (Nat.mul_le_mul_left _ (le_of_lt hx)) _
      _ < (q + 1) * B * p + p * B :=
          Nat.add_lt_add_right (Nat.mul_lt_mul_of_pos_right h1 hp) _
      _ = (q * p + 2 * p) * B := by ring
    exact Nat.lt_of_mul_lt_mul_right h3

/-- The Shoup lazy product equals `v·x − q·p`, is below `2p` and is congruent
to `v·x`. -/
theorem shoupMulReduceLazy_spec (w p v x : ℕ) (hp : 0 < p) (h2p : 2 * p ≤ 2 ^ w)
    (hv : v < p) (hx : x < 2 ^ w) :
    shoupMulReduceLazy w (shoupFactorNew w v p) x p
      = v * x - v * 2 ^ w / p * x / 2 ^ w * p ∧
    shoupMulReduceLazy w (shoupFactorNew w v p) x p < 2 * p ∧
    shoupMulReduceLazy w (shoupFactorNew w v p) x p % p = v * x % p := by
  have hB : 0 < (2 : ℕ) ^ w := Nat.pos_pow_of_pos _ (by norm_num)
  obtain ⟨hle, hlt⟩ := shoup_q_bounds (2 ^ w) p v x hp hB hv hx
  have hq : v * 2 ^ w / p * x / 2 ^ w = widenMulHi w (v * 2 ^ w / p) x := rfl
  have hsub : v * x - v * 2 ^ w / p * x / 2 ^ w * p < 2 * p := by
    set t := v * 2 ^ w / p * x / 2 ^ w * p with ht
    omega
  have heq : shoupMulReduceLazy w (shoupFactorNew w v p) x p
      = v * x - v * 2 ^ w / p * x / 2 ^ w * p := by
    unfold shoupMulReduceLazy shoupFactorNew widenMulHi wmul
    dsimp only
    rw [show (v * x) % 2 ^ w = wrap w (v * x) from rfl,
      show (v * 2 ^ w / p * x / 2 ^ w * p) % 2 ^ w
        = wrap w (v * 2 ^ w / p * x / 2 ^ w * p) from rfl]
    exact wsub_wrap_eq w _ _ hle (lt_of_lt_of_le hsub h2p)
  refine ⟨heq, ?_, ?_⟩
  · rw [heq]; exact hsub
  · rw [heq]; exact sub_mul_mod_right _ _ _ hle

/-- The canonical Shoup product is `v·x mod p`. -/
theorem shoupMulReduce_eq (w p v x : ℕ) (hp : 0 < p) (h2p : 2 * p ≤ 2 ^ w)
    (hv : v < p) (hx : x < 2 ^ w) :
    shoupMulReduce w (shoupFactorNew w v p) x p = v * x % p := by
  obtain ⟨-, hlt, hmod⟩ := shoupMulReduceLazy_spec w p v x hp h2p hv hx
  exact condSub_eq_mod p _ _ hp hlt hmod

/-! ## Modular exponentiation (`PowReduce` in `algebra/src/modulus/barrett/ops.rs`) -/

/-- `trailing_zeros` of a positive word. -/
def trailingZeros : ℕ → ℕ
  | 0 => 0
  | n + 1 =>
    if (n + 1) % 2 = 1 then 0
    else 1 + trailingZeros ((n + 1) / 2)
decreasing_by omega

/-- The initial squaring phase of `pow_reduce`
(`for _ in 0..exp_trailing_zeros { power = power.mul_reduce(power, modulus) }`). -/
def iterSquare (w : ℕ) (m : BarrettModulus) : ℕ → ℕ → ℕ
  | 0, power => power
  | k + 1, power => iterSquare w m k (mulReduce w m power power)

/-- The main square-and-multiply loop of `pow_reduce`
(`for _ in 1..(E::N_BITS - exp.leading_zeros())`), with the iteration count as
an explicit argument. -/
def powIter (w : ℕ) (m : BarrettModulus) : ℕ → ℕ → ℕ → ℕ → ℕ
  | 0, _, _, intermediate => intermediate
  | n + 1, exp, power, intermediate =>
    let exp1 := exp / 2
    let power1 := mulReduce w m power power
    let intermediate1 :=
      if exp1 % 2 = 1 then mulReduce w m intermediate power1 else intermediate
    powIter w m n exp1 power1 intermediate1

/-- `PowReduce::pow_reduce`: strip trailing zero bits of the exponent with
repeated squarings, then square-and-multiply over the remaining bits
(`E::N_BITS - exp.leading_zeros()` is the bit length of the shifted exponent,
i.e. `log2 + 1`). -/
def powReduce (w : ℕ) (m : BarrettModulus) (x exp : ℕ) : ℕ :=
  if exp = 0 then 1
  else
    let tz := trailingZeros exp
    let power := iterSquare w m tz x
    let exp1 := exp / 2 ^ tz
    if exp1 = 1 then power
    else powIter w m (exp1.log2 + 1 - 1) exp1 power power

theorem trailingZeros_spec (n : ℕ) (hn : n ≠ 0) :
    2 ^ trailingZeros n * (n / 2 ^ trailingZeros n) = n ∧
    (n / 2 ^ trailingZeros n) % 2 = 1 := by
  induction n using Nat.strong_induction_on with
  | _ n ih =>
    match n, hn with
    | n + 1, _ =>
      rw [trailingZeros]
      split_ifs with hodd
      · simpa using hodd
      · have hhalf : (n + 1) / 2 < n + 1 := by omega
        have hne : (n + 1) / 2 ≠ 0 := by omega
        obtain ⟨h1, h2⟩ := ih _ hhalf hne
        have hsplit : 2 * ((n + 1) / 2) = n + 1 := by omega
        have hpow : (2:ℕ) ^ (1 + trailingZeros ((n + 1) / 2))
            = 2 * 2 ^ trailingZeros ((n + 1) / 2) := by
          rw [pow_add, pow_one]
        have hdiv : (n + 1) / (2 * 2 ^ trailingZeros ((n + 1) / 2))
            = (n + 1) / 2 / 2 ^ trailingZeros ((n + 1) / 2) := by
          rw [Nat.div_div_eq_div_mul]
        constructor
        · rw [hpow, hdiv]
          calc 2 * 2 ^ trailingZeros ((n + 1) / 2)
                * ((n + 1) / 2 / 2 ^ trailingZeros ((n + 1) / 2))
              = 2 * (2 ^ trailingZeros ((n + 1) / 2)
                * ((n + 1) / 2 / 2 ^ trailingZeros ((n + 1) / 2))) := by ring
            _ = 2 * ((n + 1) / 2) := by rw [h1]
            _ = n + 1 := hsplit
        · rw [hpow, hdiv]
          exact h2

theorem iterSquare_spec (w v : ℕ) (h2 : 2 ≤ v) (hvB : 4 * v ≤ 2 ^ w) :
    ∀ k x, x < v → iterSquare w (barrettModulus w v) k x = x ^ 2 ^ k % v := by
  intro k
  induction k with
  | zero => intro x hx; simpa [iterSquare] using (Nat.mod_eq_of_lt hx).symm
  | succ k ih =>
    intro x hx
    have hxB : x < 2 ^ w := by omega
    have hsq : mulReduce w (barrettModulus w v) x x = x * x % v :=
      mulReduce_eq w v x x h2 hvB hxB hxB
    rw [iterSquare, hsq, ih _ (Nat.mod_lt _ (by omega)), ← Nat.pow_mod,
      show x * x = x ^ 2 from by ring, ← pow_mul, ← pow_succ']

theorem powIter_succ (w : ℕ) (m : BarrettModulus) (n exp power inter : ℕ) :
    powIter w m (n + 1) exp power inter
      = powIter w m n (exp / 2) (mulReduce w m power power)
          (if exp / 2 % 2 = 1 then mulReduce w m inter (mulReduce w m power power)
           else inter) := rfl

theorem powIter_spec (w v : ℕ) (h2 : 2 ≤ v) (hvB : 4 * v ≤ 2 ^ w) :
    ∀ n exp power inter, exp < 2 ^ (n + 1) → power < v → inter < v →
      powIter w (barrettModulus w v) n exp power inter
        = inter * power ^ (2 * (exp / 2)) % v := by
  intro n
  induction n with
  | zero =>
    intro exp power inter hexp hp hi
    have : exp / 2 = 0 := by omega
    simp [powIter, this, Nat.mod_eq_of_lt hi]
  | succ n ih =>
    intro exp power inter hexp hp hi
    have hv0 : 0 < v := by omega
    have hpB : power < 2 ^ w := by omega
    have hiB : inter < 2 ^ w := by omega
    have hsq : mulReduce w (barrettModulus w v) power power = power * power % v :=
      mulReduce_eq w v power power h2 hvB hpB hpB
    have hp2 : (2:ℕ) ^ (n + 1 + 1) = 2 ^ (n + 1) * 2 := pow_succ 2 (n + 1)
    rw [powIter_succ, hsq]
    set e1 := exp / 2 with he1
    have he1lt : e1 < 2 ^ (n + 1) := by omega
    have hm1 : power * power % v ≡ power * power [MOD v] := Nat.mod_modEq _ _
    by_cases hodd : e1 % 2 = 1
    · rw [if_pos hodd]
      have hmul : mulReduce w (barrettModulus w v) inter (power * power % v)
          = inter * (power * power % v) % v :=
        mulReduce_eq w v _ _ h2 hvB hiB
          (by have := Nat.mod_lt (power * power) hv0; omega)
      rw [hmul, ih e1 _ _ he1lt (Nat.mod_lt _ hv0) (Nat.mod_lt _ hv0)]
      have hcong : inter * (power * power % v) % v * (power * power % v) ^ (2 * (e1 / 2))
          ≡ inter * power ^ (2 * e1) [MOD v] := by
        calc inter * (power * power % v) % v * (power * power % v) ^ (2 * (e1 / 2))
            ≡ inter * (power * power) * (power * power) ^ (2 * (e1 / 2)) [MOD v] :=
              Nat.ModEq.mul ((Nat.mod_modEq _ _).trans (Nat.ModEq.mul_left _ hm1))
                (hm1.pow _)
          _ = inter * ((power * power) * (power * power) ^ (2 * (e1 / 2))) := by ring
          _ = inter * (power * power) ^ (2 * (e1 / 2) + 1) := by rw [← pow_succ']
          _ = inter * power ^ (2 * e1) := by
              rw [show power * power = power ^ 2 from by ring, ← pow_mul]
              congr 2
              omega
      exact hcong
    · rw [if_neg hodd]
      rw [ih e1 _ _ he1lt (Nat.mod_lt _ hv0) hi]
      have hcong : inter * (power * power % v) ^ (2 * (e1 / 2))
          ≡ inter * power ^ (2 * e1) [MOD v] := by
        calc inter * (power * power % v) ^ (2 * (e1 / 2))
            ≡ inter * (power * power) ^ (2 * (e1 / 2)) [MOD v] :=
              Nat.ModEq.mul_left _ (hm1.pow _)
          _ = inter * power ^ (2 * e1) := by
              rw [show power * power = power ^ 2 from by ring, ← pow_mul]
              congr 2
              omega
      exact hcong

/-- `pow_reduce` computes the canonical modular power. -/
theorem powReduce_eq (w v x exp : ℕ) (h2 : 2 ≤ v) (hvB : 4 * v ≤ 2 ^ w)
    (hx : x < v) :
    powReduce w (barrettModulus w v) x exp = x ^ exp % v := by
  rw [powReduce]
  simp only []
  split_ifs with h0 h1
  · rw [h0, pow_zero, Nat.mod_eq_of_lt (by omega)]
  · -- the shifted exponent is 1, so exp = 2^tz exactly
    obtain ⟨hdecomp, hodd⟩ := trailingZeros_spec exp h0
    rw [iterSquare_spec w v h2 hvB _ x hx]
    rw [h1, mul_one] at hdecomp
    rw [hdecomp]
  · obtain ⟨hdecomp, hodd⟩ := trailingZeros_spec exp h0
    set tz := trailingZeros exp with htz
    set e1 := exp / 2 ^ tz with he1x
    have he1pos : e1 ≠ 0 := by
      intro h
      rw [h, mul_zero] at hdecomp
      exact h0 hdecomp.symm
    have hbits : e1 < 2 ^ (e1.log2 + 1 - 1 + 1) := by
      have hlt : e1.log2 < e1.log2 + 1 := by omega
      have hb := (Nat.log2_lt he1pos).mp hlt
      have hee : e1.log2 + 1 - 1 + 1 = e1.log2 + 1 := by omega
      rw [hee]
      exact hb
    rw [iterSquare_spec w v h2 hvB tz x hx,
      powIter_spec w v h2 hvB _ e1 _ _ hbits (Nat.mod_lt _ (by omega))
        (Nat.mod_lt _ (by omega))]
    have hm : x ^ 2 ^ tz % v ≡ x ^ 2 ^ tz [MOD v] := Nat.mod_modEq _ _
    have hcong : x ^ 2 ^ tz % v * (x ^ 2 ^ tz % v) ^ (2 * (e1 / 2))
        ≡ x ^ exp [MOD v] := by
      calc x ^ 2 ^ tz % v * (x ^ 2 ^ tz % v) ^ (2 * (e1 / 2))
          ≡ x ^ 2 ^ tz * (x ^ 2 ^ tz) ^ (2 * (e1 / 2)) [MOD v] :=
            Nat.ModEq.mul hm (hm.pow _)
        _ = (x ^ 2 ^ tz) ^ (2 * (e1 / 2) + 1) := (pow_succ' _ _).symm
        _ = x ^ (2 ^ tz * (2 * (e1 / 2) + 1)) := (pow_mul x _ _).symm
        _ = x ^ exp := by
            have ho : 2 * (e1 / 2) + 1 = e1 := by omega
            rw [ho, hdecomp]
    exact hcong

/-! ## Extended binary GCD (`algebra/src/utils/gcd.rs`) and `inv_reduce`
(`algebra/src/reduce/primitive.rs`)

The Rust loop keeps `a x + b y = u` and `c x + d y = v` over the signed type;
`>> 1` on the signed type is an arithmetic shift, i.e. flooring division by 2,
which matches `Int` division (`Int.ediv`).  The two halving `while` loops are
modelled by well-founded recursion on `u` (the extra `0 < u` guard is
unreachable in any run the theorems speak about: the Rust loop never calls the
halving loop with `u = 0`), and the outer `loop` by explicit fuel, with `none`
standing for running out of fuel. -/

/-- One iteration of the halving `while` body acting on the Bezout
coefficients (`a >>= 1; b >>= 1` / `a = (a + y) >> 1; b = (b - x) >> 1` /
`a = (a - y) >> 1; b = (b + x) >> 1`). -/
def egcdHalveStep (x y : ℕ) (a b : ℤ) : ℤ × ℤ :=
  if a % 2 = 0 ∧ b % 2 = 0 then (a / 2, b / 2)
  else if b > (x : ℤ) then ((a + y) / 2, (b - x) / 2)
  else ((a - y) / 2, (b + x) / 2)

/-- The halving `while u % 2 == 0` loop of `extended_gcd`. -/
def egcdHalve (x y : ℕ) (u : ℕ) (a b : ℤ) : ℕ × ℤ × ℤ :=
  if u % 2 = 0 ∧ 0 < u then
    egcdHalve x y (u / 2) (egcdHalveStep x y a b).1 (egcdHalveStep x y a b).2
  else (u, a, b)
decreasing_by omega

/-- The outer `loop` of `extended_gcd`: halve `u` and `v`, subtract the
smaller from the larger, return `(c, d, v)` once `u` reaches `0`. -/
def egcdLoop (x y : ℕ) : ℕ → ℕ → ℕ → ℤ → ℤ → ℤ → ℤ → Option (ℤ × ℤ × ℕ)
  | 0, _, _, _, _, _, _ => none
  | fuel + 1, u, v, a, b, c, d =>
    match egcdHalve x y u a b, egcdHalve x y v c d with
    | (u1, a1, b1), (v1, c1, d1) =>
      if v1 ≤ u1 then
        if u1 - v1 = 0 then some (c1, d1, v1)
        else egcdLoop x y fuel (u1 - v1) v1 (a1 - c1) (b1 - d1) c1 d1
      else
        if u1 = 0 then some (c1 - a1, d1 - b1, v1 - u1)
        else egcdLoop x y fuel u1 (v1 - u1) a1 b1 (c1 - a1) (d1 - b1)

/-- `ExtendedGCD::extended_gcd` with explicit fuel: strip the common power of
two into `g`, run the binary loop, return `(c, d, g * v)`.
(`trailing_zeros` of `0` is the word width in Rust; that case only arises for
`x = y = 0`, where the Rust loop does not terminate either.) -/
def extendedGcd (x y fuel : ℕ) : Option (ℤ × ℤ × ℕ) :=
  match egcdLoop (x / 2 ^ trailingZeros (x ||| y)) (y / 2 ^ trailingZeros (x ||| y))
      fuel (x / 2 ^ trailingZeros (x ||| y)) (y / 2 ^ trailingZeros (x ||| y)) 1 0 0 1 with
  | some (c, d, v) => some (c, d, 2 ^ trailingZeros (x ||| y) * v)
  | none => none

/-- `InvReduce::inv_reduce self modulus = extended_gcd(modulus, self)`'s second
coefficient, lifted into `[0, modulus)` by one conditional add. -/
def invReduce (p a fuel : ℕ) : Option ℕ :=
  match extendedGcd p a fuel with
  | some (_, inv, _) => some (if 0 < inv then inv.toNat else (inv + p).toNat)
  | none => none

theorem egcdHalveStep_spec (x y : ℕ) (a b u : ℤ) (hX : (x : ℤ) % 2 = 1)
    (hu : a * x + b * y = 2 * u) (hbl : -(2 * (x : ℤ)) ≤ b) (hbr : b ≤ 2 * x) :
    (egcdHalveStep x y a b).1 * x + (egcdHalveStep x y a b).2 * y = u
    ∧ -(x : ℤ) ≤ (egcdHalveStep x y a b).2 ∧ (egcdHalveStep x y a b).2 ≤ x := by
  have hPa : a * x % 2 = a % 2 := by
    rw [Int.mul_emod, hX, mul_one, Int.emod_emod_of_dvd _ (dvd_refl 2)]
  have hQy : b * y % 2 = b % 2 * ((y : ℤ) % 2) % 2 := Int.mul_emod b y 2
  have hPQ : a * x + b * y = 2 * u := hu
  rw [egcdHalveStep]
  split_ifs with hev hbx
  · -- a, b both even
    obtain ⟨ha, hb⟩ := hev
    have hA : 2 * (a / 2) = a := by omega
    have hB : 2 * (b / 2) = b := by omega
    refine ⟨?_, by omega, by omega⟩
    have h2 : 2 * (a / 2 * x + b / 2 * y) = 2 * u := by
      linear_combination hu + x * hA + y * hB
    exact mul_left_cancel₀ (by norm_num : (2:ℤ) ≠ 0) h2
  · -- not both even, b > x
    have hpar : (a + y) % 2 = 0 ∧ (b - x) % 2 = 0 := by
      rcases Int.emod_two_eq y with hY | hY
      · rw [hY, mul_zero, Int.zero_emod] at hQy
        omega
      · rw [hY, mul_one, Int.emod_emod_of_dvd _ (dvd_refl 2)] at hQy
        omega
    have hA : 2 * ((a + y) / 2) = a + y := by omega
    have hB : 2 * ((b - x) / 2) = b - x := by omega
    refine ⟨?_, by omega, by omega⟩
    have h2 : 2 * ((a + y) / 2 * x + (b - x) / 2 * y) = 2 * u := by
      linear_combination hu + x * hA + y * hB
    exact mul_left_cancel₀ (by norm_num : (2:ℤ) ≠ 0) h2
  · -- not both even, b ≤ x
    have hpar : (a - y) % 2 = 0 ∧ (b + x) % 2 = 0 := by
      rcases Int.emod_two_eq y with hY | hY
      · rw [hY, mul_zero, Int.zero_emod] at hQy
        omega
      · rw [hY, mul_one, Int.emod_emod_of_dvd _ (dvd_refl 2)] at hQy
        omega
    have hA : 2 * ((a - y) / 2) = a - y := by omega
    have hB : 2 * ((b + x) / 2) = b + x := by omega
    refine ⟨?_, by omega, by omega⟩
    have h2 : 2 * ((a - y) / 2 * x + (b + x) / 2 * y) = 2 * u := by
      linear_combination hu + x * hA + y * hB
    exact mul_left_cancel₀ (by norm_num : (2:ℤ) ≠ 0) h2

theorem egcdHalve_spec (x y : ℕ) (hX : x % 2 = 1) :
    ∀ u : ℕ, ∀ a b : ℤ, 0 < u →
      a * x + b * y = (u : ℤ) →
      -(2 * (x : ℤ)) ≤ b → b ≤ 2 * x →
      (u % 2 = 1 → -(x : ℤ) ≤ b ∧ b ≤ x) →
      (egcdHalve x y u a b).1 % 2 = 1 ∧ 0 < (egcdHalve x y u a b).1 ∧
      (∃ k, u = 2 ^ k * (egcdHalve x y u a b).1) ∧
      (egcdHalve x y u a b).2.1 * x + (egcdHalve x y u a b).2.2 * y
        = ((egcdHalve x y u a b).1 : ℤ) ∧
      -(x : ℤ) ≤ (egcdHalve x y u a b).2.2 ∧ (egcdHalve x y u a b).2.2 ≤ x := by
  intro u
  induction u using Nat.strong_induction_on with
  | _ u ih =>
    intro a b hu0 heq hbl hbr hodd
    rw [egcdHalve]
    split_ifs with hg
    · obtain ⟨heven, _⟩ := hg
      have hX' : (x : ℤ) % 2 = 1 := by omega
      have h2u : a * x + b * y = 2 * ((u / 2 : ℕ) : ℤ) := by
        rw [heq]
        omega
      obtain ⟨hEq, hBl, hBr⟩ := egcdHalveStep_spec x y a b ((u / 2 : ℕ) : ℤ) hX' h2u hbl hbr
      have hrec := ih (u / 2) (by omega) (egcdHalveStep x y a b).1 (egcdHalveStep x y a b).2
        (by omega) hEq (by omega) (by omega) (fun _ => ⟨hBl, hBr⟩)
      refine ⟨hrec.1, hrec.2.1, ?_, hrec.2.2.2⟩
      obtain ⟨k, hk⟩ := hrec.2.2.1
      refine ⟨k + 1, ?_⟩
      have hu2 : u = 2 * (u / 2) := by omega
      conv_lhs => rw [hu2, hk]
      rw [pow_succ]
      ring
    · have ho : u % 2 = 1 := by omega
      exact ⟨ho, hu0, ⟨0, by norm_num⟩, heq, hodd ho⟩

theorem gcd_halve_left (u u1 v k : ℕ) (hu : u = 2 ^ k * u1)
    (hodd : u % 2 = 1 ∨ v % 2 = 1) (_hu1 : u1 % 2 = 1) :
    Nat.gcd u1 v = Nat.gcd u v := by
  rcases hodd with h | h
  · have hk0 : k = 0 := by
      by_contra hk
      have h2 : 2 ∣ u := by
        rw [hu]
        exact Dvd.dvd.mul_right (dvd_pow_self 2 hk) u1
      omega
    rw [hk0, pow_zero, one_mul] at hu
    rw [hu]
  · have hcop : Nat.Coprime (2 ^ k) v :=
      Nat.Coprime.pow_left k (Nat.coprime_two_left.mpr (Nat.odd_iff.mpr h))
    rw [hu, Nat.Coprime.gcd_mul_left_cancel u1 hcop]

theorem gcd_halve_right (u v v1 l : ℕ) (hv : v = 2 ^ l * v1) (hu : u % 2 = 1) :
    Nat.gcd u v1 = Nat.gcd u v := by
  have hcop : Nat.Coprime (2 ^ l) u :=
    Nat.Coprime.pow_left l (Nat.coprime_two_left.mpr (Nat.odd_iff.mpr hu))
  rw [hv, Nat.Coprime.gcd_mul_left_cancel_right v1 hcop]

theorem egcdLoop_spec (x y : ℕ) (hX : x % 2 = 1) :
    ∀ fuel u v : ℕ, ∀ a b c d : ℤ,
      0 < u → 0 < v → u + v ≤ fuel →
      (u % 2 = 1 ∨ v % 2 = 1) →
      Nat.gcd u v = Nat.gcd x y →
      a * x + b * y = (u : ℤ) →
      c * x + d * y = (v : ℤ) →
      -(2 * (x : ℤ)) ≤ b → b ≤ 2 * x →
      (u % 2 = 1 → -(x : ℤ) ≤ b ∧ b ≤ x) →
      -(2 * (x : ℤ)) ≤ d → d ≤ 2 * x →
      (v % 2 = 1 → -(x : ℤ) ≤ d ∧ d ≤ x) →
      ∃ c' d' : ℤ, ∃ g : ℕ,
        egcdLoop x y fuel u v a b c d = some (c', d', g) ∧
        g = Nat.gcd x y ∧ 0 < g ∧
        c' * x + d' * y = (g : ℤ) ∧
        -(x : ℤ) ≤ d' ∧ d' ≤ x := by
  intro fuel
  induction fuel with
  | zero =>
    intro u v a b c d hu hv hfuel _ _ _ _ _ _ _ _ _ _
    exact absurd hfuel (by omega)
  | succ fuel ih =>
    intro u v a b c d hu hv hfuel hor hgcd hequ heqv hbl hbr hbo hdl hdr hdo
    have hSU := egcdHalve_spec x y hX u a b hu hequ hbl hbr hbo
    have hSV := egcdHalve_spec x y hX v c d hv heqv hdl hdr hdo
    rcases hED : egcdHalve x y u a b with ⟨u1, a1, b1⟩
    rcases hEDV : egcdHalve x y v c d with ⟨v1, c1, d1⟩
    rw [hED] at hSU
    rw [hEDV] at hSV
    dsimp only at hSU hSV
    obtain ⟨hu1o, hu1p, ⟨j, hj⟩, hEqU, hUl, hUr⟩ := hSU
    obtain ⟨hv1o, hv1p, ⟨l, hl⟩, hEqV, hVl, hVr⟩ := hSV
    have hu1u : u1 ≤ u := by
      rw [hj]
      exact Nat.le_mul_of_pos_left u1 (pow_pos (by norm_num) j)
    have hv1v : v1 ≤ v := by
      rw [hl]
      exact Nat.le_mul_of_pos_left v1 (pow_pos (by norm_num) l)
    have hgcd1 : Nat.gcd u1 v1 = Nat.gcd x y := by
      rw [gcd_halve_right u1 v v1 l hl hu1o, gcd_halve_left u u1 v j hj hor hu1o, hgcd]
    rw [egcdLoop, hED, hEDV]
    simp only []
    by_cases hle : v1 ≤ u1
    · rw [if_pos hle]
      by_cases h0 : u1 - v1 = 0
      · rw [if_pos h0]
        have huv : u1 = v1 := by omega
        refine ⟨c1, d1, v1, rfl, ?_, hv1p, hEqV, hVl, hVr⟩
        rw [← hgcd1, huv, Nat.gcd_self]
      · rw [if_neg h0]
        have hcast : ((u1 - v1 : ℕ) : ℤ) = (u1 : ℤ) - v1 := by omega
        refine ih (u1 - v1) v1 (a1 - c1) (b1 - d1) c1 d1 (by omega) hv1p
          (by omega) (Or.inr hv1o) ?_ ?_ hEqV (by omega) (by omega) ?_
          (by omega) (by omega) (fun _ => ⟨hVl, hVr⟩)
        · rw [Nat.gcd_sub_self_left hle, hgcd1]
        · rw [hcast]
          linear_combination hEqU - hEqV
        · intro hcontra
          exfalso
          omega
    · rw [if_neg hle, if_neg (show ¬u1 = 0 by omega)]
      have hcast : ((v1 - u1 : ℕ) : ℤ) = (v1 : ℤ) - u1 := by omega
      refine ih u1 (v1 - u1) a1 b1 (c1 - a1) (d1 - b1) hu1p (by omega)
        (by omega) (Or.inl hu1o) ?_ hEqU ?_ (by omega) (by omega)
        (fun _ => ⟨hUl, hUr⟩) (by omega) (by omega) ?_
      · rw [Nat.gcd_sub_self_right (by omega), hgcd1]
      · rw [hcast]
        linear_combination hEqV - hEqU
      · intro hcontra
        exfalso
        omega

theorem trailingZeros_of_odd (n : ℕ) (h : n % 2 = 1) : trailingZeros n = 0 := by
  cases n with
  | zero => exact absurd h (by norm_num)
  | succ n => rw [trailingZeros, if_pos h]

theorem lor_odd_left (p y : ℕ) (h : p % 2 = 1) : (p ||| y) % 2 = 1 := by
  simp [h]

/-- For an odd first argument no power of two is stripped, and the binary loop
returns Bezout coefficients for `(p, a)` with `|d| ≤ p`, given enough fuel. -/
theorem extendedGcd_odd_spec (p a : ℕ) (hp : p % 2 = 1) (ha : 0 < a) :
    ∃ c d : ℤ,
      extendedGcd p a (p + a) = some (c, d, Nat.gcd p a) ∧
      c * p + d * a = (Nat.gcd p a : ℤ) ∧ -(p : ℤ) ≤ d ∧ d ≤ p := by
  have hp0 : 0 < p := by omega
  have hshift : trailingZeros (p ||| a) = 0 :=
    trailingZeros_of_odd _ (lor_odd_left p a hp)
  obtain ⟨c', d', g, hloop, hg, _hgpos, heq, hdl, hdr⟩ :=
    egcdLoop_spec p a hp (p + a) p a 1 0 0 1 hp0 ha (le_refl _) (Or.inl hp)
      rfl (by ring) (by ring)
      (by omega) (by omega)
      (fun _ => ⟨by omega, by omega⟩)
      (by omega) (by omega)
      (fun _ => ⟨by omega, by omega⟩)
  refine ⟨c', d', ?_, by rw [← hg]; exact heq, hdl, hdr⟩
  rw [extendedGcd, hshift, pow_zero, Nat.div_one, Nat.div_one, hloop]
  simp only [one_mul, hg]

/-- `inv_reduce` on an odd modulus returns the canonical modular inverse. -/
theorem invReduce_spec (p a : ℕ) (hp : p % 2 = 1) (hp1 : 1 < p) (ha : 0 < a)
    (hcop : Nat.gcd p a = 1) :
    ∃ r, invReduce p a (p + a) = some r ∧ 0 < r ∧ r < p ∧ r * a % p = 1 := by
  obtain ⟨c, d, hgcd, heq, hdl, hdr⟩ := extendedGcd_odd_spec p a hp ha
  rw [hcop] at hgcd heq
  push_cast at heq
  have hmod : d * a % (p : ℤ) = 1 % p := by
    have hd : d * a = 1 + (-c) * p := by linear_combination heq
    rw [hd, Int.add_mul_emod_self]
  have h1p : (1 : ℤ) % p = 1 := Int.emod_eq_of_lt (by norm_num) (by exact_mod_cast hp1)
  rw [h1p] at hmod
  have hd0 : d ≠ 0 := by
    intro h
    rw [h, zero_mul, Int.zero_emod] at hmod
    exact absurd hmod (by norm_num)
  have hdp : d ≠ p := by
    intro h
    rw [h, Int.mul_emod_right] at hmod
    exact absurd hmod (by norm_num)
  have hdnp : d ≠ -(p : ℤ) := by
    intro h
    rw [h, show (-(p : ℤ)) * a = p * (-a) from by ring, Int.mul_emod_right] at hmod
    exact absurd hmod (by norm_num)
  by_cases hd : 0 < d
  · refine ⟨d.toNat, ?_, by omega, by omega, ?_⟩
    · rw [invReduce, hgcd]
      simp only []
      rw [if_pos hd]
    · have hc : ((d.toNat * a % p : ℕ) : ℤ) = 1 := by
        push_cast [Int.toNat_of_nonneg hd.le]
        exact hmod
      exact_mod_cast hc
  · refine ⟨(d + p).toNat, ?_, by omega, by omega, ?_⟩
    · rw [invReduce, hgcd]
      simp only []
      rw [if_neg hd]
    · have h2 : ((d + p) * a) % (p : ℤ) = 1 := by
        rw [show (d + (p : ℤ)) * a = d * a + p * a from by ring,
          Int.add_mul_emod_self_left]
        exact hmod
      have hc : (((d + p).toNat * a % p : ℕ) : ℤ) = 1 := by
        push_cast [Int.toNat_of_nonneg (by omega : (0 : ℤ) ≤ d + p)]
        exact h2
      exact_mod_cast hc

/-- **C7.** For canonical operands in `[0, p)` every normalizing modular
operation — `add_reduce`, `sub_reduce`, `neg_reduce`, the Barrett
`mul_reduce` and `pow_reduce`, the Shoup `mul_reduce`, and `inv_reduce`
(for an odd modulus and an invertible operand) — returns the canonical
representative of the mathematical result in `[0, p)`, while the lazy/fast
variants (`lazy_mul_reduce`, Shoup `mul_reduce_lazy`) return congruent values
that are only guaranteed to lie in `[0, 2p)`. -/
theorem C7_normalizing_ops_canonical (w p : ℕ) (h2 : 2 ≤ p) (hpB : 4 * p ≤ 2 ^ w) :
    ∀ x y : ℕ, x < p → y < p →
      (addReduce p x y = (x + y) % p ∧ addReduce p x y < p) ∧
      (subReduce p x y = (x + (p - y)) % p ∧ subReduce p x y < p) ∧
      (negReduce p x = (p - x) % p ∧ negReduce p x < p) ∧
      (mulReduce w (barrettModulus w p) x y = x * y % p ∧
        mulReduce w (barrettModulus w p) x y < p) ∧
      (∀ e, powReduce w (barrettModulus w p) x e = x ^ e % p ∧
        powReduce w (barrettModulus w p) x e < p) ∧
      (shoupMulReduce w (shoupFactorNew w x p) y p = x * y % p ∧
        shoupMulReduce w (shoupFactorNew w x p) y p < p) ∧
      (lazyMulReduce w (barrettModulus w p) x y < 2 * p ∧
        lazyMulReduce w (barrettModulus w p) x y % p = x * y % p) ∧
      (shoupMulReduceLazy w (shoupFactorNew w x p) y p < 2 * p ∧
        shoupMulReduceLazy w (shoupFactorNew w x p) y p % p = x * y % p) ∧
      (p % 2 = 1 → 0 < x → Nat.gcd p x = 1 →
        ∃ r, invReduce p x (p + x) = some r ∧ 0 < r ∧ r < p ∧ r * x % p = 1) := by
  intro x y hx hy
  have hp0 : 0 < p := by omega
  have hxB : x < 2 ^ w := by omega
  have hyB : y < 2 ^ w := by omega
  have h2p : 2 * p ≤ 2 ^ w := by omega
  refine ⟨?_, ?_, ?_, ?_, ?_, ?_, ?_, ?_, ?_⟩
  · -- add
    rw [addReduce]
    split_ifs with h
    · have : x + y < 2 * p := by omega
      constructor
      · have hsplit : x + y = p + (x + y - p) := by omega
        rw [hsplit, Nat.add_mod_left, Nat.mod_eq_of_lt (by omega)]
        omega
      · omega
    · exact ⟨(Nat.mod_eq_of_lt (by omega)).symm, by omega⟩
  · -- sub
    rw [subReduce]
    split_ifs with h
    · constructor
      · have hsplit : x + (p - y) = p + (x - y) := by omega
        rw [hsplit, Nat.add_mod_left, Nat.mod_eq_of_lt (by omega)]
      · omega
    · constructor
      · rw [Nat.mod_eq_of_lt (by omega)]
        omega
      · omega
  · -- neg
    rw [negReduce]
    split_ifs with h
    · subst h
      exact ⟨by simp, hp0⟩
    · exact ⟨(Nat.mod_eq_of_lt (by omega)).symm, by omega⟩
  · -- Barrett mul
    have := mulReduce_eq w p x y h2 hpB hxB hyB
    exact ⟨this, by rw [this]; exact Nat.mod_lt _ hp0⟩
  · -- Barrett pow
    intro e
    have := powReduce_eq w p x e h2 hpB hx
    exact ⟨this, by rw [this]; exact Nat.mod_lt _ hp0⟩
  · -- Shoup mul (canonical)
    have := shoupMulReduce_eq w p x y hp0 h2p hx hyB
    exact ⟨this, by rw [this]; exact Nat.mod_lt _ hp0⟩
  · -- Barrett lazy mul
    exact lazyMulReduce_spec w p x y h2 hpB hxB hyB
  · -- Shoup lazy mul
    obtain ⟨-, hlt, hmod⟩ := shoupMulReduceLazy_spec w p x y hp0 h2p hx hyB
    exact ⟨hlt, hmod⟩
  · -- inverse
    intro hodd hx0 hcop
    exact invReduce_spec p x hodd (by omega) hx0 hcop

theorem C7_normalizing_ops_canonical_witness :
    addReduce 5 3 4 = 2 ∧ subReduce 5 3 4 = 4 ∧ negReduce 5 3 = 2 ∧
    mulReduce 8 (barrettModulus 8 5) 3 4 = 2 ∧
    powReduce 8 (barrettModulus 8 5) 3 3 = 2 ∧
    shoupMulReduce 8 (shoupFactorNew 8 3 5) 4 5 = 2 ∧
    lazyMulReduce 8 (barrettModulus 8 5) 3 4 < 10 ∧
    (∃ r, invReduce 5 3 (5 + 3) = some r ∧ 0 < r ∧ r < 5 ∧ r * 3 % 5 = 1) := by
  obtain ⟨hadd, hsub, hneg, hmul, hpow, hshoup, hlazy, -, hinv⟩ :=
    C7_normalizing_ops_canonical 8 5 (by norm_num) (by norm_num) 3 4
      (by norm_num) (by norm_num)
  exact ⟨hadd.1.trans (by norm_num), hsub.1.trans (by norm_num),
    hneg.1.trans (by norm_num), hmul.1.trans (by norm_num),
    (hpow 3).1.trans (by norm_num), hshoup.1.trans (by norm_num),
    hlazy.1, hinv (by norm_num) (by norm_num) (by norm_num)⟩

/-! ## Negacyclic NTT (`algebra/src/transformation/ntt_table.rs`,
table construction in `algebra_derive/src/ntt.rs`)

Word width `w` and modulus `p` are explicit parameters; `β = 2^w`.  Buffer
elements are plain `ℕ` values.  Table roots are stored canonically (`< p`);
`to_root` turns a value into a Shoup factor via `ShoupFactor::new`, so
`mul_root_fast a root` is `shoupMulReduceLazy` of the stored value. -/

/-- `ReverseLsbs::reverse_lsbs`: reverse the lowest `bits` bits
(`self.reverse_bits() >> (Self::BITS - bits)`; `0` for `bits = 0`). -/
def reverseLsbs : ℕ → ℕ → ℕ
  | _, 0 => 0
  | x, k + 1 => 2 ^ k * (x % 2) + reverseLsbs (x / 2) k

/-- `guard`: one conditional subtraction down into `[0, 2p)`. -/
def guardSub (p a : ℕ) : ℕ := if 2 * p ≤ a then a - 2 * p else a

/-- `ntt_normalize_assign`: two conditional subtractions into `[0, p)`. -/
def nttNormalize (p a : ℕ) : ℕ :=
  let r := if 2 * p ≤ a then a - 2 * p else a
  if p ≤ r then r - p else r

/-- `intt_normalize_assign`: one conditional subtraction into `[0, p)`. -/
def inttNormalize (p a : ℕ) : ℕ := if p ≤ a then a - p else a

/-- `add_no_reduce`. -/
def addNoReduce (a b : ℕ) : ℕ := a + b

/-- `add_fast`: add with one conditional subtraction of `2p`. -/
def addFast (p a b : ℕ) : ℕ :=
  let r := a + b
  if 2 * p ≤ r then r - 2 * p else r

/-- `sub_fast`: `a + 2p − b`. -/
def subFast (p a b : ℕ) : ℕ := a + 2 * p - b

/-- `mul_root_fast`: lazy Shoup multiplication by a table root stored as its
canonical value `root`. -/
def mulRootFast (w p root a : ℕ) : ℕ :=
  shoupMulReduceLazy w (shoupFactorNew w root p) a p

/-- One forward (Cooley–Tukey) layer of `transform_slice` with gap `g`,
consuming one root per `2g`-chunk. -/
def ctLayer (w p g : ℕ) : List ℕ → List ℕ → List ℕ
  | [], _ => []
  | r :: rs, values =>
      (List.zipWith
        (fun a b => addNoReduce (guardSub p a) (mulRootFast w p r b))
        (values.take g) ((values.drop g).take g)
      ++ List.zipWith
        (fun a b => subFast p (guardSub p a) (mulRootFast w p r b))
        (values.take g) ((values.drop g).take g))
      ++ ctLayer w p g rs (values.drop (2 * g))

/-- The forward layer loop of `transform_slice`: `k` layers remain, the
current one has gap `2^(k-1)` and `c` chunks; roots are consumed
sequentially. -/
def ctLayers (w p : ℕ) : ℕ → ℕ → List ℕ → List ℕ → List ℕ
  | 0, _, _, values => values
  | k + 1, c, roots, values =>
      ctLayers w p k (2 * c) (roots.drop c)
        (ctLayer w p (2 ^ k) (roots.take c) values)

/-- `transform_slice`: the layer loop over `roots[1..]`, then the two-step
normalization. -/
def transformSlice (w p logn : ℕ) (roots values : List ℕ) : List ℕ :=
  (ctLayers w p logn 1 (roots.drop 1) values).map (nttNormalize p)

/-- One inverse (Gentleman–Sande) layer of `inverse_transform_slice` with
gap `g`. -/
def gsLayer (w p g : ℕ) : List ℕ → List ℕ → List ℕ
  | [], _ => []
  | r :: rs, values =>
      (List.zipWith (fun a b => addFast p a b)
        (values.take g) ((values.drop g).take g)
      ++ List.zipWith (fun a b => mulRootFast w p r (subFast p a b))
        (values.take g) ((values.drop g).take g))
      ++ gsLayer w p g rs (values.drop (2 * g))

/-- The inverse layer loop (all layers except the fused final one): `m`
layers remain, the current one has gap `2^j` and `c` chunks; returns the
unconsumed roots together with the values. -/
def gsLayers (w p : ℕ) : ℕ → ℕ → ℕ → List ℕ → List ℕ → List ℕ × List ℕ
  | 0, _, _, roots, values => (roots, values)
  | m + 1, j, c, roots, values =>
      gsLayers w p m (j + 1) (c / 2) (roots.drop c)
        (gsLayer w p (2 ^ j) (roots.take c) values)

/-- The fused final inverse layer (gap `n/2`): scale the sum by
`inv_degree` and the difference by `scaled_r`. -/
def gsFinal (w p g scalar scaledR : ℕ) (values : List ℕ) : List ℕ :=
  List.zipWith (fun a b => mulRootFast w p scalar (addNoReduce a b))
    (values.take g) ((values.drop g).take g)
  ++ List.zipWith (fun a b => mulRootFast w p scaledR (subFast p a b))
    (values.take g) ((values.drop g).take g)

/-- `inverse_transform_slice`: the layer loop over `inv_roots[1..]`, the
fused final layer with `scaled_r = inv_degree ⊙ next_root` (canonical Shoup
product), then the one-step normalization. -/
def inverseTransformSlice (w p logn invDeg : ℕ) (invRoots values : List ℕ) :
    List ℕ :=
  let step := gsLayers w p (logn - 1) 0 (2 ^ logn / 2) (invRoots.drop 1) values
  let scaledR := shoupMulReduce w (shoupFactorNew w invDeg p) (step.1.headD 0) p
  (gsFinal w p (2 ^ (logn - 1)) invDeg scaledR step.2).map (inttNormalize p)

/-- `ordinal_root_powers`: `[1, ω, ω², …, ω^{2n-1}]` reduced mod `p` (the
source fills the vector iteratively by the canonical Shoup multiplication
`power ← power·ω mod p` starting from `1`, which is `ω^i mod p` at index
`i`). -/
def ordinalRootPowers (p root n2 : ℕ) : List ℕ :=
  (List.range n2).map fun i => root ^ i % p

/-- `root_powers` of `NTTTable::new`: the source scatters
`root_powers[reverse_lsbs i] ← ω^i` for `i < n`; since `reverse_lsbs` is an
involution on `log n` bits this is the gather
`root_powers[j] = ω^{reverse_lsbs j}`. -/
def rootPowersList (p root logn : ℕ) : List ℕ :=
  (List.range (2 ^ logn)).map fun j => root ^ reverseLsbs j logn % p

/-- `inv_root_powers` of `NTTTable::new`: the source scatters
`inv_root_powers[reverse_lsbs i + 1] ← ω^{2n-1-i}` for `i < n-1` with entry
`0` set to `1`; substituting `j = reverse_lsbs i + 1` gives the gather
`inv_root_powers[j] = ω^{2n-(reverse_lsbs (j-1) + 1)}` for `j ≥ 1`. -/
def invRootPowersList (p root logn : ℕ) : List ℕ :=
  (List.range (2 ^ logn)).map fun j =>
    if j = 0 then 1 % p
    else root ^ (2 * 2 ^ logn - (reverseLsbs (j - 1) logn + 1)) % p

theorem reverseLsbs_lt (k : ℕ) : ∀ x, reverseLsbs x k < 2 ^ k := by
  induction k with
  | zero => intro x; simp [reverseLsbs]
  | succ k ih =>
    intro x
    rw [reverseLsbs]
    have h1 := ih (x / 2)
    have h2 : x % 2 < 2 := Nat.mod_lt _ (by norm_num)
    have h3 : (2 : ℕ) ^ (k + 1) = 2 ^ k * 2 := pow_succ 2 k
    have h4 : 2 ^ k * (x % 2) ≤ 2 ^ k * 1 := Nat.mul_le_mul_left _ (by omega)
    omega

theorem reverseLsbs_zero (k : ℕ) : reverseLsbs 0 k = 0 := by
  induction k with
  | zero => rfl
  | succ k ih => rw [reverseLsbs]; simp [ih]

theorem reverseLsbs_split (l : ℕ) :
    ∀ k x lo hi, x = lo + 2 ^ l * hi → lo < 2 ^ l → l ≤ k →
      reverseLsbs x k = reverseLsbs hi (k - l) + 2 ^ (k - l) * reverseLsbs lo l := by
  induction l with
  | zero =>
    intro k x lo hi hx hlo _
    have hlo0 : lo = 0 := by omega
    subst hlo0
    rw [hx]
    simp [reverseLsbs]
  | succ l ih =>
    intro k x lo hi hx hlo hlk
    obtain ⟨k', rfl⟩ : ∃ k', k = k' + 1 := ⟨k - 1, by omega⟩
    have hl : l ≤ k' := by omega
    rw [reverseLsbs, reverseLsbs]
    have hx' : x = lo + 2 * (2 ^ l * hi) := by rw [hx, pow_succ]; ring
    have hx2 : x % 2 = lo % 2 := by omega
    have hxd : x / 2 = lo / 2 + 2 ^ l * hi := by omega
    have hIH := ih k' (x / 2) (lo / 2) hi hxd (by omega) hl
    rw [hIH, hx2]
    have hk : k' + 1 - (l + 1) = k' - l := by omega
    rw [hk]
    have hpow : (2 : ℕ) ^ k' = 2 ^ (k' - l) * 2 ^ l := by
      rw [← pow_add]
      congr 1
      omega
    rw [hpow]
    ring

theorem reverseLsbs_one (m : ℕ) (hm : 1 ≤ m) : reverseLsbs 1 m = 2 ^ (m - 1) := by
  obtain ⟨m', rfl⟩ : ∃ m', m = m' + 1 := ⟨m - 1, by omega⟩
  rw [reverseLsbs]
  simp [reverseLsbs_zero]

theorem reverseLsbs_all_ones (k : ℕ) : reverseLsbs (2 ^ k - 1) k = 2 ^ k - 1 := by
  induction k with
  | zero => rfl
  | succ k ih =>
    rw [reverseLsbs]
    have h2 : (2 : ℕ) ^ (k + 1) = 2 ^ k * 2 := pow_succ 2 k
    have h1 : (1 : ℕ) ≤ 2 ^ k := Nat.one_le_two_pow
    have hm : (2 ^ (k + 1) - 1) % 2 = 1 := by omega
    have hd : (2 ^ (k + 1) - 1) / 2 = 2 ^ k - 1 := by omega
    rw [hm, hd, ih]
    omega

theorem reverseLsbs_pow_sub_two (m : ℕ) (hm : 1 ≤ m) :
    reverseLsbs (2 ^ m - 2) m = 2 ^ (m - 1) - 1 := by
  obtain ⟨m', rfl⟩ : ∃ m', m = m' + 1 := ⟨m - 1, by omega⟩
  rw [reverseLsbs]
  have h2 : (2 : ℕ) ^ (m' + 1) = 2 ^ m' * 2 := pow_succ 2 m'
  have h1 : (1 : ℕ) ≤ 2 ^ m' := Nat.one_le_two_pow
  have hmod : (2 ^ (m' + 1) - 2) % 2 = 0 := by omega
  have hd : (2 ^ (m' + 1) - 2) / 2 = 2 ^ m' - 1 := by omega
  rw [hmod, hd, reverseLsbs_all_ones]
  simp

/-- Bit-reversal of a forward-layer root index: the root consumed by chunk
`c` of the layer with gap `g = 2^(logn-1-l)` is `ω^{g(2·rev_l(c)+1)}`. -/
theorem reverseLsbs_layer_index (logn l c : ℕ) (hl : l < logn) (hc : c < 2 ^ l) :
    reverseLsbs (2 ^ l + c) logn
      = 2 ^ (logn - 1 - l) * (2 * reverseLsbs c l + 1) := by
  have h := reverseLsbs_split l logn (2 ^ l + c) c 1 (by ring) hc (by omega)
  rw [h, reverseLsbs_one _ (by omega)]
  have h1 : logn - l - 1 = logn - 1 - l := by omega
  have h2 : logn - l = (logn - 1 - l) + 1 := by omega
  rw [h1, h2, pow_succ]
  ring

/-- Bit-reversal of an inverse-layer root index: the inverse root consumed
opposite forward chunk `(l, c)` sits at table position
`n - 2^(l+1) + c + 1`, and its exponent complements the forward one. -/
theorem reverseLsbs_inv_index (logn l c : ℕ) (hl : l < logn) (hc : c < 2 ^ l) :
    reverseLsbs (2 ^ logn - 2 ^ (l + 1) + c) logn + 1
      = reverseLsbs (2 ^ l + c) logn := by
  have hm1 : 1 ≤ logn - l := by omega
  have hsplit : 2 ^ logn - 2 ^ (l + 1) + c = c + 2 ^ l * (2 ^ (logn - l) - 2) := by
    have hp : (2 : ℕ) ^ logn = 2 ^ l * 2 ^ (logn - l) := by
      rw [← pow_add]
      congr 1
      omega
    have hp1 : (2 : ℕ) ^ (l + 1) = 2 ^ l * 2 := pow_succ 2 l
    have h1 : (2 : ℕ) ≤ 2 ^ (logn - l) :=
      le_trans (by norm_num) (Nat.pow_le_pow_right (by norm_num) hm1)
    have hd : 2 ^ l * (2 ^ (logn - l) - 2) + 2 ^ l * 2 = 2 ^ l * 2 ^ (logn - l) := by
      rw [← Nat.mul_add]
      congr 1
      omega
    omega
  have h := reverseLsbs_split l logn _ c (2 ^ (logn - l) - 2) hsplit hc (by omega)
  rw [h, reverseLsbs_pow_sub_two _ hm1,
    reverseLsbs_layer_index logn l c hl hc]
  have h1 : logn - l - 1 = logn - 1 - l := by omega
  have h2 : logn - l = (logn - 1 - l) + 1 := by omega
  have h3 : (1 : ℕ) ≤ 2 ^ (logn - 1 - l) := Nat.one_le_two_pow
  rw [h1, h2, pow_succ]
  have e3 : 2 ^ (logn - 1 - l) * 2 * reverseLsbs c l
      = 2 * (2 ^ (logn - 1 - l) * reverseLsbs c l) := by ring
  have e4 : 2 ^ (logn - 1 - l) * (2 * reverseLsbs c l + 1)
      = 2 * (2 ^ (logn - 1 - l) * reverseLsbs c l) + 2 ^ (logn - 1 - l) := by ring
  omega

/-! ### Ideal (exact modular) transforms

The lazy `ℕ` algorithm is related below to ideal layers over `ZMod p`; the
ideal layers take the root of chunk `c` of a layer as a function value, which
the simulation instantiates with the table entries the iterator hands out. -/

/-- Ideal Cooley–Tukey layer: `nc` chunks of size `2g`, the chunk at running
index `c` twisted by `ρ c` via `(u, v) ↦ (u + ρc·v, u − ρc·v)`. -/
def idealCtLayer {α : Type} [CommRing α] (g : ℕ) (ρ : ℕ → α) :
    ℕ → ℕ → List α → List α
  | 0, _, _ => []
  | nc + 1, c, values =>
      (List.zipWith (fun u v => u + ρ c * v)
        (values.take g) ((values.drop g).take g)
      ++ List.zipWith (fun u v => u - ρ c * v)
        (values.take g) ((values.drop g).take g))
      ++ idealCtLayer g ρ nc (c + 1) (values.drop (2 * g))

/-- Ideal Gentleman–Sande layer: `(u, v) ↦ (u + v, ρc·(u − v))`. -/
def idealGsLayer {α : Type} [CommRing α] (g : ℕ) (ρ : ℕ → α) :
    ℕ → ℕ → List α → List α
  | 0, _, _ => []
  | nc + 1, c, values =>
      (List.zipWith (fun u v => u + v)
        (values.take g) ((values.drop g).take g)
      ++ List.zipWith (fun u v => ρ c * (u - v))
        (values.take g) ((values.drop g).take g))
      ++ idealGsLayer g ρ nc (c + 1) (values.drop (2 * g))

/-- Ideal forward layer loop: `k` layers remain, the current one is layer
`l` with gap `2^(k-1)` and `2^l` chunks. -/
def idealCtLayers {α : Type} [CommRing α] (ρ : ℕ → ℕ → α) :
    ℕ → ℕ → List α → List α
  | 0, _, values => values
  | k + 1, l, values =>
      idealCtLayers ρ k (l + 1) (idealCtLayer (2 ^ k) (ρ l) (2 ^ l) 0 values)

/-- Ideal inverse layer loop: `m` layers remain, the current one is layer
`j` with gap `2^j` and `2^e` chunks. -/
def idealGsLayers {α : Type} [CommRing α] (ρ : ℕ → ℕ → α) :
    ℕ → ℕ → ℕ → List α → List α
  | 0, _, _, values => values
  | m + 1, j, e, values =>
      idealGsLayers ρ m (j + 1) (e - 1) (idealGsLayer (2 ^ j) (ρ j) (2 ^ e) 0 values)

/-- Ideal fused final inverse layer: `(u, v) ↦ (s·(u+v), r·(u−v))`. -/
def idealGsFinal {α : Type} [CommRing α] (g : ℕ) (s r : α) (values : List α) :
    List α :=
  List.zipWith (fun u v => s * (u + v)) (values.take g) ((values.drop g).take g)
  ++ List.zipWith (fun u v => r * (u - v)) (values.take g) ((values.drop g).take g)

theorem zipWith_pair_fst {α β : Type} (f : α → α → β) (m : α → β)
    (hf : ∀ x y, f x y = m x) :
    ∀ a b : List α, a.length ≤ b.length → List.zipWith f a b = a.map m := by
  intro a
  induction a with
  | nil => intro b _; simp
  | cons x xs ih =>
    intro b hb
    cases b with
    | nil => simp at hb
    | cons y ys =>
      simp only [List.zipWith, List.map, hf x y]
      rw [ih ys (by simpa using hb)]

theorem zipWith_pair_snd {α β : Type} (f : α → α → β) (m : α → β)
    (hf : ∀ x y, f x y = m y) :
    ∀ a b : List α, b.length ≤ a.length → List.zipWith f a b = b.map m := by
  intro a
  induction a with
  | nil =>
    intro b hb
    simp only [List.length_nil, Nat.le_zero, List.length_eq_zero] at hb
    subst hb
    simp
  | cons x xs ih =>
    intro b hb
    cases b with
    | nil => simp
    | cons y ys =>
      simp only [List.zipWith, List.map, hf x y]
      rw [ih ys (by simpa using hb)]

theorem take_append_drop_chunk {α : Type} (g : ℕ) (vs : List α) :
    vs.take g ++ ((vs.drop g).take g ++ (vs.drop g).drop g) = vs := by
  rw [List.take_append_drop, List.take_append_drop]

theorem zipWith_same_pair {α β : Type} (f : β → β → β) (g h : α → α → β) :
    ∀ a b : List α, List.zipWith f (List.zipWith g a b) (List.zipWith h a b)
      = List.zipWith (fun x y => f (g x y) (h x y)) a b := by
  intro a
  induction a with
  | nil => intro b; simp
  | cons x xs ih =>
    intro b
    cases b <;> simp [ih]

/-- Composition of one ideal GS layer after the matching CT layer doubles
every entry, provided each chunk's roots multiply to `1`. -/
theorem idealGs_ct_cancel {α : Type} [CommRing α] (g : ℕ) (ρ ρ' : ℕ → α) :
    ∀ nc c0 vs, (∀ c, c0 ≤ c → c < c0 + nc → ρ' c * ρ c = 1) →
      vs.length = 2 * g * nc →
      idealGsLayer g ρ' nc c0 (idealCtLayer g ρ nc c0 vs)
        = vs.map (fun u => 2 * u) := by
  intro nc
  induction nc with
  | zero =>
    intro c0 vs _ hlen
    have : vs = [] := List.length_eq_zero.mp (by omega)
    subst this
    simp [idealCtLayer, idealGsLayer]
  | succ nc ih =>
    intro c0 vs hinv hlen
    have hlen' : vs.length = 2 * g * nc + 2 * g := by rw [hlen]; ring
    have hA : (vs.take g).length = g := by
      rw [List.length_take]
      omega
    have hB : ((vs.drop g).take g).length = g := by
      rw [List.length_take, List.length_drop]
      omega
    have hR : ((vs.drop g).drop g).length = 2 * g * nc := by
      rw [List.length_drop, List.length_drop]
      omega
    rw [idealCtLayer, idealGsLayer]
    set A := vs.take g with hAdef
    set B := (vs.drop g).take g with hBdef
    set T := List.zipWith (fun u v => u + ρ c0 * v) A B with hT
    set S := List.zipWith (fun u v => u - ρ c0 * v) A B with hS
    have hTlen : T.length = g := by
      rw [hT, List.length_zipWith]
      omega
    have hSlen : S.length = g := by
      rw [hS, List.length_zipWith]
      omega
    have hdrop2 : vs.drop (2 * g) = (vs.drop g).drop g := by
      rw [List.drop_drop]
      congr 1
      omega
    have htake : ((T ++ S) ++ idealCtLayer g ρ nc (c0 + 1) (vs.drop (2 * g))).take g
        = T := by
      rw [List.append_assoc, List.take_append_of_le_length (by omega),
        List.take_of_length_le (by omega)]
    have hmid : (((T ++ S) ++ idealCtLayer g ρ nc (c0 + 1) (vs.drop (2 * g))).drop g).take g
        = S := by
      rw [List.append_assoc, List.drop_append_of_le_length (by omega),
        List.drop_eq_nil_of_le (by omega), List.nil_append,
        List.take_append_of_le_length (by omega),
        List.take_of_length_le (by omega)]
    have hrest : ((T ++ S) ++ idealCtLayer g ρ nc (c0 + 1) (vs.drop (2 * g))).drop (2 * g)
        = idealCtLayer g ρ nc (c0 + 1) (vs.drop (2 * g)) := by
      rw [List.drop_append_of_le_length (by rw [List.length_append]; omega),
        List.drop_eq_nil_of_le (by rw [List.length_append]; omega), List.nil_append]
    rw [htake, hmid, hrest]
    have hzz1 : List.zipWith (fun u v => u + v) T S = A.map (fun u => 2 * u) := by
      rw [hT, hS, zipWith_same_pair]
      exact zipWith_pair_fst _ _ (fun x y => by ring) A B (by omega)
    have hzz2 : List.zipWith (fun u v => ρ' c0 * (u - v)) T S
        = B.map (fun u => 2 * u) := by
      rw [hT, hS, zipWith_same_pair]
      refine zipWith_pair_snd _ _ (fun x y => ?_) A B (by omega)
      linear_combination (2 * y) * hinv c0 (le_refl _) (by omega)
    rw [hzz1, hzz2,
      ih (c0 + 1) _ (fun c h1 h2 => hinv c (by omega) (by omega))
        (by rw [hdrop2]; exact hR),
      hdrop2]
    conv_rhs => rw [← take_append_drop_chunk g vs]
    rw [List.map_append, List.map_append, List.append_assoc]

theorem zipWith_map_both {α β : Type} (f : α → α → β) (m : α → α) :
    ∀ a b : List α, List.zipWith f (a.map m) (b.map m)
      = List.zipWith (fun x y => f (m x) (m y)) a b := by
  intro a
  induction a with
  | nil => intro b; simp
  | cons x xs ih =>
    intro b
    cases b <;> simp [ih]

theorem idealCtLayer_length {α : Type} [CommRing α] (g : ℕ) (ρ : ℕ → α) :
    ∀ nc c vs, vs.length = 2 * g * nc →
      (idealCtLayer g ρ nc c vs).length = 2 * g * nc := by
  intro nc
  induction nc with
  | zero => intro c vs _; simp [idealCtLayer]
  | succ nc ih =>
    intro c vs hlen
    have hlen' : vs.length = 2 * g * nc + 2 * g := by rw [hlen]; ring
    rw [idealCtLayer]
    rw [List.length_append, List.length_append, List.length_zipWith,
      List.length_zipWith, ih _ _ (by rw [List.length_drop]; omega),
      List.length_take, List.length_take, List.length_drop]
    have := Nat.min_le_left g (vs.length - g)
    omega

theorem idealGsLayer_length {α : Type} [CommRing α] (g : ℕ) (ρ : ℕ → α) :
    ∀ nc c vs, vs.length = 2 * g * nc →
      (idealGsLayer g ρ nc c vs).length = 2 * g * nc := by
  intro nc
  induction nc with
  | zero => intro c vs _; simp [idealGsLayer]
  | succ nc ih =>
    intro c vs hlen
    have hlen' : vs.length = 2 * g * nc + 2 * g := by rw [hlen]; ring
    rw [idealGsLayer]
    rw [List.length_append, List.length_append, List.length_zipWith,
      List.length_zipWith, ih _ _ (by rw [List.length_drop]; omega),
      List.length_take, List.length_take, List.length_drop]
    have := Nat.min_le_left g (vs.length - g)
    omega

theorem idealGsLayer_map_mul {α : Type} [CommRing α] (g : ℕ) (ρ : ℕ → α) (s : α) :
    ∀ nc c vs, idealGsLayer g ρ nc c (vs.map (fun u => s * u))
      = (idealGsLayer g ρ nc c vs).map (fun u => s * u) := by
  intro nc
  induction nc with
  | zero => intro c vs; simp [idealGsLayer]
  | succ nc ih =>
    intro c vs
    rw [idealGsLayer, idealGsLayer]
    rw [← List.map_take, ← List.map_drop, ← List.map_take, ← List.map_drop,
      zipWith_map_both, zipWith_map_both, ih]
    rw [List.map_append, List.map_append, List.map_zipWith, List.map_zipWith]
    congr 2
    · congr 1
      funext x y
      ring
    · congr 1
      funext x y
      ring

theorem idealGsFinal_map_mul {α : Type} [CommRing α] (g : ℕ) (s r t : α)
    (vs : List α) :
    idealGsFinal g s r (vs.map (fun u => t * u))
      = (idealGsFinal g s r vs).map (fun u => t * u) := by
  rw [idealGsFinal, idealGsFinal]
  rw [← List.map_take, ← List.map_drop, ← List.map_take,
    zipWith_map_both, zipWith_map_both]
  rw [List.map_append, List.map_zipWith, List.map_zipWith]
  congr 2
  · funext x y
    ring
  · funext x y
    ring

theorem idealGsLayers_map_mul {α : Type} [CommRing α] (ρ : ℕ → ℕ → α) (s : α) :
    ∀ m j e vs, idealGsLayers ρ m j e (vs.map (fun u => s * u))
      = (idealGsLayers ρ m j e vs).map (fun u => s * u) := by
  intro m
  induction m with
  | zero => intro j e vs; simp [idealGsLayers]
  | succ m ih =>
    intro j e vs
    rw [idealGsLayers, idealGsLayers, idealGsLayer_map_mul, ih]

theorem idealGsLayers_snoc {α : Type} [CommRing α] (ρ : ℕ → ℕ → α) :
    ∀ k j e vs, idealGsLayers ρ (k + 1) j e vs
      = idealGsLayer (2 ^ (j + k)) (ρ (j + k)) (2 ^ (e - k)) 0
          (idealGsLayers ρ k j e vs) := by
  intro k
  induction k with
  | zero =>
    intro j e vs
    rw [idealGsLayers, idealGsLayers, idealGsLayers]
    simp
  | succ k ih =>
    intro j e vs
    rw [idealGsLayers, ih (j + 1) (e - 1)]
    conv_rhs => rw [idealGsLayers]
    have h1 : j + 1 + k = j + (k + 1) := by omega
    have h2 : e - 1 - k = e - (k + 1) := by omega
    rw [h1, h2]

/-- The fused final inverse layer undoes a single-chunk CT layer up to the
factor `2s`. -/
theorem idealGsFinal_ct_cancel {α : Type} [CommRing α] (g : ℕ) (ρ : ℕ → α)
    (s sr r' : α) (hr : r' * ρ 0 = 1) (hsr : sr = s * r') :
    ∀ vs : List α, vs.length = 2 * g →
      idealGsFinal g s sr (idealCtLayer g ρ 1 0 vs)
        = vs.map (fun u => (2 * s) * u) := by
  intro vs hlen
  have hA : (vs.take g).length = g := by
    rw [List.length_take]
    omega
  have hB : ((vs.drop g).take g).length = g := by
    rw [List.length_take, List.length_drop]
    omega
  rw [idealCtLayer, idealCtLayer, idealGsFinal]
  set A := vs.take g with hAdef
  set B := (vs.drop g).take g with hBdef
  set T := List.zipWith (fun u v => u + ρ 0 * v) A B with hT
  set S := List.zipWith (fun u v => u - ρ 0 * v) A B with hS
  have hTlen : T.length = g := by
    rw [hT, List.length_zipWith]
    omega
  have hSlen : S.length = g := by
    rw [hS, List.length_zipWith]
    omega
  have happ : (T ++ S) ++ [] = T ++ S := by simp
  rw [happ]
  have htake : (T ++ S).take g = T := by
    rw [List.take_append_of_le_length (by omega), List.take_of_length_le (by omega)]
  have hmid : ((T ++ S).drop g).take g = S := by
    rw [List.drop_append_of_le_length (by omega),
      List.drop_eq_nil_of_le (by omega), List.nil_append,
      List.take_of_length_le (by omega)]
  rw [htake, hmid]
  have hzz1 : List.zipWith (fun u v => s * (u + v)) T S
      = A.map (fun u => (2 * s) * u) := by
    rw [hT, hS, zipWith_same_pair]
    exact zipWith_pair_fst _ _ (fun x y => by ring) A B (by omega)
  have hzz2 : List.zipWith (fun u v => sr * (u - v)) T S
      = B.map (fun u => (2 * s) * u) := by
    rw [hT, hS, zipWith_same_pair]
    refine zipWith_pair_snd _ _ (fun x y => ?_) A B (by omega)
    rw [hsr]
    linear_combination (2 * s * y) * hr
  rw [hzz1, hzz2]
  have hsplit : vs.take g ++ ((vs.drop g).take g ++ (vs.drop g).drop g) = vs :=
    take_append_drop_chunk g vs
  have hdd : (vs.drop g).drop g = [] :=
    List.drop_eq_nil_of_le (by rw [List.length_drop]; omega)
  rw [hdd, List.append_nil] at hsplit
  conv_rhs => rw [← hsplit]
  rw [List.map_append]

/-- Inner telescoping: the first `t` ideal inverse layers undo the last `t`
ideal forward layers up to the factor `2^t`. -/
theorem ideal_telescope {α : Type} [CommRing α] (logn : ℕ) (ρ ρ' : ℕ → ℕ → α)
    (hpair : ∀ l c, l < logn → c < 2 ^ l → ρ' (logn - 1 - l) c * ρ l c = 1) :
    ∀ t, t ≤ logn - 1 → ∀ vs : List α, vs.length = 2 ^ logn →
      idealGsLayers ρ' t 0 (logn - 1) (idealCtLayers ρ t (logn - t) vs)
        = vs.map (fun u => 2 ^ t * u) := by
  intro t
  induction t with
  | zero =>
    intro _ vs _
    simp [idealGsLayers, idealCtLayers]
  | succ t ih =>
    intro ht vs hlen
    rw [idealCtLayers]
    set l0 := logn - (t + 1) with hl0
    have he1 : l0 + 1 = logn - t := by omega
    rw [he1]
    set ctX := idealCtLayer (2 ^ t) (ρ l0) (2 ^ l0) 0 vs with hctX
    have hfact : 2 * 2 ^ t * 2 ^ l0 = 2 ^ logn := by
      rw [show 2 * 2 ^ t * 2 ^ l0 = 2 ^ (1 + t + l0) from by
        rw [pow_add, pow_add, pow_one]]
      congr 1
      omega
    have hctXlen : ctX.length = 2 ^ logn := by
      rw [hctX, idealCtLayer_length _ _ _ _ _ (by omega), hfact]
    rw [idealGsLayers_snoc, ih (by omega) ctX hctXlen]
    simp only [Nat.zero_add]
    have hnc : logn - 1 - t = l0 := by omega
    rw [hnc, idealGsLayer_map_mul, hctX,
      idealGs_ct_cancel (2 ^ t) (ρ l0) (ρ' t) (2 ^ l0) 0 vs ?hinv (by omega),
      List.map_map]
    · congr 1
      funext u
      simp only [Function.comp_apply]
      rw [pow_succ]
      ring
    case hinv =>
      intro c _ hc
      have h := hpair l0 c (by omega) (by omega)
      rwa [show logn - 1 - l0 = t from by omega] at h

/-- The ideal inverse transform undoes the ideal forward transform. -/
theorem ideal_round_trip {α : Type} [CommRing α] (logn : ℕ) (hlogn : 1 ≤ logn)
    (ρ ρ' : ℕ → ℕ → α) (s sr : α)
    (hpair : ∀ l c, l < logn → c < 2 ^ l → ρ' (logn - 1 - l) c * ρ l c = 1)
    (hsr : sr = s * ρ' (logn - 1) 0)
    (hs : s * 2 ^ logn = 1) :
    ∀ vs : List α, vs.length = 2 ^ logn →
      idealGsFinal (2 ^ (logn - 1)) s sr
        (idealGsLayers ρ' (logn - 1) 0 (logn - 1) (idealCtLayers ρ logn 0 vs))
        = vs := by
  intro vs hlen
  obtain ⟨K, rfl⟩ : ∃ K, logn = K + 1 := ⟨logn - 1, by omega⟩
  rw [idealCtLayers]
  simp only [show K + 1 - 1 = K from by omega, pow_zero, Nat.zero_add]
  set ct0 := idealCtLayer (2 ^ K) (ρ 0) 1 0 vs with hct0
  have hct0len : ct0.length = 2 ^ (K + 1) := by
    rw [hct0, idealCtLayer_length _ _ _ _ _ (by rw [hlen, pow_succ]; ring),
      pow_succ]
    ring
  have htel := ideal_telescope (K + 1) ρ ρ' hpair K (by omega) ct0 hct0len
  rw [show K + 1 - K = 1 from by omega] at htel
  simp only [show K + 1 - 1 = K from by omega] at htel
  rw [htel, idealGsFinal_map_mul]
  have hfc := idealGsFinal_ct_cancel (2 ^ K) (ρ 0) s sr (ρ' K 0) ?hr ?hsr2 vs
    (by rw [hlen, pow_succ]; ring)
  case hr =>
    have h := hpair 0 0 (by omega) (by norm_num)
    simpa [show K + 1 - 1 - 0 = K from by omega] using h
  case hsr2 =>
    simpa [show K + 1 - 1 = K from by omega] using hsr
  rw [← hct0] at hfc
  rw [hfc, List.map_map]
  have hid : ((fun u => 2 ^ K * u) ∘ fun u => 2 * s * u) = fun (u : α) => u := by
    funext u
    simp only [Function.comp_apply]
    linear_combination u * hs
  rw [hid]
  simp

/-! ### Simulation of the lazy `ℕ` algorithm by the ideal transforms -/

/-- Pointwise relation between a lazy buffer and its ideal image: every entry
is below the lazy bound `b` and casts to the ideal value. -/
def SimList (p b : ℕ) (xs : List ℕ) (ys : List (ZMod p)) : Prop :=
  List.Forall₂ (fun x ξ => x < b ∧ ((x : ℕ) : ZMod p) = ξ) xs ys

theorem SimList.mono {p b b' : ℕ} {xs : List ℕ} {ys : List (ZMod p)}
    (h : SimList p b xs ys) (hb : b ≤ b') : SimList p b' xs ys :=
  List.Forall₂.imp (fun _ _ hx => ⟨lt_of_lt_of_le hx.1 hb, hx.2⟩) h

theorem forall₂_zipWith {α β α' β' γ γ' : Type}
    {R1 : α → α' → Prop} {R2 : β → β' → Prop} {R3 : γ → γ' → Prop}
    {f : α → β → γ} {f' : α' → β' → γ'}
    (hf : ∀ a b a' b', R1 a a' → R2 b b' → R3 (f a b) (f' a' b')) :
    ∀ {l1 l1'} , List.Forall₂ R1 l1 l1' → ∀ {l2 l2'}, List.Forall₂ R2 l2 l2' →
      List.Forall₂ R3 (List.zipWith f l1 l2) (List.zipWith f' l1' l2')
  | _, _, List.Forall₂.nil, _, _, _ => by simp [List.Forall₂.nil]
  | _, _, List.Forall₂.cons h1 t1, _, _, List.Forall₂.nil => by
      simp [List.Forall₂.nil]
  | _, _, List.Forall₂.cons h1 t1, _, _, List.Forall₂.cons h2 t2 => by
      simp only [List.zipWith]
      exact List.Forall₂.cons (hf _ _ _ _ h1 h2) (forall₂_zipWith hf t1 t2)

theorem guardSub_sim (p a : ℕ) (_hp : 0 < p) (ha : a < 4 * p) :
    guardSub p a < 2 * p ∧ ((guardSub p a : ℕ) : ZMod p) = (a : ZMod p) := by
  rw [guardSub]
  split_ifs with h
  · refine ⟨by omega, ?_⟩
    rw [Nat.cast_sub h]
    push_cast
    rw [ZMod.natCast_self]
    ring
  · exact ⟨by omega, rfl⟩

theorem mulRootFast_sim (w p root a : ℕ) (hp : 0 < p) (h2p : 2 * p ≤ 2 ^ w)
    (hroot : root < p) (ha : a < 2 ^ w) :
    mulRootFast w p root a < 2 * p ∧
    ((mulRootFast w p root a : ℕ) : ZMod p) = (root : ZMod p) * (a : ZMod p) := by
  obtain ⟨-, hlt, hmod⟩ := shoupMulReduceLazy_spec w p root a hp h2p hroot ha
  refine ⟨hlt, ?_⟩
  calc ((mulRootFast w p root a : ℕ) : ZMod p)
      = ((mulRootFast w p root a % p : ℕ) : ZMod p) := (ZMod.natCast_mod _ _).symm
    _ = ((root * a % p : ℕ) : ZMod p) := by rw [mulRootFast, hmod]
    _ = ((root * a : ℕ) : ZMod p) := ZMod.natCast_mod _ _
    _ = (root : ZMod p) * (a : ZMod p) := by push_cast; ring

theorem addFast_sim (p a b : ℕ) (_hp : 0 < p) (ha : a < 2 * p) (hb : b < 2 * p) :
    addFast p a b < 2 * p ∧
    ((addFast p a b : ℕ) : ZMod p) = (a : ZMod p) + (b : ZMod p) := by
  rw [addFast]
  split_ifs with h
  · refine ⟨by omega, ?_⟩
    rw [Nat.cast_sub h]
    push_cast
    rw [ZMod.natCast_self]
    ring
  · exact ⟨by omega, by push_cast; ring⟩

theorem subFast_sim (p a b : ℕ) (_hp : 0 < p) (hb : b ≤ 2 * p) :
    subFast p a b ≤ a + 2 * p ∧
    ((subFast p a b : ℕ) : ZMod p) = (a : ZMod p) - (b : ZMod p) := by
  rw [subFast]
  refine ⟨by omega, ?_⟩
  have hble : b ≤ a + 2 * p := by omega
  rw [Nat.cast_sub hble]
  push_cast
  rw [ZMod.natCast_self]
  ring

theorem nttNormalize_sim (p a : ℕ) (_hp : 0 < p) (ha : a < 4 * p) :
    nttNormalize p a = a % p := by
  rw [nttNormalize]
  split_ifs with h1 h2 h3
  · have he : a - 2 * p - p = a - 3 * p := by omega
    rw [he, ← sub_mul_mod_right a 3 p (by omega)]
    exact (Nat.mod_eq_of_lt (by omega)).symm
  · have he : a - 2 * p = a - 2 * p := rfl
    rw [← sub_mul_mod_right a 2 p (by omega)]
    exact (Nat.mod_eq_of_lt (by omega)).symm
  · have he : a - p = a - 1 * p := by omega
    rw [he, ← sub_mul_mod_right a 1 p (by omega)]
    exact (Nat.mod_eq_of_lt (by omega)).symm
  · exact (Nat.mod_eq_of_lt (by omega)).symm

theorem inttNormalize_sim (p a : ℕ) (_hp : 0 < p) (ha : a < 2 * p) :
    inttNormalize p a = a % p := by
  rw [inttNormalize]
  split_ifs with h1
  · have he : a - p = a - 1 * p := by omega
    rw [he, ← sub_mul_mod_right a 1 p (by omega)]
    exact (Nat.mod_eq_of_lt (by omega)).symm
  · exact (Nat.mod_eq_of_lt (by omega)).symm

theorem map_range'_take {β : Type} (f : ℕ → β) (a m n : ℕ) (h : m ≤ n) :
    ((List.range' a n).map f).take m = (List.range' a m).map f := by
  have happ := List.range'_append a m (n - m) 1
  rw [one_mul, show n - m + m = n from by omega] at happ
  rw [← happ, List.map_append,
    List.take_append_of_le_length (by rw [List.length_map, List.length_range']),
    List.take_of_length_le (by rw [List.length_map, List.length_range'])]

theorem map_range'_drop {β : Type} (f : ℕ → β) (a m n : ℕ) (h : m ≤ n) :
    ((List.range' a n).map f).drop m = (List.range' (a + m) (n - m)).map f := by
  have happ := List.range'_append a m (n - m) 1
  rw [one_mul, show n - m + m = n from by omega] at happ
  rw [← happ, List.map_append,
    List.drop_append_of_le_length (by rw [List.length_map, List.length_range']),
    List.drop_eq_nil_of_le (by rw [List.length_map, List.length_range']),
    List.nil_append]

/-- One faithful forward layer is simulated by one ideal forward layer. -/
theorem ctLayer_sim (w p g base : ℕ) (FV : ℕ → ℕ) (hp : 0 < p)
    (h2p : 2 * p ≤ 2 ^ w) (h4p : 4 * p ≤ 2 ^ w) (hFV : ∀ i, FV i < p) :
    ∀ nc c0 vs ivs, SimList p (4 * p) vs ivs →
      SimList p (4 * p)
        (ctLayer w p g ((List.range' (base + c0) nc).map FV) vs)
        (idealCtLayer g (fun c => ((FV (base + c) : ℕ) : ZMod p)) nc c0 ivs) := by
  intro nc
  induction nc with
  | zero =>
    intro c0 vs ivs _
    simp only [List.range'_zero, List.map_nil, ctLayer, idealCtLayer]
    exact List.Forall₂.nil
  | succ nc ih =>
    intro c0 vs ivs hsim
    rw [List.range'_succ, List.map_cons, ctLayer, idealCtLayer]
    have htk := List.forall₂_take g hsim
    have hdt := List.forall₂_take g (List.forall₂_drop g hsim)
    refine List.rel_append (List.rel_append ?_ ?_) ?_
    · refine forall₂_zipWith (fun a b a' b' ha hb => ?_) htk hdt
      obtain ⟨hguard, hgcast⟩ := guardSub_sim p a hp ha.1
      obtain ⟨hmul, hmcast⟩ :=
        mulRootFast_sim w p (FV (base + c0)) b hp h2p (hFV _) (by omega)
      refine ⟨by rw [addNoReduce]; omega, ?_⟩
      rw [addNoReduce]
      push_cast
      rw [hgcast, hmcast, ha.2, hb.2]
    · refine forall₂_zipWith (fun a b a' b' ha hb => ?_) htk hdt
      obtain ⟨hguard, hgcast⟩ := guardSub_sim p a hp ha.1
      obtain ⟨hmul, hmcast⟩ :=
        mulRootFast_sim w p (FV (base + c0)) b hp h2p (hFV _) (by omega)
      obtain ⟨hsub, hscast⟩ := subFast_sim p (guardSub p a) (mulRootFast w p (FV (base + c0)) b)
        hp (by omega)
      refine ⟨by omega, ?_⟩
      rw [hscast, hgcast, hmcast, ha.2, hb.2]
    · exact ih (c0 + 1) _ _ (List.forall₂_drop (2 * g) hsim)

/-- One faithful inverse layer is simulated by one ideal inverse layer. -/
theorem gsLayer_sim (w p g base : ℕ) (FV : ℕ → ℕ) (hp : 0 < p)
    (h2p : 2 * p ≤ 2 ^ w) (h4p : 4 * p ≤ 2 ^ w) (hFV : ∀ i, FV i < p) :
    ∀ nc c0 vs ivs, SimList p (2 * p) vs ivs →
      SimList p (2 * p)
        (gsLayer w p g ((List.range' (base + c0) nc).map FV) vs)
        (idealGsLayer g (fun c => ((FV (base + c) : ℕ) : ZMod p)) nc c0 ivs) := by
  intro nc
  induction nc with
  | zero =>
    intro c0 vs ivs _
    simp only [List.range'_zero, List.map_nil, gsLayer, idealGsLayer]
    exact List.Forall₂.nil
  | succ nc ih =>
    intro c0 vs ivs hsim
    rw [List.range'_succ, List.map_cons, gsLayer, idealGsLayer]
    have htk := List.forall₂_take g hsim
    have hdt := List.forall₂_take g (List.forall₂_drop g hsim)
    refine List.rel_append (List.rel_append ?_ ?_) ?_
    · refine forall₂_zipWith (fun a b a' b' ha hb => ?_) htk hdt
      obtain ⟨hlt, hcast⟩ := addFast_sim p a b hp ha.1 hb.1
      exact ⟨hlt, by rw [hcast, ha.2, hb.2]⟩
    · refine forall₂_zipWith (fun a b a' b' ha hb => ?_) htk hdt
      obtain ⟨hsub, hscast⟩ := subFast_sim p a b hp (by omega)
      obtain ⟨hmul, hmcast⟩ :=
        mulRootFast_sim w p (FV (base + c0)) (subFast p a b) hp h2p (hFV _) (by omega)
      refine ⟨hmul, ?_⟩
      rw [hmcast, hscast, ha.2, hb.2]
    · exact ih (c0 + 1) _ _ (List.forall₂_drop (2 * g) hsim)

/-- The faithful forward layer loop is simulated by the ideal one, with the
sequential root iterator handing layer `l` the table slice
`[2^l, 2^(l+1))`. -/
theorem ctLayers_sim (w p : ℕ) (FV : ℕ → ℕ) (hp : 0 < p)
    (h2p : 2 * p ≤ 2 ^ w) (h4p : 4 * p ≤ 2 ^ w) (hFV : ∀ i, FV i < p) :
    ∀ k l vs ivs, SimList p (4 * p) vs ivs →
      SimList p (4 * p)
        (ctLayers w p k (2 ^ l)
          ((List.range' (2 ^ l) (2 ^ (k + l) - 2 ^ l)).map FV) vs)
        (idealCtLayers (fun l' c => ((FV (2 ^ l' + c) : ℕ) : ZMod p)) k l ivs) := by
  intro k
  induction k with
  | zero =>
    intro l vs ivs hsim
    simpa [ctLayers, idealCtLayers] using hsim
  | succ k ih =>
    intro l vs ivs hsim
    rw [ctLayers, idealCtLayers]
    have hpowsucc : (2 : ℕ) ^ (k + 1 + l) = 2 ^ (k + l) * 2 := by
      rw [← pow_succ]
      congr 1
      omega
    have hmono : (2 : ℕ) ^ l ≤ 2 ^ (k + l) :=
      Nat.pow_le_pow_right (by norm_num) (by omega)
    have hle : 2 ^ l ≤ 2 ^ (k + 1 + l) - 2 ^ l := by omega
    rw [map_range'_take FV _ _ _ hle, map_range'_drop FV _ _ _ hle]
    have hlayer := ctLayer_sim w p (2 ^ k) (2 ^ l) FV hp h2p h4p hFV
      (2 ^ l) 0 vs ivs hsim
    have hdrop : 2 ^ (k + 1 + l) - 2 ^ l - 2 ^ l = 2 ^ (k + (l + 1)) - 2 ^ (l + 1) := by
      have e1 : (2 : ℕ) ^ (k + (l + 1)) = 2 ^ (k + 1 + l) := by
        congr 1
        omega
      have e2 : (2 : ℕ) ^ (l + 1) = 2 ^ l * 2 := pow_succ 2 l
      omega
    have hstart : 2 ^ l + 2 ^ l = 2 ^ (l + 1) := by
      rw [pow_succ]
      ring
    have h2c : 2 * 2 ^ l = 2 ^ (l + 1) := by
      rw [pow_succ]
      ring
    rw [hdrop, hstart, h2c]
    exact ih (l + 1) _ _ hlayer

/-- The faithful inverse layer loop is simulated by the ideal one; the
unconsumed tail of the supply is returned unchanged. -/
theorem gsLayers_sim (w p : ℕ) (FV : ℕ → ℕ) (hp : 0 < p)
    (h2p : 2 * p ≤ 2 ^ w) (h4p : 4 * p ≤ 2 ^ w) (hFV : ∀ i, FV i < p)
    (ρ : ℕ → ℕ → ZMod p) :
    ∀ m j e a rest vs ivs, m ≤ e →
      (∀ d c, d < m →
        ρ (j + d) c = ((FV (a + (2 ^ (e + 1) - 2 ^ (e + 1 - d)) + c) : ℕ) : ZMod p)) →
      SimList p (2 * p) vs ivs →
      (gsLayers w p m j (2 ^ e)
          (((List.range' a (2 ^ (e + 1) - 2 ^ (e + 1 - m))).map FV) ++ rest) vs).1
        = rest ∧
      SimList p (2 * p)
        (gsLayers w p m j (2 ^ e)
          (((List.range' a (2 ^ (e + 1) - 2 ^ (e + 1 - m))).map FV) ++ rest) vs).2
        (idealGsLayers ρ m j e ivs) := by
  intro m
  induction m with
  | zero =>
    intro j e a rest vs ivs _ _ hsim
    simp only [Nat.sub_zero, Nat.sub_self, List.range'_zero, List.map_nil,
      List.nil_append, gsLayers, idealGsLayers]
    simp only [eq_self_iff_true, true_and]
    exact hsim
  | succ m ih =>
    intro j e a rest vs ivs hme hρ hsim
    have he1 : 1 ≤ e := by omega
    have hmono : (2 : ℕ) ^ (e - m) ≤ 2 ^ e :=
      Nat.pow_le_pow_right (by norm_num) (by omega)
    have hesucc : (2 : ℕ) ^ (e + 1) = 2 ^ e * 2 := pow_succ 2 e
    have hC : 2 ^ (e + 1) - 2 ^ (e + 1 - (m + 1)) = 2 ^ (e + 1) - 2 ^ (e - m) := by
      congr 2
      omega
    have hCge : 2 ^ e ≤ 2 ^ (e + 1) - 2 ^ (e - m) := by omega
    rw [gsLayers, idealGsLayers, hC]
    have hmr : (List.range' a (2 ^ (e + 1) - 2 ^ (e - m))).map FV
        = (List.range' a (2 ^ e)).map FV
          ++ (List.range' (a + 2 ^ e) (2 ^ (e + 1) - 2 ^ (e - m) - 2 ^ e)).map FV := by
      rw [← List.map_append]
      congr 1
      have happ := List.range'_append a (2 ^ e) (2 ^ (e + 1) - 2 ^ (e - m) - 2 ^ e) 1
      rw [one_mul, show 2 ^ (e + 1) - 2 ^ (e - m) - 2 ^ e + 2 ^ e
          = 2 ^ (e + 1) - 2 ^ (e - m) from by omega] at happ
      exact happ.symm
    have hlen1 : ((List.range' a (2 ^ e)).map FV).length = 2 ^ e := by
      rw [List.length_map, List.length_range']
    rw [hmr, List.append_assoc]
    have htake : (((List.range' a (2 ^ e)).map FV)
        ++ ((List.range' (a + 2 ^ e) (2 ^ (e + 1) - 2 ^ (e - m) - 2 ^ e)).map FV ++ rest)).take (2 ^ e)
        = (List.range' a (2 ^ e)).map FV := by
      rw [List.take_append_of_le_length (by omega), List.take_of_length_le (by omega)]
    have hdrop : (((List.range' a (2 ^ e)).map FV)
        ++ ((List.range' (a + 2 ^ e) (2 ^ (e + 1) - 2 ^ (e - m) - 2 ^ e)).map FV ++ rest)).drop (2 ^ e)
        = (List.range' (a + 2 ^ e) (2 ^ (e + 1) - 2 ^ (e - m) - 2 ^ e)).map FV ++ rest := by
      rw [List.drop_append_of_le_length (by omega),
        List.drop_eq_nil_of_le (by omega), List.nil_append]
    rw [htake, hdrop]
    have hlayer := gsLayer_sim w p (2 ^ j) a FV hp h2p h4p hFV (2 ^ e) 0 vs ivs hsim
    have hρ0 : (fun c => ((FV (a + c) : ℕ) : ZMod p)) = ρ j := by
      funext c
      have hh := hρ 0 c (by omega)
      simp only [Nat.add_zero, Nat.sub_zero, Nat.sub_self] at hh
      exact hh.symm
    rw [hρ0] at hlayer
    have hcnt : 2 ^ (e + 1) - 2 ^ (e - m) - 2 ^ e
        = 2 ^ (e - 1 + 1) - 2 ^ (e - 1 + 1 - m) := by
      have e1 : e - 1 + 1 = e := by omega
      rw [e1]
      omega
    have hhalf : 2 ^ e / 2 = 2 ^ (e - 1) := by
      have : (2 : ℕ) ^ e = 2 ^ (e - 1) * 2 := by
        rw [← pow_succ]
        congr 1
        omega
      omega
    rw [hcnt, hhalf]
    refine ih (j + 1) (e - 1) (a + 2 ^ e) rest _ _ (by omega) ?_ hlayer
    intro d c hd
    have hh := hρ (d + 1) c (by omega)
    rw [show j + 1 + d = j + (d + 1) from by omega, hh]
    have hidx : a + (2 ^ (e + 1) - 2 ^ (e + 1 - (d + 1))) + c
        = a + 2 ^ e + (2 ^ (e - 1 + 1) - 2 ^ (e - 1 + 1 - d)) + c := by
      have f1 : e - 1 + 1 = e := by omega
      rw [f1]
      have f2 : (2 : ℕ) ^ (e + 1 - (d + 1)) = 2 ^ (e - d) := by
        congr 1
        omega
      have f3 : (2 : ℕ) ^ (e - d) ≤ 2 ^ e :=
        Nat.pow_le_pow_right (by norm_num) (by omega)
      omega
    rw [hidx]

/-- `transform_slice` produces the canonical representatives of the ideal
forward transform. -/
theorem transformSlice_sim (w p logn : ℕ) (FV : ℕ → ℕ) (hp : 0 < p)
    (h2p : 2 * p ≤ 2 ^ w) (h4p : 4 * p ≤ 2 ^ w) (hFV : ∀ i, FV i < p) :
    ∀ vs ivs, SimList p p vs ivs →
      SimList p p
        (transformSlice w p logn ((List.range (2 ^ logn)).map FV) vs)
        (idealCtLayers (fun l c => ((FV (2 ^ l + c) : ℕ) : ZMod p)) logn 0 ivs) := by
  intro vs ivs hsim
  rw [transformSlice, List.range_eq_range',
    map_range'_drop FV 0 1 (2 ^ logn) Nat.one_le_two_pow]
  have hlayers := ctLayers_sim w p FV hp h2p h4p hFV logn 0 vs ivs
    (hsim.mono (by omega))
  simp only [pow_zero, Nat.add_zero, Nat.zero_add] at hlayers ⊢
  have hnorm := hlayers
  rw [SimList] at hnorm ⊢
  rw [List.forall₂_map_left_iff]
  refine hnorm.imp fun x ξ hx => ?_
  obtain ⟨hlt, hcast⟩ := hx
  rw [nttNormalize_sim p x hp hlt]
  exact ⟨Nat.mod_lt _ hp, by rw [ZMod.natCast_mod]; exact hcast⟩

/-- `inverse_transform_slice` produces the canonical representatives of the
ideal inverse transform (layers, fused final scaling, normalization). -/
theorem inverseTransformSlice_sim (w p logn invDeg : ℕ) (FV : ℕ → ℕ)
    (hp : 0 < p) (hlogn : 1 ≤ logn)
    (h2p : 2 * p ≤ 2 ^ w) (h4p : 4 * p ≤ 2 ^ w) (hFV : ∀ i, FV i < p)
    (hinvDeg : invDeg < p) :
    ∀ vs ivs, SimList p (2 * p) vs ivs →
      SimList p p
        (inverseTransformSlice w p logn invDeg ((List.range (2 ^ logn)).map FV) vs)
        (idealGsFinal (2 ^ (logn - 1)) ((invDeg : ℕ) : ZMod p)
          (((invDeg : ℕ) : ZMod p) * ((FV (2 ^ logn - 1) : ℕ) : ZMod p))
          (idealGsLayers
            (fun j c => ((FV (2 ^ logn - 2 ^ (logn - j) + c + 1) : ℕ) : ZMod p))
            (logn - 1) 0 (logn - 1) ivs)) := by
  intro vs ivs hsim
  have hn2 : 2 ≤ 2 ^ logn :=
    le_trans (by norm_num) (Nat.pow_le_pow_right (by norm_num) hlogn)
  have hFVlast := hFV (2 ^ logn - 1)
  rw [inverseTransformSlice, List.range_eq_range',
    map_range'_drop FV 0 1 (2 ^ logn) Nat.one_le_two_pow]
  simp only [Nat.zero_add]
  -- split the supply into the consumed part and the final root
  have hsplit : (List.range' 1 (2 ^ logn - 1)).map FV
      = (List.range' 1 (2 ^ logn - 2)).map FV ++ [FV (2 ^ logn - 1)] := by
    have happ := List.range'_append 1 (2 ^ logn - 2) 1 1
    rw [one_mul, show 1 + (2 ^ logn - 2) = 2 ^ logn - 1 from by omega] at happ
    rw [← happ, List.map_append]
    congr 1
  have hcnt : 2 ^ logn - 2 = 2 ^ (logn - 1 + 1) - 2 ^ (logn - 1 + 1 - (logn - 1)) := by
    have e1 : logn - 1 + 1 = logn := by omega
    rw [e1]
    have e2 : logn - (logn - 1) = 1 := by omega
    rw [e2]
    omega
  have hhalf : 2 ^ logn / 2 = 2 ^ (logn - 1) := by
    have e1 : (2 : ℕ) ^ logn = 2 ^ (logn - 1) * 2 := by
      rw [← pow_succ]
      congr 1
      omega
    omega
  have hlayers := gsLayers_sim w p FV hp h2p h4p hFV
    (fun j c => ((FV (2 ^ logn - 2 ^ (logn - j) + c + 1) : ℕ) : ZMod p))
    (logn - 1) 0 (logn - 1) 1 [FV (2 ^ logn - 1)] vs ivs (le_refl _) ?hρ hsim
  case hρ =>
    intro d c hd
    simp only [Nat.zero_add]
    congr 2
    have e1 : logn - 1 + 1 = logn := by omega
    rw [e1]
    have e2 : (2 : ℕ) ^ (logn - d) ≤ 2 ^ logn :=
      Nat.pow_le_pow_right (by norm_num) (by omega)
    omega
  rw [hsplit, hcnt, hhalf]
  obtain ⟨hfst, hsnd⟩ := hlayers
  rw [hfst]
  simp only [List.headD_cons]
  have hscaled := shoupMulReduce_eq w p invDeg (FV (2 ^ logn - 1)) hp h2p hinvDeg
    (by omega)
  have hsRlt : shoupMulReduce w (shoupFactorNew w invDeg p) (FV (2 ^ logn - 1)) p
      < p := by
    rw [hscaled]
    exact Nat.mod_lt _ hp
  have hsRcast : ((shoupMulReduce w (shoupFactorNew w invDeg p)
        (FV (2 ^ logn - 1)) p : ℕ) : ZMod p)
      = ((invDeg : ℕ) : ZMod p) * ((FV (2 ^ logn - 1) : ℕ) : ZMod p) := by
    rw [hscaled, ZMod.natCast_mod]
    push_cast
    ring
  have hfin : SimList p (2 * p)
      (gsFinal w p (2 ^ (logn - 1)) invDeg
        (shoupMulReduce w (shoupFactorNew w invDeg p) (FV (2 ^ logn - 1)) p)
        (gsLayers w p (logn - 1) 0 (2 ^ (logn - 1))
          ((List.range' 1 (2 ^ (logn - 1 + 1) - 2 ^ (logn - 1 + 1 - (logn - 1)))).map FV
            ++ [FV (2 ^ logn - 1)]) vs).2)
      (idealGsFinal (2 ^ (logn - 1)) ((invDeg : ℕ) : ZMod p)
        (((invDeg : ℕ) : ZMod p) * ((FV (2 ^ logn - 1) : ℕ) : ZMod p))
        (idealGsLayers
          (fun j c => ((FV (2 ^ logn - 2 ^ (logn - j) + c + 1) : ℕ) : ZMod p))
          (logn - 1) 0 (logn - 1) ivs)) := by
    rw [gsFinal, idealGsFinal]
    refine List.rel_append ?_ ?_
    · refine forall₂_zipWith (fun a b a' b' ha hb => ?_)
        (List.forall₂_take _ hsnd) (List.forall₂_take _ (List.forall₂_drop _ hsnd))
      obtain ⟨hmul, hmcast⟩ := mulRootFast_sim w p invDeg (addNoReduce a b) hp h2p
        hinvDeg (by rw [addNoReduce]; omega)
      refine ⟨hmul, ?_⟩
      rw [hmcast, addNoReduce]
      push_cast
      rw [ha.2, hb.2]
    · refine forall₂_zipWith (fun a b a' b' ha hb => ?_)
        (List.forall₂_take _ hsnd) (List.forall₂_take _ (List.forall₂_drop _ hsnd))
      obtain ⟨hsub, hscast⟩ := subFast_sim p a b hp (by omega)
      obtain ⟨hmul, hmcast⟩ := mulRootFast_sim w p
        (shoupMulReduce w (shoupFactorNew w invDeg p) (FV (2 ^ logn - 1)) p)
        (subFast p a b) hp h2p hsRlt (by omega)
      refine ⟨hmul, ?_⟩
      rw [hmcast, hscast, ha.2, hb.2, hsRcast]
  rw [SimList, List.forall₂_map_left_iff]
  refine hfin.imp fun x ξ hx => ?_
  rw [inttNormalize_sim p x hp hx.1]
  exact ⟨Nat.mod_lt _ hp, by rw [ZMod.natCast_mod]; exact hx.2⟩

theorem simList_to_eq (p : ℕ) :
    ∀ xs vs : List ℕ, (∀ v ∈ vs, v < p) →
      List.Forall₂ (fun x v => x < p ∧ ((x : ℕ) : ZMod p) = ((v : ℕ) : ZMod p)) xs vs →
      xs = vs := by
  intro xs vs hcanon h
  induction h with
  | nil => rfl
  | cons hxy htail ih =>
    rename_i x v xs' vs'
    have hv : v < p := hcanon v (by simp)
    have hx : x = v := by
      have hmod := (ZMod.natCast_eq_natCast_iff' x v p).mp hxy.2
      rw [Nat.mod_eq_of_lt hxy.1, Nat.mod_eq_of_lt hv] at hmod
      exact hmod
    rw [hx, ih (fun u hu => hcanon u (by simp [hu]))]

/-- **C3.** For every polynomial of length `N = 2^logn` with canonical
coefficients, the inverse transform of the forward transform (with the
tables built from a primitive `2N`-th root `omg` and the inverse degree
`invDeg`) returns the polynomial unchanged. -/
theorem C3_intt_ntt_id (w p logn omg invDeg : ℕ)
    (hp2 : 2 ≤ p) (h4p : 4 * p ≤ 2 ^ w) (hlogn : 1 ≤ logn)
    (homg : omg < p) (hprim : omg ^ 2 ^ logn % p = p - 1)
    (hinvDeg : invDeg < p) (hinvDeg1 : invDeg * 2 ^ logn % p = 1) :
    ∀ values : List ℕ, values.length = 2 ^ logn → (∀ x ∈ values, x < p) →
      inverseTransformSlice w p logn invDeg (invRootPowersList p omg logn)
        (transformSlice w p logn (rootPowersList p omg logn) values) = values := by
  intro values hlen hcanon
  have hp : 0 < p := by omega
  have h2p : 2 * p ≤ 2 ^ w := by omega
  have hn2 : 2 ≤ 2 ^ logn :=
    le_trans (by norm_num) (Nat.pow_le_pow_right (by norm_num) hlogn)
  -- the primitive root conditions in `ZMod p`
  have homgn : ((omg : ℕ) : ZMod p) ^ 2 ^ logn = -1 := by
    have h1 : (((p - 1 : ℕ)) : ZMod p) = -1 := by
      rw [Nat.cast_sub (by omega)]
      simp [ZMod.natCast_self]
    calc ((omg : ℕ) : ZMod p) ^ 2 ^ logn
        = ((omg ^ 2 ^ logn : ℕ) : ZMod p) := by push_cast; rfl
      _ = ((omg ^ 2 ^ logn % p : ℕ) : ZMod p) := (ZMod.natCast_mod _ _).symm
      _ = (((p - 1 : ℕ)) : ZMod p) := by rw [hprim]
      _ = -1 := h1
  have homg2n : ((omg : ℕ) : ZMod p) ^ (2 * 2 ^ logn) = 1 := by
    rw [mul_comm, pow_mul, homgn]
    ring
  -- canonical inputs
  have hsim0 : SimList p p values (values.map (fun x => ((x : ℕ) : ZMod p))) := by
    rw [SimList, List.forall₂_map_right_iff]
    refine List.forall₂_same.mpr ?_
    intro x hx
    exact ⟨hcanon x hx, rfl⟩
  -- forward transform
  have hFVflt : ∀ i : ℕ, omg ^ reverseLsbs i logn % p < p := fun i => Nat.mod_lt _ hp
  have hfwd := transformSlice_sim w p logn
    (fun j => omg ^ reverseLsbs j logn % p) hp h2p h4p hFVflt values _ hsim0
  -- inverse transform applied to the forward output
  have hFVilt : ∀ i : ℕ,
      (if i = 0 then 1 % p
       else omg ^ (2 * 2 ^ logn - (reverseLsbs (i - 1) logn + 1)) % p) < p := by
    intro i
    split_ifs <;> exact Nat.mod_lt _ hp
  have hinv := inverseTransformSlice_sim w p logn invDeg
    (fun j => if j = 0 then 1 % p
      else omg ^ (2 * 2 ^ logn - (reverseLsbs (j - 1) logn + 1)) % p)
    hp hlogn h2p h4p hFVilt hinvDeg
    (transformSlice w p logn (rootPowersList p omg logn) values)
    (idealCtLayers
      (fun l c => ((omg ^ reverseLsbs (2 ^ l + c) logn % p : ℕ) : ZMod p))
      logn 0 (values.map (fun x => ((x : ℕ) : ZMod p))))
    (hfwd.mono (by omega))
  -- ideal round trip collapses the ideal side
  have hRT := ideal_round_trip logn hlogn
    (fun l c => ((omg ^ reverseLsbs (2 ^ l + c) logn % p : ℕ) : ZMod p))
    (fun j c => (((if 2 ^ logn - 2 ^ (logn - j) + c + 1 = 0 then 1 % p
      else omg ^ (2 * 2 ^ logn
        - (reverseLsbs (2 ^ logn - 2 ^ (logn - j) + c + 1 - 1) logn + 1)) % p) : ℕ)
      : ZMod p))
    ((invDeg : ℕ) : ZMod p)
    (((invDeg : ℕ) : ZMod p) * (((if 2 ^ logn - 1 = 0 then 1 % p
      else omg ^ (2 * 2 ^ logn
        - (reverseLsbs (2 ^ logn - 1 - 1) logn + 1)) % p) : ℕ) : ZMod p))
    ?hpair ?hsr ?hs (values.map (fun x => ((x : ℕ) : ZMod p)))
    (by rw [List.length_map, hlen])
  case hpair =>
    intro l c hl hc
    dsimp only
    have hle1 : (2 : ℕ) ^ (l + 1) ≤ 2 ^ logn :=
      Nat.pow_le_pow_right (by norm_num) (by omega)
    have hidx : 2 ^ logn - 2 ^ (logn - (logn - 1 - l)) + c + 1
        = 2 ^ logn - 2 ^ (l + 1) + c + 1 := by
      have e1 : logn - (logn - 1 - l) = l + 1 := by omega
      rw [e1]
    rw [hidx]
    rw [if_neg (by omega)]
    have hR : reverseLsbs (2 ^ logn - 2 ^ (l + 1) + c + 1 - 1) logn + 1
        = reverseLsbs (2 ^ l + c) logn := by
      rw [show 2 ^ logn - 2 ^ (l + 1) + c + 1 - 1 = 2 ^ logn - 2 ^ (l + 1) + c from by
        omega]
      exact reverseLsbs_inv_index logn l c hl hc
    rw [hR]
    have hRlt : reverseLsbs (2 ^ l + c) logn < 2 ^ logn := reverseLsbs_lt logn _
    rw [ZMod.natCast_mod, ZMod.natCast_mod]
    push_cast
    rw [← pow_add]
    rw [show 2 * 2 ^ logn - reverseLsbs (2 ^ l + c) logn
        + reverseLsbs (2 ^ l + c) logn = 2 * 2 ^ logn from by omega]
    exact homg2n
  case hsr =>
    dsimp only
    congr 2
    have e1 : logn - (logn - (logn - 1)) = logn - 1 := by omega
    have e2 : 2 ^ logn - 2 ^ (logn - (logn - 1)) + 0 + 1 = 2 ^ logn - 1 := by
      have e3 : logn - (logn - 1) = 1 := by omega
      rw [e3]
      omega
    rw [e2]
  case hs =>
    have hcast := congrArg (fun x : ℕ => ((x : ℕ) : ZMod p)) hinvDeg1
    simp only [ZMod.natCast_mod] at hcast
    push_cast at hcast
    exact hcast
  rw [hRT] at hinv
  -- read off the `ℕ`-level equality
  rw [SimList, List.forall₂_map_right_iff] at hinv
  exact simList_to_eq p _ values hcanon hinv

theorem C3_intt_ntt_id_witness :
    inverseTransformSlice 8 5 1 3 (invRootPowersList 5 2 1)
      (transformSlice 8 5 1 (rootPowersList 5 2 1) [1, 3]) = [1, 3] :=
  C3_intt_ntt_id 8 5 1 2 3 (by norm_num) (by norm_num) (by norm_num)
    (by norm_num) (by norm_num) (by norm_num) (by norm_num) [1, 3] (by norm_num)
    (by decide)

/-! ### Evaluation semantics of the ideal forward transform -/

theorem getD_append_left {α : Type} (l l' : List α) (d : α) :
    ∀ i, i < l.length → (l ++ l').getD i d = l.getD i d := by
  induction l with
  | nil => intro i hi; simp at hi
  | cons x xs ih =>
    intro i hi
    cases i with
    | zero => rfl
    | succ i => exact ih i (by simpa using hi)

theorem getD_append_right {α : Type} (l l' : List α) (d : α) :
    ∀ i, l.length ≤ i → (l ++ l').getD i d = l'.getD (i - l.length) d := by
  induction l with
  | nil => intro i _; simp
  | cons x xs ih =>
    intro i hi
    cases i with
    | zero => simp at hi
    | succ i =>
      simp only [List.cons_append, List.getD_cons_succ, List.length_cons]
      rw [ih i (by simpa using hi)]
      congr 1
      omega

theorem getD_take {α : Type} (l : List α) (d : α) :
    ∀ g i, i < g → (l.take g).getD i d = l.getD i d := by
  induction l with
  | nil => intro g i _; simp
  | cons x xs ih =>
    intro g i hig
    cases g with
    | zero => omega
    | succ g =>
      cases i with
      | zero => rfl
      | succ i =>
        simp only [List.take_succ_cons, List.getD_cons_succ]
        exact ih g i (by omega)

theorem getD_drop {α : Type} (d : α) :
    ∀ g (l : List α) i, (l.drop g).getD i d = l.getD (g + i) d := by
  intro g
  induction g with
  | zero => intro l i; simp
  | succ g ih =>
    intro l i
    cases l with
    | nil => simp
    | cons x xs =>
      simp only [List.drop_succ_cons]
      rw [ih xs i, show g + 1 + i = g + i + 1 from by omega]
      simp [List.getD_cons_succ]

theorem getD_zipWith {α β : Type} (f : α → α → β) (dA dB : α) (dC : β) :
    ∀ (A B : List α) i, i < A.length → i < B.length →
      (List.zipWith f A B).getD i dC = f (A.getD i dA) (B.getD i dB) := by
  intro A
  induction A with
  | nil => intro B i hi; simp at hi
  | cons x xs ih =>
    intro B i hiA hiB
    cases B with
    | nil => simp at hiB
    | cons y ys =>
      cases i with
      | zero => rfl
      | succ i =>
        simp only [List.zipWith, List.getD_cons_succ]
        exact ih ys i (by simpa using hiA) (by simpa using hiB)

/-- Reversal of one more (zero) high bit doubles the reversal. -/
theorem reverseLsbs_double (k : ℕ) :
    ∀ c, c < 2 ^ k → reverseLsbs c (k + 1) = 2 * reverseLsbs c k := by
  induction k with
  | zero =>
    intro c hc
    interval_cases c
    rfl
  | succ k ih =>
    intro c hc
    conv_lhs => rw [reverseLsbs]
    conv_rhs => rw [reverseLsbs]
    have hc2 : c % 2 = 0 ∨ c % 2 = 1 := by omega
    have h1 : (2 : ℕ) ^ (k + 1) = 2 * 2 ^ k := by rw [pow_succ]; ring
    rcases hc2 with h | h <;>
      rw [h] <;>
      simp only [mul_zero, mul_one, zero_add] <;>
      rw [ih (c / 2) (by omega)] <;>
      omega

/-- Reversal of a set high bit: `rev (2^k + c) = 2·rev c + 1`. -/
theorem reverseLsbs_high_bit (k : ℕ) (c : ℕ) (hc : c < 2 ^ k) :
    reverseLsbs (2 ^ k + c) (k + 1) = 2 * reverseLsbs c k + 1 := by
  have h := reverseLsbs_split k (k + 1) (2 ^ k + c) c 1 (by ring) hc (by omega)
  rw [h]
  simp only [Nat.add_sub_cancel_left, pow_one]
  rw [reverseLsbs, reverseLsbs_zero]
  simp only [pow_zero, one_mul]
  omega

theorem reverseLsbs_even (b l : ℕ) : reverseLsbs (2 * b) (l + 1) = reverseLsbs b l := by
  rw [reverseLsbs]
  have h1 : 2 * b % 2 = 0 := by omega
  have h2 : 2 * b / 2 = b := by omega
  rw [h1, h2]
  ring

theorem reverseLsbs_odd (b l : ℕ) :
    reverseLsbs (2 * b + 1) (l + 1) = 2 ^ l + reverseLsbs b l := by
  rw [reverseLsbs]
  have h1 : (2 * b + 1) % 2 = 1 := by omega
  have h2 : (2 * b + 1) / 2 = b := by omega
  rw [h1, h2]
  ring

/-- Positional form of one ideal CT layer: the entry at offset `i` of chunk
`b` is the corresponding butterfly output. -/
theorem idealCtLayer_getD {α : Type} [CommRing α] (g : ℕ) (ρl : ℕ → α) :
    ∀ nc c0 vs (b i : ℕ), b < nc → vs.length = 2 * g * nc → i < 2 * g →
      (idealCtLayer g ρl nc c0 vs).getD (b * (2 * g) + i) 0
        = if i < g then
            vs.getD (b * (2 * g) + i) 0
              + ρl (c0 + b) * vs.getD (b * (2 * g) + g + i) 0
          else
            vs.getD (b * (2 * g) + (i - g)) 0
              - ρl (c0 + b) * vs.getD (b * (2 * g) + i) 0 := by
  intro nc
  induction nc with
  | zero => intro c0 vs b i hb; omega
  | succ nc ih =>
    intro c0 vs b i hb hlen hi
    have hlen' : vs.length = 2 * g * nc + 2 * g := by rw [hlen]; ring
    have hA : (vs.take g).length = g := by
      rw [List.length_take]
      omega
    have hB : ((vs.drop g).take g).length = g := by
      rw [List.length_take, List.length_drop]
      omega
    rw [idealCtLayer]
    have hTlen : (List.zipWith (fun u v => u + ρl c0 * v)
        (vs.take g) ((vs.drop g).take g)).length = g := by
      rw [List.length_zipWith]
      omega
    have hSlen : (List.zipWith (fun u v => u - ρl c0 * v)
        (vs.take g) ((vs.drop g).take g)).length = g := by
      rw [List.length_zipWith]
      omega
    cases b with
    | zero =>
      simp only [Nat.zero_mul, Nat.zero_add, Nat.add_zero]
      by_cases hig : i < g
      · rw [if_pos hig]
        rw [getD_append_left _ _ _ _ (by rw [List.length_append]; omega),
          getD_append_left _ _ _ _ (by omega),
          getD_zipWith _ 0 0 0 _ _ _ (by omega) (by omega),
          getD_take _ _ _ _ hig, getD_take _ _ _ _ hig, getD_drop]
      · rw [if_neg hig]
        rw [getD_append_left _ _ _ _ (by rw [List.length_append]; omega),
          getD_append_right _ _ _ _ (by omega)]
        rw [hTlen, getD_zipWith _ 0 0 0 _ _ _ (by omega) (by omega),
          getD_take _ _ _ _ (by omega), getD_take _ _ _ _ (by omega), getD_drop]
        rw [show g + (i - g) = i from by omega]
    | succ b =>
      have hskip : (b + 1) * (2 * g) + i
          = (List.zipWith (fun u v => u + ρl c0 * v) (vs.take g) ((vs.drop g).take g)
            ++ List.zipWith (fun u v => u - ρl c0 * v) (vs.take g) ((vs.drop g).take g)).length
            + (b * (2 * g) + i) := by
        rw [List.length_append, hTlen, hSlen]
        ring
      rw [hskip, getD_append_right _ _ _ _ (by omega),
        Nat.add_sub_cancel_left]
      have hdlen : (vs.drop (2 * g)).length = 2 * g * nc := by
        rw [List.length_drop]
        omega
      rw [ih (c0 + 1) (vs.drop (2 * g)) b i (by omega) hdlen hi]
      rw [getD_drop, getD_drop, getD_drop]
      rw [show c0 + 1 + b = c0 + (b + 1) from by omega,
        show 2 * g + (b * (2 * g) + i) = (b + 1) * (2 * g) + i from by ring,
        show 2 * g + (b * (2 * g) + g + i) = (b + 1) * (2 * g) + g + i from by ring,
        show 2 * g + (b * (2 * g) + (i - g)) = (b + 1) * (2 * g) + (i - g) from by ring,
        ← hskip]

/-- Evaluation semantics of the ideal forward layers: starting at layer `l`
on `2^l` blocks of size `2^k`, entry `i` of block `b` of the result is the
evaluation of block `b` at the exponent `(2·rev_l(b)+1) + 2^(l+1)·rev_k(i)`. -/
theorem idealCtLayers_eval {α : Type} [CommRing α] (logn : ℕ) (omg : α)
    (homgN : omg ^ 2 ^ logn = -1) (ρ : ℕ → ℕ → α)
    (hρ : ∀ l c, l < logn → c < 2 ^ l →
      ρ l c = omg ^ (2 ^ (logn - 1 - l) * (2 * reverseLsbs c l + 1))) :
    ∀ k l, k + l = logn → ∀ vs : List α, vs.length = 2 ^ logn →
      ∀ b i, b < 2 ^ l → i < 2 ^ k →
        (idealCtLayers ρ k l vs).getD (b * 2 ^ k + i) 0
          = ∑ j ∈ Finset.range (2 ^ k),
              vs.getD (b * 2 ^ k + j) 0
                * omg ^ ((2 * reverseLsbs b l + 1 + 2 ^ (l + 1) * reverseLsbs i k) * j) := by
  intro k
  induction k with
  | zero =>
    intro l hkl vs hvs b i hb hi
    have hi0 : i = 0 := by omega
    subst hi0
    simp [idealCtLayers, reverseLsbs]
  | succ k ih =>
    intro l hkl vs hvs b i hb hi
    have hfact : 2 * 2 ^ k * 2 ^ l = 2 ^ logn := by
      rw [show 2 * 2 ^ k * 2 ^ l = 2 ^ (k + 1 + l) from by
        rw [pow_add, pow_succ]; ring]
      rw [hkl]
    have hpow1 : (2 : ℕ) ^ (k + 1) = 2 * 2 ^ k := by rw [pow_succ]; ring
    have hpowl : (2 : ℕ) ^ (l + 1) = 2 * 2 ^ l := by rw [pow_succ]; ring
    rw [idealCtLayers]
    have hWlen : (idealCtLayer (2 ^ k) (ρ l) (2 ^ l) 0 vs).length = 2 ^ logn := by
      rw [idealCtLayer_length (2 ^ k) (ρ l) (2 ^ l) 0 vs (by rw [hvs, hfact])]
      exact hfact
    have hk1l : logn - 1 - l = k := by omega
    have hll : l < logn := by omega
    have hρlb : ρ l b = omg ^ (2 ^ k * (2 * reverseLsbs b l + 1)) := by
      rw [hρ l b hll hb, hk1l]
    have hbfly := idealCtLayer_getD (2 ^ k) (ρ l) (2 ^ l) 0 vs
    have e0 : (2 : ℕ) ^ logn = 2 ^ (l + 1) * 2 ^ k := by
      rw [← pow_add]
      congr 1
      omega
    have e1 : (2 : ℕ) ^ (logn + 1) = 2 ^ (l + 1 + 1) * 2 ^ k := by
      rw [← pow_add]
      congr 1
      omega
    have hone : omg ^ ((2 : ℕ) ^ (logn + 1)) = 1 := by
      rw [pow_succ 2 logn, pow_mul, homgN, neg_one_sq]
    by_cases hi2 : i < 2 ^ k
    · -- top half of the output block
      have hpos : b * 2 ^ (k + 1) + i = 2 * b * 2 ^ k + i := by
        rw [hpow1]
        ring
      rw [hpos, ih (l + 1) (by omega) _ hWlen (2 * b) i (by omega) hi2,
        reverseLsbs_even b l, reverseLsbs_double k i hi2,
        show 2 ^ (l + 1) * (2 * reverseLsbs i k)
          = 2 ^ (l + 1 + 1) * reverseLsbs i k from by ring,
        show (2 : ℕ) ^ (k + 1) = 2 ^ k + 2 ^ k from by omega,
        Finset.sum_range_add, ← Finset.sum_add_distrib]
      have key1 : ∀ X : ℕ,
          omg ^ (2 ^ k * (2 * reverseLsbs b l + 1)
              + (2 ^ (logn + 1) * reverseLsbs i k + X))
            = omg ^ (2 ^ k * (2 * reverseLsbs b l + 1)) * omg ^ X := by
        intro X
        rw [pow_add omg (2 ^ k * (2 * reverseLsbs b l + 1)),
          pow_add omg (2 ^ (logn + 1) * reverseLsbs i k) X,
          pow_mul omg (2 ^ (logn + 1)) (reverseLsbs i k), hone, one_pow, one_mul]
      refine Finset.sum_congr rfl fun j hj => ?_
      have hjlt : j < 2 ^ k := Finset.mem_range.mp hj
      have hb1 := hbfly b j hb (by rw [hvs, hfact]) (by omega)
      rw [if_pos hjlt] at hb1
      rw [show 2 * b * 2 ^ k + j = b * (2 * 2 ^ k) + j from by ring, hb1,
        Nat.zero_add, hρlb,
        show b * (2 * 2 ^ k) + 2 ^ k + j
          = b * (2 ^ k + 2 ^ k) + (2 ^ k + j) from by ring,
        show b * (2 * 2 ^ k) + j = b * (2 ^ k + 2 ^ k) + j from by ring,
        show (2 * reverseLsbs b l + 1 + 2 ^ (l + 1 + 1) * reverseLsbs i k)
              * (2 ^ k + j)
            = 2 ^ k * (2 * reverseLsbs b l + 1)
              + (2 ^ (logn + 1) * reverseLsbs i k
                + (2 * reverseLsbs b l + 1 + 2 ^ (l + 1 + 1) * reverseLsbs i k) * j)
          from by rw [e1]; ring,
        key1]
      ring
    · -- bottom half of the output block
      obtain ⟨i', rfl⟩ : ∃ i', i = 2 ^ k + i' := ⟨i - 2 ^ k, by omega⟩
      have hi' : i' < 2 ^ k := by omega
      have hpos : b * 2 ^ (k + 1) + (2 ^ k + i') = (2 * b + 1) * 2 ^ k + i' := by
        rw [hpow1]
        ring
      rw [hpos, ih (l + 1) (by omega) _ hWlen (2 * b + 1) i' (by omega) hi',
        reverseLsbs_odd b l, reverseLsbs_high_bit k i' hi',
        show 2 * reverseLsbs b l + 1 + 2 ^ (l + 1) * (2 * reverseLsbs i' k + 1)
          = 2 * (2 ^ l + reverseLsbs b l) + 1 + 2 ^ (l + 1 + 1) * reverseLsbs i' k
          from by ring,
        show (2 : ℕ) ^ (k + 1) = 2 ^ k + 2 ^ k from by omega,
        Finset.sum_range_add, ← Finset.sum_add_distrib]
      have key2 : ∀ X : ℕ,
          omg ^ (2 ^ logn + (2 ^ k * (2 * reverseLsbs b l + 1)
              + (2 ^ (logn + 1) * reverseLsbs i' k + X)))
            = -(omg ^ (2 ^ k * (2 * reverseLsbs b l + 1)) * omg ^ X) := by
        intro X
        rw [pow_add omg (2 ^ logn),
          pow_add omg (2 ^ k * (2 * reverseLsbs b l + 1)),
          pow_add omg (2 ^ (logn + 1) * reverseLsbs i' k) X,
          pow_mul omg (2 ^ (logn + 1)) (reverseLsbs i' k), hone, one_pow, one_mul,
          homgN]
        ring
      refine Finset.sum_congr rfl fun j hj => ?_
      have hjlt : j < 2 ^ k := Finset.mem_range.mp hj
      have hb1 := hbfly b (2 ^ k + j) hb (by rw [hvs, hfact]) (by omega)
      rw [if_neg (by omega)] at hb1
      rw [show (2 * b + 1) * 2 ^ k + j = b * (2 * 2 ^ k) + (2 ^ k + j) from by ring,
        hb1, Nat.zero_add, hρlb,
        show 2 ^ k + j - 2 ^ k = j from by omega,
        show b * (2 * 2 ^ k) + (2 ^ k + j)
          = b * (2 ^ k + 2 ^ k) + (2 ^ k + j) from by ring,
        show b * (2 * 2 ^ k) + j = b * (2 ^ k + 2 ^ k) + j from by ring,
        show (2 * (2 ^ l + reverseLsbs b l) + 1 + 2 ^ (l + 1 + 1) * reverseLsbs i' k)
              * (2 ^ k + j)
            = 2 ^ logn + (2 ^ k * (2 * reverseLsbs b l + 1)
              + (2 ^ (logn + 1) * reverseLsbs i' k
                + (2 * (2 ^ l + reverseLsbs b l) + 1
                    + 2 ^ (l + 1 + 1) * reverseLsbs i' k) * j))
          from by rw [e0, e1]; ring,
        key2]
      ring

theorem idealCtLayers_length {α : Type} [CommRing α] (ρ : ℕ → ℕ → α) :
    ∀ k l vs, vs.length = 2 ^ (k + l) →
      (idealCtLayers ρ k l vs).length = 2 ^ (k + l) := by
  intro k
  induction k with
  | zero =>
    intro l vs h
    rw [idealCtLayers]
    exact h
  | succ k ih =>
    intro l vs h
    rw [idealCtLayers]
    have hfact : 2 * 2 ^ k * 2 ^ l = 2 ^ (k + 1 + l) := by
      rw [pow_add, pow_succ]
      ring
    have h1 := idealCtLayer_length (2 ^ k) (ρ l) (2 ^ l) 0 vs (by rw [h, hfact])
    have h2 := ih (l + 1) _ (by
      rw [h1, hfact]
      congr 1
      omega)
    rw [h2]
    congr 1
    omega

theorem getD_map_lt {α β : Type} (f : α → β) (dA : α) (dB : β) :
    ∀ (l : List α) i, i < l.length → (l.map f).getD i dB = f (l.getD i dA) := by
  intro l
  induction l with
  | nil =>
    intro i hi
    exact absurd hi (by simp)
  | cons x xs ih =>
    intro i hi
    cases i with
    | zero => rfl
    | succ i => exact ih i (by simpa using hi)

theorem replicate_getD {α : Type} (a d : α) :
    ∀ n i, i < n → (List.replicate n a).getD i d = a := by
  intro n
  induction n with
  | zero =>
    intro i hi
    exact absurd hi (by omega)
  | succ n ih =>
    intro i hi
    cases i with
    | zero => rfl
    | succ i => exact ih i (by omega)

theorem range_getD : ∀ n i, i < n → (List.range n).getD i 0 = i := by
  intro n i hi
  rw [List.getD_eq_getElem (List.range n) 0 (by simpa using hi), List.getElem_range]

theorem simList_getD {p b : ℕ} :
    ∀ {xs : List ℕ} {ys : List (ZMod p)}, SimList p b xs ys →
      ∀ i, i < xs.length →
        xs.getD i 0 < b ∧ ((xs.getD i 0 : ℕ) : ZMod p) = ys.getD i 0 := by
  intro xs ys h
  rw [SimList] at h
  induction h with
  | nil =>
    intro i hi
    exact absurd hi (by simp)
  | cons hxy htail ih =>
    intro i hi
    cases i with
    | zero => exact hxy
    | succ i => exact ih i (by simpa using hi)

theorem forall₂_of_getD {α β : Type} (R : α → β → Prop) (dA : α) (dB : β) :
    ∀ (xs : List α) (ys : List β), xs.length = ys.length →
      (∀ i, i < xs.length → R (xs.getD i dA) (ys.getD i dB)) →
      List.Forall₂ R xs ys := by
  intro xs
  induction xs with
  | nil =>
    intro ys hlen _
    cases ys with
    | nil => exact List.Forall₂.nil
    | cons y ys => simp at hlen
  | cons x xs ih =>
    intro ys hlen hR
    cases ys with
    | nil => simp at hlen
    | cons y ys =>
      refine List.Forall₂.cons (hR 0 (by simp)) (ih ys (by simpa using hlen) ?_)
      intro i hi
      exact hR (i + 1) (by simpa using Nat.succ_lt_succ hi)

/-- Two lists of canonical representatives mod `p` that agree in `ZMod p`
are equal. -/
theorem canonList_eq (p : ℕ) (_hp : 0 < p) :
    ∀ (xs ys : List ℕ), xs.length = ys.length →
      (∀ i, i < xs.length →
        xs.getD i 0 < p ∧ ys.getD i 0 < p ∧
          ((xs.getD i 0 : ℕ) : ZMod p) = ((ys.getD i 0 : ℕ) : ZMod p)) →
      xs = ys := by
  intro xs
  induction xs with
  | nil =>
    intro ys hlen _
    cases ys with
    | nil => rfl
    | cons y ys => simp at hlen
  | cons x xs ih =>
    intro ys hlen hR
    cases ys with
    | nil => simp at hlen
    | cons y ys =>
      obtain ⟨hx, hy, hcast⟩ := hR 0 (by simp)
      have hhead : x = y := by
        have hmod := (ZMod.natCast_eq_natCast_iff' x y p).mp hcast
        rwa [Nat.mod_eq_of_lt (show x < p from hx),
          Nat.mod_eq_of_lt (show y < p from hy)] at hmod
      rw [hhead, ih ys (by simpa using hlen) fun i hi =>
        hR (i + 1) (by simpa using Nat.succ_lt_succ hi)]

/-- Evaluation semantics of `transform_slice`: entry `i` of the forward NTT
is the canonical representative of the input polynomial evaluated at
`ω^(2·rev(i)+1)`. -/
theorem transformSlice_eval (w p logn omg : ℕ) (hp2 : 2 ≤ p)
    (h4p : 4 * p ≤ 2 ^ w) (hprim : omg ^ 2 ^ logn % p = p - 1) :
    ∀ values : List ℕ, values.length = 2 ^ logn → (∀ x ∈ values, x < p) →
      (transformSlice w p logn (rootPowersList p omg logn) values).length = 2 ^ logn
      ∧ ∀ i, i < 2 ^ logn →
        (transformSlice w p logn (rootPowersList p omg logn) values).getD i 0 < p
        ∧ (((transformSlice w p logn (rootPowersList p omg logn) values).getD i 0 : ℕ)
            : ZMod p)
          = ∑ j ∈ Finset.range (2 ^ logn),
              ((values.getD j 0 : ℕ) : ZMod p)
                * ((omg : ℕ) : ZMod p) ^ ((2 * reverseLsbs i logn + 1) * j) := by
  intro values hlen hcanon
  have hp : 0 < p := by omega
  have h2p : 2 * p ≤ 2 ^ w := by omega
  have homgn : ((omg : ℕ) : ZMod p) ^ 2 ^ logn = -1 := by
    have h1 : (((p - 1 : ℕ)) : ZMod p) = -1 := by
      rw [Nat.cast_sub (by omega)]
      simp [ZMod.natCast_self]
    calc ((omg : ℕ) : ZMod p) ^ 2 ^ logn
        = ((omg ^ 2 ^ logn : ℕ) : ZMod p) := by push_cast; rfl
      _ = ((omg ^ 2 ^ logn % p : ℕ) : ZMod p) := (ZMod.natCast_mod _ _).symm
      _ = (((p - 1 : ℕ)) : ZMod p) := by rw [hprim]
      _ = -1 := h1
  have hsim0 : SimList p p values (values.map (fun x => ((x : ℕ) : ZMod p))) := by
    rw [SimList, List.forall₂_map_right_iff]
    refine List.forall₂_same.mpr ?_
    intro x hx
    exact ⟨hcanon x hx, rfl⟩
  have hFVflt : ∀ i : ℕ, omg ^ reverseLsbs i logn % p < p := fun i => Nat.mod_lt _ hp
  have hfwd : SimList p p
      (transformSlice w p logn (rootPowersList p omg logn) values)
      (idealCtLayers
        (fun l c => ((omg ^ reverseLsbs (2 ^ l + c) logn % p : ℕ) : ZMod p))
        logn 0 (values.map (fun x => ((x : ℕ) : ZMod p)))) :=
    transformSlice_sim w p logn
      (fun j => omg ^ reverseLsbs j logn % p) hp h2p h4p hFVflt values _ hsim0
  have hilen : (values.map (fun x : ℕ => ((x : ℕ) : ZMod p))).length
      = 2 ^ (logn + 0) := by
    rw [List.length_map, hlen]
    rfl
  have hideal_len := idealCtLayers_length
    (fun l c => ((omg ^ reverseLsbs (2 ^ l + c) logn % p : ℕ) : ZMod p))
    logn 0 _ hilen
  have hout_len : (transformSlice w p logn (rootPowersList p omg logn) values).length
      = 2 ^ logn := by
    rw [List.Forall₂.length_eq hfwd, hideal_len]
    rfl
  refine ⟨hout_len, fun i hi => ?_⟩
  have hgetD := simList_getD hfwd i (by omega)
  have heval := idealCtLayers_eval logn ((omg : ℕ) : ZMod p) homgn
    (fun l c => ((omg ^ reverseLsbs (2 ^ l + c) logn % p : ℕ) : ZMod p))
    (fun l c hl hc => by
      dsimp only
      rw [reverseLsbs_layer_index logn l c hl hc, ZMod.natCast_mod]
      push_cast
      rfl)
    logn 0 rfl
    (values.map (fun x => ((x : ℕ) : ZMod p))) hilen 0 i (by norm_num) hi
  rw [Nat.zero_mul, Nat.zero_add] at heval
  rw [show (2 * reverseLsbs 0 0 + 1 + 2 ^ (0 + 1) * reverseLsbs i logn)
      = 2 * reverseLsbs i logn + 1 from by
    rw [reverseLsbs]
    ring] at heval
  rw [Finset.sum_congr rfl (fun j hj => by
    rw [Nat.zero_add,
      getD_map_lt (fun x : ℕ => ((x : ℕ) : ZMod p)) 0 0 values j
        (by rw [hlen]; exact Finset.mem_range.mp hj)])] at heval
  exact ⟨hgetD.1, by rw [hgetD.2, heval]⟩

/-! ## Monomial NTT (`NTTTable::transform_monomial`) -/

/-- `transform_monomial` (`ntt_table.rs`): fill with zeros for a zero
coefficient, fill with the coefficient for degree `0`, and otherwise write
to slot `j` the table entry `ordinal_root_powers[(2·rev(j)+1)·degree & mask]`
with `mask = 2^(logn+1) - 1`, copied for `coeff = 1`, negated for
`coeff = p - 1`, and Shoup-multiplied by `coeff` otherwise. -/
def transformMonomial (w p logn : ℕ) (ordRoots : List ℕ) (coeff degree : ℕ) :
    List ℕ :=
  if coeff = 0 then List.replicate (2 ^ logn) 0
  else if degree = 0 then List.replicate (2 ^ logn) coeff
  else if coeff = 1 then
    (List.range (2 ^ logn)).map fun j =>
      ordRoots.getD ((2 * reverseLsbs j logn + 1) * degree &&& (2 ^ (logn + 1) - 1)) 0
  else if coeff = p - 1 then
    (List.range (2 ^ logn)).map fun j =>
      negReduce p
        (ordRoots.getD ((2 * reverseLsbs j logn + 1) * degree &&& (2 ^ (logn + 1) - 1)) 0)
  else
    (List.range (2 ^ logn)).map fun j =>
      shoupMulReduce w
        (shoupFactorNew w
          (ordRoots.getD ((2 * reverseLsbs j logn + 1) * degree &&& (2 ^ (logn + 1) - 1)) 0)
          p)
        coeff p

theorem transformMonomial_length (w p logn : ℕ) (ordRoots : List ℕ)
    (coeff degree : ℕ) :
    (transformMonomial w p logn ordRoots coeff degree).length = 2 ^ logn := by
  rw [transformMonomial]
  split_ifs <;> simp

/-- **C6.** For every degree `d ∈ [0, 2N)` and coefficient `c ∈ [0, p)`,
`transform_monomial(c, d)` produces the same buffer as the forward NTT
(`transform_slice`) applied to the length-`N` polynomial whose coefficient at
position `d mod N` is `c`, negated when `⌊d / N⌋` is odd, and whose other
coefficients are zero. -/
theorem C6_transform_monomial (w p logn omg : ℕ) (hp2 : 2 ≤ p)
    (h4p : 4 * p ≤ 2 ^ w) (homg : omg < p)
    (hprim : omg ^ 2 ^ logn % p = p - 1) :
    ∀ coeff degree, coeff < p → degree < 2 * 2 ^ logn →
      transformMonomial w p logn (ordinalRootPowers p omg (2 * 2 ^ logn)) coeff degree
        = transformSlice w p logn (rootPowersList p omg logn)
            ((List.range (2 ^ logn)).map fun j =>
              if j = degree % 2 ^ logn then
                if degree / 2 ^ logn = 0 then coeff else (p - coeff) % p
              else 0) := by
  intro coeff degree hcoeff hdeg
  have hp : 0 < p := by omega
  have h2p : 2 * p ≤ 2 ^ w := by omega
  have hn : 0 < 2 ^ logn := Nat.pos_pow_of_pos _ (by norm_num)
  have homgn : ((omg : ℕ) : ZMod p) ^ 2 ^ logn = -1 := by
    have h1 : (((p - 1 : ℕ)) : ZMod p) = -1 := by
      rw [Nat.cast_sub (by omega)]
      simp [ZMod.natCast_self]
    calc ((omg : ℕ) : ZMod p) ^ 2 ^ logn
        = ((omg ^ 2 ^ logn : ℕ) : ZMod p) := by push_cast; rfl
      _ = ((omg ^ 2 ^ logn % p : ℕ) : ZMod p) := (ZMod.natCast_mod _ _).symm
      _ = (((p - 1 : ℕ)) : ZMod p) := by rw [hprim]
      _ = -1 := h1
  have homg2n : ((omg : ℕ) : ZMod p) ^ (2 * 2 ^ logn) = 1 := by
    rw [mul_comm, pow_mul, homgn]
    ring
  have hmodpow : ∀ X : ℕ, ((omg : ℕ) : ZMod p) ^ (X % (2 * 2 ^ logn))
      = ((omg : ℕ) : ZMod p) ^ X := by
    intro X
    conv_rhs => rw [← Nat.div_add_mod X (2 * 2 ^ logn)]
    rw [pow_add, pow_mul, homg2n, one_pow, one_mul]
  -- the ordinal root power table at a masked index
  have htab : ∀ X : ℕ,
      (ordinalRootPowers p omg (2 * 2 ^ logn)).getD (X &&& (2 ^ (logn + 1) - 1)) 0
        = omg ^ (X % (2 * 2 ^ logn)) % p := by
    intro X
    have hmask : X &&& (2 ^ (logn + 1) - 1) = X % (2 * 2 ^ logn) := by
      rw [Nat.and_pow_two_sub_one_eq_mod]
      congr 1
      rw [pow_succ]
      ring
    rw [hmask, ordinalRootPowers,
      getD_map_lt (fun i => omg ^ i % p) 0 0 _ _ (by
        rw [List.length_range]
        exact Nat.mod_lt _ (by omega)),
      range_getD _ _ (Nat.mod_lt _ (by omega))]
  have htablt : ∀ X : ℕ,
      (ordinalRootPowers p omg (2 * 2 ^ logn)).getD (X &&& (2 ^ (logn + 1) - 1)) 0
        < p := by
    intro X
    rw [htab]
    exact Nat.mod_lt _ hp
  have htabcast : ∀ X : ℕ,
      (((ordinalRootPowers p omg (2 * 2 ^ logn)).getD
          (X &&& (2 ^ (logn + 1) - 1)) 0 : ℕ) : ZMod p)
        = ((omg : ℕ) : ZMod p) ^ X := by
    intro X
    rw [htab, ZMod.natCast_mod]
    push_cast
    rw [hmodpow]
  -- the monomial polynomial
  have hmlen : ((List.range (2 ^ logn)).map fun j =>
      if j = degree % 2 ^ logn then
        if degree / 2 ^ logn = 0 then coeff else (p - coeff) % p
      else 0).length = 2 ^ logn := by
    rw [List.length_map, List.length_range]
  have hmcanon : ∀ x ∈ (List.range (2 ^ logn)).map fun j =>
      if j = degree % 2 ^ logn then
        if degree / 2 ^ logn = 0 then coeff else (p - coeff) % p
      else 0, x < p := by
    intro x hx
    obtain ⟨j, -, rfl⟩ := List.mem_map.mp hx
    split_ifs
    · exact hcoeff
    · exact Nat.mod_lt _ hp
    · exact hp
  have hmgetD : ∀ j, j < 2 ^ logn →
      ((List.range (2 ^ logn)).map fun j' =>
        if j' = degree % 2 ^ logn then
          if degree / 2 ^ logn = 0 then coeff else (p - coeff) % p
        else 0).getD j 0
      = if j = degree % 2 ^ logn then
          if degree / 2 ^ logn = 0 then coeff else (p - coeff) % p
        else 0 := by
    intro j hj
    rw [getD_map_lt _ 0 0 _ j (by simpa using hj), range_getD _ _ hj]
  obtain ⟨hTlen, hTpt⟩ := transformSlice_eval w p logn omg hp2 h4p hprim _ hmlen hmcanon
  -- the evaluation of the monomial polynomial at `ω^(2·rev(i)+1)`
  have hsum : ∀ i, i < 2 ^ logn →
      (∑ j ∈ Finset.range (2 ^ logn),
        ((((List.range (2 ^ logn)).map fun j' =>
            if j' = degree % 2 ^ logn then
              if degree / 2 ^ logn = 0 then coeff else (p - coeff) % p
            else 0).getD j 0 : ℕ) : ZMod p)
          * ((omg : ℕ) : ZMod p) ^ ((2 * reverseLsbs i logn + 1) * j))
      = ((coeff : ℕ) : ZMod p)
          * ((omg : ℕ) : ZMod p) ^ ((2 * reverseLsbs i logn + 1) * degree) := by
    intro i hi
    rw [Finset.sum_congr rfl (fun j hj => by
      rw [hmgetD j (Finset.mem_range.mp hj),
        apply_ite (fun x : ℕ => ((x : ℕ) : ZMod p)), Nat.cast_zero, ite_mul,
        zero_mul]),
      Finset.sum_ite_eq' (Finset.range (2 ^ logn)) (degree % 2 ^ logn),
      if_pos (Finset.mem_range.mpr (Nat.mod_lt _ hn))]
    by_cases hd0 : degree / 2 ^ logn = 0
    · have hdlt : degree < 2 ^ logn := (Nat.div_eq_zero_iff hn).mp hd0
      rw [if_pos hd0, Nat.mod_eq_of_lt hdlt]
    · have hge : 2 ^ logn ≤ degree :=
        le_of_not_lt fun hlt => hd0 (Nat.div_eq_of_lt hlt)
      obtain ⟨d', rfl⟩ : ∃ d', degree = 2 ^ logn + d' := ⟨degree - 2 ^ logn, by omega⟩
      have hd'lt : d' < 2 ^ logn := by omega
      rw [if_neg hd0, Nat.add_mod_left, Nat.mod_eq_of_lt hd'lt]
      have hcast' : (((p - coeff) % p : ℕ) : ZMod p) = -((coeff : ℕ) : ZMod p) := by
        rw [ZMod.natCast_mod, Nat.cast_sub (le_of_lt hcoeff), ZMod.natCast_self]
        ring
      rw [hcast',
        show (2 * reverseLsbs i logn + 1) * (2 ^ logn + d')
          = 2 ^ logn + (2 * 2 ^ logn * reverseLsbs i logn
              + (2 * reverseLsbs i logn + 1) * d') from by ring,
        pow_add ((omg : ℕ) : ZMod p) (2 ^ logn),
        pow_add ((omg : ℕ) : ZMod p) (2 * 2 ^ logn * reverseLsbs i logn),
        pow_mul ((omg : ℕ) : ZMod p) (2 * 2 ^ logn), homgn, homg2n, one_pow]
      ring
  -- the faithful monomial transform, branch by branch
  have hL : ∀ i, i < 2 ^ logn →
      (transformMonomial w p logn (ordinalRootPowers p omg (2 * 2 ^ logn))
        coeff degree).getD i 0 < p
      ∧ (((transformMonomial w p logn (ordinalRootPowers p omg (2 * 2 ^ logn))
          coeff degree).getD i 0 : ℕ) : ZMod p)
        = ((coeff : ℕ) : ZMod p)
            * ((omg : ℕ) : ZMod p) ^ ((2 * reverseLsbs i logn + 1) * degree) := by
    intro i hi
    by_cases hc0 : coeff = 0
    · subst hc0
      rw [transformMonomial, if_pos rfl, replicate_getD _ _ _ _ hi]
      exact ⟨hp, by rw [Nat.cast_zero, zero_mul]⟩
    by_cases hdeg0 : degree = 0
    · subst hdeg0
      rw [transformMonomial, if_neg hc0, if_pos rfl, replicate_getD _ _ _ _ hi]
      exact ⟨hcoeff, by rw [Nat.mul_zero, pow_zero, mul_one]⟩
    have hrange : i < (List.range (2 ^ logn)).length := by simpa using hi
    by_cases hc1 : coeff = 1
    · subst hc1
      rw [transformMonomial, if_neg hc0, if_neg hdeg0, if_pos rfl,
        getD_map_lt _ 0 0 _ i hrange, range_getD _ _ hi]
      exact ⟨htablt _, by rw [htabcast, Nat.cast_one, one_mul]⟩
    by_cases hcp1 : coeff = p - 1
    · rw [transformMonomial, if_neg hc0, if_neg hdeg0, if_neg hc1, if_pos hcp1,
        getD_map_lt _ 0 0 _ i hrange, range_getD _ _ hi]
      have hT := htablt ((2 * reverseLsbs i logn + 1) * degree)
      constructor
      · rw [negReduce]
        split_ifs with h
        · exact hp
        · omega
      · have hneg : ∀ a : ℕ, a < p →
            ((negReduce p a : ℕ) : ZMod p) = -((a : ℕ) : ZMod p) := by
          intro a ha
          rw [negReduce]
          split_ifs with h
          · subst h
            simp
          · rw [Nat.cast_sub (le_of_lt ha), ZMod.natCast_self]
            ring
        rw [hneg _ hT, htabcast, hcp1, Nat.cast_sub (by omega), ZMod.natCast_self,
          Nat.cast_one]
        ring
    · rw [transformMonomial, if_neg hc0, if_neg hdeg0, if_neg hc1, if_neg hcp1,
        getD_map_lt _ 0 0 _ i hrange, range_getD _ _ hi]
      have hT := htablt ((2 * reverseLsbs i logn + 1) * degree)
      have hsh := shoupMulReduce_eq w p _ coeff hp h2p hT (by omega)
      rw [hsh]
      refine ⟨Nat.mod_lt _ hp, ?_⟩
      rw [ZMod.natCast_mod, Nat.cast_mul, htabcast]
      ring
  -- both buffers are canonical and have the same image in `ZMod p`
  refine canonList_eq p hp _ _ (by rw [transformMonomial_length, hTlen]) ?_
  intro i hi
  rw [transformMonomial_length] at hi
  obtain ⟨hLlt, hLcast⟩ := hL i hi
  obtain ⟨hRlt, hRcast⟩ := hTpt i hi
  exact ⟨hLlt, hRlt, by rw [hLcast, hRcast, hsum i hi]⟩

theorem C6_transform_monomial_witness :
    transformMonomial 8 5 1 (ordinalRootPowers 5 2 (2 * 2 ^ 1)) 3 3
      = transformSlice 8 5 1 (rootPowersList 5 2 1)
          ((List.range (2 ^ 1)).map fun j =>
            if j = 3 % 2 ^ 1 then if 3 / 2 ^ 1 = 0 then 3 else (5 - 3) % 5
            else 0) :=
  C6_transform_monomial 8 5 1 2 (by norm_num) (by norm_num) (by norm_num)
    (by norm_num) 3 3 (by norm_num) (by norm_num)

/-! ## Polynomial multiplication (`MulAssign for Polynomial`) -/

/-- Evaluating a negacyclic convolution at a point `ω^E` with
`ω^(E·n) = -1` multiplies the evaluations. -/
theorem negacyclic_eval {R : Type} [CommRing R] (n : ℕ) (ω : R) (E : ℕ)
    (hψ : ω ^ (E * n) = -1) (A B : ℕ → R) :
    ∑ m ∈ Finset.range n,
        (∑ j ∈ Finset.range n, ∑ k ∈ Finset.range n,
          (if j + k = m then A j * B k
           else if j + k = n + m then -(A j * B k) else 0)) * ω ^ (E * m)
      = (∑ j ∈ Finset.range n, A j * ω ^ (E * j))
          * (∑ k ∈ Finset.range n, B k * ω ^ (E * k)) := by
  rw [Finset.sum_mul_sum]
  rw [Finset.sum_congr rfl (fun m _ => by
    rw [Finset.sum_mul,
      Finset.sum_congr rfl (fun j _ => Finset.sum_mul _ _ _)])]
  rw [Finset.sum_comm]
  refine Finset.sum_congr rfl fun j hj => ?_
  rw [Finset.sum_comm]
  refine Finset.sum_congr rfl fun k hk => ?_
  have hjn : j < n := Finset.mem_range.mp hj
  have hkn : k < n := Finset.mem_range.mp hk
  by_cases hjk : j + k < n
  · rw [Finset.sum_congr rfl (fun m hm => by
      rw [show (if j + k = m then A j * B k
            else if j + k = n + m then -(A j * B k) else 0)
          = if j + k = m then A j * B k else 0 from by
        have hmn : m < n := Finset.mem_range.mp hm
        by_cases h1 : j + k = m
        · rw [if_pos h1, if_pos h1]
        · rw [if_neg h1, if_neg h1, if_neg (by omega)], ite_mul, zero_mul]) ,
      Finset.sum_ite_eq (Finset.range n) (j + k), if_pos (Finset.mem_range.mpr hjk),
      show E * (j + k) = E * j + E * k from by ring, pow_add]
    ring
  · obtain ⟨t, ht⟩ : ∃ t, j + k = n + t := ⟨j + k - n, by omega⟩
    have htn : t < n := by omega
    rw [Finset.sum_congr rfl (fun m hm => by
      rw [show (if j + k = m then A j * B k
            else if j + k = n + m then -(A j * B k) else 0)
          = if m = t then -(A j * B k) else 0 from by
        have hmn : m < n := Finset.mem_range.mp hm
        by_cases h2 : m = t
        · rw [if_neg (by omega), if_pos (by omega), if_pos h2]
        · rw [if_neg (by omega), if_neg (by omega), if_neg h2], ite_mul, zero_mul]),
      Finset.sum_ite_eq' (Finset.range n) t, if_pos (Finset.mem_range.mpr htn)]
    have hpow : ω ^ (E * j) * ω ^ (E * k) = -ω ^ (E * t) := by
      rw [← pow_add, show E * j + E * k = E * n + E * t from by
        rw [← Nat.mul_add, ht, Nat.mul_add], pow_add, hψ]
      ring
    linear_combination (-(A j * B k)) * hpow

/-- `MulAssign for Polynomial` (`native_polynomial.rs`): forward-transform
both operands with `transform_slice`, multiply entrywise with the lazy
Barrett product (`ntt_mul_assign_fast`, whose entries stay in `[0, 2p)`),
then apply `inverse_transform_slice`. -/
def polyMul (w p logn invDeg : ℕ) (roots invRoots : List ℕ) (a b : List ℕ) :
    List ℕ :=
  inverseTransformSlice w p logn invDeg invRoots
    (List.zipWith (fun x y => lazyMulReduce w (barrettModulus w p) x y)
      (transformSlice w p logn roots a)
      (transformSlice w p logn roots b))

/-- The spec's reference product: the naive `O(N²)` negacyclic convolution
modulo `X^N + 1` over `ZMod p`. -/
def negacyclicConv (p n : ℕ) (a b : List ℕ) : List (ZMod p) :=
  (List.range n).map fun i =>
    ∑ j ∈ Finset.range n, ∑ k ∈ Finset.range n,
      (if j + k = i then ((a.getD j 0 : ℕ) : ZMod p) * ((b.getD k 0 : ℕ) : ZMod p)
       else if j + k = n + i then
         -(((a.getD j 0 : ℕ) : ZMod p) * ((b.getD k 0 : ℕ) : ZMod p))
       else 0)

/-- The `Mul` pipeline equals the canonical representatives of the naive
negacyclic convolution (shared workhorse for the claims below). -/
theorem polyMul_negacyclic (w p logn omg invDeg : ℕ)
    (hp2 : 2 ≤ p) (h4p : 4 * p ≤ 2 ^ w) (hlogn : 1 ≤ logn)
    (homg : omg < p) (hprim : omg ^ 2 ^ logn % p = p - 1)
    (hinvDeg : invDeg < p) (hinvDeg1 : invDeg * 2 ^ logn % p = 1) :
    ∀ a b : List ℕ, a.length = 2 ^ logn → b.length = 2 ^ logn →
      (∀ x ∈ a, x < p) → (∀ x ∈ b, x < p) →
      polyMul w p logn invDeg (rootPowersList p omg logn)
          (invRootPowersList p omg logn) a b
        = (negacyclicConv p (2 ^ logn) a b).map ZMod.val := by
  intro a b ha hb hacanon hbcanon
  have hp : 0 < p := by omega
  have h2p : 2 * p ≤ 2 ^ w := by omega
  haveI : NeZero p := ⟨by omega⟩
  have hn : 0 < 2 ^ logn := Nat.pos_pow_of_pos _ (by norm_num)
  have hn2 : 2 ≤ 2 ^ logn :=
    le_trans (by norm_num) (Nat.pow_le_pow_right (by norm_num) hlogn)
  have homgn : ((omg : ℕ) : ZMod p) ^ 2 ^ logn = -1 := by
    have h1 : (((p - 1 : ℕ)) : ZMod p) = -1 := by
      rw [Nat.cast_sub (by omega)]
      simp [ZMod.natCast_self]
    calc ((omg : ℕ) : ZMod p) ^ 2 ^ logn
        = ((omg ^ 2 ^ logn : ℕ) : ZMod p) := by push_cast; rfl
      _ = ((omg ^ 2 ^ logn % p : ℕ) : ZMod p) := (ZMod.natCast_mod _ _).symm
      _ = (((p - 1 : ℕ)) : ZMod p) := by rw [hprim]
      _ = -1 := h1
  have homg2n : ((omg : ℕ) : ZMod p) ^ (2 * 2 ^ logn) = 1 := by
    rw [mul_comm, pow_mul, homgn]
    ring
  -- the reference product is a canonical list of length `N`
  have hClen : ((negacyclicConv p (2 ^ logn) a b).map ZMod.val).length
      = 2 ^ logn := by
    rw [List.length_map, negacyclicConv, List.length_map, List.length_range]
  have hCcanon : ∀ x ∈ (negacyclicConv p (2 ^ logn) a b).map ZMod.val, x < p := by
    intro x hx
    obtain ⟨ξ, -, rfl⟩ := List.mem_map.mp hx
    exact ZMod.val_lt ξ
  have hCgetD : ∀ i, i < 2 ^ logn →
      ((((negacyclicConv p (2 ^ logn) a b).map ZMod.val).getD i 0 : ℕ) : ZMod p)
        = ∑ j ∈ Finset.range (2 ^ logn), ∑ k ∈ Finset.range (2 ^ logn),
            (if j + k = i then
              ((a.getD j 0 : ℕ) : ZMod p) * ((b.getD k 0 : ℕ) : ZMod p)
             else if j + k = 2 ^ logn + i then
              -(((a.getD j 0 : ℕ) : ZMod p) * ((b.getD k 0 : ℕ) : ZMod p))
             else 0) := by
    intro i hi
    rw [getD_map_lt ZMod.val 0 0 _ i (by
        rw [negacyclicConv, List.length_map, List.length_range]
        exact hi),
      ZMod.natCast_rightInverse _,
      negacyclicConv, getD_map_lt _ 0 0 _ i (by simpa using hi), range_getD _ _ hi]
  -- forward transforms of both operands
  obtain ⟨hTAlen, hTApt⟩ := transformSlice_eval w p logn omg hp2 h4p hprim a ha hacanon
  obtain ⟨hTBlen, hTBpt⟩ := transformSlice_eval w p logn omg hp2 h4p hprim b hb hbcanon
  have hZWlen : (List.zipWith (fun x y => lazyMulReduce w (barrettModulus w p) x y)
      (transformSlice w p logn (rootPowersList p omg logn) a)
      (transformSlice w p logn (rootPowersList p omg logn) b)).length = 2 ^ logn := by
    rw [List.length_zipWith, hTAlen, hTBlen, Nat.min_self]
  have hivslen : (((negacyclicConv p (2 ^ logn) a b).map ZMod.val).map
      (fun x : ℕ => ((x : ℕ) : ZMod p))).length = 2 ^ (logn + 0) := by
    rw [List.length_map, hClen]
    rfl
  have hideal_len := idealCtLayers_length
    (fun l c => ((omg ^ reverseLsbs (2 ^ l + c) logn % p : ℕ) : ZMod p))
    logn 0 _ hivslen
  -- the lazy pointwise product simulates the ideal forward transform of the
  -- reference product
  have hZWsim : SimList p (2 * p)
      (List.zipWith (fun x y => lazyMulReduce w (barrettModulus w p) x y)
        (transformSlice w p logn (rootPowersList p omg logn) a)
        (transformSlice w p logn (rootPowersList p omg logn) b))
      (idealCtLayers
        (fun l c => ((omg ^ reverseLsbs (2 ^ l + c) logn % p : ℕ) : ZMod p))
        logn 0 (((negacyclicConv p (2 ^ logn) a b).map ZMod.val).map
          (fun x : ℕ => ((x : ℕ) : ZMod p)))) := by
    rw [SimList]
    refine forall₂_of_getD _ 0 0 _ _ (by rw [hZWlen, hideal_len]; rfl) ?_
    intro i hi
    rw [hZWlen] at hi
    rw [getD_zipWith _ 0 0 0 _ _ i (by rw [hTAlen]; exact hi)
      (by rw [hTBlen]; exact hi)]
    obtain ⟨hAlt, hAcast⟩ := hTApt i hi
    obtain ⟨hBlt, hBcast⟩ := hTBpt i hi
    obtain ⟨hlt2p, hmod⟩ := lazyMulReduce_spec w p _ _ hp2 h4p
      (lt_of_lt_of_le hAlt (by omega)) (lt_of_lt_of_le hBlt (by omega))
    refine ⟨hlt2p, ?_⟩
    have heval := idealCtLayers_eval logn ((omg : ℕ) : ZMod p) homgn
      (fun l c => ((omg ^ reverseLsbs (2 ^ l + c) logn % p : ℕ) : ZMod p))
      (fun l c hl hc => by
        dsimp only
        rw [reverseLsbs_layer_index logn l c hl hc, ZMod.natCast_mod]
        push_cast
        rfl)
      logn 0 rfl _ hivslen 0 i (by norm_num) hi
    rw [Nat.zero_mul, Nat.zero_add] at heval
    rw [show (2 * reverseLsbs 0 0 + 1 + 2 ^ (0 + 1) * reverseLsbs i logn)
        = 2 * reverseLsbs i logn + 1 from by
      rw [reverseLsbs]
      ring] at heval
    rw [Finset.sum_congr rfl (fun m hm => by
      rw [Nat.zero_add,
        getD_map_lt (fun x : ℕ => ((x : ℕ) : ZMod p)) 0 0 _ m
          (by rw [hClen]; exact Finset.mem_range.mp hm),
        hCgetD m (Finset.mem_range.mp hm)])] at heval
    have hψE : ((omg : ℕ) : ZMod p)
        ^ ((2 * reverseLsbs i logn + 1) * 2 ^ logn) = -1 := by
      rw [show (2 * reverseLsbs i logn + 1) * 2 ^ logn
          = 2 ^ logn + 2 * 2 ^ logn * reverseLsbs i logn from by ring,
        pow_add, homgn, pow_mul ((omg : ℕ) : ZMod p) (2 * 2 ^ logn), homg2n,
        one_pow]
      ring
    rw [negacyclic_eval (2 ^ logn) ((omg : ℕ) : ZMod p)
      (2 * reverseLsbs i logn + 1) hψE
      (fun j => ((a.getD j 0 : ℕ) : ZMod p))
      (fun k => ((b.getD k 0 : ℕ) : ZMod p))] at heval
    have hcastlazy : ((lazyMulReduce w (barrettModulus w p)
        ((transformSlice w p logn (rootPowersList p omg logn) a).getD i 0)
        ((transformSlice w p logn (rootPowersList p omg logn) b).getD i 0) : ℕ)
          : ZMod p)
        = (((transformSlice w p logn (rootPowersList p omg logn) a).getD i 0 : ℕ)
            : ZMod p)
          * (((transformSlice w p logn (rootPowersList p omg logn) b).getD i 0 : ℕ)
            : ZMod p) := by
      rw [← ZMod.natCast_mod, hmod, ZMod.natCast_mod, Nat.cast_mul]
    rw [hcastlazy, hAcast, hBcast, heval]
  -- inverse transform and the ideal round trip
  have hFVilt : ∀ i : ℕ,
      (if i = 0 then 1 % p
       else omg ^ (2 * 2 ^ logn - (reverseLsbs (i - 1) logn + 1)) % p) < p := by
    intro i
    split_ifs <;> exact Nat.mod_lt _ hp
  have hinv := inverseTransformSlice_sim w p logn invDeg
    (fun j => if j = 0 then 1 % p
      else omg ^ (2 * 2 ^ logn - (reverseLsbs (j - 1) logn + 1)) % p)
    hp hlogn h2p h4p hFVilt hinvDeg
    (List.zipWith (fun x y => lazyMulReduce w (barrettModulus w p) x y)
      (transformSlice w p logn (rootPowersList p omg logn) a)
      (transformSlice w p logn (rootPowersList p omg logn) b))
    (idealCtLayers
      (fun l c => ((omg ^ reverseLsbs (2 ^ l + c) logn % p : ℕ) : ZMod p))
      logn 0 (((negacyclicConv p (2 ^ logn) a b).map ZMod.val).map
        (fun x : ℕ => ((x : ℕ) : ZMod p))))
    hZWsim
  have hRT := ideal_round_trip logn hlogn
    (fun l c => ((omg ^ reverseLsbs (2 ^ l + c) logn % p : ℕ) : ZMod p))
    (fun j c => (((if 2 ^ logn - 2 ^ (logn - j) + c + 1 = 0 then 1 % p
      else omg ^ (2 * 2 ^ logn
        - (reverseLsbs (2 ^ logn - 2 ^ (logn - j) + c + 1 - 1) logn + 1)) % p) : ℕ)
      : ZMod p))
    ((invDeg : ℕ) : ZMod p)
    (((invDeg : ℕ) : ZMod p) * (((if 2 ^ logn - 1 = 0 then 1 % p
      else omg ^ (2 * 2 ^ logn
        - (reverseLsbs (2 ^ logn - 1 - 1) logn + 1)) % p) : ℕ) : ZMod p))
    ?hpair ?hsr ?hs
    (((negacyclicConv p (2 ^ logn) a b).map ZMod.val).map
      (fun x : ℕ => ((x : ℕ) : ZMod p)))
    (by rw [List.length_map, hClen])
  case hpair =>
    intro l c hl hc
    dsimp only
    have hle1 : (2 : ℕ) ^ (l + 1) ≤ 2 ^ logn :=
      Nat.pow_le_pow_right (by norm_num) (by omega)
    have hidx : 2 ^ logn - 2 ^ (logn - (logn - 1 - l)) + c + 1
        = 2 ^ logn - 2 ^ (l + 1) + c + 1 := by
      have e1 : logn - (logn - 1 - l) = l + 1 := by omega
      rw [e1]
    rw [hidx]
    rw [if_neg (by omega)]
    have hR : reverseLsbs (2 ^ logn - 2 ^ (l + 1) + c + 1 - 1) logn + 1
        = reverseLsbs (2 ^ l + c) logn := by
      rw [show 2 ^ logn - 2 ^ (l + 1) + c + 1 - 1 = 2 ^ logn - 2 ^ (l + 1) + c from by
        omega]
      exact reverseLsbs_inv_index logn l c hl hc
    rw [hR]
    have hRlt : reverseLsbs (2 ^ l + c) logn < 2 ^ logn := reverseLsbs_lt logn _
    rw [ZMod.natCast_mod, ZMod.natCast_mod]
    push_cast
    rw [← pow_add]
    rw [show 2 * 2 ^ logn - reverseLsbs (2 ^ l + c) logn
        + reverseLsbs (2 ^ l + c) logn = 2 * 2 ^ logn from by omega]
    exact homg2n
  case hsr =>
    dsimp only
    congr 2
    have e2 : 2 ^ logn - 2 ^ (logn - (logn - 1)) + 0 + 1 = 2 ^ logn - 1 := by
      have e3 : logn - (logn - 1) = 1 := by omega
      rw [e3]
      omega
    rw [e2]
  case hs =>
    have hcast := congrArg (fun x : ℕ => ((x : ℕ) : ZMod p)) hinvDeg1
    simp only [ZMod.natCast_mod] at hcast
    push_cast at hcast
    exact hcast
  rw [hRT] at hinv
  rw [SimList, List.forall₂_map_right_iff] at hinv
  exact simList_to_eq p _ _ hCcanon hinv

/-- **C4.** For all polynomials `a` and `b` of length `N` with canonical
coefficients, polynomial multiplication computed as forward-transforming both
operands, pointwise lazy multiplication, and inverse-transforming (the
`Mul`/`MulAssign` implementation for `Polynomial`) equals the naive `O(N²)`
negacyclic convolution of `a` and `b` modulo `X^N + 1`. -/
theorem C4_poly_mul_negacyclic (w p logn omg invDeg : ℕ)
    (hp2 : 2 ≤ p) (h4p : 4 * p ≤ 2 ^ w) (hlogn : 1 ≤ logn)
    (homg : omg < p) (hprim : omg ^ 2 ^ logn % p = p - 1)
    (hinvDeg : invDeg < p) (hinvDeg1 : invDeg * 2 ^ logn % p = 1) :
    ∀ a b : List ℕ, a.length = 2 ^ logn → b.length = 2 ^ logn →
      (∀ x ∈ a, x < p) → (∀ x ∈ b, x < p) →
      polyMul w p logn invDeg (rootPowersList p omg logn)
          (invRootPowersList p omg logn) a b
        = (negacyclicConv p (2 ^ logn) a b).map ZMod.val :=
  polyMul_negacyclic w p logn omg invDeg hp2 h4p hlogn homg hprim hinvDeg hinvDeg1

theorem C4_poly_mul_negacyclic_witness :
    polyMul 8 5 1 3 (rootPowersList 5 2 1) (invRootPowersList 5 2 1) [1, 2] [3, 4]
      = (negacyclicConv 5 (2 ^ 1) [1, 2] [3, 4]).map ZMod.val :=
  C4_poly_mul_negacyclic 8 5 1 2 3 (by norm_num) (by norm_num) (by norm_num)
    (by norm_num) (by norm_num) (by norm_num) (by norm_num) [1, 2] [3, 4]
    (by norm_num) (by norm_num) (by decide) (by decide)

/-! ## Negacyclic convolution algebra (towards the BFV claims) -/

/-- The negacyclic convolution of two coefficient functions. -/
def convC {R : Type} [CommRing R] (n : ℕ) (A B : ℕ → R) (i : ℕ) : R :=
  ∑ j ∈ Finset.range n, ∑ k ∈ Finset.range n,
    (if j + k = i then A j * B k
     else if j + k = n + i then -(A j * B k) else 0)

theorem negacyclicConv_getD (p n : ℕ) (a b : List ℕ) :
    ∀ i, i < n → (negacyclicConv p n a b).getD i 0
      = convC n (fun j => ((a.getD j 0 : ℕ) : ZMod p))
          (fun k => ((b.getD k 0 : ℕ) : ZMod p)) i := by
  intro i hi
  rw [negacyclicConv, getD_map_lt _ 0 0 _ i (by simpa using hi), range_getD _ _ hi]
  rfl

theorem convC_congr {R : Type} [CommRing R] (n : ℕ) (A A' B B' : ℕ → R)
    (hA : ∀ j, j < n → A j = A' j) (hB : ∀ k, k < n → B k = B' k) (i : ℕ) :
    convC n A B i = convC n A' B' i := by
  refine Finset.sum_congr rfl fun j hj => Finset.sum_congr rfl fun k hk => ?_
  rw [hA j (Finset.mem_range.mp hj), hB k (Finset.mem_range.mp hk)]

theorem convC_add_left {R : Type} [CommRing R] (n : ℕ) (A A' B : ℕ → R) (i : ℕ) :
    convC n (fun j => A j + A' j) B i = convC n A B i + convC n A' B i := by
  rw [convC, convC, convC, ← Finset.sum_add_distrib]
  refine Finset.sum_congr rfl fun j _ => ?_
  rw [← Finset.sum_add_distrib]
  refine Finset.sum_congr rfl fun k _ => ?_
  split_ifs <;> ring

theorem convC_neg_left {R : Type} [CommRing R] (n : ℕ) (A B : ℕ → R) (i : ℕ) :
    convC n (fun j => -A j) B i = -convC n A B i := by
  rw [convC, convC, ← Finset.sum_neg_distrib]
  refine Finset.sum_congr rfl fun j _ => ?_
  rw [← Finset.sum_neg_distrib]
  refine Finset.sum_congr rfl fun k _ => ?_
  split_ifs <;> ring

/-- The canonical three-factor negacyclic sum. -/
def triC {R : Type} [CommRing R] (n : ℕ) (A S U : ℕ → R) (i : ℕ) : R :=
  ∑ a ∈ Finset.range n, ∑ b ∈ Finset.range n, ∑ k ∈ Finset.range n,
    (if a + b + k = i then A a * S b * U k
     else if a + b + k = n + i then -(A a * S b * U k)
     else if a + b + k = 2 * n + i then A a * S b * U k
     else 0)

theorem ite_sum_mul {R : Type} [CommRing R] (s t : Finset ℕ)
    (c1 c2 : Prop) [Decidable c1] [Decidable c2] (g : ℕ → ℕ → R) (uu : R) :
    (if c1 then (∑ a ∈ s, ∑ b ∈ t, g a b) * uu
     else if c2 then -((∑ a ∈ s, ∑ b ∈ t, g a b) * uu) else 0)
    = ∑ a ∈ s, ∑ b ∈ t,
        (if c1 then g a b * uu else if c2 then -(g a b * uu) else 0) := by
  split_ifs
  · rw [Finset.sum_mul]
    exact Finset.sum_congr rfl fun a _ => Finset.sum_mul _ _ _
  · rw [Finset.sum_mul, ← Finset.sum_neg_distrib]
    refine Finset.sum_congr rfl fun a _ => ?_
    rw [Finset.sum_mul, ← Finset.sum_neg_distrib]
  · exact (Finset.sum_eq_zero fun a _ => Finset.sum_eq_zero fun b _ => rfl).symm

/-- Convolving a convolution with a third factor yields the canonical
three-factor sum. -/
theorem convC_convC_eq_tri {R : Type} [CommRing R] (n : ℕ) (A S U : ℕ → R)
    (i : ℕ) (hi : i < n) :
    convC n (fun j => convC n A S j) U i = triC n A S U i := by
  simp only [convC, triC]
  rw [Finset.sum_congr rfl (fun j _ => Finset.sum_congr rfl (fun k _ =>
    ite_sum_mul (Finset.range n) (Finset.range n) _ _
      (fun a b => if a + b = j then A a * S b
        else if a + b = n + j then -(A a * S b) else 0) (U k)))]
  rw [Finset.sum_comm]
  rw [Finset.sum_congr rfl (fun k _ => Finset.sum_comm)]
  rw [Finset.sum_congr rfl (fun k _ => Finset.sum_congr rfl fun a _ =>
    Finset.sum_comm)]
  rw [Finset.sum_comm]
  refine Finset.sum_congr rfl fun a ha => ?_
  rw [Finset.sum_comm]
  refine Finset.sum_congr rfl fun b hb => ?_
  refine Finset.sum_congr rfl fun k hk => ?_
  have han : a < n := Finset.mem_range.mp ha
  have hbn : b < n := Finset.mem_range.mp hb
  have hkn : k < n := Finset.mem_range.mp hk
  by_cases hab : a + b < n
  · rw [Finset.sum_congr rfl (fun j hj => by
      have hjn : j < n := Finset.mem_range.mp hj
      rw [show (if j + k = i then
            (if a + b = j then A a * S b
             else if a + b = n + j then -(A a * S b) else 0) * U k
          else if j + k = n + i then
            -((if a + b = j then A a * S b
               else if a + b = n + j then -(A a * S b) else 0) * U k)
          else 0)
        = if j = a + b then
            (if a + b + k = i then A a * S b * U k
             else if a + b + k = n + i then -(A a * S b * U k) else 0)
          else 0 from by
        by_cases hja : j = a + b
        · subst hja
          rw [if_pos rfl, if_pos rfl]
        · rw [if_neg (show ¬(a + b = j) from fun h => hja h.symm),
            if_neg (show ¬(a + b = n + j) from by omega), if_neg hja]
          split_ifs <;> ring]),
      Finset.sum_ite_eq' (Finset.range n) (a + b), if_pos (Finset.mem_range.mpr hab)]
    by_cases h1 : a + b + k = i
    · rw [if_pos h1, if_pos h1]
    · rw [if_neg h1, if_neg h1]
      by_cases h2 : a + b + k = n + i
      · rw [if_pos h2, if_pos h2]
      · rw [if_neg h2, if_neg h2,
          if_neg (show ¬(a + b + k = 2 * n + i) from by omega)]
  · rw [Finset.sum_congr rfl (fun j hj => by
      have hjn : j < n := Finset.mem_range.mp hj
      rw [show (if j + k = i then
            (if a + b = j then A a * S b
             else if a + b = n + j then -(A a * S b) else 0) * U k
          else if j + k = n + i then
            -((if a + b = j then A a * S b
               else if a + b = n + j then -(A a * S b) else 0) * U k)
          else 0)
        = if j = a + b - n then
            (if a + b + k = n + i then -(A a * S b * U k)
             else if a + b + k = 2 * n + i then A a * S b * U k else 0)
          else 0 from by
        by_cases hja : j = a + b - n
        · subst hja
          rw [if_neg (show ¬(a + b = a + b - n) from by omega),
            if_pos (show a + b = n + (a + b - n) from by omega), if_pos rfl]
          by_cases h1 : a + b + k = n + i
          · rw [if_pos (show a + b - n + k = i from by omega), if_pos h1]
            ring
          · rw [if_neg (show ¬(a + b - n + k = i) from by omega), if_neg h1]
            by_cases h2 : a + b + k = 2 * n + i
            · rw [if_pos (show a + b - n + k = n + i from by omega), if_pos h2]
              ring
            · rw [if_neg (show ¬(a + b - n + k = n + i) from by omega), if_neg h2]
        · rw [if_neg (show ¬(a + b = j) from by omega),
            if_neg (show ¬(a + b = n + j) from fun h => hja (by omega)),
            if_neg hja]
          split_ifs <;> ring]),
      Finset.sum_ite_eq' (Finset.range n) (a + b - n),
      if_pos (Finset.mem_range.mpr (by omega))]
    rw [if_neg (show ¬(a + b + k = i) from by omega)]

theorem triC_swap {R : Type} [CommRing R] (n : ℕ) (A S U : ℕ → R) (i : ℕ) :
    triC n A S U i = triC n A U S i := by
  rw [triC, triC]
  refine Finset.sum_congr rfl fun a _ => ?_
  rw [Finset.sum_comm]
  refine Finset.sum_congr rfl fun k _ => Finset.sum_congr rfl fun b _ => ?_
  rw [show a + b + k = a + k + b from by ring]
  split_ifs <;> ring

theorem convC_swap {R : Type} [CommRing R] (n : ℕ) (A S U : ℕ → R)
    (i : ℕ) (hi : i < n) :
    convC n (fun j => convC n A S j) U i
      = convC n (fun j => convC n A U j) S i := by
  rw [convC_convC_eq_tri n A S U i hi, triC_swap,
    convC_convC_eq_tri n A U S i hi]

/-! ## BFV encryption and decryption (`bfv/src/scheme.rs`)

The concrete parameters of the scheme: `CipherField` has modulus
`q = 132120577`, `PlainField` has modulus `t = 61`, and the dimension is
`N = 1024 = 2^10`. -/

/-- Coefficient-wise polynomial addition (`Add for Polynomial`, the field
`add_reduce`). -/
def polyAdd (p : ℕ) (a b : List ℕ) : List ℕ := List.zipWith (addReduce p) a b

/-- Coefficient-wise polynomial negation (`Neg for Polynomial`, the field
`neg_reduce`). -/
def polyNeg (p : ℕ) (a : List ℕ) : List ℕ := a.map (negReduce p)

/-- The derived `From<word>` conversion: values below the modulus are kept,
larger ones are Barrett-reduced. -/
def fieldFrom (m v : ℕ) : ℕ := if v < m then v else v % m

/-- The per-coefficient encoder of `BFVScheme::encrypt`: nearest rounding of
`q·v/t`, with the upper half of `F_t` treated as negative. -/
def encodeCoeff (q t v : ℕ) : ℕ :=
  if (t - 1) / 2 < v then fieldFrom q (q - (q * (t - v) + t / 2) / t)
  else fieldFrom q ((q * v + t / 2) / t)

/-- The per-coefficient decoder of `BFVScheme::decrypt`: nearest rounding of
`t·v/q`, with the upper half of `F_q` treated as negative. -/
def decodeCoeff (q t v : ℕ) : ℕ :=
  if (q - 1) / 2 < v then fieldFrom t (t - (t * (q - v) + q / 2) / q)
  else fieldFrom t ((t * v + q / 2) / q)

/-- `BFVSecretKey::gen_pubkey`: `(a·s + e, -a)`. -/
def genPubkey (w q logn invDeg : ℕ) (roots invRoots : List ℕ)
    (s a e : List ℕ) : List ℕ × List ℕ :=
  (polyAdd q (polyMul w q logn invDeg roots invRoots a s) e, polyNeg q a)

/-- `BFVScheme::encrypt` with the consumed randomness `(u, e1, e2)` made
explicit: `(pk.0·u + e1 + encode(m), pk.1·u + e2)`. -/
def bfvEncrypt (w q logn invDeg : ℕ) (roots invRoots : List ℕ) (t : ℕ)
    (pk : List ℕ × List ℕ) (m u e1 e2 : List ℕ) : List ℕ × List ℕ :=
  (polyAdd q (polyAdd q (polyMul w q logn invDeg roots invRoots pk.1 u) e1)
    (m.map (encodeCoeff q t)),
   polyAdd q (polyMul w q logn invDeg roots invRoots pk.2 u) e2)

/-- `BFVScheme::decrypt`: decode each coefficient of `c1 + c2·s`. -/
def bfvDecrypt (w q logn invDeg : ℕ) (roots invRoots : List ℕ) (t : ℕ)
    (s : List ℕ) (c : List ℕ × List ℕ) : List ℕ :=
  (polyAdd q c.1 (polyMul w q logn invDeg roots invRoots c.2 s)).map
    (decodeCoeff q t)

theorem getD_mem {α : Type} (d : α) :
    ∀ (l : List α) i, i < l.length → l.getD i d ∈ l := by
  intro l
  induction l with
  | nil =>
    intro i hi
    exact absurd hi (by simp)
  | cons x xs ih =>
    intro i hi
    cases i with
    | zero => exact List.mem_cons_self x xs
    | succ i => exact List.mem_cons_of_mem x (ih i (by simpa using hi))

theorem addReduce_spec (p a b : ℕ) (hp : 0 < p) (ha : a < p) (hb : b < p) :
    addReduce p a b < p ∧ addReduce p a b = (a + b) % p := by
  rw [addReduce]
  constructor
  · split_ifs <;> omega
  · exact condSub_eq_mod p (a + b) (a + b) hp (by omega) rfl

theorem negReduce_spec' (p a : ℕ) (hp : 0 < p) (ha : a < p) :
    negReduce p a < p ∧ ((negReduce p a : ℕ) : ZMod p) = -((a : ℕ) : ZMod p) := by
  rw [negReduce]
  split_ifs with h
  · subst h
    exact ⟨hp, by simp⟩
  · refine ⟨by omega, ?_⟩
    rw [Nat.cast_sub (le_of_lt ha), ZMod.natCast_self]
    ring

theorem polyAdd_getD (p : ℕ) (hp : 0 < p) (a b : List ℕ)
    (ha : ∀ x ∈ a, x < p) (hb : ∀ x ∈ b, x < p) :
    ∀ i, i < a.length → i < b.length →
      (polyAdd p a b).getD i 0 < p ∧
      (((polyAdd p a b).getD i 0 : ℕ) : ZMod p)
        = ((a.getD i 0 : ℕ) : ZMod p) + ((b.getD i 0 : ℕ) : ZMod p) := by
  intro i hia hib
  rw [polyAdd, getD_zipWith _ 0 0 0 _ _ i hia hib]
  obtain ⟨hlt, heq⟩ := addReduce_spec p (a.getD i 0) (b.getD i 0) hp
    (ha _ (getD_mem 0 a i hia)) (hb _ (getD_mem 0 b i hib))
  refine ⟨hlt, ?_⟩
  rw [heq, ZMod.natCast_mod, Nat.cast_add]

theorem polyNeg_getD (p : ℕ) (hp : 0 < p) (a : List ℕ) (ha : ∀ x ∈ a, x < p) :
    ∀ i, i < a.length →
      (polyNeg p a).getD i 0 < p ∧
      (((polyNeg p a).getD i 0 : ℕ) : ZMod p) = -((a.getD i 0 : ℕ) : ZMod p) := by
  intro i hi
  rw [polyNeg, getD_map_lt _ 0 0 _ i hi]
  exact negReduce_spec' p _ hp (ha _ (getD_mem 0 a i hi))

theorem polyAdd_length (p : ℕ) (a b : List ℕ) :
    (polyAdd p a b).length = min a.length b.length := by
  rw [polyAdd, List.length_zipWith]

theorem polyNeg_length (p : ℕ) (a : List ℕ) :
    (polyNeg p a).length = a.length := by
  rw [polyNeg, List.length_map]

theorem zipWith_mem {α : Type} (f : α → α → α) :
    ∀ (a b : List α) x, x ∈ List.zipWith f a b → ∃ u ∈ a, ∃ v ∈ b, x = f u v := by
  intro a
  induction a with
  | nil =>
    intro b x hx
    simp at hx
  | cons u us ih =>
    intro b x hx
    cases b with
    | nil => simp at hx
    | cons v vs =>
      rw [List.zipWith_cons_cons] at hx
      rcases List.mem_cons.mp hx with h | h
      · exact ⟨u, by simp, v, by simp, h⟩
      · obtain ⟨u', hu', v', hv', rfl⟩ := ih vs x h
        exact ⟨u', by simp [hu'], v', by simp [hv'], rfl⟩

theorem polyAdd_canon (p : ℕ) (hp : 0 < p) (a b : List ℕ)
    (ha : ∀ x ∈ a, x < p) (hb : ∀ x ∈ b, x < p) :
    ∀ x ∈ polyAdd p a b, x < p := by
  intro x hx
  rw [polyAdd] at hx
  obtain ⟨u, hu, v, hv, rfl⟩ := zipWith_mem _ a b x hx
  exact (addReduce_spec p u v hp (ha u hu) (hb v hv)).1

theorem polyNeg_canon (p : ℕ) (hp : 0 < p) (a : List ℕ)
    (ha : ∀ x ∈ a, x < p) :
    ∀ x ∈ polyNeg p a, x < p := by
  intro x hx
  rw [polyNeg] at hx
  obtain ⟨u, hu, rfl⟩ := List.mem_map.mp hx
  exact (negReduce_spec' p u hp (ha u hu)).1

/-- The signed representative of a canonical value mod `q`. -/
def intRep (q x : ℕ) : ℤ := if x ≤ (q - 1) / 2 then (x : ℤ) else (x : ℤ) - q

/-- The values produced by `sample_ternary_field_vec`: `0`, `1`, `-1`. -/
def ternarySupport (q x : ℕ) : Prop := x = 0 ∨ x = 1 ∨ x = q - 1

/-- The values produced by `sample_cbd_field_vec`: `a - b` for `a, b` sums of
`21` bits each, i.e. signed values in `[-21, 21]`. -/
def cbdSupport (q x : ℕ) : Prop := x ≤ 21 ∨ (q - 21 ≤ x ∧ x < q)

theorem intRep_cast (q x : ℕ) :
    ((intRep q x : ℤ) : ZMod q) = ((x : ℕ) : ZMod q) := by
  rw [intRep]
  split_ifs
  · push_cast
    rfl
  · push_cast
    rw [ZMod.natCast_self]
    ring

theorem intRep_ternary (q x : ℕ) (hq : 5 ≤ q) (hx : ternarySupport q x) :
    |intRep q x| ≤ 1 := by
  rw [intRep]
  rcases hx with rfl | rfl | rfl <;> split_ifs <;>
    · rw [abs_le]
      constructor <;> [skip; skip] <;> omega

theorem intRep_cbd (q x : ℕ) (hq : 45 ≤ q) (hx : cbdSupport q x) :
    |intRep q x| ≤ 21 := by
  rw [intRep]
  rcases hx with h | ⟨h1, h2⟩ <;> split_ifs <;>
    · rw [abs_le]
      constructor <;> [skip; skip] <;> omega

theorem support_lt (q x : ℕ) (hq : 45 ≤ q) :
    (ternarySupport q x → x < q) ∧ (cbdSupport q x → x < q) := by
  constructor
  · rintro (rfl | rfl | rfl) <;> omega
  · rintro (h | ⟨h1, h2⟩) <;> omega

/-- The negacyclic convolution in single-sum form. -/
def convS {R : Type} [CommRing R] (n : ℕ) (A B : ℕ → R) (i : ℕ) : R :=
  ∑ j ∈ Finset.range n, A j * (if j ≤ i then B (i - j) else -B (n + i - j))

theorem convC_eq_convS {R : Type} [CommRing R] (n : ℕ) (A B : ℕ → R)
    (i : ℕ) (hi : i < n) : convC n A B i = convS n A B i := by
  rw [convC, convS]
  refine Finset.sum_congr rfl fun j hj => ?_
  have hjn : j < n := Finset.mem_range.mp hj
  by_cases hji : j ≤ i
  · rw [Finset.sum_congr rfl (fun k hk => by
      have hkn : k < n := Finset.mem_range.mp hk
      rw [show (if j + k = i then A j * B k
            else if j + k = n + i then -(A j * B k) else 0)
          = if k = i - j then A j * B k else 0 from by
        by_cases h1 : k = i - j
        · subst h1
          rw [if_pos (show j + (i - j) = i from by omega), if_pos rfl]
        · rw [if_neg (show ¬(j + k = i) from by omega),
            if_neg (show ¬(j + k = n + i) from by omega), if_neg h1]]),
      Finset.sum_ite_eq' (Finset.range n) (i - j),
      if_pos (Finset.mem_range.mpr (by omega)), if_pos hji]
  · rw [Finset.sum_congr rfl (fun k hk => by
      have hkn : k < n := Finset.mem_range.mp hk
      rw [show (if j + k = i then A j * B k
            else if j + k = n + i then -(A j * B k) else 0)
          = if k = n + i - j then -(A j * B k) else 0 from by
        by_cases h1 : k = n + i - j
        · subst h1
          rw [if_neg (show ¬(j + (n + i - j) = i) from by omega),
            if_pos (show j + (n + i - j) = n + i from by omega), if_pos rfl]
        · rw [if_neg (show ¬(j + k = i) from by omega),
            if_neg (show ¬(j + k = n + i) from by omega), if_neg h1]]),
      Finset.sum_ite_eq' (Finset.range n) (n + i - j),
      if_pos (Finset.mem_range.mpr (by omega)), if_neg hji]
    ring

theorem convS_congr {R : Type} [CommRing R] (n : ℕ) (A A' B B' : ℕ → R)
    (hA : ∀ j, j < n → A j = A' j) (hB : ∀ k, k < n → B k = B' k)
    (i : ℕ) (hi : i < n) : convS n A B i = convS n A' B' i := by
  refine Finset.sum_congr rfl fun j hj => ?_
  have hjn : j < n := Finset.mem_range.mp hj
  rw [hA j hjn]
  congr 1
  split_ifs
  · rw [hB _ (by omega)]
  · rw [hB _ (by omega)]

theorem convS_cast (q n : ℕ) (A B : ℕ → ℤ) (i : ℕ) :
    ((convS n A B i : ℤ) : ZMod q)
      = convS n (fun j => ((A j : ℤ) : ZMod q))
          (fun k => ((B k : ℤ) : ZMod q)) i := by
  rw [convS, convS, Int.cast_sum]
  refine Finset.sum_congr rfl fun j hj => ?_
  rw [Int.cast_mul]
  congr 1
  split_ifs
  · rfl
  · rw [Int.cast_neg]

theorem convS_bound (n : ℕ) (A B : ℕ → ℤ) (i : ℕ) (hi : i < n) (CA CB : ℤ)
    (hA : ∀ j, j < n → |A j| ≤ CA) (hB : ∀ k, k < n → |B k| ≤ CB) :
    |convS n A B i| ≤ n * (CA * CB) := by
  rw [convS]
  refine le_trans (Finset.abs_sum_le_sum_abs _ _) ?_
  have hterm : ∀ j ∈ Finset.range n,
      |A j * (if j ≤ i then B (i - j) else -B (n + i - j))| ≤ CA * CB := by
    intro j hj
    have hjn := Finset.mem_range.mp hj
    rw [abs_mul]
    refine mul_le_mul (hA j hjn) ?_ (abs_nonneg _)
      (le_trans (abs_nonneg _) (hA j hjn))
    split_ifs
    · exact hB _ (by omega)
    · rw [abs_neg]
      exact hB _ (by omega)
  refine le_trans (Finset.sum_le_sum hterm) ?_
  rw [Finset.sum_const, Finset.card_range, nsmul_eq_mul]

/-- The encoder computes the nearest integer to `q·v/t`: its canonical value
satisfies `t·enc = q·v + ε` with `|ε| ≤ 30`. -/
theorem encodeCoeff_spec (v : ℕ) (hv : v < 61) :
    encodeCoeff 132120577 61 v < 132120577 ∧
    ∃ ε : ℤ, -30 ≤ ε ∧ ε ≤ 30 ∧
      61 * ((encodeCoeff 132120577 61 v : ℕ) : ℤ) = 132120577 * v + ε := by
  constructor
  · rw [encodeCoeff]
    simp only [fieldFrom]
    split_ifs <;> omega
  · refine ⟨61 * ((encodeCoeff 132120577 61 v : ℕ) : ℤ) - 132120577 * v,
      ?_, ?_, by ring⟩ <;>
      · rw [encodeCoeff]
        simp only [fieldFrom]
        split_ifs <;> omega

/-- The decoder recovers `v` from any canonical value `y` with
`t·y ≡ q·v + δ` for a small `δ` (concrete parameters). -/
theorem decodeCoeff_spec (y v : ℕ) (δ k : ℤ) (hy : y < 132120577) (hv : v < 61)
    (heq : 61 * (y : ℤ) = 132120577 * v + δ + 61 * 132120577 * k)
    (hlo : -2624799 ≤ δ) (hhi : δ ≤ 2624799) :
    decodeCoeff 132120577 61 y = v := by
  rw [decodeCoeff]
  simp only [fieldFrom]
  have hk0 : 0 ≤ k := by omega
  have hk1 : k ≤ 1 := by omega
  interval_cases k
  · split_ifs <;> omega
  · -- wrap-around: `y` stands for a slightly negative value and `v = 0`
    have hv0 : v = 0 := by omega
    subst hv0
    have hyge : 132120577 - 43029 ≤ y := by omega
    rw [if_pos (show (132120577 - 1) / 2 < y from by omega),
      show (61 * (132120577 - y) + 132120577 / 2) / 132120577 = 0 from by omega]
    norm_num

/-- Decoding inverts encoding in the presence of bounded additive noise, at
the concrete parameters `q = 132120577`, `t = 61`. -/
theorem decode_encode (v y : ℕ) (ν k : ℤ) (hv : v < 61) (hy : y < 132120577)
    (heq : (y : ℤ) = ((encodeCoeff 132120577 61 v : ℕ) : ℤ) + ν + 132120577 * k)
    (hlo : -43029 ≤ ν) (hhi : ν ≤ 43029) :
    decodeCoeff 132120577 61 y = v := by
  obtain ⟨-, ε, hε1, hε2, hεeq⟩ := encodeCoeff_spec v hv
  refine decodeCoeff_spec y v (ε + 61 * ν) k hy hv ?_ (by omega) (by omega)
  omega

theorem list_eq_of_getD {α : Type} (d : α) :
    ∀ (xs ys : List α), xs.length = ys.length →
      (∀ i, i < xs.length → xs.getD i d = ys.getD i d) → xs = ys := by
  intro xs
  induction xs with
  | nil =>
    intro ys hlen _
    cases ys with
    | nil => rfl
    | cons y ys => simp at hlen
  | cons x xs ih =>
    intro ys hlen hR
    cases ys with
    | nil => simp at hlen
    | cons y ys =>
      rw [show x = y from hR 0 (by simp),
        ih ys (by simpa using hlen) fun i hi =>
          hR (i + 1) (by simpa using Nat.succ_lt_succ hi)]

/-- Canonical product list: length, canonicity, coefficient casts. -/
theorem polyMul_spec (w p logn omg invDeg : ℕ)
    (hp2 : 2 ≤ p) (h4p : 4 * p ≤ 2 ^ w) (hlogn : 1 ≤ logn)
    (homg : omg < p) (hprim : omg ^ 2 ^ logn % p = p - 1)
    (hinvDeg : invDeg < p) (hinvDeg1 : invDeg * 2 ^ logn % p = 1)
    (a b : List ℕ) (ha : a.length = 2 ^ logn) (hb : b.length = 2 ^ logn)
    (hacanon : ∀ x ∈ a, x < p) (hbcanon : ∀ x ∈ b, x < p) :
    (polyMul w p logn invDeg (rootPowersList p omg logn)
        (invRootPowersList p omg logn) a b).length = 2 ^ logn
    ∧ (∀ x ∈ polyMul w p logn invDeg (rootPowersList p omg logn)
        (invRootPowersList p omg logn) a b, x < p)
    ∧ ∀ i, i < 2 ^ logn →
        (((polyMul w p logn invDeg (rootPowersList p omg logn)
            (invRootPowersList p omg logn) a b).getD i 0 : ℕ) : ZMod p)
          = convC (2 ^ logn) (fun j => ((a.getD j 0 : ℕ) : ZMod p))
              (fun k => ((b.getD k 0 : ℕ) : ZMod p)) i := by
  haveI : NeZero p := ⟨by omega⟩
  rw [polyMul_negacyclic w p logn omg invDeg hp2 h4p hlogn homg hprim hinvDeg
    hinvDeg1 a b ha hb hacanon hbcanon]
  refine ⟨?_, ?_, ?_⟩
  · rw [List.length_map, negacyclicConv, List.length_map, List.length_range]
  · intro x hx
    obtain ⟨ξ, -, rfl⟩ := List.mem_map.mp hx
    exact ZMod.val_lt ξ
  · intro i hi
    rw [getD_map_lt ZMod.val 0 0 _ i (by
        rw [negacyclicConv, List.length_map, List.length_range]
        exact hi),
      ZMod.natCast_rightInverse _, negacyclicConv_getD p _ a b i hi]

/-- Core BFV round trip at the concrete parameters `q = 132120577`, `t = 61`,
`N = 1024`: decryption inverts encryption for every support-valid randomness. -/
theorem bfv_enc_dec (omg invDeg : ℕ)
    (homg : omg < 132120577)
    (hprim : omg ^ 2 ^ 10 % 132120577 = 132120577 - 1)
    (hinvDeg : invDeg < 132120577)
    (hinvDeg1 : invDeg * 2 ^ 10 % 132120577 = 1) :
    ∀ m s a e u e1 e2 : List ℕ,
      m.length = 2 ^ 10 → s.length = 2 ^ 10 → a.length = 2 ^ 10 →
      e.length = 2 ^ 10 → u.length = 2 ^ 10 → e1.length = 2 ^ 10 →
      e2.length = 2 ^ 10 →
      (∀ x ∈ m, x < 61) →
      (∀ x ∈ s, ternarySupport 132120577 x) →
      (∀ x ∈ a, x < 132120577) →
      (∀ x ∈ e, cbdSupport 132120577 x) →
      (∀ x ∈ u, ternarySupport 132120577 x) →
      (∀ x ∈ e1, cbdSupport 132120577 x) →
      (∀ x ∈ e2, cbdSupport 132120577 x) →
      bfvDecrypt 32 132120577 10 invDeg (rootPowersList 132120577 omg 10)
        (invRootPowersList 132120577 omg 10) 61 s
        (bfvEncrypt 32 132120577 10 invDeg (rootPowersList 132120577 omg 10)
          (invRootPowersList 132120577 omg 10) 61
          (genPubkey 32 132120577 10 invDeg (rootPowersList 132120577 omg 10)
            (invRootPowersList 132120577 omg 10) s a e)
          m u e1 e2) = m := by
  intro m s a e u e1 e2 hlm hls hla hle hlu hle1 hle2 hcm hcs hca hce hcu hce1 hce2
  have hq2 : (2 : ℕ) ≤ 132120577 := by norm_num
  have h4q : 4 * 132120577 ≤ 2 ^ 32 := by norm_num
  have hlog : (1 : ℕ) ≤ 10 := by norm_num
  haveI : NeZero (132120577 : ℕ) := ⟨by norm_num⟩
  have hcs' : ∀ x ∈ s, x < 132120577 :=
    fun x hx => (support_lt 132120577 x (by norm_num)).1 (hcs x hx)
  have hcu' : ∀ x ∈ u, x < 132120577 :=
    fun x hx => (support_lt 132120577 x (by norm_num)).1 (hcu x hx)
  have hce' : ∀ x ∈ e, x < 132120577 :=
    fun x hx => (support_lt 132120577 x (by norm_num)).2 (hce x hx)
  have hce1' : ∀ x ∈ e1, x < 132120577 :=
    fun x hx => (support_lt 132120577 x (by norm_num)).2 (hce1 x hx)
  have hce2' : ∀ x ∈ e2, x < 132120577 :=
    fun x hx => (support_lt 132120577 x (by norm_num)).2 (hce2 x hx)
  simp only [bfvDecrypt, bfvEncrypt, genPubkey]
  -- `P1 = a·s`
  obtain ⟨hP1len, hP1canon, hP1cast⟩ := polyMul_spec 32 132120577 10 omg invDeg
    hq2 h4q hlog homg hprim hinvDeg hinvDeg1 a s hla hls hca hcs'
  set P1 := polyMul 32 132120577 10 invDeg (rootPowersList 132120577 omg 10)
    (invRootPowersList 132120577 omg 10) a s with hP1def
  -- `B = a·s + e`
  have hBlen : (polyAdd 132120577 P1 e).length = 2 ^ 10 := by
    rw [polyAdd_length, hP1len, hle, Nat.min_self]
  have hBcanon := polyAdd_canon 132120577 (by norm_num) P1 e hP1canon hce'
  have hBcast : ∀ i, i < 2 ^ 10 →
      (((polyAdd 132120577 P1 e).getD i 0 : ℕ) : ZMod 132120577)
        = convC (2 ^ 10) (fun j => ((a.getD j 0 : ℕ) : ZMod 132120577))
            (fun k => ((s.getD k 0 : ℕ) : ZMod 132120577)) i
          + ((e.getD i 0 : ℕ) : ZMod 132120577) := by
    intro i hi
    rw [(polyAdd_getD 132120577 (by norm_num) P1 e hP1canon hce' i
      (by rw [hP1len]; exact hi) (by rw [hle]; exact hi)).2, hP1cast i hi]
  set B := polyAdd 132120577 P1 e with hBdef
  -- `NA = -a`
  have hNAlen : (polyNeg 132120577 a).length = 2 ^ 10 := by
    rw [polyNeg_length, hla]
  have hNAcanon := polyNeg_canon 132120577 (by norm_num) a hca
  have hNAcast : ∀ i, i < 2 ^ 10 →
      (((polyNeg 132120577 a).getD i 0 : ℕ) : ZMod 132120577)
        = -((a.getD i 0 : ℕ) : ZMod 132120577) :=
    fun i hi =>
      (polyNeg_getD 132120577 (by norm_num) a hca i (by rw [hla]; exact hi)).2
  set NA := polyNeg 132120577 a with hNAdef
  -- `P2 = (-a)·u`
  obtain ⟨hP2len, hP2canon, hP2cast⟩ := polyMul_spec 32 132120577 10 omg invDeg
    hq2 h4q hlog homg hprim hinvDeg hinvDeg1 NA u hNAlen hlu hNAcanon hcu'
  have hP2cast' : ∀ i, i < 2 ^ 10 →
      (((polyMul 32 132120577 10 invDeg (rootPowersList 132120577 omg 10)
          (invRootPowersList 132120577 omg 10) NA u).getD i 0 : ℕ) : ZMod 132120577)
        = -convC (2 ^ 10) (fun j => ((a.getD j 0 : ℕ) : ZMod 132120577))
            (fun k => ((u.getD k 0 : ℕ) : ZMod 132120577)) i := by
    intro i hi
    rw [hP2cast i hi,
      convC_congr (2 ^ 10)
        (fun j => ((NA.getD j 0 : ℕ) : ZMod 132120577))
        (fun j => -((a.getD j 0 : ℕ) : ZMod 132120577))
        (fun k => ((u.getD k 0 : ℕ) : ZMod 132120577))
        (fun k => ((u.getD k 0 : ℕ) : ZMod 132120577))
        (fun j hj => hNAcast j hj) (fun k _ => rfl) i,
      convC_neg_left]
  set P2 := polyMul 32 132120577 10 invDeg (rootPowersList 132120577 omg 10)
    (invRootPowersList 132120577 omg 10) NA u with hP2def
  -- `C2 = (-a)·u + e2`
  have hC2len : (polyAdd 132120577 P2 e2).length = 2 ^ 10 := by
    rw [polyAdd_length, hP2len, hle2, Nat.min_self]
  have hC2canon := polyAdd_canon 132120577 (by norm_num) P2 e2 hP2canon hce2'
  have hC2cast : ∀ i, i < 2 ^ 10 →
      (((polyAdd 132120577 P2 e2).getD i 0 : ℕ) : ZMod 132120577)
        = -convC (2 ^ 10) (fun j => ((a.getD j 0 : ℕ) : ZMod 132120577))
            (fun k => ((u.getD k 0 : ℕ) : ZMod 132120577)) i
          + ((e2.getD i 0 : ℕ) : ZMod 132120577) := by
    intro i hi
    rw [(polyAdd_getD 132120577 (by norm_num) P2 e2 hP2canon hce2' i
      (by rw [hP2len]; exact hi) (by rw [hle2]; exact hi)).2, hP2cast' i hi]
  set C2 := polyAdd 132120577 P2 e2 with hC2def
  -- `P3 = B·u`
  obtain ⟨hP3len, hP3canon, hP3cast⟩ := polyMul_spec 32 132120577 10 omg invDeg
    hq2 h4q hlog homg hprim hinvDeg hinvDeg1 B u hBlen hlu hBcanon hcu'
  have hP3cast' : ∀ i, i < 2 ^ 10 →
      (((polyMul 32 132120577 10 invDeg (rootPowersList 132120577 omg 10)
          (invRootPowersList 132120577 omg 10) B u).getD i 0 : ℕ) : ZMod 132120577)
        = convC (2 ^ 10)
            (fun j => convC (2 ^ 10)
              (fun j' => ((a.getD j' 0 : ℕ) : ZMod 132120577))
              (fun k => ((s.getD k 0 : ℕ) : ZMod 132120577)) j)
            (fun k => ((u.getD k 0 : ℕ) : ZMod 132120577)) i
          + convC (2 ^ 10) (fun j => ((e.getD j 0 : ℕ) : ZMod 132120577))
              (fun k => ((u.getD k 0 : ℕ) : ZMod 132120577)) i := by
    intro i hi
    rw [hP3cast i hi,
      convC_congr (2 ^ 10)
        (fun j => ((B.getD j 0 : ℕ) : ZMod 132120577))
        (fun j => convC (2 ^ 10)
            (fun j' => ((a.getD j' 0 : ℕ) : ZMod 132120577))
            (fun k => ((s.getD k 0 : ℕ) : ZMod 132120577)) j
          + ((e.getD j 0 : ℕ) : ZMod 132120577))
        (fun k => ((u.getD k 0 : ℕ) : ZMod 132120577))
        (fun k => ((u.getD k 0 : ℕ) : ZMod 132120577))
        (fun j hj => hBcast j hj) (fun k _ => rfl) i,
      convC_add_left]
  set P3 := polyMul 32 132120577 10 invDeg (rootPowersList 132120577 omg 10)
    (invRootPowersList 132120577 omg 10) B u with hP3def
  -- `C11 = B·u + e1`
  have hC11len : (polyAdd 132120577 P3 e1).length = 2 ^ 10 := by
    rw [polyAdd_length, hP3len, hle1, Nat.min_self]
  have hC11canon := polyAdd_canon 132120577 (by norm_num) P3 e1 hP3canon hce1'
  have hC11cast : ∀ i, i < 2 ^ 10 →
      (((polyAdd 132120577 P3 e1).getD i 0 : ℕ) : ZMod 132120577)
        = (convC (2 ^ 10)
            (fun j => convC (2 ^ 10)
              (fun j' => ((a.getD j' 0 : ℕ) : ZMod 132120577))
              (fun k => ((s.getD k 0 : ℕ) : ZMod 132120577)) j)
            (fun k => ((u.getD k 0 : ℕ) : ZMod 132120577)) i
          + convC (2 ^ 10) (fun j => ((e.getD j 0 : ℕ) : ZMod 132120577))
              (fun k => ((u.getD k 0 : ℕ) : ZMod 132120577)) i)
          + ((e1.getD i 0 : ℕ) : ZMod 132120577) := by
    intro i hi
    rw [(polyAdd_getD 132120577 (by norm_num) P3 e1 hP3canon hce1' i
      (by rw [hP3len]; exact hi) (by rw [hle1]; exact hi)).2, hP3cast' i hi]
  set C11 := polyAdd 132120577 P3 e1 with hC11def
  -- the encoded message
  have hMElen : (m.map (encodeCoeff 132120577 61)).length = 2 ^ 10 := by
    rw [List.length_map, hlm]
  have hMEcanon : ∀ x ∈ m.map (encodeCoeff 132120577 61), x < 132120577 := by
    intro x hx
    obtain ⟨v, hv, rfl⟩ := List.mem_map.mp hx
    exact (encodeCoeff_spec v (hcm v hv)).1
  have hMEcast : ∀ i, i < 2 ^ 10 →
      (m.map (encodeCoeff 132120577 61)).getD i 0
        = encodeCoeff 132120577 61 (m.getD i 0) :=
    fun i hi => getD_map_lt _ 0 0 m i (by rw [hlm]; exact hi)
  set ME := m.map (encodeCoeff 132120577 61) with hMEdef
  -- `CL = c1 = B·u + e1 + encode(m)`
  have hCLlen : (polyAdd 132120577 C11 ME).length = 2 ^ 10 := by
    rw [polyAdd_length, hC11len, hMElen, Nat.min_self]
  have hCLcanon := polyAdd_canon 132120577 (by norm_num) C11 ME hC11canon hMEcanon
  have hCLcast : ∀ i, i < 2 ^ 10 →
      (((polyAdd 132120577 C11 ME).getD i 0 : ℕ) : ZMod 132120577)
        = ((convC (2 ^ 10)
            (fun j => convC (2 ^ 10)
              (fun j' => ((a.getD j' 0 : ℕ) : ZMod 132120577))
              (fun k => ((s.getD k 0 : ℕ) : ZMod 132120577)) j)
            (fun k => ((u.getD k 0 : ℕ) : ZMod 132120577)) i
          + convC (2 ^ 10) (fun j => ((e.getD j 0 : ℕ) : ZMod 132120577))
              (fun k => ((u.getD k 0 : ℕ) : ZMod 132120577)) i)
          + ((e1.getD i 0 : ℕ) : ZMod 132120577))
          + ((encodeCoeff 132120577 61 (m.getD i 0) : ℕ) : ZMod 132120577) := by
    intro i hi
    rw [(polyAdd_getD 132120577 (by norm_num) C11 ME hC11canon hMEcanon i
      (by rw [hC11len]; exact hi) (by rw [hMElen]; exact hi)).2, hC11cast i hi,
      hMEcast i hi]
  set CL := polyAdd 132120577 C11 ME with hCLdef
  -- `P4 = C2·s`
  obtain ⟨hP4len, hP4canon, hP4cast⟩ := polyMul_spec 32 132120577 10 omg invDeg
    hq2 h4q hlog homg hprim hinvDeg hinvDeg1 C2 s hC2len hls hC2canon hcs'
  have hP4cast' : ∀ i, i < 2 ^ 10 →
      (((polyMul 32 132120577 10 invDeg (rootPowersList 132120577 omg 10)
          (invRootPowersList 132120577 omg 10) C2 s).getD i 0 : ℕ) : ZMod 132120577)
        = -convC (2 ^ 10)
            (fun j => convC (2 ^ 10)
              (fun j' => ((a.getD j' 0 : ℕ) : ZMod 132120577))
              (fun k => ((u.getD k 0 : ℕ) : ZMod 132120577)) j)
            (fun k => ((s.getD k 0 : ℕ) : ZMod 132120577)) i
          + convC (2 ^ 10) (fun j => ((e2.getD j 0 : ℕ) : ZMod 132120577))
              (fun k => ((s.getD k 0 : ℕ) : ZMod 132120577)) i := by
    intro i hi
    rw [hP4cast i hi,
      convC_congr (2 ^ 10)
        (fun j => ((C2.getD j 0 : ℕ) : ZMod 132120577))
        (fun j => -convC (2 ^ 10)
            (fun j' => ((a.getD j' 0 : ℕ) : ZMod 132120577))
            (fun k => ((u.getD k 0 : ℕ) : ZMod 132120577)) j
          + ((e2.getD j 0 : ℕ) : ZMod 132120577))
        (fun k => ((s.getD k 0 : ℕ) : ZMod 132120577))
        (fun k => ((s.getD k 0 : ℕ) : ZMod 132120577))
        (fun j hj => hC2cast j hj) (fun k _ => rfl) i,
      convC_add_left, convC_neg_left]
  set P4 := polyMul 32 132120577 10 invDeg (rootPowersList 132120577 omg 10)
    (invRootPowersList 132120577 omg 10) C2 s with hP4def
  -- `Y = c1 + c2·s`
  have hYlen : (polyAdd 132120577 CL P4).length = 2 ^ 10 := by
    rw [polyAdd_length, hCLlen, hP4len, Nat.min_self]
  have hYcanon := polyAdd_canon 132120577 (by norm_num) CL P4 hCLcanon hP4canon
  have hYcast : ∀ i, i < 2 ^ 10 →
      (((polyAdd 132120577 CL P4).getD i 0 : ℕ) : ZMod 132120577)
        = ((encodeCoeff 132120577 61 (m.getD i 0) : ℕ) : ZMod 132120577)
          + (convC (2 ^ 10) (fun j => ((e.getD j 0 : ℕ) : ZMod 132120577))
              (fun k => ((u.getD k 0 : ℕ) : ZMod 132120577)) i
            + ((e1.getD i 0 : ℕ) : ZMod 132120577)
            + convC (2 ^ 10) (fun j => ((e2.getD j 0 : ℕ) : ZMod 132120577))
                (fun k => ((s.getD k 0 : ℕ) : ZMod 132120577)) i) := by
    intro i hi
    rw [(polyAdd_getD 132120577 (by norm_num) CL P4 hCLcanon hP4canon i
      (by rw [hCLlen]; exact hi) (by rw [hP4len]; exact hi)).2, hCLcast i hi,
      hP4cast' i hi,
      convC_swap (2 ^ 10)
        (fun j' => ((a.getD j' 0 : ℕ) : ZMod 132120577))
        (fun k => ((s.getD k 0 : ℕ) : ZMod 132120577))
        (fun k => ((u.getD k 0 : ℕ) : ZMod 132120577)) i hi]
    ring
  set Y := polyAdd 132120577 CL P4 with hYdef
  -- conclude coefficient by coefficient
  refine list_eq_of_getD 0 _ m (by rw [List.length_map, hYlen, hlm]) ?_
  intro i hi
  rw [List.length_map, hYlen] at hi
  rw [getD_map_lt _ 0 0 Y i (by rw [hYlen]; exact hi)]
  -- the integer noise and its bound
  have hEbound : ∀ j, j < 2 ^ 10 → |intRep 132120577 (e.getD j 0)| ≤ 21 :=
    fun j hj => intRep_cbd _ _ (by norm_num)
      (hce _ (getD_mem 0 e j (by rw [hle]; exact hj)))
  have hUbound : ∀ k, k < 2 ^ 10 → |intRep 132120577 (u.getD k 0)| ≤ 1 :=
    fun k hk => intRep_ternary _ _ (by norm_num)
      (hcu _ (getD_mem 0 u k (by rw [hlu]; exact hk)))
  have hE2bound : ∀ j, j < 2 ^ 10 → |intRep 132120577 (e2.getD j 0)| ≤ 21 :=
    fun j hj => intRep_cbd _ _ (by norm_num)
      (hce2 _ (getD_mem 0 e2 j (by rw [hle2]; exact hj)))
  have hSbound : ∀ k, k < 2 ^ 10 → |intRep 132120577 (s.getD k 0)| ≤ 1 :=
    fun k hk => intRep_ternary _ _ (by norm_num)
      (hcs _ (getD_mem 0 s k (by rw [hls]; exact hk)))
  have hE1bound : |intRep 132120577 (e1.getD i 0)| ≤ 21 :=
    intRep_cbd _ _ (by norm_num)
      (hce1 _ (getD_mem 0 e1 i (by rw [hle1]; exact hi)))
  have hν1 := convS_bound (2 ^ 10) (fun j => intRep 132120577 (e.getD j 0))
    (fun k => intRep 132120577 (u.getD k 0)) i hi 21 1 hEbound hUbound
  have hν2 := convS_bound (2 ^ 10) (fun j => intRep 132120577 (e2.getD j 0))
    (fun k => intRep 132120577 (s.getD k 0)) i hi 21 1 hE2bound hSbound
  have hνbound : |convS (2 ^ 10) (fun j => intRep 132120577 (e.getD j 0))
        (fun k => intRep 132120577 (u.getD k 0)) i
      + intRep 132120577 (e1.getD i 0)
      + convS (2 ^ 10) (fun j => intRep 132120577 (e2.getD j 0))
        (fun k => intRep 132120577 (s.getD k 0)) i| ≤ 43029 := by
    refine le_trans (abs_add _ _) (le_trans (add_le_add (le_trans (abs_add _ _)
      (add_le_add hν1 hE1bound)) hν2) (by norm_num))
  -- the noise casts to the `ZMod` noise
  have hνcast : (((convS (2 ^ 10) (fun j => intRep 132120577 (e.getD j 0))
        (fun k => intRep 132120577 (u.getD k 0)) i
      + intRep 132120577 (e1.getD i 0)
      + convS (2 ^ 10) (fun j => intRep 132120577 (e2.getD j 0))
        (fun k => intRep 132120577 (s.getD k 0)) i : ℤ)) : ZMod 132120577)
      = convC (2 ^ 10) (fun j => ((e.getD j 0 : ℕ) : ZMod 132120577))
          (fun k => ((u.getD k 0 : ℕ) : ZMod 132120577)) i
        + ((e1.getD i 0 : ℕ) : ZMod 132120577)
        + convC (2 ^ 10) (fun j => ((e2.getD j 0 : ℕ) : ZMod 132120577))
            (fun k => ((s.getD k 0 : ℕ) : ZMod 132120577)) i := by
    rw [Int.cast_add, Int.cast_add, convS_cast, convS_cast, intRep_cast,
      convS_congr (2 ^ 10)
        (fun j => ((intRep 132120577 (e.getD j 0) : ℤ) : ZMod 132120577))
        (fun j => ((e.getD j 0 : ℕ) : ZMod 132120577))
        (fun k => ((intRep 132120577 (u.getD k 0) : ℤ) : ZMod 132120577))
        (fun k => ((u.getD k 0 : ℕ) : ZMod 132120577))
        (fun j _ => intRep_cast _ _) (fun k _ => intRep_cast _ _) i hi,
      convS_congr (2 ^ 10)
        (fun j => ((intRep 132120577 (e2.getD j 0) : ℤ) : ZMod 132120577))
        (fun j => ((e2.getD j 0 : ℕ) : ZMod 132120577))
        (fun k => ((intRep 132120577 (s.getD k 0) : ℤ) : ZMod 132120577))
        (fun k => ((s.getD k 0 : ℕ) : ZMod 132120577))
        (fun j _ => intRep_cast _ _) (fun k _ => intRep_cast _ _) i hi,
      ← convC_eq_convS (2 ^ 10) (fun j => ((e.getD j 0 : ℕ) : ZMod 132120577))
        (fun k => ((u.getD k 0 : ℕ) : ZMod 132120577)) i hi,
      ← convC_eq_convS (2 ^ 10) (fun j => ((e2.getD j 0 : ℕ) : ZMod 132120577))
        (fun k => ((s.getD k 0 : ℕ) : ZMod 132120577)) i hi]
  -- the integer equation behind the `ZMod` identity
  have hYlt : Y.getD i 0 < 132120577 :=
    hYcanon _ (getD_mem 0 Y i (by rw [hYlen]; exact hi))
  have hmlt : m.getD i 0 < 61 := hcm _ (getD_mem 0 m i (by rw [hlm]; exact hi))
  have hzero : ((((Y.getD i 0 : ℕ) : ℤ)
      - ((encodeCoeff 132120577 61 (m.getD i 0) : ℕ) : ℤ)
      - (convS (2 ^ 10) (fun j => intRep 132120577 (e.getD j 0))
          (fun k => intRep 132120577 (u.getD k 0)) i
        + intRep 132120577 (e1.getD i 0)
        + convS (2 ^ 10) (fun j => intRep 132120577 (e2.getD j 0))
          (fun k => intRep 132120577 (s.getD k 0)) i) : ℤ) : ZMod 132120577)
      = 0 := by
    rw [Int.cast_sub, Int.cast_sub, Int.cast_natCast, Int.cast_natCast, hνcast,
      hYcast i hi]
    ring
  obtain ⟨k, hk⟩ := (ZMod.intCast_zmod_eq_zero_iff_dvd _ _).mp hzero
  rw [abs_le] at hνbound
  refine decode_encode (m.getD i 0) (Y.getD i 0) _ k hmlt hYlt ?_
    hνbound.1 hνbound.2
  omega

/-- **C1.** For every plaintext polynomial `m` over `F_61` of length
`N = 1024`, every keypair produced by `BFVScheme::gen_keypair` (ternary
secret key, uniform `a`, centered-binomial error), and every randomness
consumed by encryption (ternary `u`, centered-binomial `e1`, `e2`):
`BFVScheme::decrypt(sk, BFVScheme::encrypt(ctx, pk, m)) = m`. -/
theorem C1_bfv_enc_dec (omg invDeg : ℕ)
    (homg : omg < 132120577)
    (hprim : omg ^ 2 ^ 10 % 132120577 = 132120577 - 1)
    (hinvDeg : invDeg < 132120577)
    (hinvDeg1 : invDeg * 2 ^ 10 % 132120577 = 1) :
    ∀ m s a e u e1 e2 : List ℕ,
      m.length = 2 ^ 10 → s.length = 2 ^ 10 → a.length = 2 ^ 10 →
      e.length = 2 ^ 10 → u.length = 2 ^ 10 → e1.length = 2 ^ 10 →
      e2.length = 2 ^ 10 →
      (∀ x ∈ m, x < 61) →
      (∀ x ∈ s, ternarySupport 132120577 x) →
      (∀ x ∈ a, x < 132120577) →
      (∀ x ∈ e, cbdSupport 132120577 x) →
      (∀ x ∈ u, ternarySupport 132120577 x) →
      (∀ x ∈ e1, cbdSupport 132120577 x) →
      (∀ x ∈ e2, cbdSupport 132120577 x) →
      bfvDecrypt 32 132120577 10 invDeg (rootPowersList 132120577 omg 10)
        (invRootPowersList 132120577 omg 10) 61 s
        (bfvEncrypt 32 132120577 10 invDeg (rootPowersList 132120577 omg 10)
          (invRootPowersList 132120577 omg 10) 61
          (genPubkey 32 132120577 10 invDeg (rootPowersList 132120577 omg 10)
            (invRootPowersList 132120577 omg 10) s a e)
          m u e1 e2) = m :=
  bfv_enc_dec omg invDeg homg hprim hinvDeg hinvDeg1

theorem C1_bfv_enc_dec_witness :
    bfvDecrypt 32 132120577 10 131991553 (rootPowersList 132120577 73993 10)
      (invRootPowersList 132120577 73993 10) 61 (List.replicate 1024 1)
      (bfvEncrypt 32 132120577 10 131991553 (rootPowersList 132120577 73993 10)
        (invRootPowersList 132120577 73993 10) 61
        (genPubkey 32 132120577 10 131991553 (rootPowersList 132120577 73993 10)
          (invRootPowersList 132120577 73993 10)
          (List.replicate 1024 1) (List.replicate 1024 5) (List.replicate 1024 2))
        (List.replicate 1024 7) (List.replicate 1024 0) (List.replicate 1024 21)
        (List.replicate 1024 1)) = List.replicate 1024 7 :=
  C1_bfv_enc_dec 73993 131991553 (by norm_num) (by norm_num) (by norm_num)
    (by norm_num)
    (List.replicate 1024 7) (List.replicate 1024 1) (List.replicate 1024 5)
    (List.replicate 1024 2) (List.replicate 1024 0) (List.replicate 1024 21)
    (List.replicate 1024 1)
    (by norm_num [List.length_replicate]) (by norm_num [List.length_replicate])
    (by norm_num [List.length_replicate]) (by norm_num [List.length_replicate])
    (by norm_num [List.length_replicate]) (by norm_num [List.length_replicate])
    (by norm_num [List.length_replicate])
    (fun x hx => by rw [List.eq_of_mem_replicate hx]; norm_num)
    (fun x hx => by rw [List.eq_of_mem_replicate hx]; exact Or.inr (Or.inl rfl))
    (fun x hx => by rw [List.eq_of_mem_replicate hx]; norm_num)
    (fun x hx => by rw [List.eq_of_mem_replicate hx]; exact Or.inl (by norm_num))
    (fun x hx => by rw [List.eq_of_mem_replicate hx]; exact Or.inl (by norm_num))
    (fun x hx => by rw [List.eq_of_mem_replicate hx]; exact Or.inl (by norm_num))
    (fun x hx => by rw [List.eq_of_mem_replicate hx]; exact Or.inl (by norm_num))

/-! ## Threshold PKE (`bfv/src/tpke.rs`, `bfv/src/scheme.rs`)

The threshold layer works over the plaintext field `F_61` (a `u16` type, word
width 16) for secret sharing and Lagrange coefficients, and over the
ciphertext ring for the homomorphic inner product.  Sampler randomness is
again made explicit: the Shamir polynomials drawn by `Polynomial::random`
become an explicit family `rnd`, and each BFV encryption's `(u, e1, e2)`
triple is passed in. -/

/-- `Polynomial::evaluate`: Horner's rule,
`data.iter().rev().fold(ZERO, |acc, a| a.add_mul(acc, x))`, where `add_mul`
is a widening multiply-add followed by the canonical double-word Barrett
reduction. -/
def evaluatePoly (w : ℕ) (m : BarrettModulus) (data : List ℕ) (x : ℕ) : ℕ :=
  data.foldr
    (fun a acc => barrettReducePair w m (carryMulLo w acc x a) (carryMulHi w acc x a)) 0

/-- `ThresholdPolicy::secret_sharing`: for each coefficient `i` of the secret,
a fresh random polynomial of length `threshold_number` has its constant term
overwritten with the secret coefficient, and node `j` receives its evaluation
at `indices[j]`.  The random polynomial for coefficient `i` is `rnd i`. -/
def secretSharing (w t : ℕ) (indices : List ℕ) (m : List ℕ) (rnd : ℕ → List ℕ) :
    List (List ℕ) :=
  indices.map (fun x =>
    (List.range m.length).map (fun i =>
      evaluatePoly w (barrettModulus w t) ((rnd i).set 0 (m.getD i 0)) x))

/-- `ThresholdPKE::gen_lagrange_coeffs`: for each chosen point, the product of
`-x` over the other points divided by the product of `point - x`, all in the
plaintext field (`retain` keeps the entries different from `point`; division
is multiplication by the extended-GCD inverse). -/
def genLagrangeCoeffs (w t : ℕ) (chosen : List ℕ) : List ℕ :=
  chosen.map (fun point =>
    let pts := chosen.filter (fun x => x != point)
    let num := pts.foldl
      (fun acc x => mulReduce w (barrettModulus w t) acc (negReduce t x)) 1
    let den := pts.foldl
      (fun acc x => mulReduce w (barrettModulus w t) acc (subReduce t point x)) 1
    mulReduce w (barrettModulus w t) num ((invReduce t den (t + den)).getD 0))

/-- `Polynomial::mul_scalar`: coefficient-wise canonical product with a
scalar. -/
def mulScalar (w q : ℕ) (a : List ℕ) (scalar : ℕ) : List ℕ :=
  a.map (fun v => mulReduce w (barrettModulus w q) v scalar)

/-- `BFVScheme::evaluate_mul_scalar`: the plaintext-field scalar is recast
into the ciphertext field by value and multiplied into both components. -/
def evaluateMulScalar (w q : ℕ) (scalar : ℕ) (c : List ℕ × List ℕ) :
    List ℕ × List ℕ :=
  (mulScalar w q c.1 scalar, mulScalar w q c.2 scalar)

/-- `BFVScheme::evalute_add`: component-wise polynomial addition. -/
def evaluateAdd (q : ℕ) (cl cr : List ℕ × List ℕ) : List ℕ × List ℕ :=
  (polyAdd q cl.1 cr.1, polyAdd q cl.2 cr.2)

/-- `BFVScheme::evaluate_inner_product`: fold of
`acc + scalar_j ⊙ c_j` starting from the zero ciphertext of dimension `n`. -/
def evaluateInnerProduct (w q n : ℕ) (c : List (List ℕ × List ℕ))
    (scalar : List ℕ) : List ℕ × List ℕ :=
  (c.zip scalar).foldl
    (fun acc p => evaluateAdd q acc (evaluateMulScalar w q p.2 p.1))
    (List.replicate n 0, List.replicate n 0)

/-- `ThresholdPKE::encrypt` after secret sharing: each share is BFV-encrypted
under the matching node public key with that node's randomness triple. -/
def thresholdEncrypt (w q logn invDeg : ℕ) (roots invRoots : List ℕ) (t : ℕ)
    (shares : List (List ℕ)) (pks : List (List ℕ × List ℕ))
    (rnds : List (List ℕ × List ℕ × List ℕ)) : List (List ℕ × List ℕ) :=
  List.zipWith
    (fun share prnd => bfvEncrypt w q logn invDeg roots invRoots t prnd.1 share
      prnd.2.1 prnd.2.2.1 prnd.2.2.2)
    shares (pks.zip rnds)

/-- `ThresholdPKE::re_encrypt`: decrypt with `sk`, re-encrypt the result under
`pk_new` (with the fresh randomness made explicit). -/
def reEncrypt (w q logn invDeg : ℕ) (roots invRoots : List ℕ) (t : ℕ)
    (c : List ℕ × List ℕ) (sk : List ℕ) (pkNew : List ℕ × List ℕ)
    (u e1 e2 : List ℕ) : List ℕ × List ℕ :=
  bfvEncrypt w q logn invDeg roots invRoots t pkNew
    (bfvDecrypt w q logn invDeg roots invRoots t sk c) u e1 e2

/-- `ThresholdPKE::combine`: the homomorphic inner product of the ciphertexts
with the Lagrange coefficients of the chosen indices (`wt` is the word width
of the plaintext field). -/
def combine (w q n wt t : ℕ) (ctxts : List (List ℕ × List ℕ))
    (chosen : List ℕ) : List ℕ × List ℕ :=
  evaluateInnerProduct w q n ctxts (genLagrangeCoeffs wt t chosen)

theorem subReduce_spec (p a b : ℕ) (_hp : 0 < p) (ha : a < p) (hb : b < p) :
    subReduce p a b < p ∧
    ((subReduce p a b : ℕ) : ZMod p)
      = ((a : ℕ) : ZMod p) - ((b : ℕ) : ZMod p) := by
  rw [subReduce]
  split_ifs with h
  · refine ⟨by omega, ?_⟩
    rw [Nat.cast_sub h]
  · refine ⟨by omega, ?_⟩
    have : ((p - b + a : ℕ) : ZMod p) = ((p : ℕ) : ZMod p) - b + a := by
      push_cast [Nat.cast_sub (le_of_lt hb)]
      ring
    rw [this, ZMod.natCast_self]
    ring

theorem evaluatePoly_spec (w t : ℕ) (h2 : 2 ≤ t) (h4t : 4 * t ≤ 2 ^ w) :
    ∀ (data : List ℕ) (x : ℕ), (∀ c ∈ data, c < t) → x < t →
      evaluatePoly w (barrettModulus w t) data x < t ∧
      ((evaluatePoly w (barrettModulus w t) data x : ℕ) : ZMod t)
        = ∑ d ∈ Finset.range data.length,
            ((data.getD d 0 : ℕ) : ZMod t) * ((x : ℕ) : ZMod t) ^ d := by
  intro data
  induction data with
  | nil =>
    intro x _ _
    exact ⟨by simp only [evaluatePoly, List.foldr_nil]; omega,
      by simp [evaluatePoly]⟩
  | cons a rest ih =>
    intro x hc hx
    obtain ⟨hlt, hcast⟩ := ih x (fun c hcm => hc c (List.mem_cons_of_mem a hcm)) hx
    have ha : a < t := hc a (List.mem_cons_self a rest)
    have hB : 0 < (2 : ℕ) ^ w := Nat.pos_pow_of_pos _ (by norm_num)
    have htw : t ≤ 2 ^ w := by omega
    have hstep : evaluatePoly w (barrettModulus w t) (a :: rest) x
        = barrettReducePair w (barrettModulus w t)
            (carryMulLo w (evaluatePoly w (barrettModulus w t) rest x) x a)
            (carryMulHi w (evaluatePoly w (barrettModulus w t) rest x) x a) := rfl
    set acc := evaluatePoly w (barrettModulus w t) rest x with hacc
    have hprod : acc * x + a < 2 ^ w * 2 ^ w := by
      have h1 : acc * x + a < t * t + t :=
        Nat.add_lt_add (Nat.mul_lt_mul_of_lt_of_le hlt (le_of_lt hx)
          (by omega)) ha
      have h2' : t * t + t ≤ 2 ^ w * 2 ^ w := by
        have ht1 : t + 1 ≤ 2 ^ w := by omega
        calc t * t + t = t * (t + 1) := by ring
        _ ≤ 2 ^ w * 2 ^ w := Nat.mul_le_mul htw ht1
      omega
    have hval : evaluatePoly w (barrettModulus w t) (a :: rest) x
        = (acc * x + a) % t := by
      rw [hstep, show carryMulLo w acc x a = (acc * x + a) % 2 ^ w from rfl,
        show carryMulHi w acc x a = (acc * x + a) / 2 ^ w from rfl,
        barrettReducePair_eq w t _ _ h2 h4t (Nat.mod_lt _ hB)
          (by rw [Nat.div_lt_iff_lt_mul hB]; exact hprod),
        Nat.div_add_mod']
    constructor
    · rw [hval]
      exact Nat.mod_lt _ (by omega)
    · rw [hval, ZMod.natCast_mod, Nat.cast_add, Nat.cast_mul, List.length_cons,
        Finset.sum_range_succ'
          (fun d => (((a :: rest).getD d 0 : ℕ) : ZMod t) * ((x : ℕ) : ZMod t) ^ d)
          rest.length]
      simp only [List.getD_cons_succ, List.getD_cons_zero, pow_zero, mul_one,
        pow_succ]
      rw [hcast, Finset.sum_mul]
      simp [mul_assoc]

theorem map_prod_getD {M : Type} [CommMonoid M] (g : ℕ → M) :
    ∀ l : List ℕ, (l.map g).prod = ∏ j ∈ Finset.range l.length, g (l.getD j 0) := by
  intro l
  induction l with
  | nil => simp
  | cons a rest ih =>
    rw [List.map_cons, List.prod_cons, ih, List.length_cons,
      Finset.prod_range_succ' (fun j => g ((a :: rest).getD j 0)) rest.length]
    simp only [List.getD_cons_succ, List.getD_cons_zero]
    rw [mul_comm]

theorem foldl_mulReduce_cast (w t : ℕ) (h2 : 2 ≤ t) (h4t : 4 * t ≤ 2 ^ w)
    (g : ℕ → ℕ) (hg : ∀ x, g x < t) :
    ∀ (l : List ℕ) (acc : ℕ), acc < t →
      l.foldl (fun acc x => mulReduce w (barrettModulus w t) acc (g x)) acc < t ∧
      ((l.foldl (fun acc x => mulReduce w (barrettModulus w t) acc (g x)) acc
          : ℕ) : ZMod t)
        = ((acc : ℕ) : ZMod t) * (l.map (fun x => ((g x : ℕ) : ZMod t))).prod := by
  intro l
  induction l with
  | nil =>
    intro acc hacc
    exact ⟨hacc, by simp⟩
  | cons a rest ih =>
    intro acc hacc
    have hstep : mulReduce w (barrettModulus w t) acc (g a) = acc * g a % t :=
      mulReduce_eq w t acc (g a) h2 h4t (lt_of_lt_of_le hacc (by omega))
        (lt_of_lt_of_le (hg a) (by omega))
    rw [List.foldl_cons]
    obtain ⟨hl, hc⟩ := ih (mulReduce w (barrettModulus w t) acc (g a))
      (by rw [hstep]; exact Nat.mod_lt _ (by omega))
    refine ⟨hl, ?_⟩
    rw [hc, hstep, ZMod.natCast_mod, Nat.cast_mul, List.map_cons, List.prod_cons]
    ring

theorem range_succ_erase_zero (n : ℕ) :
    (Finset.range (n + 1)).erase 0 = Finset.image Nat.succ (Finset.range n) := by
  ext m
  simp only [Finset.mem_erase, Finset.mem_range, Finset.mem_image]
  constructor
  · rintro ⟨hm0, hmn⟩
    exact ⟨m - 1, by omega, by omega⟩
  · rintro ⟨j, hj, rfl⟩
    exact ⟨by omega, by omega⟩

theorem range_succ_erase_succ (n i : ℕ) :
    (Finset.range (n + 1)).erase (i + 1)
      = insert 0 (Finset.image Nat.succ ((Finset.range n).erase i)) := by
  ext m
  simp only [Finset.mem_erase, Finset.mem_range, Finset.mem_insert,
    Finset.mem_image]
  constructor
  · rintro ⟨hne, hlt⟩
    cases m with
    | zero => exact Or.inl rfl
    | succ m' => exact Or.inr ⟨m', ⟨by omega, by omega⟩, rfl⟩
  · rintro (rfl | ⟨j, ⟨hji, hjn⟩, rfl⟩)
    · exact ⟨by omega, by omega⟩
    · exact ⟨by omega, by omega⟩

theorem filter_map_prod {M : Type} [CommMonoid M] (g : ℕ → M) :
    ∀ (l : List ℕ) (i : ℕ), l.Nodup → i < l.length →
      ((l.filter (fun y => y != l.getD i 0)).map g).prod
        = ∏ j ∈ (Finset.range l.length).erase i, g (l.getD j 0) := by
  intro l
  induction l with
  | nil =>
    intro i _ hi
    exact absurd hi (by simp)
  | cons a rest ih =>
    intro i hnd hi
    obtain ⟨hamem, hndr⟩ := List.nodup_cons.mp hnd
    cases i with
    | zero =>
      simp only [List.getD_cons_zero]
      have hfa : (a != a) = false := by simp
      have hfr : rest.filter (fun y => y != a) = rest :=
        List.filter_eq_self.mpr (fun b hb => by
          simp only [bne_iff_ne, ne_eq, decide_eq_true_eq]
          intro hba
          exact hamem (hba ▸ hb))
      rw [List.filter_cons, hfa, if_neg (by simp), hfr, List.length_cons,
        range_succ_erase_zero, Finset.prod_image (fun x _ y _ h => Nat.succ_injective h),
        map_prod_getD g rest]
      refine Finset.prod_congr rfl (fun j _ => ?_)
      rw [show Nat.succ j = j + 1 from rfl, List.getD_cons_succ]
    | succ i =>
      have hir : i < rest.length := by
        rw [List.length_cons] at hi
        omega
      simp only [List.getD_cons_succ]
      have hap : a ≠ rest.getD i 0 := by
        intro h
        exact hamem (h ▸ getD_mem 0 rest i hir)
      have hfa : (a != rest.getD i 0) = true := by
        simp only [bne_iff_ne, ne_eq, decide_eq_true_eq]
        exact hap
      rw [List.filter_cons, hfa, if_pos (by simp), List.map_cons, List.prod_cons,
        ih i hndr hir, List.length_cons, range_succ_erase_succ,
        Finset.prod_insert (by
          simp only [Finset.mem_image]
          rintro ⟨j, -, hj⟩
          exact Nat.succ_ne_zero j hj),
        Finset.prod_image (fun x _ y _ h => Nat.succ_injective h)]
      simp only [List.getD_cons_zero]
      refine congrArg (g a * ·) (Finset.prod_congr rfl (fun j _ => ?_))
      rw [show Nat.succ j = j + 1 from rfl, List.getD_cons_succ]

theorem nodup_getD_inj (l : List ℕ) (hnd : l.Nodup) (i j : ℕ) (hi : i < l.length)
    (hj : j < l.length) (h : l.getD i 0 = l.getD j 0) : i = j := by
  rw [List.getD_eq_getElem l 0 hi, List.getD_eq_getElem l 0 hj] at h
  exact (List.Nodup.getElem_inj_iff hnd).mp h

theorem negReduce_lt (x : ℕ) : negReduce 61 x < 61 := by
  rw [negReduce]
  split_ifs <;> omega

theorem subReduce_lt (pt x : ℕ) (hpt : pt < 61) : subReduce 61 pt x < 61 := by
  rw [subReduce]
  split_ifs <;> omega

/-- Each generated Lagrange coefficient is canonical and casts to the value of
the matching Mathlib Lagrange basis polynomial at `0`. -/
theorem genLagrangeCoeffs_spec [Fact (Nat.Prime 61)] (xs : List ℕ)
    (hnd : xs.Nodup) (hxs : ∀ x ∈ xs, x < 61) :
    ∀ i, i < xs.length →
      (genLagrangeCoeffs 16 61 xs).getD i 0 < 61 ∧
      (((genLagrangeCoeffs 16 61 xs).getD i 0 : ℕ) : ZMod 61)
        = (Lagrange.basis (Finset.range xs.length)
            (fun j => ((xs.getD j 0 : ℕ) : ZMod 61)) i).eval 0 := by
  intro i hi
  have hpt : xs.getD i 0 < 61 := hxs _ (getD_mem 0 xs i hi)
  have hptsmem : ∀ x ∈ xs.filter (fun y => y != xs.getD i 0), x < 61 :=
    fun x hx => hxs x (List.mem_of_mem_filter hx)
  -- the numerator product
  obtain ⟨hnumlt, hnumcast⟩ := foldl_mulReduce_cast 16 61 (by norm_num)
    (by norm_num) (negReduce 61) negReduce_lt
    (xs.filter (fun y => y != xs.getD i 0)) 1 (by norm_num)
  rw [Nat.cast_one, one_mul,
    List.map_congr_left (fun x hx =>
      (negReduce_spec' 61 x (by norm_num) (hptsmem x hx)).2),
    filter_map_prod (fun y => -((y : ℕ) : ZMod 61)) xs i hnd hi] at hnumcast
  -- the denominator product
  obtain ⟨hdenlt, hdencast⟩ := foldl_mulReduce_cast 16 61 (by norm_num)
    (by norm_num) (subReduce 61 (xs.getD i 0)) (fun x => subReduce_lt _ x hpt)
    (xs.filter (fun y => y != xs.getD i 0)) 1 (by norm_num)
  rw [Nat.cast_one, one_mul,
    List.map_congr_left (fun x hx =>
      (subReduce_spec 61 (xs.getD i 0) x (by norm_num) hpt (hptsmem x hx)).2),
    filter_map_prod
      (fun y => ((xs.getD i 0 : ℕ) : ZMod 61) - ((y : ℕ) : ZMod 61))
      xs i hnd hi] at hdencast
  set num := (xs.filter (fun y => y != xs.getD i 0)).foldl
    (fun acc x => mulReduce 16 (barrettModulus 16 61) acc (negReduce 61 x)) 1
    with hnumdef
  set den := (xs.filter (fun y => y != xs.getD i 0)).foldl
    (fun acc x => mulReduce 16 (barrettModulus 16 61) acc
      (subReduce 61 (xs.getD i 0) x)) 1 with hdendef
  -- the denominator is invertible
  have hdcast0 : ((den : ℕ) : ZMod 61) ≠ 0 := by
    rw [hdencast]
    rw [Finset.prod_ne_zero_iff]
    intro j hj
    obtain ⟨hji, hjr⟩ := Finset.mem_erase.mp hj
    have hjk : j < xs.length := Finset.mem_range.mp hjr
    refine sub_ne_zero.mpr (fun hcontra => ?_)
    have hv1 : xs.getD i 0 < 61 := hpt
    have hv2 : xs.getD j 0 < 61 := hxs _ (getD_mem 0 xs j hjk)
    have heqv : xs.getD i 0 = xs.getD j 0 := by
      have := congrArg ZMod.val hcontra
      rwa [ZMod.val_cast_of_lt hv1, ZMod.val_cast_of_lt hv2] at this
    exact hji (nodup_getD_inj xs hnd j i hjk hi heqv.symm)
  have hden0 : 0 < den := by
    rcases Nat.eq_zero_or_pos den with h | h
    · exact absurd (by rw [h, Nat.cast_zero]) hdcast0
    · exact h
  have hcop : Nat.gcd 61 den = 1 :=
    (Nat.Prime.coprime_iff_not_dvd (by norm_num)).mpr
      (fun hdvd => absurd (Nat.le_of_dvd hden0 hdvd) (by omega))
  obtain ⟨r, hrsome, hr0, hrlt, hrmul⟩ := invReduce_spec 61 den (by norm_num)
    (by norm_num) hden0 hcop
  have hrinv : ((r : ℕ) : ZMod 61) = (((den : ℕ) : ZMod 61))⁻¹ := by
    have h1 : ((den : ℕ) : ZMod 61) * ((r : ℕ) : ZMod 61) = 1 := by
      have := congrArg (fun n => ((n : ℕ) : ZMod 61)) hrmul
      simp only [ZMod.natCast_mod, Nat.cast_mul, Nat.cast_one] at this
      rw [mul_comm] at this
      exact this
    exact (inv_eq_of_mul_eq_one_right h1).symm
  -- the produced entry
  have hentry : (genLagrangeCoeffs 16 61 xs).getD i 0
      = mulReduce 16 (barrettModulus 16 61) num
          ((invReduce 61 den (61 + den)).getD 0) := by
    rw [genLagrangeCoeffs, getD_map_lt _ 0 0 xs i hi]
  have hmr : mulReduce 16 (barrettModulus 16 61) num
        ((invReduce 61 den (61 + den)).getD 0) = num * r % 61 := by
    rw [hrsome]
    exact mulReduce_eq 16 61 num r (by norm_num) (by norm_num)
      (lt_of_lt_of_le hnumlt (by norm_num)) (lt_of_lt_of_le hrlt (by norm_num))
  constructor
  · rw [hentry, hmr]
    exact Nat.mod_lt _ (by norm_num)
  · rw [hentry, hmr, ZMod.natCast_mod, Nat.cast_mul, hnumcast, hrinv, hdencast,
      Lagrange.basis, Polynomial.eval_prod]
    rw [show (fun j => Polynomial.eval 0
        (Lagrange.basisDivisor ((fun j => ((xs.getD j 0 : ℕ) : ZMod 61)) i)
          ((fun j => ((xs.getD j 0 : ℕ) : ZMod 61)) j)))
      = fun j => (((xs.getD i 0 : ℕ) : ZMod 61)
          - ((xs.getD j 0 : ℕ) : ZMod 61))⁻¹ * (0 - ((xs.getD j 0 : ℕ) : ZMod 61))
      from funext (fun j => by
        rw [Lagrange.basisDivisor, Polynomial.eval_mul, Polynomial.eval_C,
          Polynomial.eval_sub, Polynomial.eval_X, Polynomial.eval_C])]
    rw [Finset.prod_mul_distrib, Finset.prod_inv_distrib]
    rw [show (∏ j ∈ (Finset.range xs.length).erase i,
        (0 - ((xs.getD j 0 : ℕ) : ZMod 61)))
      = ∏ j ∈ (Finset.range xs.length).erase i, -((xs.getD j 0 : ℕ) : ZMod 61)
      from Finset.prod_congr rfl (fun j _ => by rw [zero_sub])]
    ring

/-- Shamir reconstruction through the embedded Lagrange coefficients: for
distinct canonical evaluation points, the coefficient-weighted sum of the
Horner evaluations of a polynomial of matching length recovers its constant
term (in `F_61`). -/
theorem shamir_reconstruct (xs : List ℕ) (hnd : xs.Nodup)
    (hxs : ∀ x ∈ xs, x < 61) (coeffs : List ℕ)
    (hlen : coeffs.length = xs.length) (hcc : ∀ c ∈ coeffs, c < 61) :
    ∑ j ∈ Finset.range xs.length,
        (((genLagrangeCoeffs 16 61 xs).getD j 0 : ℕ) : ZMod 61)
          * ((evaluatePoly 16 (barrettModulus 16 61) coeffs
              (xs.getD j 0) : ℕ) : ZMod 61)
      = ((coeffs.getD 0 0 : ℕ) : ZMod 61) := by
  haveI : Fact (Nat.Prime 61) := ⟨by norm_num⟩
  have hinj : Set.InjOn (fun j => ((xs.getD j 0 : ℕ) : ZMod 61))
      (Finset.range xs.length) := by
    intro j hj j' hj' heq
    simp only [Finset.coe_range, Set.mem_Iio] at hj hj'
    have hv1 : xs.getD j 0 < 61 := hxs _ (getD_mem 0 xs j hj)
    have hv2 : xs.getD j' 0 < 61 := hxs _ (getD_mem 0 xs j' hj')
    have h1 : xs.getD j 0 = xs.getD j' 0 := by
      have := congrArg ZMod.val heq
      simp only at this
      rwa [ZMod.val_cast_of_lt hv1, ZMod.val_cast_of_lt hv2] at this
    exact nodup_getD_inj xs hnd j j' hj hj' h1
  have hdeg : (∑ d : Fin xs.length,
        Polynomial.C ((coeffs.getD (d : ℕ) 0 : ℕ) : ZMod 61)
          * Polynomial.X ^ (d : ℕ)).degree
      < ((Finset.range xs.length).card : WithBot ℕ) := by
    rw [Finset.card_range]
    exact Polynomial.degree_sum_fin_lt _
  have hinterp := Lagrange.eq_interpolate hinj hdeg
  have heval : ∀ j, j < xs.length →
      Polynomial.eval ((xs.getD j 0 : ℕ) : ZMod 61)
          (∑ d : Fin xs.length,
            Polynomial.C ((coeffs.getD (d : ℕ) 0 : ℕ) : ZMod 61)
              * Polynomial.X ^ (d : ℕ))
        = ((evaluatePoly 16 (barrettModulus 16 61) coeffs
            (xs.getD j 0) : ℕ) : ZMod 61) := by
    intro j hj
    have hxj : xs.getD j 0 < 61 := hxs _ (getD_mem 0 xs j hj)
    obtain ⟨-, hc⟩ := evaluatePoly_spec 16 61 (by norm_num) (by norm_num)
      coeffs (xs.getD j 0) hcc hxj
    rw [hc, Polynomial.eval_finset_sum]
    simp only [Polynomial.eval_mul, Polynomial.eval_C, Polynomial.eval_pow,
      Polynomial.eval_X]
    rw [Fin.sum_univ_eq_sum_range
      (fun d => ((coeffs.getD d 0 : ℕ) : ZMod 61)
        * ((xs.getD j 0 : ℕ) : ZMod 61) ^ d) xs.length, hlen]
  have hconst : Polynomial.eval 0
      (∑ d : Fin xs.length,
        Polynomial.C ((coeffs.getD (d : ℕ) 0 : ℕ) : ZMod 61)
          * Polynomial.X ^ (d : ℕ))
      = ((coeffs.getD 0 0 : ℕ) : ZMod 61) := by
    rw [Polynomial.eval_finset_sum]
    simp only [Polynomial.eval_mul, Polynomial.eval_C, Polynomial.eval_pow,
      Polynomial.eval_X]
    rcases Nat.eq_zero_or_pos xs.length with hk | hk
    · have hnil : coeffs = [] := List.length_eq_zero.mp (by rw [hlen, hk])
      rw [hnil]
      rw [show xs.length = 0 from hk]
      simp
    · obtain ⟨k', hk'⟩ : ∃ k', xs.length = k' + 1 := ⟨xs.length - 1, by omega⟩
      rw [hk']
      rw [Fin.sum_univ_succ]
      simp [zero_pow]
  have h0 := congrArg (Polynomial.eval 0) hinterp
  rw [hconst, Lagrange.interpolate_apply, Polynomial.eval_finset_sum] at h0
  simp only [Polynomial.eval_mul, Polynomial.eval_C] at h0
  rw [h0]
  refine Finset.sum_congr rfl (fun j hj => ?_)
  have hjk : j < xs.length := Finset.mem_range.mp hj
  rw [heval j hjk, (genLagrangeCoeffs_spec xs hnd hxs j hjk).2]
  ring

theorem getD_replicate_zero (n : ℕ) : ∀ j, (List.replicate n (0 : ℕ)).getD j 0 = 0 := by
  intro j
  rcases lt_or_ge j n with h | h
  · exact replicate_getD 0 0 n j h
  · have h' : (List.replicate n (0 : ℕ)).length ≤ j := by
      rw [List.length_replicate]
      exact h
    exact List.getD_eq_default _ 0 h'

theorem zipWith_replicate_same {α β : Type} (f : α → α → β) (a b : α) :
    ∀ n, List.zipWith f (List.replicate n a) (List.replicate n b)
      = List.replicate n (f a b) := by
  intro n
  induction n with
  | zero => rfl
  | succ m ih =>
    simp only [List.replicate_succ, List.zipWith_cons_cons, ih]

theorem polyAdd_zero_left (q : ℕ) :
    ∀ (x : List ℕ), (∀ v ∈ x, v < q) →
      polyAdd q (List.replicate x.length 0) x = x := by
  intro x
  induction x with
  | nil =>
    intro _
    rfl
  | cons v xs ih =>
    intro hc
    have hv : v < q := hc v (List.mem_cons_self v xs)
    rw [List.length_cons, polyAdd, List.replicate_succ, List.zipWith_cons_cons,
      show addReduce q 0 v = v from by rw [addReduce]; split_ifs <;> omega]
    rw [show List.zipWith (addReduce q) (List.replicate xs.length 0) xs
        = polyAdd q (List.replicate xs.length 0) xs from rfl,
      ih (fun u hu => hc u (List.mem_cons_of_mem v hu))]

theorem convC_zero_left {R : Type} [CommRing R] (n : ℕ) (B : ℕ → R) (i : ℕ) :
    convC n (fun _ => 0) B i = 0 := by
  simp [convC]

theorem convC_zero_right {R : Type} [CommRing R] (n : ℕ) (A : ℕ → R) (i : ℕ) :
    convC n A (fun _ => 0) i = 0 := by
  simp [convC]

theorem convC_smul_left {R : Type} [CommRing R] (n : ℕ) (c : R) (A B : ℕ → R)
    (i : ℕ) :
    convC n (fun j => c * A j) B i = c * convC n A B i := by
  simp only [convC, Finset.mul_sum]
  refine Finset.sum_congr rfl (fun j _ => ?_)
  refine Finset.sum_congr rfl (fun k _ => ?_)
  split_ifs <;> ring

theorem convC_sum_left {R : Type} [CommRing R] (n : ℕ) (s : Finset ℕ)
    (A : ℕ → ℕ → R) (B : ℕ → R) (i : ℕ) :
    convC n (fun j => ∑ x ∈ s, A x j) B i = ∑ x ∈ s, convC n (A x) B i := by
  induction s using Finset.induction_on with
  | empty =>
    rw [Finset.sum_empty]
    exact convC_zero_left n B i
  | insert hx ih =>
    rw [Finset.sum_insert hx,
      convC_congr _ _ (fun j => _ + _) B B
        (fun j _ => Finset.sum_insert hx) (fun k _ => rfl) i,
      convC_add_left, ih]

theorem polyMul_zero_right (w p logn omg invDeg : ℕ)
    (hp2 : 2 ≤ p) (h4p : 4 * p ≤ 2 ^ w) (hlogn : 1 ≤ logn)
    (homg : omg < p) (hprim : omg ^ 2 ^ logn % p = p - 1)
    (hinvDeg : invDeg < p) (hinvDeg1 : invDeg * 2 ^ logn % p = 1)
    (a : List ℕ) (ha : a.length = 2 ^ logn) (hacanon : ∀ x ∈ a, x < p) :
    polyMul w p logn invDeg (rootPowersList p omg logn)
      (invRootPowersList p omg logn) a (List.replicate (2 ^ logn) 0)
      = List.replicate (2 ^ logn) 0 := by
  obtain ⟨hlen, hcanon, hcast⟩ := polyMul_spec w p logn omg invDeg hp2 h4p hlogn
    homg hprim hinvDeg hinvDeg1 a (List.replicate (2 ^ logn) 0) ha
    (List.length_replicate _ _) hacanon
    (fun x hx => by rw [List.eq_of_mem_replicate hx]; omega)
  refine list_eq_of_getD 0 _ _ (by rw [hlen, List.length_replicate]) ?_
  intro i hi
  rw [hlen] at hi
  rw [getD_replicate_zero]
  have h0 := hcast i hi
  rw [convC_congr _ _ _ _ (fun _ => (0 : ZMod p)) (fun j _ => rfl)
      (fun k _ => by rw [getD_replicate_zero, Nat.cast_zero]) i,
    convC_zero_right] at h0
  have hlt := hcanon _ (getD_mem 0 _ i (by rw [hlen]; exact hi))
  have := congrArg ZMod.val h0
  rwa [ZMod.val_cast_of_lt hlt, ZMod.val_zero] at this

theorem polyMul_zero_left (w p logn omg invDeg : ℕ)
    (hp2 : 2 ≤ p) (h4p : 4 * p ≤ 2 ^ w) (hlogn : 1 ≤ logn)
    (homg : omg < p) (hprim : omg ^ 2 ^ logn % p = p - 1)
    (hinvDeg : invDeg < p) (hinvDeg1 : invDeg * 2 ^ logn % p = 1)
    (b : List ℕ) (hb : b.length = 2 ^ logn) (hbcanon : ∀ x ∈ b, x < p) :
    polyMul w p logn invDeg (rootPowersList p omg logn)
      (invRootPowersList p omg logn) (List.replicate (2 ^ logn) 0) b
      = List.replicate (2 ^ logn) 0 := by
  obtain ⟨hlen, hcanon, hcast⟩ := polyMul_spec w p logn omg invDeg hp2 h4p hlogn
    homg hprim hinvDeg hinvDeg1 (List.replicate (2 ^ logn) 0) b
    (List.length_replicate _ _) hb
    (fun x hx => by rw [List.eq_of_mem_replicate hx]; omega) hbcanon
  refine list_eq_of_getD 0 _ _ (by rw [hlen, List.length_replicate]) ?_
  intro i hi
  rw [hlen] at hi
  rw [getD_replicate_zero]
  have h0 := hcast i hi
  rw [convC_congr _ _ (fun _ => (0 : ZMod p)) _ _
      (fun j _ => by rw [getD_replicate_zero, Nat.cast_zero]) (fun k _ => rfl) i,
    convC_zero_left] at h0
  have hlt := hcanon _ (getD_mem 0 _ i (by rw [hlen]; exact hi))
  have := congrArg ZMod.val h0
  rwa [ZMod.val_cast_of_lt hlt, ZMod.val_zero] at this

theorem getD_zip {α β : Type} (dA : α) (dB : β) :
    ∀ (a : List α) (b : List β) i, i < a.length → i < b.length →
      (a.zip b).getD i (dA, dB) = (a.getD i dA, b.getD i dB) := by
  intro a
  induction a with
  | nil =>
    intro b i hi _
    exact absurd hi (by simp)
  | cons x xs ih =>
    intro b i hia hib
    cases b with
    | nil => exact absurd hib (by simp)
    | cons y ys =>
      cases i with
      | zero => rfl
      | succ i =>
        rw [List.zip_cons_cons, List.getD_cons_succ, List.getD_cons_succ,
          List.getD_cons_succ, ih ys i (by simpa using hia) (by simpa using hib)]

theorem mulScalar_spec (w q : ℕ) (hq2 : 2 ≤ q) (h4q : 4 * q ≤ 2 ^ w)
    (a : List ℕ) (sc : ℕ) (ha : ∀ x ∈ a, x < q) (hsc : sc < q) :
    (mulScalar w q a sc).length = a.length ∧
    (∀ x ∈ mulScalar w q a sc, x < q) ∧
    ∀ i, i < a.length →
      (((mulScalar w q a sc).getD i 0 : ℕ) : ZMod q)
        = ((a.getD i 0 : ℕ) : ZMod q) * ((sc : ℕ) : ZMod q) := by
  have hqw : q ≤ 2 ^ w := by omega
  refine ⟨List.length_map _ _, ?_, ?_⟩
  · intro x hx
    obtain ⟨v, hv, rfl⟩ := List.mem_map.mp hx
    rw [mulReduce_eq w q v sc hq2 h4q (lt_of_lt_of_le (ha v hv) hqw)
      (lt_of_lt_of_le hsc hqw)]
    exact Nat.mod_lt _ (by omega)
  · intro i hi
    rw [mulScalar, getD_map_lt _ 0 0 a i hi,
      mulReduce_eq w q _ sc hq2 h4q
        (lt_of_lt_of_le (ha _ (getD_mem 0 a i hi)) hqw) (lt_of_lt_of_le hsc hqw),
      ZMod.natCast_mod, Nat.cast_mul]

theorem innerProduct_fold_spec (w q n : ℕ) (hq2 : 2 ≤ q) (h4q : 4 * q ≤ 2 ^ w) :
    ∀ (l : List ((List ℕ × List ℕ) × ℕ)) (acc : List ℕ × List ℕ),
      (∀ p ∈ l, p.1.1.length = n ∧ p.1.2.length = n ∧
        (∀ x ∈ p.1.1, x < q) ∧ (∀ x ∈ p.1.2, x < q) ∧ p.2 < q) →
      acc.1.length = n → acc.2.length = n →
      (∀ x ∈ acc.1, x < q) → (∀ x ∈ acc.2, x < q) →
      (l.foldl (fun acc p => evaluateAdd q acc (evaluateMulScalar w q p.2 p.1))
          acc).1.length = n ∧
      (l.foldl (fun acc p => evaluateAdd q acc (evaluateMulScalar w q p.2 p.1))
          acc).2.length = n ∧
      (∀ x ∈ (l.foldl (fun acc p => evaluateAdd q acc
          (evaluateMulScalar w q p.2 p.1)) acc).1, x < q) ∧
      (∀ x ∈ (l.foldl (fun acc p => evaluateAdd q acc
          (evaluateMulScalar w q p.2 p.1)) acc).2, x < q) ∧
      ∀ i, i < n →
        (((l.foldl (fun acc p => evaluateAdd q acc
              (evaluateMulScalar w q p.2 p.1)) acc).1.getD i 0 : ℕ) : ZMod q)
          = ((acc.1.getD i 0 : ℕ) : ZMod q)
            + (∑ j ∈ Finset.range l.length,
                (((l.getD j (([], []), 0)).2 : ℕ) : ZMod q)
                  * (((l.getD j (([], []), 0)).1.1.getD i 0 : ℕ) : ZMod q)) ∧
        (((l.foldl (fun acc p => evaluateAdd q acc
              (evaluateMulScalar w q p.2 p.1)) acc).2.getD i 0 : ℕ) : ZMod q)
          = ((acc.2.getD i 0 : ℕ) : ZMod q)
            + (∑ j ∈ Finset.range l.length,
                (((l.getD j (([], []), 0)).2 : ℕ) : ZMod q)
                  * (((l.getD j (([], []), 0)).1.2.getD i 0 : ℕ) : ZMod q)) := by
  have hq0 : 0 < q := by omega
  intro l
  induction l with
  | nil =>
    intro acc _ h1 h2 h3 h4
    exact ⟨h1, h2, h3, h4, fun i _ => ⟨by simp, by simp⟩⟩
  | cons p rest ih =>
    intro acc hl hacc1 hacc2 hcanon1 hcanon2
    obtain ⟨hp11, hp12, hpc1, hpc2, hps⟩ := hl p (List.mem_cons_self p rest)
    obtain ⟨hms1len, hms1canon, hms1cast⟩ :=
      mulScalar_spec w q hq2 h4q p.1.1 p.2 hpc1 hps
    obtain ⟨hms2len, hms2canon, hms2cast⟩ :=
      mulScalar_spec w q hq2 h4q p.1.2 p.2 hpc2 hps
    have hstep1len : (polyAdd q acc.1 (mulScalar w q p.1.1 p.2)).length = n := by
      rw [polyAdd_length, hacc1, hms1len, hp11, Nat.min_self]
    have hstep2len : (polyAdd q acc.2 (mulScalar w q p.1.2 p.2)).length = n := by
      rw [polyAdd_length, hacc2, hms2len, hp12, Nat.min_self]
    have hstep1canon := polyAdd_canon q hq0 acc.1 _ hcanon1 hms1canon
    have hstep2canon := polyAdd_canon q hq0 acc.2 _ hcanon2 hms2canon
    have hstep1cast : ∀ i, i < n →
        (((polyAdd q acc.1 (mulScalar w q p.1.1 p.2)).getD i 0 : ℕ) : ZMod q)
          = ((acc.1.getD i 0 : ℕ) : ZMod q)
            + ((p.2 : ℕ) : ZMod q) * ((p.1.1.getD i 0 : ℕ) : ZMod q) := by
      intro i hi
      rw [(polyAdd_getD q hq0 acc.1 _ hcanon1 hms1canon i
          (by rw [hacc1]; exact hi) (by rw [hms1len, hp11]; exact hi)).2,
        hms1cast i (by rw [hp11]; exact hi)]
      ring
    have hstep2cast : ∀ i, i < n →
        (((polyAdd q acc.2 (mulScalar w q p.1.2 p.2)).getD i 0 : ℕ) : ZMod q)
          = ((acc.2.getD i 0 : ℕ) : ZMod q)
            + ((p.2 : ℕ) : ZMod q) * ((p.1.2.getD i 0 : ℕ) : ZMod q) := by
      intro i hi
      rw [(polyAdd_getD q hq0 acc.2 _ hcanon2 hms2canon i
          (by rw [hacc2]; exact hi) (by rw [hms2len, hp12]; exact hi)).2,
        hms2cast i (by rw [hp12]; exact hi)]
      ring
    have hfold : (p :: rest).foldl
        (fun acc p => evaluateAdd q acc (evaluateMulScalar w q p.2 p.1)) acc
        = rest.foldl (fun acc p => evaluateAdd q acc (evaluateMulScalar w q p.2 p.1))
            (polyAdd q acc.1 (mulScalar w q p.1.1 p.2),
             polyAdd q acc.2 (mulScalar w q p.1.2 p.2)) := rfl
    obtain ⟨hr1, hr2, hr3, hr4, hr5⟩ := ih
      (polyAdd q acc.1 (mulScalar w q p.1.1 p.2),
       polyAdd q acc.2 (mulScalar w q p.1.2 p.2))
      (fun x hx => hl x (List.mem_cons_of_mem p hx))
      hstep1len hstep2len hstep1canon hstep2canon
    rw [hfold]
    refine ⟨hr1, hr2, hr3, hr4, ?_⟩
    intro i hi
    obtain ⟨hc1, hc2⟩ := hr5 i hi
    constructor
    · rw [hc1, List.length_cons,
        Finset.sum_range_succ'
          (fun j => ((((p :: rest).getD j (([], []), 0)).2 : ℕ) : ZMod q)
            * ((((p :: rest).getD j (([], []), 0)).1.1.getD i 0 : ℕ) : ZMod q))
          rest.length]
      simp only [List.getD_cons_succ, List.getD_cons_zero]
      rw [hstep1cast i hi]
      ring
    · rw [hc2, List.length_cons,
        Finset.sum_range_succ'
          (fun j => ((((p :: rest).getD j (([], []), 0)).2 : ℕ) : ZMod q)
            * ((((p :: rest).getD j (([], []), 0)).1.2.getD i 0 : ℕ) : ZMod q))
          rest.length]
      simp only [List.getD_cons_succ, List.getD_cons_zero]
      rw [hstep2cast i hi]
      ring

/-- Specification of `BFVScheme::evaluate_inner_product` for component lists of
dimension `n`: the result is canonical of dimension `n` and every coefficient
is the scalar-weighted sum of the input coefficients. -/
theorem evaluateInnerProduct_spec (w q n : ℕ) (hq2 : 2 ≤ q) (h4q : 4 * q ≤ 2 ^ w)
    (cs : List (List ℕ × List ℕ)) (scalars : List ℕ)
    (hlen : cs.length = scalars.length)
    (hcs : ∀ c ∈ cs, c.1.length = n ∧ c.2.length = n ∧
      (∀ x ∈ c.1, x < q) ∧ (∀ x ∈ c.2, x < q))
    (hsc : ∀ s ∈ scalars, s < q) :
    (evaluateInnerProduct w q n cs scalars).1.length = n ∧
    (evaluateInnerProduct w q n cs scalars).2.length = n ∧
    (∀ x ∈ (evaluateInnerProduct w q n cs scalars).1, x < q) ∧
    (∀ x ∈ (evaluateInnerProduct w q n cs scalars).2, x < q) ∧
    ∀ i, i < n →
      (((evaluateInnerProduct w q n cs scalars).1.getD i 0 : ℕ) : ZMod q)
        = (∑ j ∈ Finset.range cs.length,
            ((scalars.getD j 0 : ℕ) : ZMod q)
              * (((cs.getD j ([], [])).1.getD i 0 : ℕ) : ZMod q)) ∧
      (((evaluateInnerProduct w q n cs scalars).2.getD i 0 : ℕ) : ZMod q)
        = (∑ j ∈ Finset.range cs.length,
            ((scalars.getD j 0 : ℕ) : ZMod q)
              * (((cs.getD j ([], [])).2.getD i 0 : ℕ) : ZMod q)) := by
  have hq0 : 0 < q := by omega
  have hziplen : (cs.zip scalars).length = cs.length := by
    rw [List.length_zip, hlen, Nat.min_self]
  have hzl : ∀ p ∈ cs.zip scalars, p.1.1.length = n ∧ p.1.2.length = n ∧
      (∀ x ∈ p.1.1, x < q) ∧ (∀ x ∈ p.1.2, x < q) ∧ p.2 < q := by
    intro p hp
    obtain ⟨hp1, hp2⟩ := List.of_mem_zip hp
    obtain ⟨h1, h2, h3, h4⟩ := hcs p.1 hp1
    exact ⟨h1, h2, h3, h4, hsc p.2 hp2⟩
  obtain ⟨h1, h2, h3, h4, h5⟩ := innerProduct_fold_spec w q n hq2 h4q
    (cs.zip scalars) (List.replicate n 0, List.replicate n 0) hzl
    (List.length_replicate _ _) (List.length_replicate _ _)
    (fun x hx => by rw [List.eq_of_mem_replicate hx]; omega)
    (fun x hx => by rw [List.eq_of_mem_replicate hx]; omega)
  refine ⟨h1, h2, h3, h4, ?_⟩
  intro i hi
  obtain ⟨hc1, hc2⟩ := h5 i hi
  have hgz : ∀ j, j < cs.length →
      (cs.zip scalars).getD j (([], []), 0)
        = (cs.getD j ([], []), scalars.getD j 0) :=
    fun j hj => getD_zip ([], []) 0 cs scalars j hj (by rw [← hlen]; exact hj)
  constructor
  · rw [show (evaluateInnerProduct w q n cs scalars).1
        = ((cs.zip scalars).foldl
            (fun acc p => evaluateAdd q acc (evaluateMulScalar w q p.2 p.1))
            (List.replicate n 0, List.replicate n 0)).1 from rfl,
      hc1, getD_replicate_zero, Nat.cast_zero, zero_add, hziplen]
    refine Finset.sum_congr rfl (fun j hj => ?_)
    rw [hgz j (Finset.mem_range.mp hj)]
  · rw [show (evaluateInnerProduct w q n cs scalars).2
        = ((cs.zip scalars).foldl
            (fun acc p => evaluateAdd q acc (evaluateMulScalar w q p.2 p.1))
            (List.replicate n 0, List.replicate n 0)).2 from rfl,
      hc2, getD_replicate_zero, Nat.cast_zero, zero_add, hziplen]
    refine Finset.sum_congr rfl (fun j hj => ?_)
    rw [hgz j (Finset.mem_range.mp hj)]

theorem getD_zipWith' {α β γ : Type} (f : α → β → γ) (dA : α) (dB : β) (dC : γ) :
    ∀ (a : List α) (b : List β) i, i < a.length → i < b.length →
      (List.zipWith f a b).getD i dC = f (a.getD i dA) (b.getD i dB) := by
  intro a
  induction a with
  | nil =>
    intro b i hi _
    exact absurd hi (by simp)
  | cons x xs ih =>
    intro b i hia hib
    cases b with
    | nil => exact absurd hib (by simp)
    | cons y ys =>
      cases i with
      | zero => rfl
      | succ i =>
        rw [List.zipWith_cons_cons, List.getD_cons_succ, List.getD_cons_succ,
          List.getD_cons_succ, ih ys i (by simpa using hia) (by simpa using hib)]

/-- The two components of a fresh BFV encryption under a `gen_pubkey` keypair:
both are canonical of dimension `N`, and coefficient-wise
`c1 + c2 ⋆ s = encode(msg) + (e ⋆ u + e1 + e2 ⋆ s)` over `ZMod q`. -/
theorem bfv_encrypt_pair_spec (omg invDeg : ℕ)
    (homg : omg < 132120577)
    (hprim : omg ^ 2 ^ 10 % 132120577 = 132120577 - 1)
    (hinvDeg : invDeg < 132120577)
    (hinvDeg1 : invDeg * 2 ^ 10 % 132120577 = 1)
    (msg s a e u e1 e2 : List ℕ)
    (hlm : msg.length = 2 ^ 10) (hls : s.length = 2 ^ 10)
    (hla : a.length = 2 ^ 10) (hle : e.length = 2 ^ 10)
    (hlu : u.length = 2 ^ 10) (hle1 : e1.length = 2 ^ 10)
    (hle2 : e2.length = 2 ^ 10)
    (hcm : ∀ x ∈ msg, x < 61)
    (hcs : ∀ x ∈ s, x < 132120577)
    (hca : ∀ x ∈ a, x < 132120577)
    (hce : ∀ x ∈ e, x < 132120577)
    (hcu : ∀ x ∈ u, x < 132120577)
    (hce1 : ∀ x ∈ e1, x < 132120577)
    (hce2 : ∀ x ∈ e2, x < 132120577) :
    (bfvEncrypt 32 132120577 10 invDeg (rootPowersList 132120577 omg 10)
        (invRootPowersList 132120577 omg 10) 61
        (genPubkey 32 132120577 10 invDeg (rootPowersList 132120577 omg 10)
          (invRootPowersList 132120577 omg 10) s a e) msg u e1 e2).1.length
      = 2 ^ 10 ∧
    (bfvEncrypt 32 132120577 10 invDeg (rootPowersList 132120577 omg 10)
        (invRootPowersList 132120577 omg 10) 61
        (genPubkey 32 132120577 10 invDeg (rootPowersList 132120577 omg 10)
          (invRootPowersList 132120577 omg 10) s a e) msg u e1 e2).2.length
      = 2 ^ 10 ∧
    (∀ x ∈ (bfvEncrypt 32 132120577 10 invDeg (rootPowersList 132120577 omg 10)
        (invRootPowersList 132120577 omg 10) 61
        (genPubkey 32 132120577 10 invDeg (rootPowersList 132120577 omg 10)
          (invRootPowersList 132120577 omg 10) s a e) msg u e1 e2).1,
      x < 132120577) ∧
    (∀ x ∈ (bfvEncrypt 32 132120577 10 invDeg (rootPowersList 132120577 omg 10)
        (invRootPowersList 132120577 omg 10) 61
        (genPubkey 32 132120577 10 invDeg (rootPowersList 132120577 omg 10)
          (invRootPowersList 132120577 omg 10) s a e) msg u e1 e2).2,
      x < 132120577) ∧
    ∀ i, i < 2 ^ 10 →
      (((bfvEncrypt 32 132120577 10 invDeg (rootPowersList 132120577 omg 10)
            (invRootPowersList 132120577 omg 10) 61
            (genPubkey 32 132120577 10 invDeg (rootPowersList 132120577 omg 10)
              (invRootPowersList 132120577 omg 10) s a e)
            msg u e1 e2).1.getD i 0 : ℕ) : ZMod 132120577)
        + convC (2 ^ 10)
            (fun kk => (((bfvEncrypt 32 132120577 10 invDeg
                (rootPowersList 132120577 omg 10)
                (invRootPowersList 132120577 omg 10) 61
                (genPubkey 32 132120577 10 invDeg
                  (rootPowersList 132120577 omg 10)
                  (invRootPowersList 132120577 omg 10) s a e)
                msg u e1 e2).2.getD kk 0 : ℕ) : ZMod 132120577))
            (fun kk => ((s.getD kk 0 : ℕ) : ZMod 132120577)) i
      = ((encodeCoeff 132120577 61 (msg.getD i 0) : ℕ) : ZMod 132120577)
        + (convC (2 ^ 10) (fun jj => ((e.getD jj 0 : ℕ) : ZMod 132120577))
            (fun kk => ((u.getD kk 0 : ℕ) : ZMod 132120577)) i
          + ((e1.getD i 0 : ℕ) : ZMod 132120577)
          + convC (2 ^ 10) (fun jj => ((e2.getD jj 0 : ℕ) : ZMod 132120577))
              (fun kk => ((s.getD kk 0 : ℕ) : ZMod 132120577)) i) := by
  have hq2 : (2 : ℕ) ≤ 132120577 := by norm_num
  have h4q : 4 * 132120577 ≤ 2 ^ 32 := by norm_num
  have hlog : (1 : ℕ) ≤ 10 := by norm_num
  haveI : NeZero (132120577 : ℕ) := ⟨by norm_num⟩
  simp only [bfvEncrypt, genPubkey]
  -- `P1 = a·s`
  obtain ⟨hP1len, hP1canon, hP1cast⟩ := polyMul_spec 32 132120577 10 omg invDeg
    hq2 h4q hlog homg hprim hinvDeg hinvDeg1 a s hla hls hca hcs
  set P1 := polyMul 32 132120577 10 invDeg (rootPowersList 132120577 omg 10)
    (invRootPowersList 132120577 omg 10) a s with hP1def
  -- `B = a·s + e`
  have hBlen : (polyAdd 132120577 P1 e).length = 2 ^ 10 := by
    rw [polyAdd_length, hP1len, hle, Nat.min_self]
  have hBcanon := polyAdd_canon 132120577 (by norm_num) P1 e hP1canon hce
  have hBcast : ∀ i, i < 2 ^ 10 →
      (((polyAdd 132120577 P1 e).getD i 0 : ℕ) : ZMod 132120577)
        = convC (2 ^ 10) (fun j => ((a.getD j 0 : ℕ) : ZMod 132120577))
            (fun k => ((s.getD k 0 : ℕ) : ZMod 132120577)) i
          + ((e.getD i 0 : ℕ) : ZMod 132120577) := by
    intro i hi
    rw [(polyAdd_getD 132120577 (by norm_num) P1 e hP1canon hce i
      (by rw [hP1len]; exact hi) (by rw [hle]; exact hi)).2, hP1cast i hi]
  set B := polyAdd 132120577 P1 e with hBdef
  -- `NA = -a`
  have hNAlen : (polyNeg 132120577 a).length = 2 ^ 10 := by
    rw [polyNeg_length, hla]
  have hNAcanon := polyNeg_canon 132120577 (by norm_num) a hca
  have hNAcast : ∀ i, i < 2 ^ 10 →
      (((polyNeg 132120577 a).getD i 0 : ℕ) : ZMod 132120577)
        = -((a.getD i 0 : ℕ) : ZMod 132120577) :=
    fun i hi =>
      (polyNeg_getD 132120577 (by norm_num) a hca i (by rw [hla]; exact hi)).2
  set NA := polyNeg 132120577 a with hNAdef
  -- `P2 = (-a)·u`
  obtain ⟨hP2len, hP2canon, hP2cast⟩ := polyMul_spec 32 132120577 10 omg invDeg
    hq2 h4q hlog homg hprim hinvDeg hinvDeg1 NA u hNAlen hlu hNAcanon hcu
  have hP2cast' : ∀ i, i < 2 ^ 10 →
      (((polyMul 32 132120577 10 invDeg (rootPowersList 132120577 omg 10)
          (invRootPowersList 132120577 omg 10) NA u).getD i 0 : ℕ)
          : ZMod 132120577)
        = -convC (2 ^ 10) (fun j => ((a.getD j 0 : ℕ) : ZMod 132120577))
            (fun k => ((u.getD k 0 : ℕ) : ZMod 132120577)) i := by
    intro i hi
    rw [hP2cast i hi,
      convC_congr (2 ^ 10)
        (fun j => ((NA.getD j 0 : ℕ) : ZMod 132120577))
        (fun j => -((a.getD j 0 : ℕ) : ZMod 132120577))
        (fun k => ((u.getD k 0 : ℕ) : ZMod 132120577))
        (fun k => ((u.getD k 0 : ℕ) : ZMod 132120577))
        (fun j hj => hNAcast j hj) (fun k _ => rfl) i,
      convC_neg_left]
  set P2 := polyMul 32 132120577 10 invDeg (rootPowersList 132120577 omg 10)
    (invRootPowersList 132120577 omg 10) NA u with hP2def
  -- `C2L = (-a)·u + e2`
  have hC2len : (polyAdd 132120577 P2 e2).length = 2 ^ 10 := by
    rw [polyAdd_length, hP2len, hle2, Nat.min_self]
  have hC2canon := polyAdd_canon 132120577 (by norm_num) P2 e2 hP2canon hce2
  have hC2cast : ∀ i, i < 2 ^ 10 →
      (((polyAdd 132120577 P2 e2).getD i 0 : ℕ) : ZMod 132120577)
        = -convC (2 ^ 10) (fun j => ((a.getD j 0 : ℕ) : ZMod 132120577))
            (fun k => ((u.getD k 0 : ℕ) : ZMod 132120577)) i
          + ((e2.getD i 0 : ℕ) : ZMod 132120577) := by
    intro i hi
    rw [(polyAdd_getD 132120577 (by norm_num) P2 e2 hP2canon hce2 i
      (by rw [hP2len]; exact hi) (by rw [hle2]; exact hi)).2, hP2cast' i hi]
  set C2L := polyAdd 132120577 P2 e2 with hC2def
  -- `P3 = B·u`
  obtain ⟨hP3len, hP3canon, hP3cast⟩ := polyMul_spec 32 132120577 10 omg invDeg
    hq2 h4q hlog homg hprim hinvDeg hinvDeg1 B u hBlen hlu hBcanon hcu
  have hP3cast' : ∀ i, i < 2 ^ 10 →
      (((polyMul 32 132120577 10 invDeg (rootPowersList 132120577 omg 10)
          (invRootPowersList 132120577 omg 10) B u).getD i 0 : ℕ)
          : ZMod 132120577)
        = convC (2 ^ 10)
            (fun j => convC (2 ^ 10)
              (fun j' => ((a.getD j' 0 : ℕ) : ZMod 132120577))
              (fun k => ((s.getD k 0 : ℕ) : ZMod 132120577)) j)
            (fun k => ((u.getD k 0 : ℕ) : ZMod 132120577)) i
          + convC (2 ^ 10) (fun j => ((e.getD j 0 : ℕ) : ZMod 132120577))
              (fun k => ((u.getD k 0 : ℕ) : ZMod 132120577)) i := by
    intro i hi
    rw [hP3cast i hi,
      convC_congr (2 ^ 10)
        (fun j => ((B.getD j 0 : ℕ) : ZMod 132120577))
        (fun j => convC (2 ^ 10)
            (fun j' => ((a.getD j' 0 : ℕ) : ZMod 132120577))
            (fun k => ((s.getD k 0 : ℕ) : ZMod 132120577)) j
          + ((e.getD j 0 : ℕ) : ZMod 132120577))
        (fun k => ((u.getD k 0 : ℕ) : ZMod 132120577))
        (fun k => ((u.getD k 0 : ℕ) : ZMod 132120577))
        (fun j hj => hBcast j hj) (fun k _ => rfl) i,
      convC_add_left]
  set P3 := polyMul 32 132120577 10 invDeg (rootPowersList 132120577 omg 10)
    (invRootPowersList 132120577 omg 10) B u with hP3def
  -- `C11 = B·u + e1`
  have hC11len : (polyAdd 132120577 P3 e1).length = 2 ^ 10 := by
    rw [polyAdd_length, hP3len, hle1, Nat.min_self]
  have hC11canon := polyAdd_canon 132120577 (by norm_num) P3 e1 hP3canon hce1
  have hC11cast : ∀ i, i < 2 ^ 10 →
      (((polyAdd 132120577 P3 e1).getD i 0 : ℕ) : ZMod 132120577)
        = (convC (2 ^ 10)
            (fun j => convC (2 ^ 10)
              (fun j' => ((a.getD j' 0 : ℕ) : ZMod 132120577))
              (fun k => ((s.getD k 0 : ℕ) : ZMod 132120577)) j)
            (fun k => ((u.getD k 0 : ℕ) : ZMod 132120577)) i
          + convC (2 ^ 10) (fun j => ((e.getD j 0 : ℕ) : ZMod 132120577))
              (fun k => ((u.getD k 0 : ℕ) : ZMod 132120577)) i)
          + ((e1.getD i 0 : ℕ) : ZMod 132120577) := by
    intro i hi
    rw [(polyAdd_getD 132120577 (by norm_num) P3 e1 hP3canon hce1 i
      (by rw [hP3len]; exact hi) (by rw [hle1]; exact hi)).2, hP3cast' i hi]
  set C11 := polyAdd 132120577 P3 e1 with hC11def
  -- the encoded message
  have hMElen : (msg.map (encodeCoeff 132120577 61)).length = 2 ^ 10 := by
    rw [List.length_map, hlm]
  have hMEcanon : ∀ x ∈ msg.map (encodeCoeff 132120577 61), x < 132120577 := by
    intro x hx
    obtain ⟨v, hv, rfl⟩ := List.mem_map.mp hx
    exact (encodeCoeff_spec v (hcm v hv)).1
  have hMEcast : ∀ i, i < 2 ^ 10 →
      (msg.map (encodeCoeff 132120577 61)).getD i 0
        = encodeCoeff 132120577 61 (msg.getD i 0) :=
    fun i hi => getD_map_lt _ 0 0 msg i (by rw [hlm]; exact hi)
  set ME := msg.map (encodeCoeff 132120577 61) with hMEdef
  -- `CL = c1 = B·u + e1 + encode(msg)`
  have hCLlen : (polyAdd 132120577 C11 ME).length = 2 ^ 10 := by
    rw [polyAdd_length, hC11len, hMElen, Nat.min_self]
  have hCLcanon := polyAdd_canon 132120577 (by norm_num) C11 ME hC11canon hMEcanon
  have hCLcast : ∀ i, i < 2 ^ 10 →
      (((polyAdd 132120577 C11 ME).getD i 0 : ℕ) : ZMod 132120577)
        = ((convC (2 ^ 10)
            (fun j => convC (2 ^ 10)
              (fun j' => ((a.getD j' 0 : ℕ) : ZMod 132120577))
              (fun k => ((s.getD k 0 : ℕ) : ZMod 132120577)) j)
            (fun k => ((u.getD k 0 : ℕ) : ZMod 132120577)) i
          + convC (2 ^ 10) (fun j => ((e.getD j 0 : ℕ) : ZMod 132120577))
              (fun k => ((u.getD k 0 : ℕ) : ZMod 132120577)) i)
          + ((e1.getD i 0 : ℕ) : ZMod 132120577))
          + ((encodeCoeff 132120577 61 (msg.getD i 0) : ℕ) : ZMod 132120577) := by
    intro i hi
    rw [(polyAdd_getD 132120577 (by norm_num) C11 ME hC11canon hMEcanon i
      (by rw [hC11len]; exact hi) (by rw [hMElen]; exact hi)).2, hC11cast i hi,
      hMEcast i hi]
  set CL := polyAdd 132120577 C11 ME with hCLdef
  refine ⟨hCLlen, hC2len, hCLcanon, hC2canon, ?_⟩
  intro i hi
  rw [hCLcast i hi,
    convC_congr (2 ^ 10)
      (fun kk => ((C2L.getD kk 0 : ℕ) : ZMod 132120577))
      (fun kk => -convC (2 ^ 10)
          (fun j => ((a.getD j 0 : ℕ) : ZMod 132120577))
          (fun k => ((u.getD k 0 : ℕ) : ZMod 132120577)) kk
        + ((e2.getD kk 0 : ℕ) : ZMod 132120577))
      (fun kk => ((s.getD kk 0 : ℕ) : ZMod 132120577))
      (fun kk => ((s.getD kk 0 : ℕ) : ZMod 132120577))
      (fun kk hkk => hC2cast kk hkk) (fun kk _ => rfl) i,
    convC_add_left, convC_neg_left,
    convC_swap (2 ^ 10)
      (fun j' => ((a.getD j' 0 : ℕ) : ZMod 132120577))
      (fun k => ((s.getD k 0 : ℕ) : ZMod 132120577))
      (fun k => ((u.getD k 0 : ℕ) : ZMod 132120577)) i hi]
  ring

theorem set_getD_zero {α : Type} (d : α) :
    ∀ (l : List α) (v : α), 0 < l.length → (l.set 0 v).getD 0 d = v := by
  intro l v hl
  cases l with
  | nil => exact absurd hl (by simp)
  | cons x xs => rfl

/-- The integer noise representative of a single encryption casts to its
`ZMod` counterpart. -/
theorem noise_cast (eN uN e1N e2N sN : List ℕ) (i : ℕ) (hi : i < 2 ^ 10) :
    (((convS (2 ^ 10) (fun jj => intRep 132120577 (eN.getD jj 0))
          (fun kk => intRep 132120577 (uN.getD kk 0)) i
        + intRep 132120577 (e1N.getD i 0)
        + convS (2 ^ 10) (fun jj => intRep 132120577 (e2N.getD jj 0))
          (fun kk => intRep 132120577 (sN.getD kk 0)) i : ℤ)) : ZMod 132120577)
      = convC (2 ^ 10) (fun jj => ((eN.getD jj 0 : ℕ) : ZMod 132120577))
          (fun kk => ((uN.getD kk 0 : ℕ) : ZMod 132120577)) i
        + ((e1N.getD i 0 : ℕ) : ZMod 132120577)
        + convC (2 ^ 10) (fun jj => ((e2N.getD jj 0 : ℕ) : ZMod 132120577))
            (fun kk => ((sN.getD kk 0 : ℕ) : ZMod 132120577)) i := by
  rw [Int.cast_add, Int.cast_add, convS_cast, convS_cast, intRep_cast,
    convS_congr (2 ^ 10)
      (fun jj => ((intRep 132120577 (eN.getD jj 0) : ℤ) : ZMod 132120577))
      (fun jj => ((eN.getD jj 0 : ℕ) : ZMod 132120577))
      (fun kk => ((intRep 132120577 (uN.getD kk 0) : ℤ) : ZMod 132120577))
      (fun kk => ((uN.getD kk 0 : ℕ) : ZMod 132120577))
      (fun jj _ => intRep_cast _ _) (fun kk _ => intRep_cast _ _) i hi,
    convS_congr (2 ^ 10)
      (fun jj => ((intRep 132120577 (e2N.getD jj 0) : ℤ) : ZMod 132120577))
      (fun jj => ((e2N.getD jj 0 : ℕ) : ZMod 132120577))
      (fun kk => ((intRep 132120577 (sN.getD kk 0) : ℤ) : ZMod 132120577))
      (fun kk => ((sN.getD kk 0 : ℕ) : ZMod 132120577))
      (fun jj _ => intRep_cast _ _) (fun kk _ => intRep_cast _ _) i hi,
    ← convC_eq_convS (2 ^ 10)
      (fun jj => ((eN.getD jj 0 : ℕ) : ZMod 132120577))
      (fun kk => ((uN.getD kk 0 : ℕ) : ZMod 132120577)) i hi,
    ← convC_eq_convS (2 ^ 10)
      (fun jj => ((e2N.getD jj 0 : ℕ) : ZMod 132120577))
      (fun kk => ((sN.getD kk 0 : ℕ) : ZMod 132120577)) i hi]

/-- **C2** (amended).  For every threshold policy over distinct non-zero
indices in `F_61` (at most 20 nodes), every plaintext `m` of length
`N = 1024`, and every chosen subset of at least one index: secret-sharing `m`
over the chosen indices, BFV-encrypting each share under its node keypair,
re-encrypting every share ciphertext to a fresh keypair via
`ThresholdPKE::re_encrypt`, merging with `ThresholdPKE::combine`, and
decrypting with the new secret key returns `m` — **provided** the
re-encryption noise, aggregated coefficient-wise with the Lagrange
coefficients, stays within the rounding budget (the stated bound `42439`).
Without that proviso the property fails (see the counterexample). -/
theorem C2_threshold_round_trip (omg invDeg : ℕ)
    (homg : omg < 132120577)
    (hprim : omg ^ 2 ^ 10 % 132120577 = 132120577 - 1)
    (hinvDeg : invDeg < 132120577)
    (hinvDeg1 : invDeg * 2 ^ 10 % 132120577 = 1)
    (xs : List ℕ) (hnd : xs.Nodup)
    (hxsc : ∀ x ∈ xs, 0 < x ∧ x < 61)
    (hk1 : 1 ≤ xs.length) (hk20 : xs.length ≤ 20)
    (m : List ℕ) (hlm : m.length = 2 ^ 10) (hcm : ∀ x ∈ m, x < 61)
    (rnd : ℕ → List ℕ)
    (hrnd : ∀ i, i < 2 ^ 10 → (rnd i).length = xs.length ∧ ∀ c ∈ rnd i, c < 61)
    (sk aa ee uu ee1 ee2 ru re1 re2 : ℕ → List ℕ)
    (hsk : ∀ j, j < xs.length → (sk j).length = 2 ^ 10 ∧
      ∀ x ∈ sk j, ternarySupport 132120577 x)
    (haa : ∀ j, j < xs.length → (aa j).length = 2 ^ 10 ∧
      ∀ x ∈ aa j, x < 132120577)
    (hee : ∀ j, j < xs.length → (ee j).length = 2 ^ 10 ∧
      ∀ x ∈ ee j, cbdSupport 132120577 x)
    (huu : ∀ j, j < xs.length → (uu j).length = 2 ^ 10 ∧
      ∀ x ∈ uu j, ternarySupport 132120577 x)
    (he1 : ∀ j, j < xs.length → (ee1 j).length = 2 ^ 10 ∧
      ∀ x ∈ ee1 j, cbdSupport 132120577 x)
    (he2 : ∀ j, j < xs.length → (ee2 j).length = 2 ^ 10 ∧
      ∀ x ∈ ee2 j, cbdSupport 132120577 x)
    (hru : ∀ j, j < xs.length → (ru j).length = 2 ^ 10 ∧
      ∀ x ∈ ru j, ternarySupport 132120577 x)
    (hre1 : ∀ j, j < xs.length → (re1 j).length = 2 ^ 10 ∧
      ∀ x ∈ re1 j, cbdSupport 132120577 x)
    (hre2 : ∀ j, j < xs.length → (re2 j).length = 2 ^ 10 ∧
      ∀ x ∈ re2 j, cbdSupport 132120577 x)
    (sNew aNew eNew : List ℕ)
    (hlsN : sNew.length = 2 ^ 10) (hcsN : ∀ x ∈ sNew, ternarySupport 132120577 x)
    (hlaN : aNew.length = 2 ^ 10) (hcaN : ∀ x ∈ aNew, x < 132120577)
    (hleN : eNew.length = 2 ^ 10) (hceN : ∀ x ∈ eNew, cbdSupport 132120577 x)
    (hbudget : ∀ i, i < 2 ^ 10 →
      |∑ j ∈ Finset.range xs.length,
          (((genLagrangeCoeffs 16 61 xs).getD j 0 : ℕ) : ℤ)
            * (convS (2 ^ 10) (fun jj => intRep 132120577 (eNew.getD jj 0))
                (fun kk => intRep 132120577 ((ru j).getD kk 0)) i
              + intRep 132120577 ((re1 j).getD i 0)
              + convS (2 ^ 10) (fun jj => intRep 132120577 ((re2 j).getD jj 0))
                (fun kk => intRep 132120577 (sNew.getD kk 0)) i)|
        ≤ 42439) :
    bfvDecrypt 32 132120577 10 invDeg (rootPowersList 132120577 omg 10)
      (invRootPowersList 132120577 omg 10) 61 sNew
      (combine 32 132120577 (2 ^ 10) 16 61
        ((List.range xs.length).map (fun j =>
          reEncrypt 32 132120577 10 invDeg (rootPowersList 132120577 omg 10)
            (invRootPowersList 132120577 omg 10) 61
            ((thresholdEncrypt 32 132120577 10 invDeg
                (rootPowersList 132120577 omg 10)
                (invRootPowersList 132120577 omg 10) 61
                (secretSharing 16 61 xs m rnd)
                ((List.range xs.length).map (fun j' =>
                  genPubkey 32 132120577 10 invDeg
                    (rootPowersList 132120577 omg 10)
                    (invRootPowersList 132120577 omg 10)
                    (sk j') (aa j') (ee j')))
                ((List.range xs.length).map
                  (fun j' => (uu j', ee1 j', ee2 j')))).getD j ([], []))
            (sk j)
            (genPubkey 32 132120577 10 invDeg (rootPowersList 132120577 omg 10)
              (invRootPowersList 132120577 omg 10) sNew aNew eNew)
            (ru j) (re1 j) (re2 j)))
        xs)
      = m := by
  haveI : NeZero (132120577 : ℕ) := ⟨by norm_num⟩
  haveI : Fact (Nat.Prime 61) := ⟨by norm_num⟩
  have hq2 : (2 : ℕ) ≤ 132120577 := by norm_num
  have h4q : 4 * 132120577 ≤ 2 ^ 32 := by norm_num
  set k := xs.length with hkdef
  have hcsN' : ∀ x ∈ sNew, x < 132120577 :=
    fun x hx => (support_lt 132120577 x (by norm_num)).1 (hcsN x hx)
  have hceN' : ∀ x ∈ eNew, x < 132120577 :=
    fun x hx => (support_lt 132120577 x (by norm_num)).2 (hceN x hx)
  have hxs61 : ∀ x ∈ xs, x < 61 := fun x hx => (hxsc x hx).2
  -- the shares
  have hcoef : ∀ i, i < 2 ^ 10 → ∀ c ∈ (rnd i).set 0 (m.getD i 0), c < 61 := by
    intro i hi c hc
    rcases List.mem_or_eq_of_mem_set hc with h | h
    · exact (hrnd i hi).2 c h
    · rw [h]
      exact hcm _ (getD_mem 0 m i (by rw [hlm]; exact hi))
  have hshare : ∀ j, j < k →
      (secretSharing 16 61 xs m rnd).getD j []
        = (List.range m.length).map (fun i =>
            evaluatePoly 16 (barrettModulus 16 61) ((rnd i).set 0 (m.getD i 0))
              (xs.getD j 0)) := by
    intro j hj
    rw [secretSharing, getD_map_lt _ 0 [] xs j hj]
  have hsharelen : ∀ j, j < k →
      ((secretSharing 16 61 xs m rnd).getD j []).length = 2 ^ 10 := by
    intro j hj
    rw [hshare j hj, List.length_map, List.length_range, hlm]
  have hsharecanon : ∀ j, j < k →
      ∀ x ∈ (secretSharing 16 61 xs m rnd).getD j [], x < 61 := by
    intro j hj x hx
    rw [hshare j hj] at hx
    obtain ⟨i, hi, rfl⟩ := List.mem_map.mp hx
    have hi' : i < 2 ^ 10 := by
      rw [List.mem_range, hlm] at hi
      exact hi
    exact (evaluatePoly_spec 16 61 (by norm_num) (by norm_num) _ _
      (hcoef i hi') (hxs61 _ (getD_mem 0 xs j hj))).1
  have hsharegetD : ∀ j, j < k → ∀ i, i < 2 ^ 10 →
      ((secretSharing 16 61 xs m rnd).getD j []).getD i 0
        = evaluatePoly 16 (barrettModulus 16 61) ((rnd i).set 0 (m.getD i 0))
            (xs.getD j 0) := by
    intro j hj i hi
    rw [hshare j hj, getD_map_lt _ 0 0 (List.range m.length) i
        (by rw [List.length_range, hlm]; exact hi),
      range_getD m.length i (by rw [hlm]; exact hi)]
  set SH := secretSharing 16 61 xs m rnd with hSHdef
  set PKS := (List.range k).map (fun j' =>
    genPubkey 32 132120577 10 invDeg (rootPowersList 132120577 omg 10)
      (invRootPowersList 132120577 omg 10) (sk j') (aa j') (ee j'))
    with hPKSdef
  set RNDS := (List.range k).map (fun j' => (uu j', ee1 j', ee2 j'))
    with hRNDSdef
  set CT := thresholdEncrypt 32 132120577 10 invDeg
    (rootPowersList 132120577 omg 10) (invRootPowersList 132120577 omg 10) 61
    SH PKS RNDS with hCTdef
  set PKN := genPubkey 32 132120577 10 invDeg (rootPowersList 132120577 omg 10)
    (invRootPowersList 132120577 omg 10) sNew aNew eNew with hPKNdef
  have hSHlen : SH.length = k := by
    rw [hSHdef, secretSharing, List.length_map]
  have hPKSlen : PKS.length = k := by
    rw [hPKSdef, List.length_map, List.length_range]
  have hRNDSlen : RNDS.length = k := by
    rw [hRNDSdef, List.length_map, List.length_range]
  have hPKSgetD : ∀ j, j < k →
      PKS.getD j ([], [])
        = genPubkey 32 132120577 10 invDeg (rootPowersList 132120577 omg 10)
            (invRootPowersList 132120577 omg 10) (sk j) (aa j) (ee j) := by
    intro j hj
    rw [hPKSdef, getD_map_lt _ 0 ([], []) (List.range k) j
      (by rw [List.length_range]; exact hj), range_getD k j hj]
  have hRNDSgetD : ∀ j, j < k →
      RNDS.getD j ([], [], []) = (uu j, ee1 j, ee2 j) := by
    intro j hj
    rw [hRNDSdef, getD_map_lt _ 0 ([], [], []) (List.range k) j
      (by rw [List.length_range]; exact hj), range_getD k j hj]
  have hCTgetD : ∀ j, j < k →
      CT.getD j ([], [])
        = bfvEncrypt 32 132120577 10 invDeg (rootPowersList 132120577 omg 10)
            (invRootPowersList 132120577 omg 10) 61
            (genPubkey 32 132120577 10 invDeg (rootPowersList 132120577 omg 10)
              (invRootPowersList 132120577 omg 10) (sk j) (aa j) (ee j))
            (SH.getD j []) (uu j) (ee1 j) (ee2 j) := by
    intro j hj
    rw [hCTdef, thresholdEncrypt,
      getD_zipWith' _ [] (([], []), ([], [], [])) ([], []) SH (PKS.zip RNDS) j
        (by rw [hSHlen]; exact hj)
        (by rw [List.length_zip, hPKSlen, hRNDSlen]; omega),
      getD_zip ([], []) ([], [], []) PKS RNDS j
        (by rw [hPKSlen]; exact hj) (by rw [hRNDSlen]; exact hj),
      hPKSgetD j hj, hRNDSgetD j hj]
  -- the first layer decrypts to the shares
  have hdec : ∀ j, j < k →
      bfvDecrypt 32 132120577 10 invDeg (rootPowersList 132120577 omg 10)
        (invRootPowersList 132120577 omg 10) 61 (sk j) (CT.getD j ([], []))
      = SH.getD j [] := by
    intro j hj
    rw [hCTgetD j hj]
    exact bfv_enc_dec omg invDeg homg hprim hinvDeg hinvDeg1
      (SH.getD j []) (sk j) (aa j) (ee j) (uu j) (ee1 j) (ee2 j)
      (hsharelen j hj) (hsk j hj).1 (haa j hj).1 (hee j hj).1 (huu j hj).1
      (he1 j hj).1 (he2 j hj).1
      (hsharecanon j hj) (hsk j hj).2 (haa j hj).2 (hee j hj).2 (huu j hj).2
      (he1 j hj).2 (he2 j hj).2
  set RE := (List.range k).map (fun j =>
    reEncrypt 32 132120577 10 invDeg (rootPowersList 132120577 omg 10)
      (invRootPowersList 132120577 omg 10) 61 (CT.getD j ([], [])) (sk j) PKN
      (ru j) (re1 j) (re2 j)) with hREdef
  have hRElen : RE.length = k := by
    rw [hREdef, List.length_map, List.length_range]
  have hREgetD : ∀ j, j < k →
      RE.getD j ([], [])
        = bfvEncrypt 32 132120577 10 invDeg (rootPowersList 132120577 omg 10)
            (invRootPowersList 132120577 omg 10) 61 PKN (SH.getD j [])
            (ru j) (re1 j) (re2 j) := by
    intro j hj
    rw [hREdef, getD_map_lt _ 0 ([], []) (List.range k) j
      (by rw [List.length_range]; exact hj), range_getD k j hj,
      reEncrypt, hdec j hj]
  -- per-node ciphertext facts from the pair specification
  have hpair := fun (j : ℕ) (hj : j < k) =>
    bfv_encrypt_pair_spec omg invDeg homg hprim hinvDeg hinvDeg1
      (SH.getD j []) sNew aNew eNew (ru j) (re1 j) (re2 j)
      (hsharelen j hj) hlsN hlaN hleN (hru j hj).1 (hre1 j hj).1 (hre2 j hj).1
      (fun x hx => by have := hsharecanon j hj x hx; omega)
      hcsN' hcaN hceN'
      (fun x hx => (support_lt 132120577 x (by norm_num)).1 ((hru j hj).2 x hx))
      (fun x hx => (support_lt 132120577 x (by norm_num)).2 ((hre1 j hj).2 x hx))
      (fun x hx => (support_lt 132120577 x (by norm_num)).2 ((hre2 j hj).2 x hx))
  have hREcomp : ∀ j, j < k →
      (RE.getD j ([], [])).1.length = 2 ^ 10 ∧
      (RE.getD j ([], [])).2.length = 2 ^ 10 ∧
      (∀ x ∈ (RE.getD j ([], [])).1, x < 132120577) ∧
      (∀ x ∈ (RE.getD j ([], [])).2, x < 132120577) := by
    intro j hj
    rw [hREgetD j hj, hPKNdef]
    obtain ⟨h1, h2, h3, h4, -⟩ := hpair j hj
    exact ⟨h1, h2, h3, h4⟩
  have hnode : ∀ j, j < k → ∀ i, i < 2 ^ 10 →
      (((RE.getD j ([], [])).1.getD i 0 : ℕ) : ZMod 132120577)
        + convC (2 ^ 10)
            (fun kk => (((RE.getD j ([], [])).2.getD kk 0 : ℕ) : ZMod 132120577))
            (fun kk => ((sNew.getD kk 0 : ℕ) : ZMod 132120577)) i
      = ((encodeCoeff 132120577 61 ((SH.getD j []).getD i 0) : ℕ)
          : ZMod 132120577)
        + (convC (2 ^ 10)
            (fun jj => ((eNew.getD jj 0 : ℕ) : ZMod 132120577))
            (fun kk => (((ru j).getD kk 0 : ℕ) : ZMod 132120577)) i
          + (((re1 j).getD i 0 : ℕ) : ZMod 132120577)
          + convC (2 ^ 10)
              (fun jj => (((re2 j).getD jj 0 : ℕ) : ZMod 132120577))
              (fun kk => ((sNew.getD kk 0 : ℕ) : ZMod 132120577)) i) := by
    intro j hj i hi
    rw [hREgetD j hj, hPKNdef]
    exact (hpair j hj).2.2.2.2 i hi
  have hREfacts : ∀ c ∈ RE, c.1.length = 2 ^ 10 ∧ c.2.length = 2 ^ 10 ∧
      (∀ x ∈ c.1, x < 132120577) ∧ (∀ x ∈ c.2, x < 132120577) := by
    intro c hc
    obtain ⟨n, hn, hget⟩ := List.getElem_of_mem hc
    have hnk : n < k := by
      rw [hRElen] at hn
      exact hn
    have hcd : c = RE.getD n ([], []) := by
      rw [List.getD_eq_getElem RE ([], []) hn, hget]
    rw [hcd]
    exact hREcomp n hnk
  -- the Lagrange coefficients
  set LAG := genLagrangeCoeffs 16 61 xs with hLAGdef
  have hLAGlen : LAG.length = k := by
    rw [hLAGdef, genLagrangeCoeffs, List.length_map]
  have hLAGcanon61 : ∀ j, j < k → LAG.getD j 0 < 61 := by
    intro j hj
    rw [hLAGdef]
    exact (genLagrangeCoeffs_spec xs hnd hxs61 j hj).1
  have hLAGmem : ∀ x ∈ LAG, x < 132120577 := by
    intro x hx
    obtain ⟨n, hn, hget⟩ := List.getElem_of_mem hx
    have hnk : n < k := by
      rw [hLAGlen] at hn
      exact hn
    have hx61 : x < 61 := by
      have h := hLAGcanon61 n hnk
      rwa [List.getD_eq_getElem LAG 0 hn, hget] at h
    exact lt_trans hx61 (by norm_num)
  -- the combined ciphertext
  rw [combine, ← hLAGdef]
  obtain ⟨hIP1len, hIP2len, hIP1canon, hIP2canon, hIPcast⟩ :=
    evaluateInnerProduct_spec 32 132120577 (2 ^ 10) hq2 h4q RE LAG
      (by rw [hRElen, hLAGlen]) hREfacts hLAGmem
  set CC := evaluateInnerProduct 32 132120577 (2 ^ 10) RE LAG with hCCdef
  -- the decryption input
  rw [bfvDecrypt]
  obtain ⟨hPMlen, hPMcanon, hPMcast⟩ := polyMul_spec 32 132120577 10 omg invDeg
    hq2 h4q (by norm_num) homg hprim hinvDeg hinvDeg1 CC.2 sNew hIP2len hlsN
    hIP2canon hcsN'
  set Y := polyAdd 132120577 CC.1
    (polyMul 32 132120577 10 invDeg (rootPowersList 132120577 omg 10)
      (invRootPowersList 132120577 omg 10) CC.2 sNew) with hYdef
  have hYlen : Y.length = 2 ^ 10 := by
    rw [hYdef, polyAdd_length, hIP1len, hPMlen, Nat.min_self]
  have hYcanon : ∀ x ∈ Y, x < 132120577 := by
    rw [hYdef]
    exact polyAdd_canon 132120577 (by norm_num) _ _ hIP1canon hPMcanon
  have hYcast : ∀ i, i < 2 ^ 10 →
      ((Y.getD i 0 : ℕ) : ZMod 132120577)
        = ((CC.1.getD i 0 : ℕ) : ZMod 132120577)
          + convC (2 ^ 10)
              (fun kk => ((CC.2.getD kk 0 : ℕ) : ZMod 132120577))
              (fun kk => ((sNew.getD kk 0 : ℕ) : ZMod 132120577)) i := by
    intro i hi
    rw [hYdef,
      (polyAdd_getD 132120577 (by norm_num) CC.1 _ hIP1canon hPMcanon i
        (by rw [hIP1len]; exact hi) (by rw [hPMlen]; exact hi)).2,
      hPMcast i hi]
  -- coefficient-by-coefficient conclusion
  refine list_eq_of_getD 0 _ m (by rw [List.length_map, hYlen, hlm]) ?_
  intro i hi
  rw [List.length_map, hYlen] at hi
  rw [getD_map_lt _ 0 0 Y i (by rw [hYlen]; exact hi)]
  -- the combined coefficient over `ZMod q`
  have hYc : ((Y.getD i 0 : ℕ) : ZMod 132120577)
      = ∑ j ∈ Finset.range k,
          ((LAG.getD j 0 : ℕ) : ZMod 132120577)
            * (((encodeCoeff 132120577 61 ((SH.getD j []).getD i 0) : ℕ)
                : ZMod 132120577)
              + (convC (2 ^ 10)
                  (fun jj => ((eNew.getD jj 0 : ℕ) : ZMod 132120577))
                  (fun kk => (((ru j).getD kk 0 : ℕ) : ZMod 132120577)) i
                + (((re1 j).getD i 0 : ℕ) : ZMod 132120577)
                + convC (2 ^ 10)
                    (fun jj => (((re2 j).getD jj 0 : ℕ) : ZMod 132120577))
                    (fun kk => ((sNew.getD kk 0 : ℕ) : ZMod 132120577)) i)) := by
    have h1 : ((CC.1.getD i 0 : ℕ) : ZMod 132120577)
        = ∑ j ∈ Finset.range k,
            ((LAG.getD j 0 : ℕ) : ZMod 132120577)
              * (((RE.getD j ([], [])).1.getD i 0 : ℕ) : ZMod 132120577) := by
      have h := (hIPcast i hi).1
      rwa [hRElen] at h
    have h2 : convC (2 ^ 10)
          (fun kk => ((CC.2.getD kk 0 : ℕ) : ZMod 132120577))
          (fun kk => ((sNew.getD kk 0 : ℕ) : ZMod 132120577)) i
        = ∑ j ∈ Finset.range k,
            ((LAG.getD j 0 : ℕ) : ZMod 132120577)
              * convC (2 ^ 10)
                  (fun kk => (((RE.getD j ([], [])).2.getD kk 0 : ℕ)
                    : ZMod 132120577))
                  (fun kk => ((sNew.getD kk 0 : ℕ) : ZMod 132120577)) i := by
      rw [convC_congr (2 ^ 10)
          (fun kk => ((CC.2.getD kk 0 : ℕ) : ZMod 132120577))
          (fun kk => ∑ j ∈ Finset.range k,
            ((LAG.getD j 0 : ℕ) : ZMod 132120577)
              * (((RE.getD j ([], [])).2.getD kk 0 : ℕ) : ZMod 132120577))
          (fun kk => ((sNew.getD kk 0 : ℕ) : ZMod 132120577))
          (fun kk => ((sNew.getD kk 0 : ℕ) : ZMod 132120577))
          (fun kk hkk => by
            have h := (hIPcast kk hkk).2
            rwa [hRElen] at h)
          (fun kk _ => rfl) i,
        convC_sum_left (2 ^ 10) (Finset.range k)
          (fun j kk => ((LAG.getD j 0 : ℕ) : ZMod 132120577)
            * (((RE.getD j ([], [])).2.getD kk 0 : ℕ) : ZMod 132120577))
          (fun kk => ((sNew.getD kk 0 : ℕ) : ZMod 132120577)) i]
      exact Finset.sum_congr rfl (fun j _ =>
        convC_smul_left (2 ^ 10) ((LAG.getD j 0 : ℕ) : ZMod 132120577)
          (fun kk => (((RE.getD j ([], [])).2.getD kk 0 : ℕ) : ZMod 132120577))
          (fun kk => ((sNew.getD kk 0 : ℕ) : ZMod 132120577)) i)
    rw [hYcast i hi, h1, h2, ← Finset.sum_add_distrib]
    refine Finset.sum_congr rfl (fun j hj => ?_)
    rw [← mul_add, hnode j (Finset.mem_range.mp hj) i hi]
  -- integer bookkeeping
  have hNZb := hbudget i hi
  set NZ := ∑ j ∈ Finset.range k,
    ((LAG.getD j 0 : ℕ) : ℤ)
      * (convS (2 ^ 10) (fun jj => intRep 132120577 (eNew.getD jj 0))
          (fun kk => intRep 132120577 ((ru j).getD kk 0)) i
        + intRep 132120577 ((re1 j).getD i 0)
        + convS (2 ^ 10) (fun jj => intRep 132120577 ((re2 j).getD jj 0))
          (fun kk => intRep 132120577 (sNew.getD kk 0)) i) with hNZdef
  set EZ := ∑ j ∈ Finset.range k,
    ((LAG.getD j 0 : ℕ) : ℤ)
      * ((encodeCoeff 132120577 61 ((SH.getD j []).getD i 0) : ℕ) : ℤ)
    with hEZdef
  set VN := ∑ j ∈ Finset.range k,
    LAG.getD j 0 * ((SH.getD j []).getD i 0) with hVNdef
  have hzero : ((((Y.getD i 0 : ℕ) : ℤ) - EZ - NZ : ℤ) : ZMod 132120577)
      = 0 := by
    have hE : ((EZ : ℤ) : ZMod 132120577)
        = ∑ j ∈ Finset.range k,
            ((LAG.getD j 0 : ℕ) : ZMod 132120577)
              * ((encodeCoeff 132120577 61 ((SH.getD j []).getD i 0) : ℕ)
                : ZMod 132120577) := by
      rw [hEZdef, Int.cast_sum]
      exact Finset.sum_congr rfl (fun j _ => by
        rw [Int.cast_mul, Int.cast_natCast, Int.cast_natCast])
    have hN : ((NZ : ℤ) : ZMod 132120577)
        = ∑ j ∈ Finset.range k,
            ((LAG.getD j 0 : ℕ) : ZMod 132120577)
              * (convC (2 ^ 10)
                  (fun jj => ((eNew.getD jj 0 : ℕ) : ZMod 132120577))
                  (fun kk => (((ru j).getD kk 0 : ℕ) : ZMod 132120577)) i
                + (((re1 j).getD i 0 : ℕ) : ZMod 132120577)
                + convC (2 ^ 10)
                    (fun jj => (((re2 j).getD jj 0 : ℕ) : ZMod 132120577))
                    (fun kk => ((sNew.getD kk 0 : ℕ) : ZMod 132120577)) i) := by
      rw [hNZdef, Int.cast_sum]
      exact Finset.sum_congr rfl (fun j _ => by
        rw [Int.cast_mul, Int.cast_natCast,
          noise_cast eNew (ru j) (re1 j) (re2 j) sNew i hi])
    have hsplit : ∑ j ∈ Finset.range k,
          ((LAG.getD j 0 : ℕ) : ZMod 132120577)
            * (((encodeCoeff 132120577 61 ((SH.getD j []).getD i 0) : ℕ)
                : ZMod 132120577)
              + (convC (2 ^ 10)
                  (fun jj => ((eNew.getD jj 0 : ℕ) : ZMod 132120577))
                  (fun kk => (((ru j).getD kk 0 : ℕ) : ZMod 132120577)) i
                + (((re1 j).getD i 0 : ℕ) : ZMod 132120577)
                + convC (2 ^ 10)
                    (fun jj => (((re2 j).getD jj 0 : ℕ) : ZMod 132120577))
                    (fun kk => ((sNew.getD kk 0 : ℕ) : ZMod 132120577)) i))
        = (∑ j ∈ Finset.range k,
            ((LAG.getD j 0 : ℕ) : ZMod 132120577)
              * ((encodeCoeff 132120577 61 ((SH.getD j []).getD i 0) : ℕ)
                : ZMod 132120577))
          + ∑ j ∈ Finset.range k,
              ((LAG.getD j 0 : ℕ) : ZMod 132120577)
                * (convC (2 ^ 10)
                    (fun jj => ((eNew.getD jj 0 : ℕ) : ZMod 132120577))
                    (fun kk => (((ru j).getD kk 0 : ℕ) : ZMod 132120577)) i
                  + (((re1 j).getD i 0 : ℕ) : ZMod 132120577)
                  + convC (2 ^ 10)
                      (fun jj => (((re2 j).getD jj 0 : ℕ) : ZMod 132120577))
                      (fun kk => ((sNew.getD kk 0 : ℕ) : ZMod 132120577)) i) := by
      rw [← Finset.sum_add_distrib]
      exact Finset.sum_congr rfl (fun j _ => by ring)
    rw [Int.cast_sub, Int.cast_sub, Int.cast_natCast, hYc, hsplit, hE, hN]
    ring
  obtain ⟨K, hK⟩ := (ZMod.intCast_zmod_eq_zero_iff_dvd _ _).mp hzero
  -- the encoding-error sum
  have hVcast : ((VN : ℕ) : ℤ)
      = ∑ j ∈ Finset.range k,
          ((LAG.getD j 0 : ℕ) : ℤ) * (((SH.getD j []).getD i 0 : ℕ) : ℤ) := by
    rw [hVNdef, Nat.cast_sum]
    exact Finset.sum_congr rfl (fun j _ => by rw [Nat.cast_mul])
  have hεb : |61 * EZ - 132120577 * ((VN : ℕ) : ℤ)| ≤ 36000 := by
    have hform : 61 * EZ - 132120577 * ((VN : ℕ) : ℤ)
        = ∑ j ∈ Finset.range k,
            ((LAG.getD j 0 : ℕ) : ℤ)
              * (61 * ((encodeCoeff 132120577 61 ((SH.getD j []).getD i 0) : ℕ)
                  : ℤ)
                - 132120577 * (((SH.getD j []).getD i 0 : ℕ) : ℤ)) := by
      rw [hEZdef, hVcast, Finset.mul_sum, Finset.mul_sum,
        ← Finset.sum_sub_distrib]
      exact Finset.sum_congr rfl (fun j _ => by ring)
    rw [hform]
    refine le_trans (Finset.abs_sum_le_sum_abs _ _) ?_
    have hterm : ∀ j ∈ Finset.range k,
        |((LAG.getD j 0 : ℕ) : ℤ)
          * (61 * ((encodeCoeff 132120577 61 ((SH.getD j []).getD i 0) : ℕ)
              : ℤ)
            - 132120577 * (((SH.getD j []).getD i 0 : ℕ) : ℤ))| ≤ 1800 := by
      intro j hj
      have hjk := Finset.mem_range.mp hj
      have hvj : (SH.getD j []).getD i 0 < 61 :=
        hsharecanon j hjk _ (getD_mem 0 _ i (by rw [hsharelen j hjk]; exact hi))
      obtain ⟨-, ε, hε1, hε2, hεeq⟩ := encodeCoeff_spec _ hvj
      have hd : 61 * ((encodeCoeff 132120577 61 ((SH.getD j []).getD i 0) : ℕ)
            : ℤ)
          - 132120577 * (((SH.getD j []).getD i 0 : ℕ) : ℤ) = ε := by
        omega
      rw [abs_mul, hd]
      have hlag : |((LAG.getD j 0 : ℕ) : ℤ)| ≤ 60 := by
        rw [abs_of_nonneg (Int.natCast_nonneg _)]
        have := hLAGcanon61 j hjk
        omega
      have hεabs : |ε| ≤ 30 := abs_le.mpr ⟨hε1, hε2⟩
      exact le_trans (mul_le_mul hlag hεabs (abs_nonneg _) (by norm_num))
        (by norm_num)
    refine le_trans (Finset.sum_le_sum hterm) ?_
    rw [Finset.sum_const, Finset.card_range, nsmul_eq_mul]
    have hkZ : (k : ℤ) ≤ 20 := by exact_mod_cast hk20
    exact le_trans (mul_le_mul_of_nonneg_right hkZ (by norm_num)) (by norm_num)
  rw [abs_le] at hεb hNZb
  have hYlt : Y.getD i 0 < 132120577 :=
    hYcanon _ (getD_mem 0 Y i (by rw [hYlen]; exact hi))
  have hdecode : decodeCoeff 132120577 61 (Y.getD i 0) = VN % 61 := by
    refine decodeCoeff_spec (Y.getD i 0) (VN % 61)
      ((61 * EZ - 132120577 * ((VN : ℕ) : ℤ)) + 61 * NZ)
      (K + ((VN / 61 : ℕ) : ℤ)) hYlt (Nat.mod_lt _ (by norm_num)) ?_
      (by omega) (by omega)
    omega
  -- Shamir reconstruction mod 61
  have hmi : m.getD i 0 < 61 := hcm _ (getD_mem 0 m i (by rw [hlm]; exact hi))
  have hVcast61 : ((VN : ℕ) : ZMod 61) = ((m.getD i 0 : ℕ) : ZMod 61) := by
    rw [hVNdef, Nat.cast_sum]
    have hterm : ∑ j ∈ Finset.range k,
          ((LAG.getD j 0 * ((SH.getD j []).getD i 0) : ℕ) : ZMod 61)
        = ∑ j ∈ Finset.range k,
            ((LAG.getD j 0 : ℕ) : ZMod 61)
              * ((evaluatePoly 16 (barrettModulus 16 61)
                  ((rnd i).set 0 (m.getD i 0)) (xs.getD j 0) : ℕ) : ZMod 61) :=
      Finset.sum_congr rfl (fun j hj => by
        rw [Nat.cast_mul, hsharegetD j (Finset.mem_range.mp hj) i hi])
    rw [hterm, hLAGdef, hkdef,
      shamir_reconstruct xs hnd hxs61 ((rnd i).set 0 (m.getD i 0))
        (by rw [List.length_set]; exact (hrnd i hi).1) (hcoef i hi),
      set_getD_zero 0 (rnd i) (m.getD i 0)
        (by rw [(hrnd i hi).1]; omega)]
  have hVm : VN % 61 = m.getD i 0 := by
    have hv := congrArg ZMod.val hVcast61
    rwa [ZMod.val_natCast, ZMod.val_cast_of_lt hmi] at hv
  rw [hdecode, hVm]

theorem C2_threshold_round_trip_witness :
    bfvDecrypt 32 132120577 10 131991553 (rootPowersList 132120577 73993 10)
      (invRootPowersList 132120577 73993 10) 61 (List.replicate 1024 0)
      (combine 32 132120577 (2 ^ 10) 16 61
        ((List.range ([1, 2] : List ℕ).length).map (fun j =>
          reEncrypt 32 132120577 10 131991553
            (rootPowersList 132120577 73993 10)
            (invRootPowersList 132120577 73993 10) 61
            ((thresholdEncrypt 32 132120577 10 131991553
                (rootPowersList 132120577 73993 10)
                (invRootPowersList 132120577 73993 10) 61
                (secretSharing 16 61 [1, 2] (List.replicate 1024 7)
                  (fun _ => [0, 3]))
                ((List.range ([1, 2] : List ℕ).length).map (fun _ =>
                  genPubkey 32 132120577 10 131991553
                    (rootPowersList 132120577 73993 10)
                    (invRootPowersList 132120577 73993 10)
                    (List.replicate 1024 0) (List.replicate 1024 0)
                    (List.replicate 1024 0)))
                ((List.range ([1, 2] : List ℕ).length).map (fun _ =>
                  (List.replicate 1024 0, List.replicate 1024 0,
                    List.replicate 1024 0)))).getD j ([], []))
            (List.replicate 1024 0)
            (genPubkey 32 132120577 10 131991553
              (rootPowersList 132120577 73993 10)
              (invRootPowersList 132120577 73993 10)
              (List.replicate 1024 0) (List.replicate 1024 0)
              (List.replicate 1024 0))
            (List.replicate 1024 0) (List.replicate 1024 0)
            (List.replicate 1024 0)))
        [1, 2])
      = List.replicate 1024 7 := by
  have hz : ∀ jj, intRep 132120577 ((List.replicate 1024 (0 : ℕ)).getD jj 0)
      = 0 := by
    intro jj
    rw [getD_replicate_zero, intRep, if_pos (Nat.zero_le _), Nat.cast_zero]
  have hcz : ∀ i : ℕ, convS (2 ^ 10)
      (fun jj => intRep 132120577 ((List.replicate 1024 (0 : ℕ)).getD jj 0))
      (fun kk => intRep 132120577 ((List.replicate 1024 (0 : ℕ)).getD kk 0)) i
      = 0 := by
    intro i
    rw [convS]
    refine Finset.sum_eq_zero (fun j _ => ?_)
    show intRep 132120577 ((List.replicate 1024 (0 : ℕ)).getD j 0) * _ = 0
    rw [hz, zero_mul]
  have hbud : ∀ i, i < 2 ^ 10 →
      |∑ j ∈ Finset.range ([1, 2] : List ℕ).length,
          (((genLagrangeCoeffs 16 61 [1, 2]).getD j 0 : ℕ) : ℤ)
            * (convS (2 ^ 10)
                (fun jj => intRep 132120577
                  ((List.replicate 1024 (0 : ℕ)).getD jj 0))
                (fun kk => intRep 132120577
                  ((List.replicate 1024 (0 : ℕ)).getD kk 0)) i
              + intRep 132120577 ((List.replicate 1024 (0 : ℕ)).getD i 0)
              + convS (2 ^ 10)
                (fun jj => intRep 132120577
                  ((List.replicate 1024 (0 : ℕ)).getD jj 0))
                (fun kk => intRep 132120577
                  ((List.replicate 1024 (0 : ℕ)).getD kk 0)) i)|
        ≤ 42439 := by
    intro i hi
    have hsum : ∑ j ∈ Finset.range ([1, 2] : List ℕ).length,
        (((genLagrangeCoeffs 16 61 [1, 2]).getD j 0 : ℕ) : ℤ)
          * (convS (2 ^ 10)
              (fun jj => intRep 132120577
                ((List.replicate 1024 (0 : ℕ)).getD jj 0))
              (fun kk => intRep 132120577
                ((List.replicate 1024 (0 : ℕ)).getD kk 0)) i
            + intRep 132120577 ((List.replicate 1024 (0 : ℕ)).getD i 0)
            + convS (2 ^ 10)
              (fun jj => intRep 132120577
                ((List.replicate 1024 (0 : ℕ)).getD jj 0))
              (fun kk => intRep 132120577
                ((List.replicate 1024 (0 : ℕ)).getD kk 0)) i)
        = 0 := by
      refine Finset.sum_eq_zero (fun j _ => ?_)
      show (((genLagrangeCoeffs 16 61 [1, 2]).getD j 0 : ℕ) : ℤ) * _ = 0
      rw [hcz i, hz i, add_zero, add_zero, mul_zero]
    rw [hsum, abs_zero]
    norm_num
  exact C2_threshold_round_trip 73993 131991553 (by norm_num) (by norm_num)
    (by norm_num) (by norm_num)
    [1, 2] (by decide) (by decide) (by decide) (by decide)
    (List.replicate 1024 7) (by norm_num [List.length_replicate])
    (fun x hx => by rw [List.eq_of_mem_replicate hx]; norm_num)
    (fun _ => [0, 3])
    (fun i _ => ⟨rfl, (by decide : ∀ c ∈ ([0, 3] : List ℕ), c < 61)⟩)
    (fun _ => List.replicate 1024 0) (fun _ => List.replicate 1024 0)
    (fun _ => List.replicate 1024 0) (fun _ => List.replicate 1024 0)
    (fun _ => List.replicate 1024 0) (fun _ => List.replicate 1024 0)
    (fun _ => List.replicate 1024 0) (fun _ => List.replicate 1024 0)
    (fun _ => List.replicate 1024 0)
    (fun _ _ => ⟨by norm_num [List.length_replicate],
      fun x hx => by rw [List.eq_of_mem_replicate hx]; exact Or.inl rfl⟩)
    (fun _ _ => ⟨by norm_num [List.length_replicate],
      fun x hx => by rw [List.eq_of_mem_replicate hx]; norm_num⟩)
    (fun _ _ => ⟨by norm_num [List.length_replicate],
      fun x hx => by rw [List.eq_of_mem_replicate hx]; exact Or.inl (by norm_num)⟩)
    (fun _ _ => ⟨by norm_num [List.length_replicate],
      fun x hx => by rw [List.eq_of_mem_replicate hx]; exact Or.inl rfl⟩)
    (fun _ _ => ⟨by norm_num [List.length_replicate],
      fun x hx => by rw [List.eq_of_mem_replicate hx]; exact Or.inl (by norm_num)⟩)
    (fun _ _ => ⟨by norm_num [List.length_replicate],
      fun x hx => by rw [List.eq_of_mem_replicate hx]; exact Or.inl (by norm_num)⟩)
    (fun _ _ => ⟨by norm_num [List.length_replicate],
      fun x hx => by rw [List.eq_of_mem_replicate hx]; exact Or.inl rfl⟩)
    (fun _ _ => ⟨by norm_num [List.length_replicate],
      fun x hx => by rw [List.eq_of_mem_replicate hx]; exact Or.inl (by norm_num)⟩)
    (fun _ _ => ⟨by norm_num [List.length_replicate],
      fun x hx => by rw [List.eq_of_mem_replicate hx]; exact Or.inl (by norm_num)⟩)
    (List.replicate 1024 0) (List.replicate 1024 0) (List.replicate 1024 0)
    (by norm_num [List.length_replicate])
    (fun x hx => by rw [List.eq_of_mem_replicate hx]; exact Or.inl rfl)
    (by norm_num [List.length_replicate])
    (fun x hx => by rw [List.eq_of_mem_replicate hx]; norm_num)
    (by norm_num [List.length_replicate])
    (fun x hx => by rw [List.eq_of_mem_replicate hx]; exact Or.inl (by norm_num))
    hbud

/-- The original C2 claim is false without a noise budget: a counterexample
with in-support randomness.  The policy is `(2, 2)` with indices `{1, 2}`
(Lagrange coefficients `2` and `60`), the plaintext is the zero polynomial,
all key/encryption randomness is zero except the second share's re-encryption
noise `e2 = 21·(1 + X + … + X^1023)` (each coefficient inside the
centered-binomial support) and the fresh ternary secret key
`s_new = 1 - (X + … + X^1023)`; the combination decrypts coefficient `0` to
`1 ≠ 0`. -/
theorem C2_counterexample :
    (∀ x ∈ (1 :: List.replicate (2 ^ 10 - 1) 132120576 : List ℕ),
      ternarySupport 132120577 x) ∧
    (∀ x ∈ (List.replicate (2 ^ 10) 21 : List ℕ), cbdSupport 132120577 x) ∧
    ¬ (bfvDecrypt 32 132120577 10 131991553 (rootPowersList 132120577 73993 10)
        (invRootPowersList 132120577 73993 10) 61
        (1 :: List.replicate (2 ^ 10 - 1) 132120576)
        (combine 32 132120577 (2 ^ 10) 16 61
          [reEncrypt 32 132120577 10 131991553
              (rootPowersList 132120577 73993 10)
              (invRootPowersList 132120577 73993 10) 61
              ((thresholdEncrypt 32 132120577 10 131991553
                  (rootPowersList 132120577 73993 10)
                  (invRootPowersList 132120577 73993 10) 61
                  (secretSharing 16 61 [1, 2] (List.replicate (2 ^ 10) 0)
                    (fun _ => [0, 0]))
                  [genPubkey 32 132120577 10 131991553
                      (rootPowersList 132120577 73993 10)
                      (invRootPowersList 132120577 73993 10)
                      (List.replicate (2 ^ 10) 0) (List.replicate (2 ^ 10) 0)
                      (List.replicate (2 ^ 10) 0),
                    genPubkey 32 132120577 10 131991553
                      (rootPowersList 132120577 73993 10)
                      (invRootPowersList 132120577 73993 10)
                      (List.replicate (2 ^ 10) 0) (List.replicate (2 ^ 10) 0)
                      (List.replicate (2 ^ 10) 0)]
                  [(List.replicate (2 ^ 10) 0, List.replicate (2 ^ 10) 0,
                      List.replicate (2 ^ 10) 0),
                    (List.replicate (2 ^ 10) 0, List.replicate (2 ^ 10) 0,
                      List.replicate (2 ^ 10) 0)]).getD 0 ([], []))
              (List.replicate (2 ^ 10) 0)
              (genPubkey 32 132120577 10 131991553
                (rootPowersList 132120577 73993 10)
                (invRootPowersList 132120577 73993 10)
                (1 :: List.replicate (2 ^ 10 - 1) 132120576)
                (List.replicate (2 ^ 10) 0) (List.replicate (2 ^ 10) 0))
              (List.replicate (2 ^ 10) 0) (List.replicate (2 ^ 10) 0)
              (List.replicate (2 ^ 10) 0),
            reEncrypt 32 132120577 10 131991553
              (rootPowersList 132120577 73993 10)
              (invRootPowersList 132120577 73993 10) 61
              ((thresholdEncrypt 32 132120577 10 131991553
                  (rootPowersList 132120577 73993 10)
                  (invRootPowersList 132120577 73993 10) 61
                  (secretSharing 16 61 [1, 2] (List.replicate (2 ^ 10) 0)
                    (fun _ => [0, 0]))
                  [genPubkey 32 132120577 10 131991553
                      (rootPowersList 132120577 73993 10)
                      (invRootPowersList 132120577 73993 10)
                      (List.replicate (2 ^ 10) 0) (List.replicate (2 ^ 10) 0)
                      (List.replicate (2 ^ 10) 0),
                    genPubkey 32 132120577 10 131991553
                      (rootPowersList 132120577 73993 10)
                      (invRootPowersList 132120577 73993 10)
                      (List.replicate (2 ^ 10) 0) (List.replicate (2 ^ 10) 0)
                      (List.replicate (2 ^ 10) 0)]
                  [(List.replicate (2 ^ 10) 0, List.replicate (2 ^ 10) 0,
                      List.replicate (2 ^ 10) 0),
                    (List.replicate (2 ^ 10) 0, List.replicate (2 ^ 10) 0,
                      List.replicate (2 ^ 10) 0)]).getD 1 ([], []))
              (List.replicate (2 ^ 10) 0)
              (genPubkey 32 132120577 10 131991553
                (rootPowersList 132120577 73993 10)
                (invRootPowersList 132120577 73993 10)
                (1 :: List.replicate (2 ^ 10 - 1) 132120576)
                (List.replicate (2 ^ 10) 0) (List.replicate (2 ^ 10) 0))
              (List.replicate (2 ^ 10) 0) (List.replicate (2 ^ 10) 0)
              (List.replicate (2 ^ 10) 21)]
          [1, 2])
        = List.replicate (2 ^ 10) 0) := by
  haveI : NeZero (132120577 : ℕ) := ⟨by norm_num⟩
  have hq2 : (2 : ℕ) ≤ 132120577 := by norm_num
  have h4q : 4 * 132120577 ≤ 2 ^ 32 := by norm_num
  have h1024 : (2 : ℕ) ^ 10 = 1024 := by norm_num
  refine ⟨?_, ?_, ?_⟩
  · intro x hx
    rcases List.mem_cons.mp hx with h | h
    · rw [h]
      exact Or.inr (Or.inl rfl)
    · rw [List.eq_of_mem_replicate h]
      exact Or.inr (Or.inr (by norm_num))
  · intro x hx
    rw [List.eq_of_mem_replicate hx]
    exact Or.inl (by norm_num)
  intro hEq
  -- canonical-coefficient facts for the lists in play
  have hrepc : ∀ x ∈ List.replicate (2 ^ 10) (0 : ℕ), x < 132120577 :=
    fun x hx => by rw [List.eq_of_mem_replicate hx]; norm_num
  have hrep21c : ∀ x ∈ List.replicate (2 ^ 10) (21 : ℕ), x < 132120577 :=
    fun x hx => by rw [List.eq_of_mem_replicate hx]; norm_num
  have hrep1260c : ∀ x ∈ List.replicate (2 ^ 10) (1260 : ℕ), x < 132120577 :=
    fun x hx => by rw [List.eq_of_mem_replicate hx]; norm_num
  have hsNlen : (1 :: List.replicate (2 ^ 10 - 1) 132120576 : List ℕ).length
      = 2 ^ 10 := by
    rw [List.length_cons, List.length_replicate]
    omega
  have hsNc : ∀ x ∈ (1 :: List.replicate (2 ^ 10 - 1) 132120576 : List ℕ),
      x < 132120577 := by
    intro x hx
    rcases List.mem_cons.mp hx with h | h
    · rw [h]; norm_num
    · rw [List.eq_of_mem_replicate h]; norm_num
  -- zero-propagation building blocks
  have hPMzl : ∀ b : List ℕ, b.length = 2 ^ 10 → (∀ x ∈ b, x < 132120577) →
      polyMul 32 132120577 10 131991553 (rootPowersList 132120577 73993 10)
        (invRootPowersList 132120577 73993 10) (List.replicate (2 ^ 10) 0) b
      = List.replicate (2 ^ 10) 0 :=
    fun b hb hbc => polyMul_zero_left 32 132120577 10 73993 131991553
      (by norm_num) (by norm_num) (by norm_num) (by norm_num) (by norm_num)
      (by norm_num) (by norm_num) b hb hbc
  have hPAz : ∀ x : List ℕ, x.length = 2 ^ 10 → (∀ v ∈ x, v < 132120577) →
      polyAdd 132120577 (List.replicate (2 ^ 10) 0) x = x := by
    intro x hlen hc
    have h := polyAdd_zero_left 132120577 x hc
    rwa [hlen] at h
  have hPNz : polyNeg 132120577 (List.replicate (2 ^ 10) 0)
      = List.replicate (2 ^ 10) 0 := by
    rw [polyNeg, List.map_replicate,
      show negReduce 132120577 0 = 0 from by decide]
  have hENCz : (List.replicate (2 ^ 10) (0 : ℕ)).map (encodeCoeff 132120577 61)
      = List.replicate (2 ^ 10) 0 := by
    rw [List.map_replicate, show encodeCoeff 132120577 61 0 = 0 from by decide]
  have hDECz : (List.replicate (2 ^ 10) (0 : ℕ)).map (decodeCoeff 132120577 61)
      = List.replicate (2 ^ 10) 0 := by
    rw [List.map_replicate, show decodeCoeff 132120577 61 0 = 0 from by decide]
  have hPK0 : genPubkey 32 132120577 10 131991553
      (rootPowersList 132120577 73993 10) (invRootPowersList 132120577 73993 10)
      (List.replicate (2 ^ 10) 0) (List.replicate (2 ^ 10) 0)
      (List.replicate (2 ^ 10) 0)
      = (List.replicate (2 ^ 10) 0, List.replicate (2 ^ 10) 0) := by
    rw [genPubkey, hPMzl _ (List.length_replicate _ _) hrepc,
      hPAz _ (List.length_replicate _ _) hrepc, hPNz]
  have hPKN : genPubkey 32 132120577 10 131991553
      (rootPowersList 132120577 73993 10) (invRootPowersList 132120577 73993 10)
      (1 :: List.replicate (2 ^ 10 - 1) 132120576)
      (List.replicate (2 ^ 10) 0) (List.replicate (2 ^ 10) 0)
      = (List.replicate (2 ^ 10) 0, List.replicate (2 ^ 10) 0) := by
    rw [genPubkey, hPMzl _ hsNlen hsNc,
      hPAz _ (List.length_replicate _ _) hrepc, hPNz]
  have hENCzero : bfvEncrypt 32 132120577 10 131991553
      (rootPowersList 132120577 73993 10) (invRootPowersList 132120577 73993 10)
      61 (List.replicate (2 ^ 10) 0, List.replicate (2 ^ 10) 0)
      (List.replicate (2 ^ 10) 0) (List.replicate (2 ^ 10) 0)
      (List.replicate (2 ^ 10) 0) (List.replicate (2 ^ 10) 0)
      = (List.replicate (2 ^ 10) 0, List.replicate (2 ^ 10) 0) := by
    show (polyAdd 132120577
        (polyAdd 132120577
          (polyMul 32 132120577 10 131991553 (rootPowersList 132120577 73993 10)
            (invRootPowersList 132120577 73993 10) (List.replicate (2 ^ 10) 0)
            (List.replicate (2 ^ 10) 0))
          (List.replicate (2 ^ 10) 0))
        ((List.replicate (2 ^ 10) 0).map (encodeCoeff 132120577 61)),
      polyAdd 132120577
        (polyMul 32 132120577 10 131991553 (rootPowersList 132120577 73993 10)
          (invRootPowersList 132120577 73993 10) (List.replicate (2 ^ 10) 0)
          (List.replicate (2 ^ 10) 0))
        (List.replicate (2 ^ 10) 0))
      = (List.replicate (2 ^ 10) 0, List.replicate (2 ^ 10) 0)
    rw [hPMzl _ (List.length_replicate _ _) hrepc,
      hPAz _ (List.length_replicate _ _) hrepc, hENCz,
      hPAz _ (List.length_replicate _ _) hrepc]
  have hENC21 : bfvEncrypt 32 132120577 10 131991553
      (rootPowersList 132120577 73993 10) (invRootPowersList 132120577 73993 10)
      61 (List.replicate (2 ^ 10) 0, List.replicate (2 ^ 10) 0)
      (List.replicate (2 ^ 10) 0) (List.replicate (2 ^ 10) 0)
      (List.replicate (2 ^ 10) 0) (List.replicate (2 ^ 10) 21)
      = (List.replicate (2 ^ 10) 0, List.replicate (2 ^ 10) 21) := by
    show (polyAdd 132120577
        (polyAdd 132120577
          (polyMul 32 132120577 10 131991553 (rootPowersList 132120577 73993 10)
            (invRootPowersList 132120577 73993 10) (List.replicate (2 ^ 10) 0)
            (List.replicate (2 ^ 10) 0))
          (List.replicate (2 ^ 10) 0))
        ((List.replicate (2 ^ 10) 0).map (encodeCoeff 132120577 61)),
      polyAdd 132120577
        (polyMul 32 132120577 10 131991553 (rootPowersList 132120577 73993 10)
          (invRootPowersList 132120577 73993 10) (List.replicate (2 ^ 10) 0)
          (List.replicate (2 ^ 10) 0))
        (List.replicate (2 ^ 10) 21))
      = (List.replicate (2 ^ 10) 0, List.replicate (2 ^ 10) 21)
    rw [hPMzl _ (List.length_replicate _ _) hrepc,
      hPAz _ (List.length_replicate _ _) hrepc, hENCz,
      hPAz _ (List.length_replicate _ _) hrepc,
      hPAz _ (List.length_replicate _ _) hrep21c]
  have hDECzero : bfvDecrypt 32 132120577 10 131991553
      (rootPowersList 132120577 73993 10) (invRootPowersList 132120577 73993 10)
      61 (List.replicate (2 ^ 10) 0)
      (List.replicate (2 ^ 10) 0, List.replicate (2 ^ 10) 0)
      = List.replicate (2 ^ 10) 0 := by
    show (polyAdd 132120577 (List.replicate (2 ^ 10) 0)
        (polyMul 32 132120577 10 131991553 (rootPowersList 132120577 73993 10)
          (invRootPowersList 132120577 73993 10) (List.replicate (2 ^ 10) 0)
          (List.replicate (2 ^ 10) 0))).map (decodeCoeff 132120577 61)
      = List.replicate (2 ^ 10) 0
    rw [hPMzl _ (List.length_replicate _ _) hrepc,
      hPAz _ (List.length_replicate _ _) hrepc, hDECz]
  -- the shares of the zero plaintext are zero
  have hinner : ∀ x : ℕ,
      evaluatePoly 16 (barrettModulus 16 61) ([0, 0] : List ℕ) x = 0 →
      (List.range (List.replicate (2 ^ 10) (0 : ℕ)).length).map (fun i =>
        evaluatePoly 16 (barrettModulus 16 61)
          (([0, 0] : List ℕ).set 0 ((List.replicate (2 ^ 10) (0 : ℕ)).getD i 0))
          x)
      = List.replicate (2 ^ 10) 0 := by
    intro x hx0
    refine list_eq_of_getD 0 _ _
      (by rw [List.length_map, List.length_range, List.length_replicate]) ?_
    intro ii hii
    rw [List.length_map, List.length_range, List.length_replicate] at hii
    rw [getD_map_lt _ 0 0 _ ii
        (by rw [List.length_range, List.length_replicate]; exact hii),
      range_getD _ ii (by rw [List.length_replicate]; exact hii),
      getD_replicate_zero]
    show evaluatePoly 16 (barrettModulus 16 61) (([0, 0] : List ℕ).set 0 0) x
      = 0
    exact hx0
  have hshares : secretSharing 16 61 [1, 2] (List.replicate (2 ^ 10) 0)
      (fun _ => [0, 0])
      = [List.replicate (2 ^ 10) 0, List.replicate (2 ^ 10) 0] := by
    rw [secretSharing]
    simp only [List.map_cons, List.map_nil]
    rw [hinner 1 (by decide), hinner 2 (by decide)]
  -- the Lagrange coefficients of `{1, 2}` in `F_61`
  have hmul_eq : ∀ a b : ℕ, a < 61 → b < 61 →
      mulReduce 16 (barrettModulus 16 61) a b = a * b % 61 :=
    fun a b ha hb => mulReduce_eq 16 61 a b (by norm_num) (by norm_num)
      (by omega) (by omega)
  have hinv60 : (invReduce 61 60 (61 + 60)).getD 0 = 60 := by
    obtain ⟨r, hrsome, hr0, hrlt, hrmul⟩ := invReduce_spec 61 60 (by norm_num)
      (by norm_num) (by norm_num) (by norm_num)
    rw [hrsome]
    show r = 60
    omega
  have hinv1 : (invReduce 61 1 (61 + 1)).getD 0 = 1 := by
    obtain ⟨r, hrsome, hr0, hrlt, hrmul⟩ := invReduce_spec 61 1 (by norm_num)
      (by norm_num) (by norm_num) (by norm_num)
    rw [hrsome]
    show r = 1
    omega
  have hLAG : genLagrangeCoeffs 16 61 [1, 2] = [2, 60] := by
    show [mulReduce 16 (barrettModulus 16 61)
        (mulReduce 16 (barrettModulus 16 61) 1 (negReduce 61 2))
        ((invReduce 61
            (mulReduce 16 (barrettModulus 16 61) 1 (subReduce 61 1 2))
            (61 + mulReduce 16 (barrettModulus 16 61) 1
              (subReduce 61 1 2))).getD 0),
      mulReduce 16 (barrettModulus 16 61)
        (mulReduce 16 (barrettModulus 16 61) 1 (negReduce 61 1))
        ((invReduce 61
            (mulReduce 16 (barrettModulus 16 61) 1 (subReduce 61 2 1))
            (61 + mulReduce 16 (barrettModulus 16 61) 1
              (subReduce 61 2 1))).getD 0)]
      = [2, 60]
    rw [show negReduce 61 2 = 59 from by decide,
      show negReduce 61 1 = 60 from by decide,
      show subReduce 61 1 2 = 60 from by decide,
      show subReduce 61 2 1 = 1 from by decide,
      hmul_eq 1 59 (by norm_num) (by norm_num),
      hmul_eq 1 60 (by norm_num) (by norm_num),
      hmul_eq 1 1 (by norm_num) (by norm_num),
      show (1 * 59 % 61 : ℕ) = 59 from by norm_num,
      show (1 * 60 % 61 : ℕ) = 60 from by norm_num,
      show (1 * 1 % 61 : ℕ) = 1 from by norm_num,
      hinv60, hinv1,
      hmul_eq 59 60 (by norm_num) (by norm_num),
      hmul_eq 60 1 (by norm_num) (by norm_num)]
  -- the homomorphic inner product of the two re-encrypted shares
  have hMS0 : evaluateMulScalar 32 132120577 2
      ((List.replicate (2 ^ 10) 0, List.replicate (2 ^ 10) 0)
        : List ℕ × List ℕ)
      = (List.replicate (2 ^ 10) 0, List.replicate (2 ^ 10) 0) := by
    show (mulScalar 32 132120577 (List.replicate (2 ^ 10) 0) 2,
        mulScalar 32 132120577 (List.replicate (2 ^ 10) 0) 2)
      = (List.replicate (2 ^ 10) 0, List.replicate (2 ^ 10) 0)
    rw [mulScalar, List.map_replicate,
      show mulReduce 32 (barrettModulus 32 132120577) 0 2 = 0 from by decide]
  have hMS1 : evaluateMulScalar 32 132120577 60
      ((List.replicate (2 ^ 10) 0, List.replicate (2 ^ 10) 21)
        : List ℕ × List ℕ)
      = (List.replicate (2 ^ 10) 0, List.replicate (2 ^ 10) 1260) := by
    show (mulScalar 32 132120577 (List.replicate (2 ^ 10) 0) 60,
        mulScalar 32 132120577 (List.replicate (2 ^ 10) 21) 60)
      = (List.replicate (2 ^ 10) 0, List.replicate (2 ^ 10) 1260)
    rw [mulScalar, mulScalar, List.map_replicate, List.map_replicate,
      show mulReduce 32 (barrettModulus 32 132120577) 0 60 = 0 from by decide,
      show mulReduce 32 (barrettModulus 32 132120577) 21 60 = 1260 from
        by decide]
  have hAD0 : evaluateAdd 132120577
      (List.replicate (2 ^ 10) 0, List.replicate (2 ^ 10) 0)
      (List.replicate (2 ^ 10) 0, List.replicate (2 ^ 10) 0)
      = (List.replicate (2 ^ 10) 0, List.replicate (2 ^ 10) 0) := by
    show (polyAdd 132120577 (List.replicate (2 ^ 10) 0)
        (List.replicate (2 ^ 10) 0),
      polyAdd 132120577 (List.replicate (2 ^ 10) 0) (List.replicate (2 ^ 10) 0))
      = (List.replicate (2 ^ 10) 0, List.replicate (2 ^ 10) 0)
    rw [hPAz _ (List.length_replicate _ _) hrepc]
  have hAD1 : evaluateAdd 132120577
      (List.replicate (2 ^ 10) 0, List.replicate (2 ^ 10) 0)
      (List.replicate (2 ^ 10) 0, List.replicate (2 ^ 10) 1260)
      = (List.replicate (2 ^ 10) 0, List.replicate (2 ^ 10) 1260) := by
    show (polyAdd 132120577 (List.replicate (2 ^ 10) 0)
        (List.replicate (2 ^ 10) 0),
      polyAdd 132120577 (List.replicate (2 ^ 10) 0)
        (List.replicate (2 ^ 10) 1260))
      = (List.replicate (2 ^ 10) 0, List.replicate (2 ^ 10) 1260)
    rw [hPAz _ (List.length_replicate _ _) hrepc,
      hPAz _ (List.length_replicate _ _) hrep1260c]
  have hIP : evaluateInnerProduct 32 132120577 (2 ^ 10)
      [(List.replicate (2 ^ 10) 0, List.replicate (2 ^ 10) 0),
       (List.replicate (2 ^ 10) 0, List.replicate (2 ^ 10) 21)] [2, 60]
      = (List.replicate (2 ^ 10) 0, List.replicate (2 ^ 10) 1260) := by
    show evaluateAdd 132120577
        (evaluateAdd 132120577
          (List.replicate (2 ^ 10) 0, List.replicate (2 ^ 10) 0)
          (evaluateMulScalar 32 132120577 2
            (List.replicate (2 ^ 10) 0, List.replicate (2 ^ 10) 0)))
        (evaluateMulScalar 32 132120577 60
          (List.replicate (2 ^ 10) 0, List.replicate (2 ^ 10) 21))
      = (List.replicate (2 ^ 10) 0, List.replicate (2 ^ 10) 1260)
    rw [hMS0, hAD0, hMS1, hAD1]
  -- rewrite the assumed equality down to the final product
  rw [hshares, hPK0, hPKN] at hEq
  have hTE : thresholdEncrypt 32 132120577 10 131991553
      (rootPowersList 132120577 73993 10) (invRootPowersList 132120577 73993 10)
      61 [List.replicate (2 ^ 10) 0, List.replicate (2 ^ 10) 0]
      [(List.replicate (2 ^ 10) 0, List.replicate (2 ^ 10) 0),
       (List.replicate (2 ^ 10) 0, List.replicate (2 ^ 10) 0)]
      [(List.replicate (2 ^ 10) 0, List.replicate (2 ^ 10) 0,
          List.replicate (2 ^ 10) 0),
       (List.replicate (2 ^ 10) 0, List.replicate (2 ^ 10) 0,
          List.replicate (2 ^ 10) 0)]
      = [(List.replicate (2 ^ 10) 0, List.replicate (2 ^ 10) 0),
         (List.replicate (2 ^ 10) 0, List.replicate (2 ^ 10) 0)] := by
    show [bfvEncrypt 32 132120577 10 131991553
        (rootPowersList 132120577 73993 10)
        (invRootPowersList 132120577 73993 10) 61
        (List.replicate (2 ^ 10) 0, List.replicate (2 ^ 10) 0)
        (List.replicate (2 ^ 10) 0) (List.replicate (2 ^ 10) 0)
        (List.replicate (2 ^ 10) 0) (List.replicate (2 ^ 10) 0),
      bfvEncrypt 32 132120577 10 131991553 (rootPowersList 132120577 73993 10)
        (invRootPowersList 132120577 73993 10) 61
        (List.replicate (2 ^ 10) 0, List.replicate (2 ^ 10) 0)
        (List.replicate (2 ^ 10) 0) (List.replicate (2 ^ 10) 0)
        (List.replicate (2 ^ 10) 0) (List.replicate (2 ^ 10) 0)]
      = [(List.replicate (2 ^ 10) 0, List.replicate (2 ^ 10) 0),
         (List.replicate (2 ^ 10) 0, List.replicate (2 ^ 10) 0)]
    rw [hENCzero]
  rw [hTE,
    show ([(List.replicate (2 ^ 10) 0, List.replicate (2 ^ 10) 0),
        (List.replicate (2 ^ 10) 0, List.replicate (2 ^ 10) 0)]
          : List (List ℕ × List ℕ)).getD 0 ([], [])
      = (List.replicate (2 ^ 10) 0, List.replicate (2 ^ 10) 0) from rfl,
    show ([(List.replicate (2 ^ 10) 0, List.replicate (2 ^ 10) 0),
        (List.replicate (2 ^ 10) 0, List.replicate (2 ^ 10) 0)]
          : List (List ℕ × List ℕ)).getD 1 ([], [])
      = (List.replicate (2 ^ 10) 0, List.replicate (2 ^ 10) 0) from rfl] at hEq
  rw [reEncrypt] at hEq
  rw [reEncrypt] at hEq
  rw [hDECzero, hENCzero, hENC21] at hEq
  rw [combine, hLAG, hIP] at hEq
  -- the final decryption
  obtain ⟨hPMlen, hPMcanon, hPMcast⟩ := polyMul_spec 32 132120577 10 73993
    131991553 hq2 h4q (by norm_num) (by norm_num) (by norm_num) (by norm_num)
    (by norm_num) (List.replicate (2 ^ 10) 1260)
    (1 :: List.replicate (2 ^ 10 - 1) 132120576)
    (List.length_replicate _ _) hsNlen hrep1260c hsNc
  rw [show bfvDecrypt 32 132120577 10 131991553
      (rootPowersList 132120577 73993 10) (invRootPowersList 132120577 73993 10)
      61 (1 :: List.replicate (2 ^ 10 - 1) 132120576)
      (List.replicate (2 ^ 10) 0, List.replicate (2 ^ 10) 1260)
      = (polyAdd 132120577 (List.replicate (2 ^ 10) 0)
          (polyMul 32 132120577 10 131991553
            (rootPowersList 132120577 73993 10)
            (invRootPowersList 132120577 73993 10)
            (List.replicate (2 ^ 10) 1260)
            (1 :: List.replicate (2 ^ 10 - 1) 132120576))).map
          (decodeCoeff 132120577 61) from rfl,
    hPAz _ hPMlen hPMcanon] at hEq
  -- coefficient 0 of the product is 1260 * 1024 = 1290240
  have hm1 : ((132120576 : ℕ) : ZMod 132120577) = -1 := by
    rw [show (132120576 : ℕ) = 132120577 - 1 from by norm_num,
      Nat.cast_sub (by norm_num), ZMod.natCast_self, Nat.cast_one, zero_sub]
  have hsNgetD : ∀ kk, 1 ≤ kk → kk < 2 ^ 10 →
      ((1 :: List.replicate (2 ^ 10 - 1) 132120576 : List ℕ).getD kk 0)
        = 132120576 := by
    intro kk h1 h2
    obtain ⟨kk', rfl⟩ : ∃ kk', kk = kk' + 1 := ⟨kk - 1, by omega⟩
    rw [List.getD_cons_succ]
    exact replicate_getD _ _ _ _ (by omega)
  have hconv : convC (2 ^ 10)
      (fun j => (((List.replicate (2 ^ 10) 1260).getD j 0 : ℕ)
        : ZMod 132120577))
      (fun kk => (((1 :: List.replicate (2 ^ 10 - 1) 132120576
        : List ℕ).getD kk 0 : ℕ) : ZMod 132120577)) 0
      = ((1290240 : ℕ) : ZMod 132120577) := by
    rw [convC_eq_convS _ _ _ 0 (by positivity), convS]
    have hterm : ∀ j ∈ Finset.range (2 ^ 10),
        (((List.replicate (2 ^ 10) 1260).getD j 0 : ℕ) : ZMod 132120577)
          * (if j ≤ 0 then
              (((1 :: List.replicate (2 ^ 10 - 1) 132120576
                : List ℕ).getD (0 - j) 0 : ℕ) : ZMod 132120577)
            else
              -(((1 :: List.replicate (2 ^ 10 - 1) 132120576
                : List ℕ).getD (2 ^ 10 + 0 - j) 0 : ℕ) : ZMod 132120577))
        = ((1260 : ℕ) : ZMod 132120577) := by
      intro j hj
      have hjlt : j < 2 ^ 10 := Finset.mem_range.mp hj
      rw [replicate_getD 1260 0 (2 ^ 10) j hjlt]
      by_cases hj0 : j = 0
      · subst hj0
        rw [if_pos (le_refl 0)]
        rw [show (0 - 0 : ℕ) = 0 from rfl, List.getD_cons_zero, Nat.cast_one,
          mul_one]
      · rw [if_neg (by omega)]
        rw [hsNgetD (2 ^ 10 + 0 - j) (by omega) (by omega), hm1, neg_neg,
          mul_one]
    rw [Finset.sum_congr rfl hterm, Finset.sum_const, Finset.card_range,
      nsmul_eq_mul, ← Nat.cast_mul]
    norm_num
  have hval : (polyMul 32 132120577 10 131991553
      (rootPowersList 132120577 73993 10) (invRootPowersList 132120577 73993 10)
      (List.replicate (2 ^ 10) 1260)
      (1 :: List.replicate (2 ^ 10 - 1) 132120576)).getD 0 0 = 1290240 := by
    have hlt := hPMcanon _ (getD_mem 0 _ 0 (by rw [hPMlen]; positivity))
    have hcast := (hPMcast 0 (by positivity)).trans hconv
    have hv := congrArg ZMod.val hcast
    rwa [ZMod.val_cast_of_lt hlt,
      ZMod.val_cast_of_lt (by norm_num : (1290240 : ℕ) < 132120577)] at hv
  have h0 := congrArg (fun l : List ℕ => l.getD 0 0) hEq
  simp only at h0
  rw [getD_map_lt _ 0 0 _ 0 (by rw [hPMlen]; positivity), hval,
    show decodeCoeff 132120577 61 1290240 = 1 from by decide,
    getD_replicate_zero] at h0
  exact one_ne_zero h0

/-! ## Gaussian sampler construction (`algebra/src/random.rs`)

The sampler's floating-point parameters are modelled as rationals: every
finite `f64` is a rational, and the constructors only compare them (`< 0`,
`<= std_dev`) and store them, so the branch structure is captured exactly
(the non-finite corner cases `NaN`/`∞` are outside the model). -/

/-- `AlgebraError` (`algebra/src/error/mod.rs`), restricted to the variants the
constructors below can produce. -/
inductive AlgebraError
  | distributionError
  deriving DecidableEq, Repr

/-- `FieldDiscreteGaussianSampler`: a configured discrete-Gaussian sampler. -/
structure FieldDiscreteGaussianSampler where
  mean : ℚ
  stdDev : ℚ
  maxStdDev : ℚ
  cbdEnable : Bool
  deriving DecidableEq, Repr

/-- `FieldDiscreteGaussianSampler::new`.  Mirrors the source: reject a negative
standard deviation (the inner `Normal::new` of `rand_distr` rejects exactly the
non-finite and negative deviations, so for finite inputs it adds no further
failure case), set the maximal deviation to `6 σ`, and enable the
centered-binomial fast path exactly on the bit pattern `mean == 0.0 ∧ σ == 3.2`. -/
def gaussianSamplerNew (mean stdDev : ℚ) :
    Except AlgebraError FieldDiscreteGaussianSampler :=
  let maxStdDev := stdDev * 6
  if stdDev < 0 then Except.error AlgebraError.distributionError
  else Except.ok
    { mean := mean
      stdDev := stdDev
      maxStdDev := maxStdDev
      cbdEnable := decide (mean = 0 ∧ stdDev = 16 / 5) }

/-- `FieldDiscreteGaussianSampler::new_with_max`. -/
def gaussianSamplerNewWithMax (mean stdDev maxStdDev : ℚ) :
    Except AlgebraError FieldDiscreteGaussianSampler :=
  if maxStdDev ≤ stdDev ∨ stdDev < 0 then Except.error AlgebraError.distributionError
  else Except.ok
    { mean := mean
      stdDev := stdDev
      maxStdDev := maxStdDev
      cbdEnable := decide (mean = 0 ∧ stdDev = 16 / 5) }

/-! ## Threshold policy construction (`bfv/src/tpke.rs`, `bfv/src/lib.rs`)

`PlainField` elements are canonical naturals below `t = 61`.  The `assert!`
failures of `ThresholdPolicy::new` are modelled by returning `none`. -/

/-- `MAX_NODES_NUMBER` (`bfv/src/lib.rs`). -/
def MAX_NODES_NUMBER : ℕ := 20

/-- `ThresholdPolicy`: a `(n, k)` threshold access structure with node indices. -/
structure ThresholdPolicy where
  totalNumber : ℕ
  thresholdNumber : ℕ
  indices : List ℕ
  deriving DecidableEq, Repr

/-- `ThresholdPolicy::new`.  Each `assert!` of the source becomes a guard:
the indices list must have length `total_number`, must not contain `0`, the
threshold must not exceed the total, and the total must not exceed
`MAX_NODES_NUMBER`.  (The source does not verify distinctness of the indices;
its doc comment merely asks the caller to ensure it.) -/
def thresholdPolicyNew (totalNumber thresholdNumber : ℕ) (indices : List ℕ) :
    Option ThresholdPolicy :=
  if indices.length ≠ totalNumber then none
  else if indices.contains 0 then none
  else if ¬ thresholdNumber ≤ totalNumber then none
  else if ¬ totalNumber ≤ MAX_NODES_NUMBER then none
  else some ⟨totalNumber, thresholdNumber, indices⟩

/-! ## Big-endian polynomial serialization
(`bfv/src/ciphertext.rs`, `bfv/src/publickey.rs`, `bfv/src/secretkey.rs`)

Bytes are naturals below `256`; polynomials are lists of canonical `u32`
coefficient values. -/

/-- `u32::to_be_bytes` (`CipherField::to_bytes`). -/
def u32ToBeBytes (v : ℕ) : List ℕ :=
  [v / 2 ^ 24 % 256, v / 2 ^ 16 % 256, v / 2 ^ 8 % 256, v % 256]

/-- `u32::from_be_bytes` (`CipherField::from_bytes`). -/
def u32FromBeBytes (b0 b1 b2 b3 : ℕ) : ℕ :=
  ((b0 * 256 + b1) * 256 + b2) * 256 + b3

/-- `bytes.chunks_exact(4).map(u32::from_be_bytes)`: cut a byte stream into
big-endian 32-bit words, dropping any remainder shorter than four bytes. -/
def bytesToWords : List ℕ → List ℕ
  | b0 :: b1 :: b2 :: b3 :: rest => u32FromBeBytes b0 b1 b2 b3 :: bytesToWords rest
  | _ => []

/-- A BFV ciphertext `[c0, c1]` (`bfv/src/ciphertext.rs`). -/
structure BFVCiphertext where
  c0 : List ℕ
  c1 : List ℕ
  deriving DecidableEq, Repr

/-- A BFV public key `[b, -a]` (`bfv/src/publickey.rs`). -/
structure BFVPublicKey where
  b : List ℕ
  negA : List ℕ
  deriving DecidableEq, Repr

/-- A BFV secret key (`bfv/src/secretkey.rs`). -/
structure BFVSecretKey where
  ternaryKey : List ℕ
  deriving DecidableEq, Repr

/-- `BFVCiphertext::to_vec`: the two lengths as big-endian `u32`, then every
coefficient of both polynomials as big-endian `u32`. -/
def ciphertextToVec (c : BFVCiphertext) : List ℕ :=
  u32ToBeBytes (wrap 32 c.c0.length) ++ u32ToBeBytes (wrap 32 c.c1.length) ++
    (c.c0.map u32ToBeBytes).flatten ++ (c.c1.map u32ToBeBytes).flatten

/-- Take the first `n` elements of a list, failing (like `iter.next().unwrap()`)
when the list is too short. -/
def takeExact : ℕ → List α → Option (List α × List α)
  | 0, l => some ([], l)
  | _ + 1, [] => none
  | n + 1, x :: l => do
    let (ys, rest) ← takeExact n l
    some (x :: ys, rest)

/-- `BFVCiphertext::from_vec`: read two lengths, then that many coefficients
for each component. -/
def ciphertextFromVec (bytes : List ℕ) : Option BFVCiphertext := do
  match bytesToWords bytes with
  | len0 :: len1 :: rest => do
    let (data0, rest') ← takeExact len0 rest
    let (data1, _) ← takeExact len1 rest'
    some ⟨data0, data1⟩
  | _ => none

/-- `BFVPublicKey::to_vec` (same layout as the ciphertext). -/
def publicKeyToVec (pk : BFVPublicKey) : List ℕ :=
  u32ToBeBytes (wrap 32 pk.b.length) ++ u32ToBeBytes (wrap 32 pk.negA.length) ++
    (pk.b.map u32ToBeBytes).flatten ++ (pk.negA.map u32ToBeBytes).flatten

/-- `BFVPublicKey::from_vec`. -/
def publicKeyFromVec (bytes : List ℕ) : Option BFVPublicKey := do
  match bytesToWords bytes with
  | len0 :: len1 :: rest => do
    let (data0, rest') ← takeExact len0 rest
    let (data1, _) ← takeExact len1 rest'
    some ⟨data0, data1⟩
  | _ => none

/-- `BFVSecretKey::to_vec`: raw big-endian coefficient stream, no length prefix. -/
def secretKeyToVec (sk : BFVSecretKey) : List ℕ :=
  (sk.ternaryKey.map u32ToBeBytes).flatten

/-- `BFVSecretKey::from_vec`: read every complete 4-byte chunk as a coefficient. -/
def secretKeyFromVec (bytes : List ℕ) : BFVSecretKey :=
  ⟨bytesToWords bytes⟩

theorem bytesToWords_cons {v : ℕ} (hv : v < 2 ^ 32) (rest : List ℕ) :
    bytesToWords (u32ToBeBytes v ++ rest) = v :: bytesToWords rest := by
  simp only [u32ToBeBytes, List.cons_append, List.nil_append, bytesToWords, u32FromBeBytes]
  congr 1
  omega

theorem bytesToWords_flatten {l : List ℕ} (hl : ∀ x ∈ l, x < 2 ^ 32) (rest : List ℕ) :
    bytesToWords ((l.map u32ToBeBytes).flatten ++ rest) = l ++ bytesToWords rest := by
  induction l with
  | nil => simp
  | cons x xs ih =>
    have hx : x < 2 ^ 32 := hl x (by simp)
    simp only [List.map_cons, List.flatten_cons, List.append_assoc, List.cons_append]
    rw [bytesToWords_cons hx, ih (fun y hy => hl y (by simp [hy]))]

theorem takeExact_append (l rest : List α) :
    takeExact l.length (l ++ rest) = some (l, rest) := by
  induction l with
  | nil => rfl
  | cons x xs ih => simp [takeExact, ih]

theorem bytesToWords_flatten_pair {l1 l2 : List ℕ}
    (h1 : ∀ x ∈ l1, x < 2 ^ 32) (h2 : ∀ x ∈ l2, x < 2 ^ 32) :
    bytesToWords ((l1.map u32ToBeBytes).flatten ++ (l2.map u32ToBeBytes).flatten) =
      l1 ++ l2 := by
  rw [bytesToWords_flatten h1, ← List.append_nil (List.map u32ToBeBytes l2).flatten,
    bytesToWords_flatten h2]
  simp [bytesToWords]

theorem takeExact_self (l : List α) : takeExact l.length l = some (l, []) := by
  have := takeExact_append l []
  simpa using this

theorem ciphertext_round_trip (c : BFVCiphertext)
    (h0 : ∀ x ∈ c.c0, x < 2 ^ 32) (h1 : ∀ x ∈ c.c1, x < 2 ^ 32)
    (hl0 : c.c0.length < 2 ^ 32) (hl1 : c.c1.length < 2 ^ 32) :
    ciphertextFromVec (ciphertextToVec c) = some c := by
  unfold ciphertextToVec ciphertextFromVec
  rw [wrap_eq_of_lt hl0, wrap_eq_of_lt hl1, List.append_assoc, List.append_assoc,
    bytesToWords_cons hl0, bytesToWords_cons hl1, bytesToWords_flatten_pair h0 h1]
  simp [takeExact_append c.c0 c.c1, takeExact_self c.c1]

theorem publicKey_round_trip (pk : BFVPublicKey)
    (h0 : ∀ x ∈ pk.b, x < 2 ^ 32) (h1 : ∀ x ∈ pk.negA, x < 2 ^ 32)
    (hl0 : pk.b.length < 2 ^ 32) (hl1 : pk.negA.length < 2 ^ 32) :
    publicKeyFromVec (publicKeyToVec pk) = some pk := by
  unfold publicKeyToVec publicKeyFromVec
  rw [wrap_eq_of_lt hl0, wrap_eq_of_lt hl1, List.append_assoc, List.append_assoc,
    bytesToWords_cons hl0, bytesToWords_cons hl1, bytesToWords_flatten_pair h0 h1]
  simp [takeExact_append pk.b pk.negA, takeExact_self pk.negA]

theorem secretKey_round_trip (sk : BFVSecretKey)
    (h : ∀ x ∈ sk.ternaryKey, x < 2 ^ 32) :
    secretKeyFromVec (secretKeyToVec sk) = sk := by
  unfold secretKeyToVec secretKeyFromVec
  rw [← List.append_nil (List.map u32ToBeBytes sk.ternaryKey).flatten,
    bytesToWords_flatten h]
  simp only [bytesToWords, List.append_nil]

/-! ## Claim theorems: C8, C9, C10 -/

/-- C8 (amended): constructing a `ThresholdPolicy` succeeds exactly when the
index vector holds `n` non-zero elements of `F_t`, `k ≤ n`, and `n` does not
exceed the cap of 20 nodes.  (Distinctness of the indices is *not* checked by
the constructor; see the counterexample.) -/
theorem C8_threshold_policy_new (n k : ℕ) (indices : List ℕ) :
    (thresholdPolicyNew n k indices).isSome = true ↔
      (indices.length = n ∧ (0 : ℕ) ∉ indices ∧ k ≤ n ∧ n ≤ 20) := by
  unfold thresholdPolicyNew MAX_NODES_NUMBER
  split_ifs with h1 h2 h3 h4 <;>
    simp_all [List.contains, List.elem_eq_mem]

/-- C8 counterexample: with `n = 2`, `k = 1` and the repeated index vector
`[1, 1]`, construction succeeds although the indices are not distinct, so
"construction succeeds exactly when the vector holds `n` *distinct* non-zero
elements …" fails at this input. -/
theorem C8_counterexample :
    ¬ (((thresholdPolicyNew 2 1 [1, 1]).isSome = true) ↔
        (([1, 1] : List ℕ).Nodup ∧ ([1, 1] : List ℕ).length = 2 ∧
          (0 : ℕ) ∉ [1, 1] ∧ 1 ≤ 2 ∧ 2 ≤ 20)) := by
  decide

/-- C9: `FieldDiscreteGaussianSampler::new` fails with `DistributionError`
exactly when the standard deviation is negative, and
`FieldDiscreteGaussianSampler::new_with_max` fails with `DistributionError`
exactly when the standard deviation is negative or the maximal deviation does
not exceed it; in every other case a sampler is returned. -/
theorem C9_gaussian_sampler_errors (mean stdDev maxStdDev : ℚ) :
    (gaussianSamplerNew mean stdDev = Except.error AlgebraError.distributionError ↔
      stdDev < 0) ∧
    ((gaussianSamplerNew mean stdDev).isOk = true ↔ ¬ stdDev < 0) ∧
    (gaussianSamplerNewWithMax mean stdDev maxStdDev =
        Except.error AlgebraError.distributionError ↔
      (stdDev < 0 ∨ maxStdDev ≤ stdDev)) ∧
    ((gaussianSamplerNewWithMax mean stdDev maxStdDev).isOk = true ↔
      ¬ (stdDev < 0 ∨ maxStdDev ≤ stdDev)) := by
  unfold gaussianSamplerNew gaussianSamplerNewWithMax
  refine ⟨?_, ?_, ?_, ?_⟩ <;> split_ifs with h <;>
    simp_all [Except.isOk, Except.toBool, Or.comm]

/-- C10: serialization round-trips: `from_vec (to_vec x) = x` for
`BFVCiphertext`, `BFVPublicKey` and `BFVSecretKey` whose polynomials hold
canonical (`< q = 132120577`) coefficients (and whose lengths fit in `u32`). -/
theorem C10_serialization_round_trip
    (c : BFVCiphertext) (pk : BFVPublicKey) (sk : BFVSecretKey)
    (hc0 : ∀ x ∈ c.c0, x < 132120577) (hc1 : ∀ x ∈ c.c1, x < 132120577)
    (hcl0 : c.c0.length < 2 ^ 32) (hcl1 : c.c1.length < 2 ^ 32)
    (hp0 : ∀ x ∈ pk.b, x < 132120577) (hp1 : ∀ x ∈ pk.negA, x < 132120577)
    (hpl0 : pk.b.length < 2 ^ 32) (hpl1 : pk.negA.length < 2 ^ 32)
    (hs : ∀ x ∈ sk.ternaryKey, x < 132120577) :
    ciphertextFromVec (ciphertextToVec c) = some c ∧
    publicKeyFromVec (publicKeyToVec pk) = some pk ∧
    secretKeyFromVec (secretKeyToVec sk) = sk := by
  have big : (132120577 : ℕ) < 2 ^ 32 := by norm_num
  exact ⟨ciphertext_round_trip c (fun x hx => lt_trans (hc0 x hx) big)
      (fun x hx => lt_trans (hc1 x hx) big) hcl0 hcl1,
    publicKey_round_trip pk (fun x hx => lt_trans (hp0 x hx) big)
      (fun x hx => lt_trans (hp1 x hx) big) hpl0 hpl1,
    secretKey_round_trip sk (fun x hx => lt_trans (hs x hx) big)⟩

/-- Witness for C10 at a concrete ciphertext, public key and secret key. -/
theorem C10_serialization_round_trip_witness :
    ciphertextFromVec (ciphertextToVec ⟨[5, 7], [0]⟩) = some ⟨[5, 7], [0]⟩ ∧
    publicKeyFromVec (publicKeyToVec ⟨[1], [132120576]⟩) = some ⟨[1], [132120576]⟩ ∧
    secretKeyFromVec (secretKeyToVec ⟨[1, 0, 132120576]⟩) = ⟨[1, 0, 132120576]⟩ :=
  C10_serialization_round_trip ⟨[5, 7], [0]⟩ ⟨[1], [132120576]⟩ ⟨[1, 0, 132120576]⟩
    (by decide) (by decide) (by norm_num) (by norm_num)
    (by decide) (by decide) (by norm_num) (by norm_num) (by decide)

end TLHE
